import Mathlib

/-!
# socow_vector: small-object, copy-on-write vector

A shallow embedding of `src/socow-vector.h`.

* Raw storage is a list of slots; a slot is `some x` while an object lives in it
  and `none` while it is unconstructed or destroyed.
* The heap is a list of cells addressed by position; `new_buffer` appends a cell,
  `remove_buffer` empties it, addresses are never reused.
* An element copy-construction may throw.  `Mem.budget` says how many copy
  constructions still succeed (`none`: every one succeeds), `Mem.copies` counts
  the successful ones.
* Every operation returns `Res`: normal return, an exception that propagated to
  the caller (with the state the caller then observes), or undefined behaviour
  (a violated assertion, a dangling pointer, an access to a slot without an
  object).
* `size_t` values are unbounded naturals and `operator new` does not fail.  The one
  `std::size_t` computation whose operand the client chooses, the byte count of the
  buffer that `reserve(n)` allocates, is also embedded with its wrap-around
  (`new_buffer_bytes`, `new_buffer_sized`, `reserve_sized`); the two embeddings of
  `reserve` agree whenever that byte count does not wrap (`reserve_sized_eq`).
-/

namespace SocowVector

variable {T : Type}

/-- Raw element storage: `some x` is a constructed object, `none` is raw memory. -/
abbrev Slots (T : Type) := List (Option T)

/-- Outcome of a call: normal return, propagated exception, undefined behaviour. -/
inductive Res (ε α : Type) where
  | ok (a : α) : Res ε α
  | throw (e : ε) : Res ε α
  | ub : Res ε α
  deriving DecidableEq, Repr

/-- The heap record `struct buffer`: capacity, reference count, element slots.  Source
lines 265-271. -/
structure buffer (T : Type) where
  capacity : Nat
  ref_count : Nat
  data : Slots T
  deriving DecidableEq, Repr

/-- Memory: heap cells (`none` once released), the copy-constructor accounting, and a
ghost counter of objects that were still alive in a buffer when it was released. -/
structure Mem (T : Type) where
  heap : List (Option (buffer T))
  copies : Nat
  budget : Option Nat
  leaked : Nat
  deriving DecidableEq, Repr

/-- The object `socow_vector<T, SMALL_SIZE>` (source lines 273-279); the union of
`_buffer` and `_small` is kept as two fields, `_is_dynamic` says which one is in use. -/
structure socow_vector (T : Type) where
  _size : Nat
  _is_dynamic : Bool
  _buffer : Nat
  _small : Slots T
  deriving DecidableEq, Repr

/-- Pointer dereference `*p` for a `buffer*`; `none` when the cell is not a live buffer. -/
def Mem.deref (m : Mem T) (p : Nat) : Option (buffer T) :=
  (m.heap[p]?).join

/-- Write a buffer record back to its cell. -/
def Mem.store (m : Mem T) (p : Nat) (b : buffer T) : Mem T :=
  { m with heap := m.heap.set p (some b) }

/-- Allocate a cell at the next address, `m.heap.length`. -/
def Mem.push (m : Mem T) (b : buffer T) : Mem T :=
  { m with heap := m.heap ++ [some b] }

/-- Release cell `p` while `n` objects are still alive in it. -/
def Mem.free (m : Mem T) (p : Nat) (n : Nat) : Mem T :=
  { m with heap := m.heap.set p none, leaked := m.leaked + n }

/-- One call of `T`'s copy constructor: `none` when it throws. -/
def copy_construct (m : Mem T) : Option (Mem T) :=
  match m.budget with
  | none => some { m with copies := m.copies + 1 }
  | some 0 => none
  | some (k + 1) => some { m with copies := m.copies + 1, budget := some k }

/-- Slots `[a, a + k)` turned back into raw memory. -/
def clear_range (s : Slots T) (a k : Nat) : Slots T :=
  s.take a ++ List.replicate k none ++ s.drop (a + k)

/-- The loop of `std::uninitialized_copy`, with `k` elements already copied and `n`
still to copy: reads `src[first + k]`, copy-constructs it into `dst[d_first + k]`;
when the copy throws, the `k` objects built so far are destroyed. -/
def uninitialized_copy_from (src : Slots T) (first d_first : Nat) :
    Nat → Nat → Mem T → Slots T → Res (Mem T × Slots T) (Mem T × Slots T)
  | 0, _, m, dst => .ok (m, dst)
  | n + 1, k, m, dst =>
    match src[first + k]? with
    | some (some x) =>
      if d_first + k < dst.length then
        match copy_construct m with
        | some m' =>
          uninitialized_copy_from src first d_first n (k + 1) m' (dst.set (d_first + k) (some x))
        | none => .throw (m, clear_range dst d_first k)
      else .ub
    | _ => .ub

/-- `std::uninitialized_copy(src + first, src + last, dst + d_first)`. -/
def uninitialized_copy (m : Mem T) (src : Slots T) (first last : Nat) (dst : Slots T)
    (d_first : Nat) : Res (Mem T × Slots T) (Mem T × Slots T) :=
  if first ≤ last then uninitialized_copy_from src first d_first (last - first) 0 m dst
  else .ub

/-- `std::destroy(s + i, s + j)`: every object in the range must be alive. -/
def std_destroy (s : Slots T) (i j : Nat) : Option (Slots T) :=
  if i ≤ j ∧ j ≤ s.length ∧ ((s.drop i).take (j - i)).all Option.isSome then
    some (clear_range s i (j - i))
  else none

/-- `std::swap(s[i], s[j])` on two objects of one array. -/
def std_swap (s : Slots T) (i j : Nat) : Option (Slots T) :=
  match s[i]?, s[j]? with
  | some (some x), some (some y) => some ((s.set i (some y)).set j (some x))
  | _, _ => none

/-- The loop of `std::swap_ranges(a + i, a + i + n, b + k)`. -/
def swap_ranges_from : Nat → Slots T → Nat → Slots T → Nat → Option (Slots T × Slots T)
  | 0, a, _, b, _ => some (a, b)
  | n + 1, a, i, b, k =>
    match a[i]?, b[k]? with
    | some (some x), some (some y) =>
      swap_ranges_from n (a.set i (some y)) (i + 1) (b.set k (some x)) (k + 1)
    | _, _ => none

/-- `std::swap_ranges(a + first, a + last, b + d_first)`. -/
def swap_ranges (a : Slots T) (first last : Nat) (b : Slots T) (d_first : Nat) :
    Option (Slots T × Slots T) :=
  if first ≤ last then swap_ranges_from (last - first) a first b d_first else none

/-- Placement new `new (s + i) T(value)`. -/
def construct_at (m : Mem T) (s : Slots T) (i : Nat) (value : T) :
    Res (Mem T) (Mem T × Slots T) :=
  if i < s.length then
    match copy_construct m with
    | some m' => .ok (m', s.set i (some value))
    | none => .throw m
  else .ub

/-- Account for `n` successful copy constructions. -/
def Mem.spend (m : Mem T) (n : Nat) : Mem T :=
  { m with copies := m.copies + n, budget := m.budget.map (fun b => b - n) }

/-- The budget allows `n` more copy constructions. -/
def Mem.affords (m : Mem T) (n : Nat) : Prop :=
  ∀ b, m.budget = some b → n ≤ b


/-! ## Sequencing of outcomes -/

/-- Sequencing: an exception or undefined behaviour ends the computation. -/
def Res.bind {ε α β : Type} (r : Res ε α) (f : α → Res ε β) : Res ε β :=
  match r with
  | .ok a => f a
  | .throw e => .throw e
  | .ub => .ub

instance {ε : Type} : Monad (Res ε) where
  pure := Res.ok
  bind := Res.bind

/-- A step that cannot throw; `none` is undefined behaviour. -/
def Res.of {ε α : Type} (o : Option α) : Res ε α :=
  match o with
  | some a => .ok a
  | none => .ub

/-- The block `try { r } catch (...) { h; throw; }`: the handler runs on the state at the
throw and the exception propagates with the state the handler leaves. -/
def Res.rethrow {ε ε' α : Type} (r : Res ε α) (h : ε → Option ε') : Res ε' α :=
  match r with
  | .ok a => .ok a
  | .throw e =>
    match h e with
    | some e' => .throw e'
    | none => .ub
  | .ub => .ub

/-- The call ended with an exception: an element copy construction failed. -/
def Res.throws {ε α : Type} (r : Res ε α) : Bool :=
  match r with
  | .throw _ => true
  | _ => false

/-! ## Storage classification and observers -/

/-- `dynamic_storage()`.  Source lines 295-297. -/
def dynamic_storage (v : socow_vector T) : Bool := v._is_dynamic

/-- `static_storage()`.  Source lines 291-293. -/
def static_storage (v : socow_vector T) : Bool := !dynamic_storage v

/-- `unique_buffer()`: asserts dynamic storage and reads `_buffer->ref_count`.
Source lines 299-302. -/
def unique_buffer (m : Mem T) (v : socow_vector T) : Option Bool :=
  if dynamic_storage v then (m.deref v._buffer).map (fun b => b.ref_count == 1) else none

/-- `shared_buffer()`.  Source lines 304-306. -/
def shared_buffer (m : Mem T) (v : socow_vector T) : Option Bool :=
  (unique_buffer m v).map (fun u => !u)

/-- `dynamic_and_unique()`.  Source lines 308-310. -/
def dynamic_and_unique (m : Mem T) (v : socow_vector T) : Option Bool :=
  if dynamic_storage v then unique_buffer m v else some false

/-- `dynamic_and_shared()`.  Source lines 312-314. -/
def dynamic_and_shared (m : Mem T) (v : socow_vector T) : Option Bool :=
  if dynamic_storage v then shared_buffer m v else some false

/-- `size()`.  Source lines 79-81. -/
def size (v : socow_vector T) : Nat := v._size

/-- `empty()`.  Source lines 116-118. -/
def empty (v : socow_vector T) : Bool := size v == 0

/-- `capacity()`.  Source lines 120-122. -/
def capacity (S : Nat) (m : Mem T) (v : socow_vector T) : Option Nat :=
  if static_storage v then some S else (m.deref v._buffer).map (fun b => b.capacity)

/-- The array behind `raw_data()`.  Source lines 504-510. -/
def raw_data (m : Mem T) (v : socow_vector T) : Option (Slots T) :=
  if dynamic_storage v then (m.deref v._buffer).map (fun b => b.data) else some v._small

/-- The array behind `dynamic_begin()`, which asserts dynamic storage.  Source lines 529-532. -/
def dynamic_data (m : Mem T) (v : socow_vector T) : Option (Slots T) :=
  if dynamic_storage v then (m.deref v._buffer).map (fun b => b.data) else none

/-- Write the array behind `raw_data()` back. -/
def set_raw_data (m : Mem T) (v : socow_vector T) (s : Slots T) :
    Option (Mem T × socow_vector T) :=
  if dynamic_storage v then
    (m.deref v._buffer).map (fun b => (m.store v._buffer { b with data := s }, v))
  else some (m, { v with _small := s })

/-- The const `operator[]`: reads the object in slot `index`.  Source lines 66-68. -/
def const_index (m : Mem T) (v : socow_vector T) (index : Nat) : Option T :=
  (raw_data m v).bind (fun s => (s[index]?).join)

/-- The default constructor: empty, inline storage, no object constructed. -/
def socow_vector_new (S : Nat) : socow_vector T :=
  { _size := 0, _is_dynamic := false, _buffer := 0, _small := List.replicate S none }

/-! ## Buffer management -/

/-- `new_buffer(capacity)`: a fresh cell with `ref_count = 1` and no object.  The block
has room for `capacity` elements: the byte count `sizeof(buffer) + sizeof(T) * capacity`
is taken without wrap-around, as it is when the capacity is at most twice the capacity
of a buffer that exists; `new_buffer_sized` is the allocation for a capacity of the
client's choice.  Source lines 363-366. -/
def new_buffer (m : Mem T) (capacity : Nat) : Mem T × Nat :=
  (m.push ⟨capacity, 1, List.replicate capacity none⟩, m.heap.length)

/-- `remove_buffer(buf)`: release the memory; objects still alive in it are leaked.
Source lines 388-391. -/
def remove_buffer (m : Mem T) (buf : Nat) : Option (Mem T) :=
  (m.deref buf).map (fun b => m.free buf (b.data.filter Option.isSome).length)

/-- `delete_buffer(buf, size)`: destroy the first `size` objects, then release.
Source lines 383-386. -/
def delete_buffer (m : Mem T) (buf : Nat) (size : Nat) : Option (Mem T) :=
  (m.deref buf).bind (fun b =>
    (std_destroy b.data 0 size).bind (fun d =>
      remove_buffer (m.store buf { b with data := d }) buf))

/-- `add_ref()` on `v`.  Source lines 332-335. -/
def add_ref (m : Mem T) (v : socow_vector T) : Option (Mem T) :=
  if dynamic_storage v then
    (m.deref v._buffer).map (fun b =>
      m.store v._buffer { b with ref_count := b.ref_count + 1 })
  else none

/-- `remove_ref(buf)`: asserts `ref_count > 1`, then decrements.  Source lines 337-340. -/
def remove_ref (m : Mem T) (buf : Nat) : Option (Mem T) :=
  (m.deref buf).bind (fun b =>
    if 1 < b.ref_count then some (m.store buf { b with ref_count := b.ref_count - 1 })
    else none)

/-- `release_ref(buf)` called on `v`: decrements and, at zero, deletes the buffer with
`v.size()` objects.  A live buffer never has count 0; that case is undefined.
Source lines 346-350. -/
def release_ref (m : Mem T) (v : socow_vector T) (buf : Nat) : Option (Mem T) :=
  (m.deref buf).bind (fun b =>
    if b.ref_count = 0 then none
    else if b.ref_count - 1 = 0 then
      delete_buffer (m.store buf { b with ref_count := b.ref_count - 1 }) buf (size v)
    else some (m.store buf { b with ref_count := b.ref_count - 1 }))

/-- `release_ref()`: asserts dynamic storage.  Source lines 352-355. -/
def release_ref_this (m : Mem T) (v : socow_vector T) : Option (Mem T) :=
  if dynamic_storage v then release_ref m v v._buffer else none

/-- `release_ref_if_dynamic()`.  Source lines 357-361. -/
def release_ref_if_dynamic (m : Mem T) (v : socow_vector T) : Option (Mem T) :=
  if dynamic_storage v then release_ref_this m v else some m

/-- `destroy_small()`.  Source lines 393-395. -/
def destroy_small (v : socow_vector T) : Option (socow_vector T) :=
  (std_destroy v._small 0 (size v)).map (fun s => { v with _small := s })

/-- `destroy()`.  Source lines 397-403. -/
def destroy (m : Mem T) (v : socow_vector T) : Option (Mem T × socow_vector T) :=
  if dynamic_storage v then (release_ref_this m v).map (fun m' => (m', v))
  else (destroy_small v).map (fun v' => (m, v'))

/-- `copy_buffer(sz, capacity)`.  Source lines 372-381. -/
def copy_buffer (m : Mem T) (v : socow_vector T) (sz capacity : Nat) :
    Res (Mem T) (Mem T × Nat) := do
  let mn := new_buffer m capacity
  let src ← Res.of (raw_data mn.1 v)
  let b ← Res.of (mn.1.deref mn.2)
  let r ← (uninitialized_copy mn.1 src 0 sz b.data 0).rethrow
    (fun e => remove_buffer (e.1.store mn.2 { b with data := e.2 }) mn.2)
  pure (r.1.store mn.2 { b with data := r.2 }, mn.2)

/-- `copy_to_small(first, last)` with the source range `src[first, last)`.
Source lines 316-319. -/
def copy_to_small (m : Mem T) (v : socow_vector T) (src : Slots T) (first last : Nat) :
    Res (Mem T × socow_vector T) (Mem T × socow_vector T) := do
  let r ← (uninitialized_copy m src first last v._small 0).rethrow
    (fun e => some (e.1, { v with _small := e.2 }))
  pure (r.1, { v with _small := r.2, _is_dynamic := false })

/-- `become_static(first, last)`.  Source lines 321-330. -/
def become_static (m : Mem T) (v : socow_vector T) (src : Slots T) (first last : Nat) :
    Res (Mem T × socow_vector T) (Mem T × socow_vector T) := do
  let buf := v._buffer
  let r ← (copy_to_small m v src first last).rethrow
    (fun e => some (e.1, { e.2 with _buffer := buf }))
  let m' ← Res.of (release_ref r.1 r.2 buf)
  pure (m', r.2)

/-- `share_buffer_with(other)`.  Source lines 431-435. -/
def share_buffer_with (m : Mem T) (v other : socow_vector T) :
    Option (Mem T × socow_vector T) :=
  (add_ref m other).map (fun m' =>
    (m', { v with _buffer := other._buffer, _is_dynamic := true }))

/-- The private constructor `socow_vector(other, size)`.  Source lines 282-289. -/
def copy_ctor_sized (S : Nat) (m : Mem T) (other : socow_vector T) (sz : Nat) :
    Res (Mem T) (Mem T × socow_vector T) := do
  let this : socow_vector T :=
    { _size := sz, _is_dynamic := dynamic_storage other, _buffer := 0,
      _small := List.replicate S none }
  if static_storage other then
    let r ← (uninitialized_copy m other._small 0 sz this._small 0).rethrow
      (fun e => some e.1)
    pure (r.1, { this with _small := r.2 })
  else if sz = size other then Res.of (share_buffer_with m this other)
  else .ub

/-- The copy constructor `socow_vector(other)`.  Source line 25. -/
def copy_ctor (S : Nat) (m : Mem T) (other : socow_vector T) :
    Res (Mem T) (Mem T × socow_vector T) :=
  copy_ctor_sized S m other (size other)

/-- The destructor `~socow_vector()`.  Source lines 58-60. -/
def destructor (m : Mem T) (v : socow_vector T) : Option (Mem T) :=
  (destroy m v).map (fun r => r.1)

/-! ## Ownership -/

/-- `force_ensure_ownership(sz)`.  Source lines 419-429. -/
def force_ensure_ownership (S : Nat) (m : Mem T) (v : socow_vector T) (sz : Nat) :
    Res (Mem T × socow_vector T) (Mem T × socow_vector T) := do
  if sz ≤ S then
    let src ← Res.of (dynamic_data m v)
    let r ← become_static m v src 0 sz
    pure (r.1, { r.2 with _size := sz })
  else
    let r ← (copy_buffer m v sz sz).rethrow (fun e => some (e, v))
    let m' ← Res.of (release_ref_if_dynamic r.1 v)
    pure (m', { v with _buffer := r.2, _is_dynamic := true, _size := sz })

/-- `ensure_ownership(sz)`; the assertion `sz <= size()` is a precondition.
Source lines 409-417. -/
def ensure_ownership (S : Nat) (m : Mem T) (v : socow_vector T) (sz : Nat) :
    Res (Mem T × socow_vector T) (Mem T × socow_vector T) := do
  if size v < sz then .ub
  else
    let own ← if static_storage v then pure true else Res.of (unique_buffer m v)
    if own then
      let s ← Res.of (raw_data m v)
      let s' ← Res.of (std_destroy s sz (size v))
      let r ← Res.of (set_raw_data m v s')
      pure (r.1, { r.2 with _size := sz })
    else force_ensure_ownership S m v sz

/-- The non-const `data()`: `ensure_ownership()` with the current size.  Source lines 70-73. -/
def data (S : Nat) (m : Mem T) (v : socow_vector T) :
    Res (Mem T × socow_vector T) (Mem T × socow_vector T) :=
  ensure_ownership S m v (size v)

/-- Assignment `p[index] = x` through a pointer obtained from `data()`. -/
def assign_elem (m : Mem T) (v : socow_vector T) (index : Nat) (x : T) :
    Option (Mem T × socow_vector T) :=
  (raw_data m v).bind (fun s =>
    match s[index]? with
    | some (some _) => set_raw_data m v (s.set index (some x))
    | _ => none)

/-- The statement `v[index] = x` with the non-const `operator[]`.  Source lines 62-64. -/
def index_write (S : Nat) (m : Mem T) (v : socow_vector T) (index : Nat) (x : T) :
    Res (Mem T × socow_vector T) (Mem T × socow_vector T) := do
  let r ← data S m v
  Res.of (assign_elem r.1 r.2 index x)

/-- The statement `v.front() = x`.  Source lines 83-85. -/
def front_write (S : Nat) (m : Mem T) (v : socow_vector T) (x : T) :
    Res (Mem T × socow_vector T) (Mem T × socow_vector T) :=
  index_write S m v 0 x

/-- The statement `v.back() = x`; on an empty container the index wraps around.
Source lines 91-93. -/
def back_write (S : Nat) (m : Mem T) (v : socow_vector T) (x : T) :
    Res (Mem T × socow_vector T) (Mem T × socow_vector T) :=
  if size v = 0 then .ub else index_write S m v (size v - 1) x

/-- The statement `*(v.begin() + index) = x` with the non-const `begin()`.
Source lines 183-185. -/
def begin_write (S : Nat) (m : Mem T) (v : socow_vector T) (index : Nat) (x : T) :
    Res (Mem T × socow_vector T) (Mem T × socow_vector T) :=
  index_write S m v index x

/-- `pop_back()`; on an empty container `size() - 1` wraps and the assertion fails.
Source lines 112-114. -/
def pop_back (S : Nat) (m : Mem T) (v : socow_vector T) :
    Res (Mem T × socow_vector T) (Mem T × socow_vector T) :=
  if size v = 0 then .ub else ensure_ownership S m v (size v - 1)

/-- `clear()`.  Source lines 145-147. -/
def clear (S : Nat) (m : Mem T) (v : socow_vector T) :
    Res (Mem T × socow_vector T) (Mem T × socow_vector T) :=
  ensure_ownership S m v 0

/-- `reserve(new_capacity)`.  Source lines 124-136. -/
def reserve (S : Nat) (m : Mem T) (v : socow_vector T) (new_capacity : Nat) :
    Res (Mem T × socow_vector T) (Mem T × socow_vector T) := do
  if new_capacity < size v then pure (m, v)
  else
    let shared ← Res.of (dynamic_and_shared m v)
    if shared && decide (new_capacity ≤ S) then
      let src ← Res.of (dynamic_data m v)
      become_static m v src 0 (size v)
    else
      let grow ← if shared then pure true
        else (Res.of (capacity S m v)).bind (fun cap => pure (decide (cap < new_capacity)))
      if grow then
        let r ← (copy_buffer m v (size v) new_capacity).rethrow (fun e => some (e, v))
        let d ← Res.of (destroy r.1 v)
        pure (d.1, { d.2 with _buffer := r.2, _is_dynamic := true })
      else pure (m, v)

/-- `shrink_to_fit()`.  Source lines 138-143. -/
def shrink_to_fit (S : Nat) (m : Mem T) (v : socow_vector T) :
    Res (Mem T × socow_vector T) (Mem T × socow_vector T) := do
  if static_storage v then pure (m, v)
  else
    let cap ← Res.of (capacity S m v)
    if size v = cap then pure (m, v) else force_ensure_ownership S m v (size v)

/-! ## push_back -/

/-- `push_back_dynamic(value, capacity)`.  Source lines 465-475. -/
def push_back_dynamic (m : Mem T) (v : socow_vector T) (value : T) (capacity : Nat) :
    Res (Mem T × socow_vector T) (Mem T × socow_vector T) := do
  let r ← (copy_buffer m v (size v) capacity).rethrow (fun e => some (e, v))
  let b ← Res.of (r.1.deref r.2)
  let c ← (construct_at r.1 b.data (size v) value).rethrow
    (fun e => (delete_buffer e r.2 (size v)).map (fun m' => (m', v)))
  let d ← Res.of (destroy (c.1.store r.2 { b with data := c.2 }) v)
  pure (d.1, { d.2 with _buffer := r.2 })

/-- `push_back(value)`.  Source lines 99-110. -/
def push_back (S : Nat) (m : Mem T) (v : socow_vector T) (value : T) :
    Res (Mem T × socow_vector T) (Mem T × socow_vector T) := do
  let cap ← Res.of (capacity S m v)
  if cap = size v then
    let r ← push_back_dynamic m v value (if cap = 0 then 1 else cap * 2)
    pure (r.1, { r.2 with _is_dynamic := true, _size := r.2._size + 1 })
  else
    let shared ← Res.of (dynamic_and_shared m v)
    if shared then
      let r ← push_back_dynamic m v value cap
      pure (r.1, { r.2 with _size := r.2._size + 1 })
    else
      let s ← Res.of (raw_data m v)
      let c ← (construct_at m s (size v) value).rethrow (fun e => some (e, v))
      let r ← Res.of (set_raw_data c.1 v c.2)
      pure (r.1, { r.2 with _size := r.2._size + 1 })

/-! ## insert -/

/-- The loop of `in_place_insert`: `it` walks down from the old end to `begin + dist`,
swapping `*it` with `*(it - 1)`.  Source lines 441-443. -/
def in_place_insert_loop (dist : Nat) : Nat → Slots T → Option (Slots T)
  | 0, s => if dist = 0 then some s else none
  | it + 1, s =>
    if it + 1 = dist then some s
    else (std_swap s (it + 1) it).bind (in_place_insert_loop dist it)

/-- `in_place_insert(dist, value)`; returns the offset of the final `it`.
Source lines 437-445. -/
def in_place_insert (m : Mem T) (v : socow_vector T) (dist : Nat) (value : T) :
    Res (Mem T × socow_vector T) (Mem T × socow_vector T × Nat) := do
  let s ← Res.of (raw_data m v)
  let c ← (construct_at m s (size v) value).rethrow (fun e => some (e, v))
  let s' ← Res.of (in_place_insert_loop dist (size v) c.2)
  let r ← Res.of (set_raw_data c.1 v s')
  pure (r.1, { r.2 with _size := r.2._size + 1 }, dist)

/-- `insert_dynamic(dist, value, capacity)`.  Source lines 447-463. -/
def insert_dynamic (m : Mem T) (v : socow_vector T) (dist : Nat) (value : T)
    (capacity : Nat) : Res (Mem T × socow_vector T) (Mem T × socow_vector T) := do
  let mn := new_buffer m capacity
  let src ← Res.of (raw_data mn.1 v)
  let b ← Res.of (mn.1.deref mn.2)
  let r1 ← (uninitialized_copy mn.1 src 0 dist b.data 0).rethrow
    (fun e => (delete_buffer (e.1.store mn.2 { b with data := e.2 }) mn.2 0).map
      (fun m' => (m', v)))
  let r2 ← (construct_at r1.1 r1.2 dist value).rethrow
    (fun e => (delete_buffer (e.store mn.2 { b with data := r1.2 }) mn.2 dist).map
      (fun m' => (m', v)))
  let r3 ← (uninitialized_copy r2.1 src dist (size v) r2.2 (dist + 1)).rethrow
    (fun e => (delete_buffer (e.1.store mn.2 { b with data := e.2 }) mn.2 (dist + 1)).map
      (fun m' => (m', v)))
  let d ← Res.of (destroy (r3.1.store mn.2 { b with data := r3.2 }) v)
  pure (d.1, { d.2 with _buffer := mn.2 })

/-- `insert(pos, value)` with `pos = begin + dist`; returns the offset of the result.
Source lines 199-212. -/
def insert (S : Nat) (m : Mem T) (v : socow_vector T) (dist : Nat) (value : T) :
    Res (Mem T × socow_vector T) (Mem T × socow_vector T × Nat) := do
  let cap ← Res.of (capacity S m v)
  if cap = size v then
    let r ← insert_dynamic m v dist value (if cap = 0 then 1 else cap * 2)
    pure (r.1, { r.2 with _is_dynamic := true, _size := r.2._size + 1 }, dist)
  else
    let shared ← Res.of (dynamic_and_shared m v)
    if shared then
      let r ← insert_dynamic m v dist value cap
      pure (r.1, { r.2 with _size := r.2._size + 1 }, dist)
    else in_place_insert m v dist value

/-! ## erase -/

/-- The loop of `in_place_erase`: `n` iterations from `it`, swapping `*it` with
`*(it + length)`.  Source lines 481-483. -/
def in_place_erase_loop (length : Nat) : Nat → Nat → Slots T → Option (Slots T)
  | 0, _, s => some s
  | n + 1, it, s =>
    (std_swap s it (it + length)).bind (in_place_erase_loop length n (it + 1))

/-- `in_place_erase(first, last)`.  Source lines 477-486. -/
def in_place_erase (m : Mem T) (v : socow_vector T) (first last : Nat) :
    Option (Mem T × socow_vector T) :=
  let length := last - first
  if size v < length then none
  else
    let e := size v - length
    if e < first then none
    else
      (raw_data m v).bind (fun s =>
        (in_place_erase_loop length (e - first) first s).bind (fun s1 =>
          (std_destroy s1 e (size v)).bind (fun s2 =>
            (set_raw_data m v s2).map (fun r =>
              (r.1, { r.2 with _size := r.2._size - length })))))

/-- `erase(first, last)` with both iterators as offsets from `begin`; returns the
offset of the result.  Source lines 218-262. -/
def erase (S : Nat) (m : Mem T) (v : socow_vector T) (first last : Nat) :
    Res (Mem T × socow_vector T) (Mem T × socow_vector T × Nat) := do
  if last < first then .ub
  else
    let count := last - first
    let new_size := size v - count
    if count = 0 then pure (m, v, last)
    else
      let shared ← Res.of (dynamic_and_shared m v)
      if shared then
        if new_size ≤ S then
          let b ← Res.of (m.deref v._buffer)
          let r1 ← (uninitialized_copy m b.data 0 first v._small 0).rethrow
            (fun e => (std_destroy e.2 0 0).map (fun s => (e.1, { v with _small := s })))
          let r2 ← (uninitialized_copy r1.1 b.data last (size v) r1.2 first).rethrow
            (fun e => (std_destroy e.2 0 first).map (fun s => (e.1, { v with _small := s })))
          let m' ← Res.of (remove_ref r2.1 v._buffer)
          pure (m', { v with _small := r2.2, _is_dynamic := false, _size := new_size }, first)
        else
          let mn := new_buffer m new_size
          let src ← Res.of (dynamic_data mn.1 v)
          let b ← Res.of (mn.1.deref mn.2)
          let r1 ← (uninitialized_copy mn.1 src 0 first b.data 0).rethrow
            (fun e => (delete_buffer (e.1.store mn.2 { b with data := e.2 }) mn.2 0).map
              (fun m' => (m', v)))
          let r2 ← (uninitialized_copy r1.1 src last (size v) r1.2 first).rethrow
            (fun e => (delete_buffer (e.1.store mn.2 { b with data := e.2 }) mn.2 first).map
              (fun m' => (m', v)))
          let m' ← Res.of (remove_ref (r2.1.store mn.2 { b with data := r2.2 }) v._buffer)
          pure (m', { v with _buffer := mn.2, _size := new_size }, first)
      else
        let r ← Res.of (in_place_erase m v first last)
        pure (r.1, r.2, first)

/-- `erase(pos)`.  Source lines 214-216. -/
def erase_one (S : Nat) (m : Mem T) (v : socow_vector T) (pos : Nat) :
    Res (Mem T × socow_vector T) (Mem T × socow_vector T × Nat) :=
  erase S m v pos (pos + 1)

/-! ## Copy assignment and swap

Both compare `this` with `&other`, so they act on a world of container objects that
are addressed by their position. -/

/-- The body of `operator=` for `this != &other`.  Source lines 27-56. -/
def assign_body (S : Nat) (m : Mem T) (v other : socow_vector T) :
    Res (Mem T × socow_vector T) (Mem T × socow_vector T) := do
  if static_storage other then
    if dynamic_storage v then
      let r ← become_static m v other._small 0 (size other)
      pure (r.1, { r.2 with _size := other._size })
    else if size v ≤ size other then
      let r1 ← (uninitialized_copy m other._small (size v) (size other) v._small (size v)).rethrow
        (fun e => some (e.1, { v with _small := e.2 }))
      let tmp ← (copy_ctor_sized S r1.1 other (size v)).rethrow
        (fun e => (std_destroy r1.2 (size v) (size other)).map
          (fun s => (e, { v with _small := s })))
      let sw ← Res.of (swap_ranges tmp.2._small 0 (size tmp.2) r1.2 0)
      let m' ← Res.of (destructor tmp.1 { tmp.2 with _small := sw.1 })
      pure (m', { v with _small := sw.2, _size := other._size })
    else
      let tmp ← (copy_ctor S m other).rethrow (fun e => some (e, v))
      let sw ← Res.of (swap_ranges tmp.2._small 0 (size tmp.2) v._small 0)
      let s ← Res.of (std_destroy sw.2 (size other) (size v))
      let m' ← Res.of (destructor tmp.1 { tmp.2 with _small := sw.1 })
      pure (m', { v with _small := s, _size := other._size })
  else
    let d ← Res.of (destroy m v)
    let r ← Res.of (share_buffer_with d.1 d.2 other)
    pure (r.1, { r.2 with _size := other._size })

/-- Memory together with the container objects that live in it. -/
structure World (T : Type) where
  mem : Mem T
  objs : List (socow_vector T)
  deriving DecidableEq, Repr

/-- Run a member function of the object at address `this`. -/
def World.call {ρ : Type} (w : World T) (this : Nat)
    (f : Mem T → socow_vector T → Res (Mem T × socow_vector T) (Mem T × socow_vector T × ρ)) :
    Res (World T) (World T × ρ) := do
  let v ← Res.of w.objs[this]?
  let r ← (f w.mem v).rethrow (fun e => some ⟨e.1, w.objs.set this e.2⟩)
  pure (⟨r.1, w.objs.set this r.2.1⟩, r.2.2)

/-- Run a member function without a result. -/
def World.run (w : World T) (this : Nat)
    (f : Mem T → socow_vector T → Res (Mem T × socow_vector T) (Mem T × socow_vector T)) :
    Res (World T) (World T) := do
  let v ← Res.of w.objs[this]?
  let r ← (f w.mem v).rethrow (fun e => some ⟨e.1, w.objs.set this e.2⟩)
  pure ⟨r.1, w.objs.set this r.2⟩

/-- `objs[this] = objs[other]`, the copy assignment `operator=`.  Source lines 27-56. -/
def assign (S : Nat) (w : World T) (this other : Nat) : Res (World T) (World T) :=
  if this = other then pure w
  else do
    let o ← Res.of w.objs[other]?
    w.run this (fun m v => assign_body S m v o)

/-- Both containers inline and `other` shorter: the branch of `swap` that does the work. -/
def swap_static_longer (m : Mem T) (v other : socow_vector T) :
    Res (Mem T × socow_vector T × socow_vector T) (Mem T × socow_vector T × socow_vector T) := do
  let r ← (uninitialized_copy m v._small (size other) (size v) other._small (size other)).rethrow
    (fun e => some (e.1, v, { other with _small := e.2 }))
  let s ← Res.of (std_destroy v._small (size other) (size v))
  let v1 : socow_vector T := { v with _small := s, _size := other._size }
  let o1 : socow_vector T := { other with _small := r.2, _size := v._size }
  let sw ← Res.of (swap_ranges o1._small 0 (size o1) v1._small 0)
  pure (r.1, { v1 with _small := sw.2 }, { o1 with _small := sw.1 })

/-- The branch of `swap` for `this` inline and `other` on the heap. -/
def swap_static_dynamic (m : Mem T) (v other : socow_vector T) :
    Res (Mem T × socow_vector T × socow_vector T) (Mem T × socow_vector T × socow_vector T) := do
  let other_buf := other._buffer
  let r ← (copy_to_small m other v._small 0 (size v)).rethrow
    (fun e => some (e.1, v, { e.2 with _buffer := other_buf }))
  let v1 ← Res.of (destroy_small v)
  pure (r.1, { v1 with _buffer := other_buf, _is_dynamic := true, _size := r.2._size },
    { r.2 with _size := v._size })

/-- Put the two objects back into the world. -/
def World.put2 (w : World T) (this other : Nat)
    (r : Mem T × socow_vector T × socow_vector T) : World T :=
  ⟨r.1, (w.objs.set this r.2.1).set other r.2.2⟩

/-- `objs[this].swap(objs[other])`.  The function calls itself with the roles exchanged;
`fuel` bounds the depth of these calls and `none` means the depth was exceeded.
Source lines 149-181. -/
def swap : Nat → World T → Nat → Nat → Option (Res (World T) (World T))
  | 0, _, _, _ => none
  | fuel + 1, w, this, other =>
    if this = other then some (.ok w)
    else
      match w.objs[this]?, w.objs[other]? with
      | some v, some o =>
        if dynamic_storage v && dynamic_storage o then
          some (.ok (w.put2 this other
            (w.mem, { v with _buffer := o._buffer, _size := o._size },
              { o with _buffer := v._buffer, _size := v._size })))
        else if static_storage v && static_storage o then
          if size o < size v then
            some (((swap_static_longer w.mem v o).rethrow
              (fun e => some (w.put2 this other e))).bind
                (fun r => .ok (w.put2 this other r)))
          else swap fuel w other this
        else if static_storage v && dynamic_storage o then
          some (((swap_static_dynamic w.mem v o).rethrow
            (fun e => some (w.put2 this other e))).bind
              (fun r => .ok (w.put2 this other r)))
        else swap fuel w other this
      | _, _ => some .ub

/-! ## The abstraction relation -/

/-- An array of `cap` slots whose first objects are `xs` and whose other slots are raw. -/
def live (xs : List T) (cap : Nat) : Slots T :=
  xs.map some ++ List.replicate (cap - xs.length) none

/-- Container `v` in memory `m` holds exactly the element sequence `xs`: its size is the
length of `xs`, its storage has room for them, the first `size` slots of the storage in
use are the objects `xs` and no other slot of the container holds an object. -/
def holds (S : Nat) (m : Mem T) (v : socow_vector T) (xs : List T) : Prop :=
  v._size = xs.length ∧
    if v._is_dynamic then
      v._small = List.replicate S none ∧
        ∃ b, m.deref v._buffer = some b ∧ 0 < b.ref_count ∧ xs.length ≤ b.capacity ∧
          b.data = live xs b.capacity
    else xs.length ≤ S ∧ v._small = live xs S

/-- Memory after one reference to the buffer at `p` is given up: the count drops, and
the cell is released when it was the last reference. -/
def Mem.release (m : Mem T) (p : Nat) : Mem T :=
  match m.deref p with
  | some b =>
    if b.ref_count ≤ 1 then m.free p 0
    else m.store p { b with ref_count := b.ref_count - 1 }
  | none => m

/-- Memory after container `v` gave up its storage. -/
def Mem.drop_ref (m : Mem T) (v : socow_vector T) : Mem T :=
  if v._is_dynamic then m.release v._buffer else m

/-- Memory `m'` still has the buffer that `m` has at `q`, with the same capacity and the
same slots, and still referenced if it was. -/
def Mem.keeps (m m' : Mem T) (q : Nat) : Prop :=
  ∀ b, m.deref q = some b →
    ∃ b', m'.deref q = some b' ∧ b'.capacity = b.capacity ∧ b'.data = b.data ∧
      (0 < b.ref_count → 0 < b'.ref_count)

/-- A call on container `v` took memory from `m` to `m'` and kept every buffer except,
possibly, one that `v` owned alone. -/
def frame (m m' : Mem T) (v : socow_vector T) : Prop :=
  ∀ q, (v._is_dynamic = true → q = v._buffer → ∀ b, m.deref q = some b → 2 ≤ b.ref_count) →
    m.keeps m' q

/-- Memory `m'` is memory `m` after a call was unwound: every cell of `m` is as it was,
every cell allocated since has been released, and no object was leaked. -/
def Mem.unwound (m m' : Mem T) : Prop :=
  (∀ q, q < m.heap.length → m'.deref q = m.deref q) ∧
    (∀ q, m.heap.length ≤ q → m'.deref q = none) ∧ m'.leaked = m.leaked

/-- Container `v` is the only owner of its storage: it is inline, or its buffer has
reference count 1. -/
def owns (m : Mem T) (v : socow_vector T) : Prop :=
  v._is_dynamic = true → ∃ b, m.deref v._buffer = some b ∧ b.ref_count = 1

/-- The storage of `v'`, the container `v` after a call that started in memory `m`, is not
shared with any container of `m`: it is inline, a buffer allocated during the call, or the
buffer that `v` owned alone. -/
def private_storage (m : Mem T) (v v' : socow_vector T) : Prop :=
  v'._is_dynamic = true →
    m.heap.length ≤ v'._buffer ∨
      (v._is_dynamic = true ∧ v'._buffer = v._buffer ∧
        ∀ b, m.deref v._buffer = some b → b.ref_count = 1)

/-- The number of element copy constructions that `push_back` and `insert` perform: one
when the element is built in place, `size() + 1` when the elements move to a new buffer
(at capacity, or out of a shared buffer). -/
def grow_copies (S : Nat) (m : Mem T) (v : socow_vector T) : Nat :=
  if capacity S m v = some (size v) ∨ dynamic_and_shared m v = some true then size v + 1
  else 1

/-- The number of element copy constructions that `erase(first, last)` performs: the
survivors when a non-empty range leaves a shared buffer, none otherwise. -/
def erase_copies (m : Mem T) (v : socow_vector T) (first last : Nat) : Nat :=
  if first ≠ last ∧ dynamic_and_shared m v = some true then size v - (last - first) else 0

/-! ## Mutating calls -/

/-- The mutating calls of the public interface, with their arguments; iterators are
offsets from `begin()` and the right-hand side of an assignment is the address of an
object. -/
inductive Mutation (T : Type) where
  | index_write (index : Nat) (x : T)
  | data
  | front_write (x : T)
  | back_write (x : T)
  | begin_write (index : Nat) (x : T)
  | push_back (x : T)
  | pop_back
  | insert (pos : Nat) (x : T)
  | erase (first last : Nat)
  | clear
  | reserve (new_capacity : Nat)
  | shrink_to_fit
  | assign (other : Nat)

/-- The call is made on object `this` of world `w`. -/
def Mutation.exec (S : Nat) (w : World T) (this : Nat) : Mutation T → Res (World T) (World T)
  | .index_write i x => w.run this (fun m v => SocowVector.index_write S m v i x)
  | .data => w.run this (fun m v => SocowVector.data S m v)
  | .front_write x => w.run this (fun m v => SocowVector.front_write S m v x)
  | .back_write x => w.run this (fun m v => SocowVector.back_write S m v x)
  | .begin_write i x => w.run this (fun m v => SocowVector.begin_write S m v i x)
  | .push_back x => w.run this (fun m v => SocowVector.push_back S m v x)
  | .pop_back => w.run this (fun m v => SocowVector.pop_back S m v)
  | .insert k x =>
    w.run this (fun m v => (SocowVector.insert S m v k x).bind (fun r => .ok (r.1, r.2.1)))
  | .erase f l =>
    w.run this (fun m v => (SocowVector.erase S m v f l).bind (fun r => .ok (r.1, r.2.1)))
  | .clear => w.run this (fun m v => SocowVector.clear S m v)
  | .reserve n => w.run this (fun m v => SocowVector.reserve S m v n)
  | .shrink_to_fit => w.run this (fun m v => SocowVector.shrink_to_fit S m v)
  | .assign other => SocowVector.assign S w this other

/-- The precondition of the call on a container of size `n` in world `w`: indices and
iterators are in range, `pop_back`, `front` and `back` need an element, and the right-hand
side of an assignment is a container of the world. -/
def Mutation.admissible (S : Nat) (w : World T) (n : Nat) : Mutation T → Prop
  | .index_write i _ => i < n
  | .front_write _ => 0 < n
  | .back_write _ => 0 < n
  | .begin_write i _ => i < n
  | .pop_back => 0 < n
  | .insert k _ => k ≤ n
  | .erase f l => f ≤ l ∧ l ≤ n
  | .assign other => ∃ o zs, w.objs[other]? = some o ∧ holds S w.mem o zs
  | _ => True

/-- The call writes an element through the non-const access `operator[]`, `data`,
`front`, `back` or `begin`. -/
def Mutation.is_write : Mutation T → Bool
  | .index_write _ _ => true
  | .data => true
  | .front_write _ => true
  | .back_write _ => true
  | .begin_write _ _ => true
  | _ => false

/-! ## Example states -/

/-- A memory with one buffer of capacity 4 that two containers share. -/
def ex_mem : Mem Nat :=
  { heap := [some ⟨4, 2, [some 1, some 2, some 3, none]⟩], copies := 0, budget := none,
    leaked := 0 }

/-- A container with inline capacity 2 that refers to the buffer of `ex_mem`. -/
def ex_vec : socow_vector Nat :=
  { _size := 3, _is_dynamic := true, _buffer := 0, _small := [none, none] }

/-- The memory `ex_mem` when only one container refers to the buffer. -/
def ex_sole : Mem Nat :=
  { heap := [some ⟨4, 1, [some 1, some 2, some 3, none]⟩], copies := 0, budget := none,
    leaked := 0 }

/-- An inline container with inline capacity 2 and the single element 7. -/
def ex_small : socow_vector Nat :=
  { _size := 1, _is_dynamic := false, _buffer := 0, _small := [some 7, none] }

/-- Two containers that share the buffer of `ex_mem`, and an inline one. -/
def ex_world : World Nat :=
  { mem := ex_mem, objs := [ex_vec, ex_vec, ex_small] }

/-- The memory `ex_mem` where only one more copy construction succeeds. -/
def ex_tight : Mem Nat :=
  { ex_mem with budget := some 1 }

/-- The world `ex_world` where no copy construction succeeds. -/
def ex_world_tight : World Nat :=
  { mem := { ex_mem with budget := some 0 }, objs := [ex_vec, ex_vec, ex_small] }

/-- A container with inline capacity 4 whose ten elements live in a heap buffer. -/
def ten_vec : socow_vector Nat :=
  { _size := 10, _is_dynamic := true, _buffer := 0, _small := [none, none, none, none] }

/-- Two containers that share one buffer with the ten elements 0 to 9. -/
def ten_world : World Nat :=
  { mem :=
      { heap := [some ⟨16, 2,
          [some 0, some 1, some 2, some 3, some 4, some 5, some 6, some 7, some 8, some 9,
            none, none, none, none, none, none]⟩],
        copies := 0, budget := none, leaked := 0 },
    objs := [ten_vec, ten_vec] }

/-- Two inline containers of different sizes, `[1, 2]` and `[9]`, inline capacity 4. -/
def inline_world : World Nat :=
  { mem := { heap := [], copies := 0, budget := none, leaked := 0 },
    objs := [{ _size := 2, _is_dynamic := false, _buffer := 0,
               _small := [some 1, some 2, none, none] },
             { _size := 1, _is_dynamic := false, _buffer := 0,
               _small := [some 9, none, none, none] }] }

/-- Two inline containers of equal size, `[1]` and `[2]`, inline capacity 4. -/
def equal_world : World Nat :=
  { mem := { heap := [], copies := 0, budget := none, leaked := 0 },
    objs := [{ _size := 1, _is_dynamic := false, _buffer := 0,
               _small := [some 1, none, none, none] },
             { _size := 1, _is_dynamic := false, _buffer := 0,
               _small := [some 2, none, none, none] }] }

/-- Two empty containers, as the default constructor leaves them. -/
def empty_world : World Nat :=
  { mem := { heap := [], copies := 0, budget := none, leaked := 0 },
    objs := [socow_vector_new 4, socow_vector_new 4] }

/-! ## Reference counts across containers -/

/-- The reference count stored at address `q`; 0 when no buffer lives there. -/
def Mem.rc (m : Mem T) (q : Nat) : Nat :=
  match m.deref q with
  | some b => b.ref_count
  | none => 0

/-- Container `v` has a handle to the buffer at address `q`. -/
def refers (v : socow_vector T) (q : Nat) : Bool :=
  v._is_dynamic && (v._buffer == q)

/-- The number of handles to address `q` that container `v` has, 0 or 1. -/
def handles (v : socow_vector T) (q : Nat) : Nat :=
  if refers v q then 1 else 0

/-- The number of containers of the world whose handle refers to address `q`. -/
def World.refs (w : World T) (q : Nat) : Nat :=
  w.objs.countP (fun v => refers v q)

/-- The number of constructed elements in an array. -/
def constructed (s : Slots T) : Nat :=
  (s.filter Option.isSome).length

/-- A call on container `v` that worked in the storage `v` already had, which `v` owns
alone: from `(m, v)` to `(m', v')`, now holding `ys`.  No cell was allocated or released,
the handle and the storage mode are the same, and only the slots of the own storage
changed. -/
def in_place (S : Nat) (m : Mem T) (v : socow_vector T) (m' : Mem T) (v' : socow_vector T)
    (ys : List T) : Prop :=
  holds S m' v' ys ∧ v'._is_dynamic = v._is_dynamic ∧ v'._buffer = v._buffer ∧
    m'.leaked = m.leaked ∧ m'.heap.length = m.heap.length ∧
    (∀ q, (v._is_dynamic = true → q ≠ v._buffer) → m'.deref q = m.deref q) ∧
    (v._is_dynamic = true → ∀ b, m.deref v._buffer = some b →
      b.ref_count = 1 ∧
        ∃ b', m'.deref v._buffer = some b' ∧ b'.capacity = b.capacity ∧
          b'.ref_count = b.ref_count)

/-- What a call on container `v` may do to the memory, from `(m, v)` to `(m', v')`:
the container holds a sequence again; every buffer that `v` did not own alone is kept;
no object is leaked; at every address the reference count changed by exactly the handles
that `v` gave up and took; and a buffer of `m'` is a buffer of `m` with its capacity or
the new buffer of `v'`, whose capacity exceeds `S` provided the one of `v` did. -/
def stepped (S : Nat) (m : Mem T) (v : socow_vector T) (m' : Mem T) (v' : socow_vector T) :
    Prop :=
  (∃ ys, holds S m' v' ys) ∧ frame m m' v ∧ m'.leaked = m.leaked ∧
    (∀ q, m'.rc q + handles v q = m.rc q + handles v' q) ∧
    (∀ q b', m'.deref q = some b' →
      (∃ b, m.deref q = some b ∧ b'.capacity = b.capacity ∧
        (0 < b.ref_count → 0 < b'.ref_count)) ∨
      (refers v' q = true ∧ 0 < b'.ref_count ∧
        ((v._is_dynamic = true → ∀ b, m.deref v._buffer = some b → S < b.capacity) →
          S < b'.capacity)))

/-- The client loop `for (const T& x : values) v.push_back(x);`. -/
def push_back_all (S : Nat) (m : Mem T) (v : socow_vector T) :
    List T → Res (Mem T × socow_vector T) (Mem T × socow_vector T)
  | [] => .ok (m, v)
  | x :: rest => (push_back S m v x).bind (fun r => push_back_all S r.1 r.2 rest)

/-- A memory without any buffer, in which no copy construction fails. -/
def fresh_mem : Mem Nat :=
  { heap := [], copies := 0, budget := none, leaked := 0 }

/-- The memory after four `push_back` calls on an empty container with inline capacity 4. -/
def four_mem : Mem Nat :=
  { heap := [], copies := 4, budget := none, leaked := 0 }

/-- The container after these four calls: still inline, holding `[1, 2, 3, 4]`. -/
def four_vec : socow_vector Nat :=
  { _size := 4, _is_dynamic := false, _buffer := 0,
    _small := [some 1, some 2, some 3, some 4] }

/-- Two inline containers, `[1, 2, 3]` and `[4]`, inline capacity 4. -/
def uneven_world : World Nat :=
  { mem := fresh_mem,
    objs := [{ _size := 3, _is_dynamic := false, _buffer := 0,
               _small := [some 1, some 2, some 3, none] },
             { _size := 1, _is_dynamic := false, _buffer := 0,
               _small := [some 4, none, none, none] }] }

/-! ## Reachable states -/

/-- The invariant of a world of containers: every container holds a sequence; at every
address the stored reference count is the number of containers that refer to it; every
buffer has a positive reference count and a capacity above the inline capacity; and no
object was leaked. -/
def consistent (S : Nat) (w : World T) : Prop :=
  (∀ (i : Nat) (v : socow_vector T), w.objs[i]? = some v → ∃ xs, holds S w.mem v xs) ∧
    (∀ q, w.mem.rc q = w.refs q) ∧
    (∀ q b, w.mem.deref q = some b → 0 < b.ref_count ∧ S < b.capacity) ∧
    w.mem.leaked = 0

/-- The worlds that client code can reach with the public interface, starting without any
container.  A container is created by the default or the copy constructor and goes away
with its destructor (the containers behind it move up by one address); the mutating calls
are made within their preconditions; a call may return or throw, and the client decides
at any time how many more element copies succeed. -/
inductive Reachable (S : Nat) : World T → Prop where
  | start : Reachable S ⟨⟨[], 0, none, 0⟩, []⟩
  | schedule (w : World T) (budget : Option Nat) :
      Reachable S w → Reachable S ⟨{ w.mem with budget := budget }, w.objs⟩
  | created (w : World T) :
      Reachable S w → Reachable S ⟨w.mem, w.objs ++ [socow_vector_new S]⟩
  | copied (w : World T) (i : Nat) (o : socow_vector T) (m' : Mem T) (v' : socow_vector T) :
      Reachable S w → w.objs[i]? = some o → copy_ctor S w.mem o = .ok (m', v') →
      Reachable S ⟨m', w.objs ++ [v']⟩
  | copy_failed (w : World T) (i : Nat) (o : socow_vector T) (m' : Mem T) :
      Reachable S w → w.objs[i]? = some o → copy_ctor S w.mem o = .throw m' →
      Reachable S ⟨m', w.objs⟩
  | destroyed (w : World T) (i : Nat) (v : socow_vector T) (m' : Mem T) :
      Reachable S w → w.objs[i]? = some v → destructor w.mem v = some m' →
      Reachable S ⟨m', w.objs.eraseIdx i⟩
  | called (w : World T) (a : Nat) (v : socow_vector T) (μ : Mutation T) (w' : World T) :
      Reachable S w → w.objs[a]? = some v → μ.admissible S w (size v) →
      (μ.exec S w a = .ok w' ∨ μ.exec S w a = .throw w') → Reachable S w'
  | swapped (w : World T) (fuel a b : Nat) (w' : World T) :
      Reachable S w → (swap fuel w a b = some (.ok w') ∨ swap fuel w a b = some (.throw w')) →
      Reachable S w'

/-- The world after the client code `socow_vector<int, 2> a; a.push_back(1);
a.push_back(2); a.push_back(3); socow_vector<int, 2> b(a);`: two containers share one
buffer of capacity 4. -/
def trace_shared : World Nat :=
  { mem := { heap := [some ⟨4, 2, [some 1, some 2, some 3, none]⟩], copies := 5,
             budget := none, leaked := 0 },
    objs := [{ _size := 3, _is_dynamic := true, _buffer := 0, _small := [none, none] },
             { _size := 3, _is_dynamic := true, _buffer := 0, _small := [none, none] }] }

/-- A container that keeps a buffer for a single element. -/
def shrunk_vec : socow_vector Nat :=
  { _size := 1, _is_dynamic := true, _buffer := 0, _small := [none, none] }

/-- The world `trace_shared` after `b.pop_back(); a.pop_back(); a.pop_back();`: `b` went
inline with two elements, `a` keeps the buffer of capacity 4 for its single element. -/
def trace_shrunk : World Nat :=
  { mem := { heap := [some ⟨4, 1, [some 1, none, none, none]⟩], copies := 7,
             budget := none, leaked := 0 },
    objs := [shrunk_vec,
             { _size := 2, _is_dynamic := false, _buffer := 0, _small := [some 1, some 2] }] }

/-! ## The size of an allocation

`new_buffer` is the allocation whose byte count `sizeof(buffer) + sizeof(T) * capacity` is
the mathematical value.  The source computes that count in `std::size_t`, where it wraps
around, and `reserve` passes on a capacity of the client's choice without a check.  The
definitions below keep the wrap-around for that caller: `bits` is the width of
`std::size_t`, `sizeof_buffer` and `sizeof_T` are `sizeof(buffer)` and `sizeof(T)`. -/

/-- The argument of `operator new` in `new_buffer(capacity)`,
`sizeof(buffer) + sizeof(T) * capacity`, as the `std::size_t` arithmetic yields it.
Source line 364. -/
def new_buffer_bytes (bits sizeof_buffer sizeof_T capacity : Nat) : Nat :=
  (sizeof_buffer + sizeof_T * capacity % 2 ^ bits) % 2 ^ bits

/-- The byte count of `new_buffer(capacity)` does not wrap around: the block has room for
the record and `capacity` elements. -/
def allocatable (bits sizeof_buffer sizeof_T capacity : Nat) : Prop :=
  0 < sizeof_T ∧ sizeof_buffer + sizeof_T * capacity < 2 ^ bits

/-- The number of elements, at most `capacity`, that the block of `new_buffer(capacity)`
has room for behind the record. -/
def block_slots (bits sizeof_buffer sizeof_T capacity : Nat) : Nat :=
  min capacity
    ((new_buffer_bytes bits sizeof_buffer sizeof_T capacity - sizeof_buffer) / sizeof_T)

/-- `new_buffer(capacity)` with the block that `operator new` returns for the byte count
of line 364: the record says `capacity`, the storage behind it ends after `block_slots`
elements, and a block too small for the record itself makes the construction of the
record undefined.  Source lines 363-366. -/
def new_buffer_sized (bits sizeof_buffer sizeof_T : Nat) (m : Mem T) (capacity : Nat) :
    Option (Mem T × Nat) :=
  if new_buffer_bytes bits sizeof_buffer sizeof_T capacity < sizeof_buffer then none
  else
    some (m.push ⟨capacity, 1,
      List.replicate (block_slots bits sizeof_buffer sizeof_T capacity) none⟩, m.heap.length)

/-- `copy_buffer(sz, capacity)` over `new_buffer_sized`: a copy past the end of the block
is undefined behaviour.  Source lines 372-381. -/
def copy_buffer_sized (bits sizeof_buffer sizeof_T : Nat) (m : Mem T) (v : socow_vector T)
    (sz capacity : Nat) : Res (Mem T) (Mem T × Nat) := do
  let mn ← Res.of (new_buffer_sized bits sizeof_buffer sizeof_T m capacity)
  let src ← Res.of (raw_data mn.1 v)
  let b ← Res.of (mn.1.deref mn.2)
  let r ← (uninitialized_copy mn.1 src 0 sz b.data 0).rethrow
    (fun e => remove_buffer (e.1.store mn.2 { b with data := e.2 }) mn.2)
  pure (r.1.store mn.2 { b with data := r.2 }, mn.2)

/-- `reserve(new_capacity)` over `copy_buffer_sized`.  Source lines 124-136. -/
def reserve_sized (bits sizeof_buffer sizeof_T : Nat) (S : Nat) (m : Mem T)
    (v : socow_vector T) (new_capacity : Nat) :
    Res (Mem T × socow_vector T) (Mem T × socow_vector T) := do
  if new_capacity < size v then pure (m, v)
  else
    let shared ← Res.of (dynamic_and_shared m v)
    if shared && decide (new_capacity ≤ S) then
      let src ← Res.of (dynamic_data m v)
      become_static m v src 0 (size v)
    else
      let grow ← if shared then pure true
        else (Res.of (capacity S m v)).bind (fun cap => pure (decide (cap < new_capacity)))
      if grow then
        let r ←
          (copy_buffer_sized bits sizeof_buffer sizeof_T m v (size v) new_capacity).rethrow
            (fun e => some (e, v))
        let d ← Res.of (destroy r.1 v)
        pure (d.1, { d.2 with _buffer := r.2, _is_dynamic := true })
      else pure (m, v)

/-- The capacity that the call passes to `reserve` can be allocated; the other calls ask
for at most twice the capacity of a buffer that exists. -/
def Mutation.allocatable (bits sizeof_buffer sizeof_T : Nat) : Mutation T → Prop
  | .reserve n => SocowVector.allocatable bits sizeof_buffer sizeof_T n
  | _ => True

/-- The call is made on object `this` of world `w`, with `reserve` over the sized
allocation. -/
def Mutation.exec_sized (bits sizeof_buffer sizeof_T : Nat) (S : Nat) (w : World T)
    (this : Nat) : Mutation T → Res (World T) (World T)
  | .reserve n =>
    w.run this (fun m v => SocowVector.reserve_sized bits sizeof_buffer sizeof_T S m v n)
  | μ => μ.exec S w this

/-! ## Facts about lists of slots -/

theorem take_succ_set (l : List α) (a : Nat) (y : α) (h : a < l.length) :
    (l.set a y).take (a + 1) = l.take a ++ [y] := by
  rw [List.take_succ, List.set_take, List.set_eq_of_length_le (by simp)]
  simp [h]

theorem drop_succ_add_set (l : List α) (a n : Nat) (y : α) :
    (l.set a y).drop (a + 1 + n) = l.drop (a + 1 + n) := by
  rw [List.drop_set, if_pos (by omega)]

theorem take_succ_drop (l : List α) (a n : Nat) (y : α) (h : l[a]? = some y) :
    (l.drop a).take (n + 1) = y :: (l.drop (a + 1)).take n := by
  have hl : a < l.length := by
    by_contra hc
    rw [List.getElem?_eq_none (by omega)] at h
    cases h
  rw [List.drop_eq_getElem_cons hl, List.take_succ_cons]
  rw [List.getElem?_eq_getElem hl] at h
  cases h
  rfl

/-! ## The copy-constructor budget -/

theorem spend_zero (m : Mem T) : m.spend 0 = m := by
  cases m with
  | mk h c b l => cases b <;> simp [Mem.spend]

theorem copy_construct_affords (m : Mem T) (h : m.affords 1) :
    copy_construct m = some (m.spend 1) := by
  cases m with
  | mk hp c b l =>
    cases b with
    | none => simp [copy_construct, Mem.spend]
    | some b =>
      cases b with
      | zero => have := h 0 rfl; omega
      | succ b => simp [copy_construct, Mem.spend]

theorem copy_construct_exhausted (m : Mem T) (h : m.budget = some 0) :
    copy_construct m = none := by
  simp [copy_construct, h]

theorem spend_spend (m : Mem T) (a b : Nat) : (m.spend a).spend b = m.spend (a + b) := by
  cases m with
  | mk hp c bu l =>
    cases bu <;> simp [Mem.spend, Nat.add_assoc, Nat.sub_sub]

theorem affords_spend (m : Mem T) (a b : Nat) (h : m.affords (a + b)) :
    (m.spend a).affords b := by
  intro x hx
  cases m with
  | mk hp c bu l =>
    cases bu with
    | none => simp [Mem.spend] at hx
    | some y =>
      simp [Mem.spend] at hx
      have := h y rfl
      omega

theorem affords_mono (m : Mem T) (a b : Nat) (hab : a ≤ b) (h : m.affords b) :
    m.affords a := by
  intro x hx
  have := h x hx
  omega

theorem affords_of_none (m : Mem T) (n : Nat) (h : m.budget = none) : m.affords n := by
  intro b hb
  rw [h] at hb
  cases hb

/-! ## `std::uninitialized_copy` -/

theorem uninitialized_copy_from_ok (src : Slots T) (first d_first : Nat) :
    ∀ (n k : Nat) (m : Mem T) (dst : Slots T),
      (∀ j, j < n → ∃ x, src[first + k + j]? = some (some x)) →
      d_first + k + n ≤ dst.length → m.affords n →
      uninitialized_copy_from src first d_first n k m dst =
        .ok (m.spend n,
          dst.take (d_first + k) ++ (src.drop (first + k)).take n ++
            dst.drop (d_first + k + n)) := by
  intro n
  induction n with
  | zero =>
    intro k m dst _ _ _
    simp [uninitialized_copy_from, spend_zero]
  | succ n ih =>
    intro k m dst hlive hroom haff
    obtain ⟨x, hx⟩ := hlive 0 (by omega)
    have hlt : d_first + k < dst.length := by omega
    have hc := copy_construct_affords m (affords_mono m 1 (n + 1) (by omega) haff)
    simp only [Nat.add_zero] at hx
    simp only [uninitialized_copy_from, hx, hlt, if_true, hc]
    rw [ih (k + 1) (m.spend 1) (dst.set (d_first + k) (some x))]
    · rw [spend_spend, Nat.add_comm 1 n]
      congr 2
      rw [show d_first + (k + 1) = d_first + k + 1 by omega, take_succ_set _ _ _ hlt,
        drop_succ_add_set, take_succ_drop src (first + k) n (some x) hx,
        show first + (k + 1) = first + k + 1 by omega,
        show d_first + k + (n + 1) = d_first + k + 1 + n by omega]
      simp
    · intro j hj
      obtain ⟨y, hy⟩ := hlive (j + 1) (by omega)
      exact ⟨y, by rw [← hy]; congr 1; omega⟩
    · simp; omega
    · exact affords_spend m 1 n (by rw [Nat.add_comm]; exact haff)

theorem clear_range_set (s : Slots T) (a k i : Nat) (y : Option T) (h1 : a ≤ i)
    (h2 : i < a + k) : clear_range (s.set i y) a k = clear_range s a k := by
  unfold clear_range
  rw [List.set_take, List.set_eq_of_length_le (by simp; omega), List.drop_set, if_pos h2]

theorem spend_budget (m : Mem T) (b n : Nat) (h : m.budget = some b) :
    (m.spend n).budget = some (b - n) := by
  simp [Mem.spend, h]

theorem uninitialized_copy_from_throw (src : Slots T) (first d_first : Nat) :
    ∀ (n k : Nat) (m : Mem T) (dst : Slots T) (b : Nat),
      m.budget = some b → b < n →
      (∀ j, j ≤ b → ∃ x, src[first + k + j]? = some (some x)) →
      d_first + k + b < dst.length →
      uninitialized_copy_from src first d_first n k m dst =
        .throw (m.spend b, clear_range dst d_first (k + b)) := by
  intro n
  induction n with
  | zero => intro k m dst b _ hb; omega
  | succ n ih =>
    intro k m dst b hbud hb hlive hroom
    obtain ⟨x, hx⟩ := hlive 0 (by omega)
    have hlt : d_first + k < dst.length := by omega
    simp only [Nat.add_zero] at hx
    cases b with
    | zero =>
      simp only [uninitialized_copy_from, hx, hlt, if_true, copy_construct_exhausted m hbud]
      simp [spend_zero]
    | succ b =>
      have hc := copy_construct_affords m (by intro y hy; rw [hbud] at hy; cases hy; omega)
      simp only [uninitialized_copy_from, hx, hlt, if_true, hc]
      rw [ih (k + 1) (m.spend 1) (dst.set (d_first + k) (some x)) b
        (by rw [spend_budget m (b + 1) 1 hbud]; simp) (by omega)
        (by
          intro j hj
          obtain ⟨y, hy⟩ := hlive (j + 1) (by omega)
          exact ⟨y, by rw [← hy]; congr 1; omega⟩)
        (by simp; omega)]
      rw [spend_spend, clear_range_set _ _ _ _ _ (by omega) (by omega), Nat.add_comm 1 b,
        show k + 1 + b = k + (b + 1) by omega]


/-! ## Arrays in the form `live xs cap` -/

theorem live_length (xs : List T) (cap : Nat) (h : xs.length ≤ cap) :
    (live xs cap).length = cap := by
  simp [live]; omega

theorem live_nil (cap : Nat) : live ([] : List T) cap = List.replicate cap none := by
  simp [live]

theorem live_getElem? (xs : List T) (cap j : Nat) (h : j < xs.length) :
    (live xs cap)[j]? = some (xs[j]?) := by
  unfold live
  rw [List.getElem?_append_left (by simpa using h)]
  simp [List.getElem?_eq_getElem h]

theorem live_getElem?_ge (xs : List T) (cap j : Nat) (h : xs.length ≤ j) (hj : j < cap) :
    (live xs cap)[j]? = some none := by
  unfold live
  rw [List.getElem?_append_right (by simpa using h)]
  simp [List.getElem?_replicate]
  omega

theorem live_alive (xs : List T) (cap j : Nat) (h : j < xs.length) :
    ∃ x, (live xs cap)[j]? = some (some x) :=
  ⟨xs[j], by rw [live_getElem? xs cap j h, List.getElem?_eq_getElem h]⟩

theorem take_live (xs : List T) (cap k : Nat) (h : k ≤ xs.length) :
    (live xs cap).take k = (xs.take k).map some := by
  unfold live
  rw [List.take_append_of_le_length (by simpa using h), List.map_take]

theorem drop_live (xs : List T) (cap k : Nat) (h : xs.length ≤ k) :
    (live xs cap).drop k = List.replicate (cap - k) none := by
  unfold live
  rw [List.drop_append_eq_append_drop]
  simp [List.drop_eq_nil_of_le, h]
  omega

theorem drop_take_live (xs : List T) (cap i n : Nat) (h : i + n ≤ xs.length) :
    ((live xs cap).drop i).take n = ((xs.drop i).take n).map some := by
  unfold live
  rw [List.drop_append_of_le_length (by simp; omega),
    List.take_append_of_le_length (by simp; omega), List.map_take, List.map_drop]

theorem live_append_eq (ys zs : List T) (cap : Nat) :
    (ys.map some ++ zs.map some) ++ List.replicate (cap - (ys.length + zs.length)) none =
      live (ys ++ zs) cap := by
  simp [live]

theorem uninitialized_copy_live (m : Mem T) (xs ys : List T) (c cap i j : Nat)
    (hij : i ≤ j) (hj : j ≤ xs.length) (hroom : ys.length + (j - i) ≤ cap)
    (haff : m.affords (j - i)) :
    uninitialized_copy m (live xs c) i j (live ys cap) ys.length =
      .ok (m.spend (j - i), live (ys ++ (xs.drop i).take (j - i)) cap) := by
  unfold uninitialized_copy
  rw [if_pos hij, uninitialized_copy_from_ok _ _ _ _ _ _ _ _ _ haff]
  · simp only [Nat.add_zero]
    rw [take_live ys cap _ (le_refl _), drop_take_live xs c i (j - i) (by omega),
      drop_live ys cap _ (by omega), List.take_of_length_le (le_refl _)]
    congr 2
    unfold live
    simp
    rw [Nat.min_eq_left (by omega)]
  · intro k hk
    simp only [Nat.add_zero]
    exact live_alive xs c (i + k) (by omega)
  · rw [live_length ys cap (by omega)]
    omega

theorem clear_range_live (ys : List T) (cap b : Nat) (h : ys.length + b ≤ cap) :
    clear_range (live ys cap) ys.length b = live ys cap := by
  unfold clear_range
  rw [take_live ys cap _ (le_refl _), drop_live ys cap _ (by omega),
    List.take_of_length_le (le_refl _)]
  unfold live
  rw [List.append_assoc, ← List.replicate_add]
  congr 2
  omega

theorem uninitialized_copy_live_throw (m : Mem T) (xs ys : List T) (c cap i j b : Nat)
    (hij : i ≤ j) (hj : j ≤ xs.length) (hroom : ys.length + (j - i) ≤ cap)
    (hbud : m.budget = some b) (hb : b < j - i) :
    uninitialized_copy m (live xs c) i j (live ys cap) ys.length =
      .throw (m.spend b, live ys cap) := by
  unfold uninitialized_copy
  rw [if_pos hij, uninitialized_copy_from_throw _ _ _ _ _ _ _ b hbud hb]
  · simp only [Nat.zero_add]
    rw [clear_range_live ys cap b (by omega)]
  · intro k hk
    simp only [Nat.add_zero]
    exact live_alive xs c (i + k) (by omega)
  · rw [live_length ys cap (by omega)]
    omega

/-! ## Memory cells -/

@[simp] theorem heap_spend (m : Mem T) (n : Nat) : (m.spend n).heap = m.heap := rfl
@[simp] theorem leaked_spend (m : Mem T) (n : Nat) : (m.spend n).leaked = m.leaked := rfl
@[simp] theorem copies_spend (m : Mem T) (n : Nat) : (m.spend n).copies = m.copies + n := rfl
@[simp] theorem budget_spend (m : Mem T) (n : Nat) :
    (m.spend n).budget = m.budget.map (fun b => b - n) := rfl
@[simp] theorem heap_push (m : Mem T) (b : buffer T) : (m.push b).heap = m.heap ++ [some b] := rfl
@[simp] theorem leaked_push (m : Mem T) (b : buffer T) : (m.push b).leaked = m.leaked := rfl
@[simp] theorem copies_push (m : Mem T) (b : buffer T) : (m.push b).copies = m.copies := rfl
@[simp] theorem budget_push (m : Mem T) (b : buffer T) : (m.push b).budget = m.budget := rfl
@[simp] theorem heap_store (m : Mem T) (p : Nat) (b : buffer T) :
    (m.store p b).heap = m.heap.set p (some b) := rfl
@[simp] theorem leaked_store (m : Mem T) (p : Nat) (b : buffer T) :
    (m.store p b).leaked = m.leaked := rfl
@[simp] theorem copies_store (m : Mem T) (p : Nat) (b : buffer T) :
    (m.store p b).copies = m.copies := rfl
@[simp] theorem budget_store (m : Mem T) (p : Nat) (b : buffer T) :
    (m.store p b).budget = m.budget := rfl
@[simp] theorem heap_free (m : Mem T) (p n : Nat) : (m.free p n).heap = m.heap.set p none := rfl
@[simp] theorem leaked_free (m : Mem T) (p n : Nat) : (m.free p n).leaked = m.leaked + n := rfl
@[simp] theorem copies_free (m : Mem T) (p n : Nat) : (m.free p n).copies = m.copies := rfl
@[simp] theorem budget_free (m : Mem T) (p n : Nat) : (m.free p n).budget = m.budget := rfl

theorem Mem.ext' (m m' : Mem T) (h1 : m.heap = m'.heap) (h2 : m.copies = m'.copies)
    (h3 : m.budget = m'.budget) (h4 : m.leaked = m'.leaked) : m = m' := by
  cases m; cases m'; simp_all

@[simp] theorem deref_spend (m : Mem T) (n p : Nat) : (m.spend n).deref p = m.deref p := rfl

theorem deref_lt (m : Mem T) (p : Nat) (b : buffer T) (h : m.deref p = some b) :
    p < m.heap.length := by
  by_contra hc
  unfold Mem.deref at h
  rw [List.getElem?_eq_none (by omega)] at h
  cases h

@[simp] theorem deref_push_length (m : Mem T) (b : buffer T) :
    (m.push b).deref m.heap.length = some b := by
  simp [Mem.deref]

theorem deref_push_of_lt (m : Mem T) (b : buffer T) (p : Nat) (h : p < m.heap.length) :
    (m.push b).deref p = m.deref p := by
  simp [Mem.deref, List.getElem?_append_left h]

theorem deref_push_of_some (m : Mem T) (b b' : buffer T) (p : Nat) (h : m.deref p = some b') :
    (m.push b).deref p = some b' := by
  rw [deref_push_of_lt m b p (deref_lt m p b' h), h]

theorem deref_store_same (m : Mem T) (b : buffer T) (p : Nat) (h : p < m.heap.length) :
    (m.store p b).deref p = some b := by
  simp [Mem.deref, h]

theorem deref_store_ne (m : Mem T) (b : buffer T) (p q : Nat) (h : q ≠ p) :
    (m.store p b).deref q = m.deref q := by
  simp [Mem.deref, List.getElem?_set_ne (Ne.symm h)]

@[simp] theorem deref_free_same (m : Mem T) (p n : Nat) : (m.free p n).deref p = none := by
  simp only [Mem.deref, heap_free, List.getElem?_set]
  split_ifs <;> simp

theorem deref_free_ne (m : Mem T) (p q n : Nat) (h : q ≠ p) :
    (m.free p n).deref q = m.deref q := by
  simp [Mem.deref, List.getElem?_set_ne (Ne.symm h)]

theorem deref_ge (m : Mem T) (p : Nat) (h : m.heap.length ≤ p) : m.deref p = none := by
  simp [Mem.deref, List.getElem?_eq_none h]

/-! ## Placement new and `std::destroy` on arrays in the form `live xs cap` -/

theorem live_set_length (ys : List T) (cap : Nat) (x : T) (h : ys.length < cap) :
    (live ys cap).set ys.length (some x) = live (ys ++ [x]) cap := by
  unfold live
  rw [List.set_append, if_neg (by simp)]
  simp only [List.length_map, Nat.sub_self, List.map_append, List.map_cons, List.map_nil,
    List.append_assoc, List.length_append, List.length_singleton]
  congr 1
  obtain ⟨k, hk⟩ : ∃ k, cap - ys.length = k + 1 := ⟨cap - ys.length - 1, by omega⟩
  rw [hk, List.replicate_succ, List.set_cons_zero]
  simp
  omega

theorem construct_at_live (m : Mem T) (ys : List T) (cap : Nat) (x : T)
    (h : ys.length < cap) (haff : m.affords 1) :
    construct_at m (live ys cap) ys.length x = .ok (m.spend 1, live (ys ++ [x]) cap) := by
  unfold construct_at
  rw [live_length ys cap (by omega), if_pos h, copy_construct_affords m haff,
    live_set_length ys cap x h]

theorem construct_at_live_throw (m : Mem T) (ys : List T) (cap : Nat) (x : T)
    (h : ys.length < cap) (hbud : m.budget = some 0) :
    construct_at m (live ys cap) ys.length x = .throw m := by
  unfold construct_at
  rw [live_length ys cap (by omega), if_pos h, copy_construct_exhausted m hbud]

theorem std_destroy_live (xs : List T) (cap k : Nat) (hk : k ≤ xs.length)
    (hc : xs.length ≤ cap) :
    std_destroy (live xs cap) k xs.length = some (live (xs.take k) cap) := by
  unfold std_destroy
  rw [if_pos]
  · unfold clear_range
    rw [take_live xs cap k hk, drop_live xs cap _ (by omega)]
    unfold live
    simp only [List.length_take, List.append_assoc, ← List.replicate_add]
    congr 3
    omega
  · refine ⟨hk, by rw [live_length xs cap hc]; exact hc, ?_⟩
    rw [drop_take_live xs cap k _ (by omega), List.all_eq_true]
    intro x hx
    obtain ⟨y, _, rfl⟩ := List.mem_map.1 hx
    rfl

theorem live_take_all (xs : List T) (cap : Nat) :
    live (xs.take xs.length) cap = live xs cap := by
  rw [List.take_length]

/-! ## Outcomes -/

@[simp] theorem ok_bind {ε α β : Type} (a : α) (f : α → Res ε β) :
    (Res.ok a >>= f) = f a := rfl
@[simp] theorem throw_bind {ε α β : Type} (e : ε) (f : α → Res ε β) :
    ((Res.throw e : Res ε α) >>= f) = Res.throw e := rfl
@[simp] theorem ub_bind {ε α β : Type} (f : α → Res ε β) :
    ((Res.ub : Res ε α) >>= f) = Res.ub := rfl
@[simp] theorem pure_eq_ok {ε α : Type} (a : α) : (pure a : Res ε α) = Res.ok a := rfl
@[simp] theorem res_bind_ok {ε α β : Type} (a : α) (f : α → Res ε β) :
    (Res.ok a).bind f = f a := rfl
@[simp] theorem res_bind_throw {ε α β : Type} (e : ε) (f : α → Res ε β) :
    (Res.throw e : Res ε α).bind f = Res.throw e := rfl
@[simp] theorem res_bind_ub {ε α β : Type} (f : α → Res ε β) :
    (Res.ub : Res ε α).bind f = Res.ub := rfl
@[simp] theorem of_some {ε α : Type} (a : α) : (Res.of (some a) : Res ε α) = Res.ok a := rfl
@[simp] theorem of_none {ε α : Type} : (Res.of (none : Option α) : Res ε α) = Res.ub := rfl
@[simp] theorem rethrow_ok {ε ε' α : Type} (a : α) (h : ε → Option ε') :
    (Res.ok a : Res ε α).rethrow h = Res.ok a := rfl
@[simp] theorem rethrow_throw {ε ε' α : Type} (e : ε) (h : ε → Option ε') :
    (Res.throw e : Res ε α).rethrow h =
      (match h e with
      | some e' => Res.throw e'
      | none => Res.ub) := rfl
@[simp] theorem rethrow_ub {ε ε' α : Type} (h : ε → Option ε') :
    (Res.ub : Res ε α).rethrow h = Res.ub := rfl

/-! ## Releasing a reference -/

@[simp] theorem heap_length_release (m : Mem T) (p : Nat) :
    (m.release p).heap.length = m.heap.length := by
  unfold Mem.release
  split
  · split_ifs <;> simp
  · rfl

@[simp] theorem copies_release (m : Mem T) (p : Nat) : (m.release p).copies = m.copies := by
  unfold Mem.release
  split
  · split_ifs <;> simp
  · rfl

@[simp] theorem budget_release (m : Mem T) (p : Nat) : (m.release p).budget = m.budget := by
  unfold Mem.release
  split
  · split_ifs <;> simp
  · rfl

@[simp] theorem leaked_release (m : Mem T) (p : Nat) : (m.release p).leaked = m.leaked := by
  unfold Mem.release
  split
  · split_ifs <;> simp
  · rfl

theorem deref_release_ne (m : Mem T) (p q : Nat) (h : q ≠ p) :
    (m.release p).deref q = m.deref q := by
  unfold Mem.release
  split
  · split_ifs
    · exact deref_free_ne m p q 0 h
    · exact deref_store_ne m _ p q h
  · rfl

theorem deref_release_shared (m : Mem T) (p : Nat) (b : buffer T) (h : m.deref p = some b)
    (hr : 2 ≤ b.ref_count) :
    (m.release p).deref p = some { b with ref_count := b.ref_count - 1 } := by
  unfold Mem.release
  rw [h]
  simp only
  rw [if_neg (by omega)]
  exact deref_store_same m _ p (deref_lt m p b h)

theorem deref_release_last (m : Mem T) (p : Nat) (b : buffer T) (h : m.deref p = some b)
    (hr : b.ref_count ≤ 1) : (m.release p).deref p = none := by
  unfold Mem.release
  rw [h]
  simp only
  rw [if_pos hr]
  simp

theorem keeps_refl (m : Mem T) (q : Nat) : m.keeps m q := by
  intro b hb
  exact ⟨b, hb, rfl, rfl, id⟩

theorem keeps_release (m : Mem T) (p q : Nat)
    (h : q = p → ∀ b, m.deref q = some b → 2 ≤ b.ref_count) :
    m.keeps (m.release p) q := by
  intro b hb
  by_cases hq : q = p
  · subst hq
    have := h rfl b hb
    exact ⟨_, deref_release_shared m q b hb this, rfl, rfl, by simp; omega⟩
  · exact ⟨b, by rw [deref_release_ne m p q hq, hb], rfl, rfl, id⟩

/-! ## `release_ref` and `destroy` on a container that holds `xs` -/

theorem count_live_nil (cap : Nat) :
    ((live ([] : List T) cap).filter Option.isSome).length = 0 := by
  simp [live]

theorem release_ref_holds (m : Mem T) (v : socow_vector T) (xs : List T) (p : Nat)
    (b : buffer T) (hp : m.deref p = some b) (hr : 0 < b.ref_count)
    (hsz : v._size = xs.length) (hc : xs.length ≤ b.capacity)
    (hd : b.data = live xs b.capacity) :
    release_ref m v p = some (m.release p) := by
  have hlt := deref_lt m p b hp
  unfold release_ref Mem.release
  rw [hp]
  simp only [Option.some_bind]
  rw [if_neg (by omega)]
  by_cases h1 : b.ref_count = 1
  · rw [if_pos (by omega), if_pos (by omega)]
    unfold delete_buffer
    rw [deref_store_same m _ p hlt]
    simp only [Option.some_bind, size, hsz, hd]
    have := std_destroy_live xs b.capacity 0 (Nat.zero_le _) hc
    rw [this]
    simp only [Option.some_bind, List.take_zero]
    unfold remove_buffer
    rw [deref_store_same _ _ p (by simpa using hlt)]
    simp only [Option.map_some', count_live_nil]
    congr 1
    apply Mem.ext' <;> simp
  · rw [if_neg (by omega), if_neg (by omega)]

/-! ## Consequences of `holds` -/

theorem holds_static (S : Nat) (m : Mem T) (v : socow_vector T) (xs : List T)
    (h : holds S m v xs) (hs : v._is_dynamic = false) :
    v._size = xs.length ∧ xs.length ≤ S ∧ v._small = live xs S := by
  unfold holds at h
  rw [hs] at h
  simpa using h

theorem holds_dynamic (S : Nat) (m : Mem T) (v : socow_vector T) (xs : List T)
    (h : holds S m v xs) (hs : v._is_dynamic = true) :
    v._size = xs.length ∧ v._small = List.replicate S none ∧
      ∃ b, m.deref v._buffer = some b ∧ 0 < b.ref_count ∧ xs.length ≤ b.capacity ∧
        b.data = live xs b.capacity := by
  unfold holds at h
  rw [hs] at h
  simpa using h

theorem holds_size (S : Nat) (m : Mem T) (v : socow_vector T) (xs : List T)
    (h : holds S m v xs) : size v = xs.length := h.1

/-- Whatever keeps the buffer of a container keeps what the container holds. -/
theorem holds_of_keeps (S : Nat) (m m' : Mem T) (v : socow_vector T) (xs : List T)
    (h : holds S m v xs) (hk : v._is_dynamic = true → m.keeps m' v._buffer) :
    holds S m' v xs ∧ capacity S m' v = capacity S m v := by
  cases hd : v._is_dynamic with
  | false =>
    refine ⟨?_, by simp [capacity, static_storage, dynamic_storage, hd]⟩
    unfold holds at h ⊢
    rw [hd] at h ⊢
    exact h
  | true =>
    obtain ⟨h1, h2, b, hb, hr, hc, hdat⟩ := holds_dynamic S m v xs h hd
    obtain ⟨b', hb', hcap, hdata, hr'⟩ := hk hd b hb
    refine ⟨?_, by simp [capacity, static_storage, dynamic_storage, hd, hb, hb', hcap]⟩
    unfold holds
    rw [hd]
    simp only [if_true]
    exact ⟨h1, h2, b', hb', hr' hr, by omega, by rw [hdata, hcap, hdat]⟩

theorem keeps_trans (m m' m'' : Mem T) (q : Nat) (h1 : m.keeps m' q) (h2 : m'.keeps m'' q) :
    m.keeps m'' q := by
  intro b hb
  obtain ⟨b', hb', c1, d1, r1⟩ := h1 b hb
  obtain ⟨b'', hb'', c2, d2, r2⟩ := h2 b' hb'
  exact ⟨b'', hb'', by omega, by rw [d2, d1], fun hr => r2 (r1 hr)⟩

theorem keeps_spend (m : Mem T) (n q : Nat) : m.keeps (m.spend n) q := by
  intro b hb
  exact ⟨b, by simpa using hb, rfl, rfl, id⟩

theorem keeps_push (m : Mem T) (nb : buffer T) (q : Nat) : m.keeps (m.push nb) q := by
  intro b hb
  exact ⟨b, deref_push_of_some m nb b q hb, rfl, rfl, id⟩

theorem holds_rc (S : Nat) (m : Mem T) (v : socow_vector T) (xs : List T)
    (h : holds S m v xs) (hs : v._is_dynamic = true) :
    ∀ b, m.deref v._buffer = some b → 0 < b.ref_count := by
  obtain ⟨_, _, b, hb, hr, _, _⟩ := holds_dynamic S m v xs h hs
  intro b' hb'
  rw [hb] at hb'
  cases hb'
  exact hr

theorem holds_spend (S : Nat) (m : Mem T) (v : socow_vector T) (xs : List T) (n : Nat)
    (h : holds S m v xs) : holds S (m.spend n) v xs :=
  (holds_of_keeps S m _ v xs h (fun _ => keeps_spend m n _)).1

theorem holds_push (S : Nat) (m : Mem T) (v : socow_vector T) (xs : List T) (nb : buffer T)
    (h : holds S m v xs) : holds S (m.push nb) v xs :=
  (holds_of_keeps S m _ v xs h (fun _ => keeps_push m nb _)).1

/-- The storage in use: its capacity and its slots. -/
theorem raw_data_holds (S : Nat) (m : Mem T) (v : socow_vector T) (xs : List T)
    (h : holds S m v xs) :
    ∃ c, capacity S m v = some c ∧ raw_data m v = some (live xs c) ∧ xs.length ≤ c := by
  cases hd : v._is_dynamic with
  | false =>
    obtain ⟨_, h2, h3⟩ := holds_static S m v xs h hd
    exact ⟨S, by simp [capacity, static_storage, dynamic_storage, hd],
      by simp [raw_data, dynamic_storage, hd, h3], h2⟩
  | true =>
    obtain ⟨_, _, b, hb, _, hc, hdat⟩ := holds_dynamic S m v xs h hd
    exact ⟨b.capacity, by simp [capacity, static_storage, dynamic_storage, hd, hb],
      by simp [raw_data, dynamic_storage, hd, hb, hdat], hc⟩

theorem destroy_holds (S : Nat) (m : Mem T) (v : socow_vector T) (xs : List T)
    (h : holds S m v xs) :
    destroy m v = some (m.drop_ref v, { v with _small := List.replicate S none }) := by
  cases hd : v._is_dynamic with
  | false =>
    obtain ⟨h1, h2, h3⟩ := holds_static S m v xs h hd
    unfold destroy destroy_small
    simp only [dynamic_storage, hd, size, h1, h3, Bool.false_eq_true, if_false]
    rw [std_destroy_live xs S 0 (Nat.zero_le _) h2]
    simp [Mem.drop_ref, hd, live_nil]
  | true =>
    obtain ⟨h1, h2, b, hb, hr, hc, hdat⟩ := holds_dynamic S m v xs h hd
    unfold destroy release_ref_this
    simp only [dynamic_storage, hd, if_true]
    rw [release_ref_holds m v xs v._buffer b hb hr h1 hc hdat]
    simp only [Option.map_some', Mem.drop_ref, hd, if_true]
    congr 2
    cases v
    simp_all

/-! ## `copy_buffer` -/

theorem uninitialized_copy_fresh (m : Mem T) (xs : List T) (c cap sz : Nat)
    (hsz : sz ≤ xs.length) (hcap : sz ≤ cap) (haff : m.affords sz) :
    uninitialized_copy m (live xs c) 0 sz (List.replicate cap none) 0 =
      .ok (m.spend sz, live (xs.take sz) cap) := by
  have := uninitialized_copy_live m xs [] c cap 0 sz (Nat.zero_le _) hsz (by simpa using hcap)
    (by simpa using haff)
  simpa [live_nil] using this

theorem uninitialized_copy_fresh_throw (m : Mem T) (xs : List T) (c cap sz b : Nat)
    (hsz : sz ≤ xs.length) (hcap : sz ≤ cap) (hbud : m.budget = some b) (hb : b < sz) :
    uninitialized_copy m (live xs c) 0 sz (List.replicate cap none) 0 =
      .throw (m.spend b, List.replicate cap none) := by
  have := uninitialized_copy_live_throw m xs [] c cap 0 sz b (Nat.zero_le _) hsz
    (by simpa using hcap) hbud (by simpa using hb)
  simpa [live_nil] using this

theorem push_store_length (m : Mem T) (b0 b1 : buffer T) (p : Nat)
    (hp : p = m.heap.length) : (m.push b0).store p b1 = m.push b1 := by
  subst hp
  apply Mem.ext' <;> simp

theorem deref_push_length' (m : Mem T) (b : buffer T) (p : Nat) (hp : p = m.heap.length) :
    (m.push b).deref p = some b := by
  subst hp
  simp

theorem spend_push (m : Mem T) (b0 : buffer T) (n : Nat) :
    (m.push b0).spend n = (m.spend n).push b0 := by
  apply Mem.ext' <;> simp

theorem spend_store (m : Mem T) (p : Nat) (b0 : buffer T) (n : Nat) :
    (m.store p b0).spend n = (m.spend n).store p b0 := by
  apply Mem.ext' <;> simp

theorem push_free_length (m : Mem T) (b0 : buffer T) (k p : Nat) (hp : p = m.heap.length) :
    (m.push b0).free p k =
      { m with heap := m.heap ++ [none], leaked := m.leaked + k } := by
  subst hp
  apply Mem.ext' <;> simp

theorem copy_buffer_ok (S : Nat) (m : Mem T) (v : socow_vector T) (xs : List T)
    (sz cap : Nat) (h : holds S m v xs) (hsz : sz ≤ xs.length) (hcap : sz ≤ cap)
    (haff : m.affords sz) :
    copy_buffer m v sz cap =
      .ok ((m.spend sz).push ⟨cap, 1, live (xs.take sz) cap⟩, m.heap.length) := by
  obtain ⟨c, _, hraw, _⟩ := raw_data_holds S _ v xs (holds_push S m v xs ⟨cap, 1, List.replicate cap none⟩ h)
  unfold copy_buffer new_buffer
  simp only [hraw, of_some, ok_bind, deref_push_length]
  rw [uninitialized_copy_fresh _ xs c cap sz hsz hcap (by simpa [Mem.affords] using haff)]
  simp only [rethrow_ok, ok_bind, pure_eq_ok, spend_push]
  rw [push_store_length _ _ _ _ (by simp)]

/-- Memory after a buffer was allocated and released again without a leak. -/
theorem copy_buffer_throw (S : Nat) (m : Mem T) (v : socow_vector T) (xs : List T)
    (sz cap b : Nat) (h : holds S m v xs) (hsz : sz ≤ xs.length) (hcap : sz ≤ cap)
    (hbud : m.budget = some b) (hb : b < sz) :
    copy_buffer m v sz cap = .throw { m.spend b with heap := m.heap ++ [none] } := by
  obtain ⟨c, _, hraw, _⟩ := raw_data_holds S _ v xs (holds_push S m v xs ⟨cap, 1, List.replicate cap none⟩ h)
  unfold copy_buffer new_buffer
  simp only [hraw, of_some, ok_bind, deref_push_length]
  rw [uninitialized_copy_fresh_throw _ xs c cap sz b hsz hcap (by simpa using hbud) hb]
  simp only [rethrow_throw, spend_push, remove_buffer]
  rw [push_store_length _ _ _ _ (by simp), deref_push_length' _ _ _ (by simp)]
  simp only [Option.map_some', throw_bind]
  rw [push_free_length _ _ _ _ (by simp)]
  simp

/-! ## `push_back` -/

theorem delete_buffer_fresh (m : Mem T) (ys : List T) (cap rc p : Nat)
    (hp : p = m.heap.length) (hc : ys.length ≤ cap) :
    delete_buffer (m.push ⟨cap, rc, live ys cap⟩) p ys.length =
      some { m with heap := m.heap ++ [none] } := by
  unfold delete_buffer
  rw [deref_push_length' _ _ _ hp]
  simp only [Option.some_bind]
  rw [std_destroy_live ys cap 0 (Nat.zero_le _) hc]
  simp only [Option.some_bind, List.take_zero, remove_buffer]
  rw [push_store_length _ _ _ _ hp, deref_push_length' _ _ _ hp]
  simp only [Option.map_some', count_live_nil]
  rw [push_free_length _ _ _ _ hp]
  simp

theorem affords_of_budget (m : Mem T) (b n : Nat) (h : m.budget = some b) (hn : n ≤ b) :
    m.affords n := by
  intro x hx
  rw [h] at hx
  cases hx
  exact hn

theorem push_back_dynamic_ok (S : Nat) (m : Mem T) (v : socow_vector T) (xs : List T)
    (x : T) (cap : Nat) (h : holds S m v xs) (hcap : xs.length < cap)
    (haff : m.affords (xs.length + 1)) :
    push_back_dynamic m v x cap =
      .ok (((m.spend (xs.length + 1)).push ⟨cap, 1, live (xs ++ [x]) cap⟩).drop_ref v,
        { v with _small := List.replicate S none, _buffer := m.heap.length }) := by
  unfold push_back_dynamic
  rw [holds_size S m v xs h, copy_buffer_ok S m v xs _ cap h (le_refl _) (by omega)
    (affords_mono m _ _ (by omega) haff)]
  simp only [rethrow_ok, ok_bind, List.take_length]
  rw [deref_push_length' _ _ _ (by simp)]
  simp only [of_some, ok_bind]
  rw [construct_at_live _ xs cap x hcap (by
    rw [← spend_push]
    exact affords_spend _ _ _ (by simpa [Mem.affords] using haff))]
  simp only [rethrow_ok, ok_bind, spend_push, spend_spend]
  rw [push_store_length _ _ _ _ (by simp),
    destroy_holds S _ v xs (holds_push S _ v xs _ (holds_spend S m v xs _ h))]
  simp

theorem push_back_dynamic_throw (S : Nat) (m : Mem T) (v : socow_vector T) (xs : List T)
    (x : T) (cap b : Nat) (h : holds S m v xs) (hcap : xs.length < cap)
    (hbud : m.budget = some b) (hb : b ≤ xs.length) :
    push_back_dynamic m v x cap =
      .throw ({ m.spend b with heap := m.heap ++ [none] }, v) := by
  unfold push_back_dynamic
  rw [holds_size S m v xs h]
  by_cases hlt : b < xs.length
  · rw [copy_buffer_throw S m v xs _ cap b h (le_refl _) (by omega) hbud hlt]
    simp
  · have hbe : b = xs.length := by omega
    subst hbe
    rw [copy_buffer_ok S m v xs _ cap h (le_refl _) (by omega)
      (affords_of_budget m _ _ hbud (le_refl _))]
    simp only [rethrow_ok, ok_bind, List.take_length]
    rw [deref_push_length' _ _ _ (by simp)]
    simp only [of_some, ok_bind]
    rw [construct_at_live_throw _ xs cap x hcap (by simp [hbud])]
    simp only [rethrow_throw]
    rw [delete_buffer_fresh _ xs cap 1 _ (by simp) (by omega)]
    simp

/-! ## Memory after a reallocation, after an update in place, after unwinding -/

theorem deref_drop_ref_ne (m : Mem T) (v : socow_vector T) (q : Nat)
    (h : v._is_dynamic = true → q ≠ v._buffer) : (m.drop_ref v).deref q = m.deref q := by
  unfold Mem.drop_ref
  split_ifs with hd
  · exact deref_release_ne m _ q (h hd)
  · rfl

/-- A container that moved to a freshly allocated buffer holds what was put there. -/
theorem holds_realloc (S : Nat) (m : Mem T) (v v' : socow_vector T) (xs ys : List T)
    (k cap : Nat) (h : holds S m v xs) (hc : ys.length ≤ cap) (h1 : v'._size = ys.length)
    (h2 : v'._is_dynamic = true) (h3 : v'._buffer = m.heap.length)
    (h4 : v'._small = List.replicate S none) :
    holds S (((m.spend k).push ⟨cap, 1, live ys cap⟩).drop_ref v) v' ys := by
  unfold holds
  rw [h2]
  simp only [if_true]
  refine ⟨h1, h4, ⟨cap, 1, live ys cap⟩, ?_, by simp, hc, rfl⟩
  rw [h3, deref_drop_ref_ne _ v _ ?_, deref_push_length' _ _ _ (by simp)]
  intro hd
  obtain ⟨_, _, b, hb, _⟩ := holds_dynamic S m v xs h hd
  have := deref_lt m _ b hb
  omega

theorem keeps_drop_ref (m m1 : Mem T) (v : socow_vector T)
    (h1 : ∀ q b, m.deref q = some b → m1.deref q = some b) :
    frame m (m1.drop_ref v) v := by
  intro q hq b hb
  by_cases hd : v._is_dynamic = true ∧ q = v._buffer
  · have hr := hq hd.1 hd.2 b hb
    refine ⟨{ b with ref_count := b.ref_count - 1 }, ?_, rfl, rfl, fun _ => by simp; omega⟩
    unfold Mem.drop_ref
    rw [if_pos hd.1, ← hd.2]
    exact deref_release_shared _ q b (h1 q b hb) hr
  · refine ⟨b, ?_, rfl, rfl, id⟩
    rw [deref_drop_ref_ne _ v q (fun h hq => hd ⟨h, hq⟩)]
    exact h1 q b hb

theorem frame_realloc (m : Mem T) (v : socow_vector T) (k : Nat) (nb : buffer T) :
    frame m (((m.spend k).push nb).drop_ref v) v :=
  keeps_drop_ref m _ v (fun q b hb => deref_push_of_some _ nb b q (by simpa using hb))

theorem unwound_refl (m : Mem T) : m.unwound m :=
  ⟨fun _ _ => rfl, fun q hq => deref_ge m q hq, rfl⟩

theorem unwound_spend (m : Mem T) (n : Nat) : m.unwound (m.spend n) :=
  ⟨fun _ _ => rfl, fun q hq => deref_ge m q hq, rfl⟩

theorem unwound_freed (m : Mem T) (n : Nat) :
    m.unwound { m.spend n with heap := m.heap ++ [none] } := by
  refine ⟨fun q hq => ?_, fun q hq => ?_, rfl⟩
  · simp [Mem.deref, List.getElem?_append_left hq]
  · simp only [Mem.deref]
    rw [List.getElem?_append_right hq]
    by_cases h0 : q - m.heap.length = 0
    · rw [h0]; rfl
    · rw [List.getElem?_eq_none (by simp; omega)]; rfl

/-- Writing `live ys c` into the storage of a container that owns it. -/
theorem set_raw_data_holds (S : Nat) (m : Mem T) (v : socow_vector T) (xs ys : List T)
    (c : Nat) (h : holds S m v xs) (hcap : capacity S m v = some c) (hys : ys.length ≤ c) :
    ∃ m' v', set_raw_data m v (live ys c) = some (m', v') ∧
      (∀ n, holds S m' { v' with _size := n } ys ↔ n = ys.length) ∧
      v'._is_dynamic = v._is_dynamic ∧ v'._buffer = v._buffer ∧ v'._size = v._size ∧
      m'.copies = m.copies ∧ m'.budget = m.budget ∧ m'.leaked = m.leaked ∧
      m'.heap.length = m.heap.length ∧
      (∀ q, (v._is_dynamic = true → q ≠ v._buffer) → m'.deref q = m.deref q) ∧
      (v._is_dynamic = true → ∀ b, m.deref v._buffer = some b →
        m'.deref v._buffer = some { b with data := live ys c }) := by
  cases hd : v._is_dynamic with
  | false =>
    have hS : c = S := by
      simp [capacity, static_storage, dynamic_storage, hd] at hcap
      omega
    subst hS
    refine ⟨m, { v with _small := live ys c }, by simp [set_raw_data, dynamic_storage, hd],
      ?_, hd, rfl, rfl, rfl, rfl, rfl, rfl, fun _ _ => rfl, by simp⟩
    intro n
    simp [holds, hd, hys]
  | true =>
    obtain ⟨h1, h2, b, hb, hr, hc, hdat⟩ := holds_dynamic S m v xs h hd
    have hcb : c = b.capacity := by
      simp [capacity, static_storage, dynamic_storage, hd, hb] at hcap
      omega
    subst hcb
    have hlt := deref_lt m _ b hb
    refine ⟨m.store v._buffer { b with data := live ys b.capacity }, v,
      by simp [set_raw_data, dynamic_storage, hd, hb], ?_, hd, rfl, rfl, rfl, rfl, rfl,
      by simp, fun q hq => deref_store_ne m _ _ q (hq rfl), ?_⟩
    swap
    · intro _ b' hb'
      rw [hb] at hb'
      cases hb'
      exact deref_store_same m _ _ hlt
    intro n
    simp only [holds, hd, if_true, deref_store_same m _ _ hlt]
    constructor
    · intro hh; exact hh.1
    · intro hn
      exact ⟨hn, h2, _, rfl, hr, hys, rfl⟩

theorem budget_cases (m : Mem T) (n : Nat) :
    m.affords n ∨ ∃ b, m.budget = some b ∧ b < n := by
  cases hb : m.budget with
  | none => exact Or.inl (affords_of_none m n hb)
  | some b =>
    by_cases h : n ≤ b
    · exact Or.inl (affords_of_budget m b n hb h)
    · exact Or.inr ⟨b, rfl, by omega⟩

theorem shared_holds (S : Nat) (m : Mem T) (v : socow_vector T) (xs : List T)
    (h : holds S m v xs) :
    ∃ sh, dynamic_and_shared m v = some sh ∧
      (sh = true → v._is_dynamic = true ∧ ∀ b, m.deref v._buffer = some b → 2 ≤ b.ref_count) ∧
      (sh = false → v._is_dynamic = true → ∀ b, m.deref v._buffer = some b → b.ref_count = 1) := by
  cases hd : v._is_dynamic with
  | false => exact ⟨false, by simp [dynamic_and_shared, dynamic_storage, hd], by simp, by simp⟩
  | true =>
    obtain ⟨_, _, b, hb, hr, _, _⟩ := holds_dynamic S m v xs h hd
    refine ⟨!(b.ref_count == 1), by
      simp [dynamic_and_shared, shared_buffer, unique_buffer, dynamic_storage, hd, hb], ?_, ?_⟩
    · intro hsh
      refine ⟨rfl, fun b' hb' => ?_⟩
      rw [hb] at hb'
      cases hb'
      simp at hsh
      omega
    · intro hsh _ b' hb'
      rw [hb] at hb'
      cases hb'
      simpa using hsh

theorem push_back_cases (S : Nat) (m : Mem T) (v : socow_vector T) (xs : List T) (x : T)
    (h : holds S m v xs) :
    (m.affords (grow_copies S m v) ∧
      ∃ m' v', push_back S m v x = .ok (m', v') ∧ holds S m' v' (xs ++ [x]) ∧ frame m m' v) ∨
    (∃ b, m.budget = some b ∧ b < grow_copies S m v ∧
      ∃ m', push_back S m v x = .throw (m', v) ∧ m.unwound m') := by
  obtain ⟨c, hcap, hraw, hc⟩ := raw_data_holds S m v xs h
  obtain ⟨sh, hsh, hsh1, hsh2⟩ := shared_holds S m v xs h
  have hsz := holds_size S m v xs h
  unfold push_back
  simp only [hcap, of_some, ok_bind, hsz, hsh]
  have realloc : ∀ cap, xs.length < cap → grow_copies S m v = xs.length + 1 →
      (m.affords (grow_copies S m v) ∧ ∃ m' v', (do
          let r ← push_back_dynamic m v x cap
          pure (r.1, ({ r.2 with _is_dynamic := true, _size := r.2._size + 1 } : socow_vector T)))
            = .ok (m', v') ∧ holds S m' v' (xs ++ [x]) ∧ frame m m' v) ∨
      (∃ b, m.budget = some b ∧ b < grow_copies S m v ∧ ∃ m', (do
          let r ← push_back_dynamic m v x cap
          pure (r.1, ({ r.2 with _is_dynamic := true, _size := r.2._size + 1 } : socow_vector T)))
            = .throw (m', v) ∧ m.unwound m') := by
    intro cap hlt hcost
    rw [hcost]
    rcases budget_cases m (xs.length + 1) with haff | ⟨b, hb, hbl⟩
    · left
      rw [push_back_dynamic_ok S m v xs x cap h hlt haff]
      refine ⟨haff, _, _, rfl, ?_, frame_realloc m v _ _⟩
      exact holds_realloc S m v _ xs (xs ++ [x]) _ cap h (by simpa using hlt)
        (by simp [h.1]) rfl rfl rfl
    · right
      rw [push_back_dynamic_throw S m v xs x cap b h hlt hb (by omega)]
      exact ⟨b, hb, hbl, _, rfl, unwound_freed m b⟩
  by_cases hfull : c = xs.length
  · rw [if_pos hfull]
    exact realloc _ (by split_ifs <;> omega) (by simp [grow_copies, hcap, hsz, hfull])
  · rw [if_neg hfull]
    cases sh with
    | true =>
      simp only [if_true]
      have hdyn := (hsh1 rfl).1
      have hcost : grow_copies S m v = xs.length + 1 := by simp [grow_copies, hsh, hsz]
      rw [hcost]
      rcases budget_cases m (xs.length + 1) with haff | ⟨b, hb, hbl⟩
      · left
        rw [push_back_dynamic_ok S m v xs x c h (by omega) haff]
        refine ⟨haff, _, _, rfl, ?_, frame_realloc m v _ _⟩
        exact holds_realloc S m v _ xs (xs ++ [x]) _ c h (by simp; omega)
          (by simp [h.1]) (by simpa using hdyn) rfl rfl
      · right
        rw [push_back_dynamic_throw S m v xs x c b h (by omega) hb (by omega)]
        exact ⟨b, hb, hbl, _, rfl, unwound_freed m b⟩
    | false =>
      simp only [Bool.false_eq_true, if_false, hraw, of_some, ok_bind]
      have hcost : grow_copies S m v = 1 := by simp [grow_copies, hsh, hsz, hcap, hfull]
      rw [hcost]
      rcases budget_cases m 1 with haff | ⟨b, hb, hbl⟩
      · left
        refine ⟨haff, ?_⟩
        rw [construct_at_live m xs c x (by omega) haff]
        simp only [rethrow_ok, ok_bind]
        obtain ⟨m', v', hset, hholds, hdyn, hbuf, hsize, _, _, _, _, hframe, _⟩ :=
          set_raw_data_holds S (m.spend 1) v xs (xs ++ [x]) c (holds_spend S m v xs 1 h)
            (by rw [← hcap]; exact (holds_of_keeps S m _ v xs h (fun _ => keeps_spend m 1 _)).2)
            (by simp; omega)
        rw [hset]
        simp only [of_some, ok_bind, pure_eq_ok]
        refine ⟨_, _, rfl, (hholds _).2 (by simp [hsize, h.1]), ?_⟩
        intro q hq b hb
        refine ⟨b, ?_, rfl, rfl, id⟩
        rw [hframe q ?_]
        · simpa using hb
        · intro hd hqb
          have h2 := hq hd hqb b hb
          have h1 := hsh2 rfl hd b (by rw [← hqb]; exact hb)
          omega
      · right
        have hb0 : m.budget = some 0 := by rw [hb]; congr 1; omega
        rw [construct_at_live_throw m xs c x (by omega) hb0]
        simp only [rethrow_throw, throw_bind]
        exact ⟨b, hb, hbl, _, rfl, unwound_refl m⟩

theorem push_back_spec (S : Nat) (m : Mem T) (v : socow_vector T) (xs : List T) (x : T)
    (h : holds S m v xs) :
    (∃ m' v', push_back S m v x = .ok (m', v') ∧ holds S m' v' (xs ++ [x]) ∧ frame m m' v) ∨
    (∃ m', push_back S m v x = .throw (m', v) ∧ m.unwound m' ∧ m.budget ≠ none) := by
  rcases push_back_cases S m v xs x h with ⟨_, hok⟩ | ⟨b, hb, _, m', ht, hu⟩
  · exact Or.inl hok
  · exact Or.inr ⟨m', ht, hu, by simp [hb]⟩

/-! ## `become_static` and `force_ensure_ownership` -/

theorem vec_eta (v : socow_vector T) :
    ({ v with _small := v._small, _buffer := v._buffer } : socow_vector T) = v := by
  cases v; rfl

theorem become_static_ok (S : Nat) (m : Mem T) (v : socow_vector T) (xs ys : List T)
    (c k : Nat) (h : holds S m v xs) (hd : v._is_dynamic = true) (hk : k ≤ ys.length)
    (hS : k ≤ S) (haff : m.affords k) :
    become_static m v (live ys c) 0 k =
      .ok ((m.spend k).release v._buffer,
        { v with _small := live (ys.take k) S, _is_dynamic := false }) := by
  obtain ⟨h1, h2, b, hb, hr, hc, hdat⟩ := holds_dynamic S m v xs h hd
  unfold become_static copy_to_small
  rw [h2, uninitialized_copy_fresh m ys c S k hk hS haff]
  simp only [rethrow_ok, ok_bind, pure_eq_ok]
  rw [release_ref_holds (m.spend k)
    { _size := v._size, _is_dynamic := false, _buffer := v._buffer,
      _small := live (List.take k ys) S } xs v._buffer b (by simpa using hb) hr h1 hc hdat]
  simp

theorem become_static_throw (S : Nat) (m : Mem T) (v : socow_vector T) (xs ys : List T)
    (c k b : Nat) (h : holds S m v xs) (hd : v._is_dynamic = true) (hk : k ≤ ys.length)
    (hS : k ≤ S) (hbud : m.budget = some b) (hb : b < k) :
    become_static m v (live ys c) 0 k = .throw (m.spend b, v) := by
  obtain ⟨h1, h2, _⟩ := holds_dynamic S m v xs h hd
  unfold become_static copy_to_small
  rw [h2, uninitialized_copy_fresh_throw m ys c S k b hk hS hbud hb]
  simp only [rethrow_throw, throw_bind, ← h2]

theorem dynamic_data_holds (S : Nat) (m : Mem T) (v : socow_vector T) (xs : List T)
    (h : holds S m v xs) (hd : v._is_dynamic = true) :
    ∃ b, m.deref v._buffer = some b ∧ dynamic_data m v = some (live xs b.capacity) ∧
      capacity S m v = some b.capacity ∧ 0 < b.ref_count ∧ xs.length ≤ b.capacity ∧
      b.data = live xs b.capacity := by
  obtain ⟨_, _, b, hb, hr, hc, hdat⟩ := holds_dynamic S m v xs h hd
  exact ⟨b, hb, by simp [dynamic_data, dynamic_storage, hd, hb, hdat],
    by simp [capacity, static_storage, dynamic_storage, hd, hb], hr, hc, hdat⟩

theorem force_ensure_ownership_small (S : Nat) (m : Mem T) (v : socow_vector T)
    (xs : List T) (k : Nat) (h : holds S m v xs) (hd : v._is_dynamic = true)
    (hk : k ≤ xs.length) (hS : k ≤ S) (haff : m.affords k) :
    force_ensure_ownership S m v k =
      .ok ((m.spend k).release v._buffer,
        { v with _small := live (xs.take k) S, _is_dynamic := false, _size := k }) := by
  obtain ⟨b, _, hdd, _⟩ := dynamic_data_holds S m v xs h hd
  unfold force_ensure_ownership
  simp only [hS, if_true, hdd, of_some, ok_bind]
  rw [become_static_ok S m v xs xs _ k h hd hk hS haff]
  simp

theorem force_ensure_ownership_large (S : Nat) (m : Mem T) (v : socow_vector T)
    (xs : List T) (k : Nat) (h : holds S m v xs) (hd : v._is_dynamic = true)
    (hk : k ≤ xs.length) (hS : S < k) (haff : m.affords k) :
    force_ensure_ownership S m v k =
      .ok (((m.spend k).push ⟨k, 1, live (xs.take k) k⟩).release v._buffer,
        { v with _buffer := m.heap.length, _is_dynamic := true, _size := k }) := by
  obtain ⟨h1, h2, b, hb, hr, hc, hdat⟩ := holds_dynamic S m v xs h hd
  unfold force_ensure_ownership
  simp only [show ¬ k ≤ S by omega, if_false]
  rw [copy_buffer_ok S m v xs k k h hk (le_refl _) haff]
  simp only [rethrow_ok, ok_bind, release_ref_if_dynamic, release_ref_this, dynamic_storage, hd,
    if_true]
  rw [release_ref_holds _ v xs v._buffer b
    (deref_push_of_some _ _ b _ (by simpa using hb)) hr h1 hc hdat]
  simp

theorem force_ensure_ownership_throw (S : Nat) (m : Mem T) (v : socow_vector T)
    (xs : List T) (k b : Nat) (h : holds S m v xs) (hd : v._is_dynamic = true)
    (hk : k ≤ xs.length) (hbud : m.budget = some b) (hb : b < k) :
    force_ensure_ownership S m v k =
      .throw (if k ≤ S then m.spend b else { m.spend b with heap := m.heap ++ [none] }, v) := by
  obtain ⟨_, _, hdd, _⟩ := dynamic_data_holds S m v xs h hd
  unfold force_ensure_ownership
  by_cases hS : k ≤ S
  · simp only [hS, if_true, hdd, of_some, ok_bind]
    rw [become_static_throw S m v xs xs _ k b h hd hk hS hbud hb]
    simp
  · simp only [hS, if_false]
    rw [copy_buffer_throw S m v xs k k b h hk (le_refl _) hbud hb]
    simp

/-! ## `ensure_ownership` -/

theorem ensure_ownership_spec (S : Nat) (m : Mem T) (v : socow_vector T) (xs : List T)
    (k : Nat) (h : holds S m v xs) (hk : k ≤ xs.length) :
    (∃ m' v', ensure_ownership S m v k = .ok (m', v') ∧ holds S m' v' (xs.take k) ∧
      frame m m' v ∧ owns m' v' ∧ private_storage m v v') ∨
    (∃ m', ensure_ownership S m v k = .throw (m', v) ∧ m.unwound m' ∧ m.budget ≠ none) := by
  obtain ⟨c, hcap, hraw, hc⟩ := raw_data_holds S m v xs h
  have hsz := holds_size S m v xs h
  unfold ensure_ownership
  rw [hsz, if_neg (by omega)]
  cases hd : v._is_dynamic with
  | false =>
    left
    simp only [static_storage, dynamic_storage, hd, Bool.not_false, if_true, pure_eq_ok, ok_bind,
      hraw, of_some]
    rw [std_destroy_live xs c k hk hc]
    obtain ⟨m', v', hset, hholds, hdyn, _, _, _, _, _, _, hframe, _⟩ :=
      set_raw_data_holds S m v xs (xs.take k) c h hcap (by simp; omega)
    simp only [of_some, ok_bind]
    rw [hset]
    simp only [of_some, ok_bind]
    refine ⟨_, _, rfl, (hholds _).2 (by simp [hk]), ?_, ?_, ?_⟩
    · intro q _ b hb
      exact ⟨b, by rw [hframe q (by simp [hd])]; exact hb, rfl, rfl, id⟩
    · intro hx; simp [hdyn, hd] at hx
    · intro hx; simp [hdyn, hd] at hx
  | true =>
    obtain ⟨h1, h2, b, hb, hr, hcb, hdat⟩ := holds_dynamic S m v xs h hd
    simp only [static_storage, dynamic_storage, hd, Bool.not_true, Bool.false_eq_true, if_false,
      unique_buffer, if_true, hb, Option.map_some', of_some, ok_bind]
    by_cases hu : b.ref_count = 1
    · left
      simp only [hu, beq_self_eq_true, if_true, hraw, of_some, ok_bind]
      rw [std_destroy_live xs c k hk hc]
      obtain ⟨m', v', hset, hholds, hdyn, hbuf, _, _, _, _, _, hframe, hown⟩ :=
        set_raw_data_holds S m v xs (xs.take k) c h hcap (by simp; omega)
      simp only [of_some, ok_bind]
      rw [hset]
      simp only [of_some, ok_bind]
      have hh := (hholds k).2 (by simp [hk])
      refine ⟨_, _, rfl, hh, ?_, ?_, ?_⟩
      · intro q hq b' hb'
        refine ⟨b', ?_, rfl, rfl, id⟩
        rw [hframe q ?_]
        · exact hb'
        · intro _ hqb
          have := hq hd hqb b' hb'
          rw [hqb, hb] at hb'
          cases hb'
          omega
      · intro _
        exact ⟨{ b with data := live (xs.take k) c }, by simpa [hbuf] using hown hd b hb, hu⟩
      · intro _
        right
        refine ⟨hd, by simpa using hbuf, fun b' hb' => ?_⟩
        rw [hb] at hb'; cases hb'; exact hu
    · have hne : (b.ref_count == 1) = false := by simpa using hu
      simp only [hne, Bool.false_eq_true, if_false]
      rcases budget_cases m k with haff | ⟨bb, hbb, hbl⟩
      · left
        by_cases hS : k ≤ S
        · rw [force_ensure_ownership_small S m v xs k h hd hk hS haff]
          refine ⟨_, _, rfl, ?_, ?_, ?_, ?_⟩
          · simp [holds, hk]; omega
          · exact keeps_drop_ref m (m.spend k) v (fun q b hb => by simpa using hb) |> fun f => by
              simpa [Mem.drop_ref, hd] using f
          · intro hx; simp at hx
          · intro hx; simp at hx
        · rw [force_ensure_ownership_large S m v xs k h hd hk (by omega) haff]
          have hf := frame_realloc m v k ⟨k, 1, live (xs.take k) k⟩
          have hh := holds_realloc S m v
            { v with _buffer := m.heap.length, _is_dynamic := true, _size := k }
            xs (xs.take k) k k h (by simp) (by simp [hk]) rfl rfl h2
          simp only [Mem.drop_ref, hd, if_true] at hf hh
          refine ⟨_, _, rfl, hh, hf, ?_, ?_⟩
          · intro _
            refine ⟨⟨k, 1, live (xs.take k) k⟩, ?_, rfl⟩
            simp only
            rw [deref_release_ne _ _ _ (by have := deref_lt m _ b hb; omega)]
            exact deref_push_length' _ _ _ (by simp)
          · intro _; left; exact le_refl _
      · right
        rw [force_ensure_ownership_throw S m v xs k bb h hd hk hbb hbl]
        refine ⟨_, rfl, ?_, by simp [hbb]⟩
        split_ifs
        · exact unwound_spend m bb
        · exact unwound_freed m bb

/-! ## Writing through the non-const accessors -/

theorem live_set (xs : List T) (c i : Nat) (x : T) (h : i < xs.length) :
    (live xs c).set i (some x) = live (xs.set i x) c := by
  unfold live
  rw [List.set_append, if_pos (by simpa using h)]
  simp [List.map_set]

theorem vec_size_eta (v : socow_vector T) :
    ({ v with _size := v._size } : socow_vector T) = v := by
  cases v; rfl

theorem index_write_spec (S : Nat) (m : Mem T) (v : socow_vector T) (xs : List T)
    (i : Nat) (x : T) (h : holds S m v xs) (hi : i < xs.length) :
    (∃ m' v', index_write S m v i x = .ok (m', v') ∧ holds S m' v' (xs.set i x) ∧
      frame m m' v ∧ owns m' v' ∧ private_storage m v v') ∨
    (∃ m', index_write S m v i x = .throw (m', v) ∧ m.unwound m' ∧ m.budget ≠ none) := by
  unfold index_write data
  rw [holds_size S m v xs h]
  rcases ensure_ownership_spec S m v xs xs.length h (le_refl _) with
    ⟨m1, v1, hok, hh, hf, ho, hp⟩ | ⟨m1, ht, hu, hb⟩
  · left
    rw [List.take_length] at hh
    rw [hok]
    simp only [ok_bind]
    obtain ⟨c, hcap, hraw, hc⟩ := raw_data_holds S m1 v1 xs hh
    unfold assign_elem
    obtain ⟨y, hy⟩ := live_alive xs c i hi
    simp only [hraw, Option.some_bind, hy]
    rw [live_set xs c i x hi]
    obtain ⟨m2, v2, hset, hholds, hdyn, hbuf, hsize, _, _, _, _, hframe, hown⟩ :=
      set_raw_data_holds S m1 v1 xs (xs.set i x) c hh hcap (by simpa using hc)
    rw [hset]
    simp only [of_some]
    have hh2 := (hholds v2._size).2 (by rw [hsize, hh.1]; simp)
    rw [vec_size_eta] at hh2
    refine ⟨_, _, rfl, hh2, ?_, ?_, ?_⟩
    · intro q hq b hb
      obtain ⟨b1, hb1, hc1, hd1, hr1⟩ := hf q hq b hb
      refine ⟨b1, ?_, hc1, hd1, hr1⟩
      rw [hframe q ?_]
      · exact hb1
      · intro hd1 hqe
        rcases hp hd1 with hge | ⟨hvd, hvb, hvu⟩
        · have := deref_lt m q b hb
          omega
        · have h2 := hq hvd (by rw [hqe, hvb]) b hb
          have h1 := hvu b (by rw [← hvb, ← hqe]; exact hb)
          omega
    · intro hd2
      rw [hdyn] at hd2
      obtain ⟨b1, hb1, hr1⟩ := ho hd2
      exact ⟨{ b1 with data := live (xs.set i x) c }, by rw [hbuf]; exact hown hd2 b1 hb1, hr1⟩
    · intro hd2
      rw [hdyn] at hd2
      rw [hbuf]
      exact hp hd2
  · right
    rw [ht]
    exact ⟨m1, rfl, hu, hb⟩

/-! ## `shrink_to_fit` and `reserve` -/

theorem frame_release (m : Mem T) (v : socow_vector T) (k : Nat)
    (hd : v._is_dynamic = true) : frame m ((m.spend k).release v._buffer) v := by
  have := keeps_drop_ref m (m.spend k) v (fun q b hb => by simpa using hb)
  simpa [Mem.drop_ref, hd] using this

theorem force_ensure_ownership_spec (S : Nat) (m : Mem T) (v : socow_vector T)
    (xs : List T) (k : Nat) (h : holds S m v xs) (hd : v._is_dynamic = true)
    (hk : k ≤ xs.length) :
    (∃ m' v', force_ensure_ownership S m v k = .ok (m', v') ∧ holds S m' v' (xs.take k) ∧
      frame m m' v ∧ owns m' v' ∧ (v'._is_dynamic = true → v'._buffer = m.heap.length)) ∨
    (∃ m', force_ensure_ownership S m v k = .throw (m', v) ∧ m.unwound m' ∧
      m.budget ≠ none) := by
  obtain ⟨h1, h2, b, hb, hr, hcb, hdat⟩ := holds_dynamic S m v xs h hd
  rcases budget_cases m k with haff | ⟨bb, hbb, hbl⟩
  · left
    by_cases hS : k ≤ S
    · rw [force_ensure_ownership_small S m v xs k h hd hk hS haff]
      refine ⟨_, _, rfl, ?_, frame_release m v k hd, ?_, ?_⟩
      · simp [holds, hk]; omega
      · intro hx; simp at hx
      · intro hx; simp at hx
    · rw [force_ensure_ownership_large S m v xs k h hd hk (by omega) haff]
      have hf := frame_realloc m v k ⟨k, 1, live (xs.take k) k⟩
      have hh := holds_realloc S m v
        { v with _buffer := m.heap.length, _is_dynamic := true, _size := k }
        xs (xs.take k) k k h (by simp) (by simp [hk]) rfl rfl h2
      simp only [Mem.drop_ref, hd, if_true] at hf hh
      refine ⟨_, _, rfl, hh, hf, ?_, fun _ => rfl⟩
      intro _
      refine ⟨⟨k, 1, live (xs.take k) k⟩, ?_, rfl⟩
      simp only
      rw [deref_release_ne _ _ _ (by have := deref_lt m _ b hb; omega)]
      exact deref_push_length' _ _ _ (by simp)
  · right
    rw [force_ensure_ownership_throw S m v xs k bb h hd hk hbb hbl]
    refine ⟨_, rfl, ?_, by simp [hbb]⟩
    split_ifs
    · exact unwound_spend m bb
    · exact unwound_freed m bb

theorem frame_refl (m : Mem T) (v : socow_vector T) : frame m m v :=
  fun q _ => keeps_refl m q

theorem shrink_to_fit_spec (S : Nat) (m : Mem T) (v : socow_vector T) (xs : List T)
    (h : holds S m v xs) :
    (∃ m' v', shrink_to_fit S m v = .ok (m', v') ∧ holds S m' v' xs ∧ frame m m' v) ∨
    (∃ m', shrink_to_fit S m v = .throw (m', v) ∧ m.unwound m' ∧ m.budget ≠ none) := by
  unfold shrink_to_fit
  cases hd : v._is_dynamic with
  | false =>
    left
    simp only [static_storage, dynamic_storage, hd, Bool.not_false, if_true, pure_eq_ok]
    exact ⟨m, v, rfl, h, frame_refl m v⟩
  | true =>
    obtain ⟨c, hcap, _, _⟩ := raw_data_holds S m v xs h
    simp only [static_storage, dynamic_storage, hd, Bool.not_true, Bool.false_eq_true, if_false,
      hcap, of_some, ok_bind, pure_eq_ok]
    split_ifs
    · left; exact ⟨m, v, rfl, h, frame_refl m v⟩
    · rw [holds_size S m v xs h]
      rcases force_ensure_ownership_spec S m v xs xs.length h hd (le_refl _) with
        ⟨m', v', hok, hh, hf, _, _⟩ | ⟨m', ht, hu, hb⟩
      · left
        rw [List.take_length] at hh
        exact ⟨m', v', hok, hh, hf⟩
      · right
        exact ⟨m', ht, hu, hb⟩

theorem reserve_spec (S : Nat) (m : Mem T) (v : socow_vector T) (xs : List T) (n : Nat)
    (h : holds S m v xs) :
    (∃ m' v', reserve S m v n = .ok (m', v') ∧ holds S m' v' xs ∧ frame m m' v) ∨
    (∃ m', reserve S m v n = .throw (m', v) ∧ m.unwound m' ∧ m.budget ≠ none) := by
  obtain ⟨c, hcap, hraw, hc⟩ := raw_data_holds S m v xs h
  obtain ⟨sh, hsh, hsh1, hsh2⟩ := shared_holds S m v xs h
  have hsz := holds_size S m v xs h
  unfold reserve
  rw [hsz]
  by_cases hn : n < xs.length
  · left
    simp only [hn, if_true, pure_eq_ok]
    exact ⟨m, v, rfl, h, frame_refl m v⟩
  · simp only [hn, if_false, hsh, of_some, ok_bind]
    by_cases hst : (sh && decide (n ≤ S)) = true
    · simp only [hst, if_true]
      simp only [Bool.and_eq_true, decide_eq_true_eq] at hst
      have hd := (hsh1 hst.1).1
      obtain ⟨b, _, hdd, _⟩ := dynamic_data_holds S m v xs h hd
      simp only [hdd, of_some, ok_bind]
      rcases budget_cases m xs.length with haff | ⟨bb, hbb, hbl⟩
      · left
        rw [become_static_ok S m v xs xs _ _ h hd (le_refl _) (by omega) haff]
        refine ⟨_, _, rfl, ?_, frame_release m v _ hd⟩
        simp [holds, h.1]; omega
      · right
        rw [become_static_throw S m v xs xs _ _ bb h hd (le_refl _) (by omega) hbb hbl]
        exact ⟨_, rfl, unwound_spend m bb, by simp [hbb]⟩
    · simp only [hst, Bool.false_eq_true, if_false]
      have hre :
          (∃ m' v', (do
              let r ← (copy_buffer m v xs.length n).rethrow fun e => some (e, v)
              let d ← Res.of (destroy r.1 v)
              pure (d.1, ({ d.2 with _is_dynamic := true, _buffer := r.2 } : socow_vector T)))
                = Res.ok (m', v') ∧ holds S m' v' xs ∧ frame m m' v) ∨
          (∃ m', (do
              let r ← (copy_buffer m v xs.length n).rethrow fun e => some (e, v)
              let d ← Res.of (destroy r.1 v)
              pure (d.1, ({ d.2 with _is_dynamic := true, _buffer := r.2 } : socow_vector T)))
                = Res.throw (m', v) ∧ m.unwound m' ∧ m.budget ≠ none) := by
        rcases budget_cases m xs.length with haff | ⟨bb, hbb, hbl⟩
        · left
          rw [copy_buffer_ok S m v xs _ n h (le_refl _) (by omega) haff]
          simp only [rethrow_ok, ok_bind, List.take_length]
          rw [destroy_holds S _ v xs (holds_push S _ v xs _ (holds_spend S m v xs _ h))]
          simp only [of_some, ok_bind, pure_eq_ok]
          refine ⟨_, _, rfl, ?_, frame_realloc m v _ _⟩
          exact holds_realloc S m v _ xs xs _ n h (by omega) h.1 rfl rfl rfl
        · right
          rw [copy_buffer_throw S m v xs _ n bb h (le_refl _) (by omega) hbb hbl]
          simp only [rethrow_throw, throw_bind]
          exact ⟨_, rfl, unwound_freed m bb, by simp [hbb]⟩
      cases sh with
      | true =>
        simp only [if_true, pure_eq_ok, ok_bind]
        exact hre
      | false =>
        simp only [Bool.false_eq_true, if_false, hcap, of_some, res_bind_ok, pure_eq_ok, ok_bind]
        by_cases hg : c < n
        · simp only [hg, decide_True, if_true]
          exact hre
        · left
          simp only [hg, decide_False, Bool.false_eq_true, if_false]
          exact ⟨m, v, rfl, h, frame_refl m v⟩

/-! ## `insert` -/

theorem length_take_le (xs : List T) (k : Nat) (h : k ≤ xs.length) :
    (xs.take k).length = k := by
  simp [h]

theorem insert_dynamic_ok (S : Nat) (m : Mem T) (v : socow_vector T) (xs : List T)
    (dist : Nat) (x : T) (cap : Nat) (h : holds S m v xs) (hdist : dist ≤ xs.length)
    (hcap : xs.length < cap) (haff : m.affords (xs.length + 1)) :
    insert_dynamic m v dist x cap =
      .ok (((m.spend (xs.length + 1)).push
          ⟨cap, 1, live (xs.take dist ++ x :: xs.drop dist) cap⟩).drop_ref v,
        { v with _small := List.replicate S none, _buffer := m.heap.length }) := by
  obtain ⟨c, _, hraw, _⟩ :=
    raw_data_holds S _ v xs (holds_push S m v xs ⟨cap, 1, List.replicate cap none⟩ h)
  have hlen := length_take_le xs dist hdist
  unfold insert_dynamic new_buffer
  simp only [hraw, of_some, ok_bind, deref_push_length]
  rw [uninitialized_copy_fresh _ xs c cap dist hdist (by omega)
    (by simpa [Mem.affords] using affords_mono m dist _ (by omega) haff)]
  simp only [rethrow_ok, ok_bind]
  have hc2 := construct_at_live ((m.push ⟨cap, 1, List.replicate cap none⟩).spend dist)
    (xs.take dist) cap x (by omega) (by
      rw [spend_push]
      have := affords_spend m dist 1 (affords_mono m _ _ (by omega) haff)
      simpa [Mem.affords] using this)
  rw [hlen] at hc2
  rw [hc2]
  simp only [rethrow_ok, ok_bind, spend_spend, holds_size S m v xs h]
  have hc3 := uninitialized_copy_live ((m.push ⟨cap, 1, List.replicate cap none⟩).spend (dist + 1))
    xs (xs.take dist ++ [x]) c cap dist xs.length hdist (le_refl _)
    (by simp [hlen]; omega) (by
      rw [spend_push]
      have := affords_spend m (dist + 1) (xs.length - dist)
        (affords_mono m _ _ (by omega) haff)
      simpa [Mem.affords] using this)
  simp only [List.length_append, hlen, List.length_singleton] at hc3
  rw [hc3]
  simp only [rethrow_ok, ok_bind, spend_spend, spend_push]
  rw [push_store_length _ _ _ _ (by simp),
    destroy_holds S _ v xs (holds_push S _ v xs _ (holds_spend S m v xs _ h))]
  simp only [of_some, ok_bind, pure_eq_ok]
  have e1 : dist + 1 + (xs.length - dist) = xs.length + 1 := by omega
  have e2 : List.take (xs.length - dist) (List.drop dist xs) = List.drop dist xs := by
    rw [List.take_of_length_le (by simp)]
  simp [e1, e2]

theorem insert_dynamic_throw (S : Nat) (m : Mem T) (v : socow_vector T) (xs : List T)
    (dist : Nat) (x : T) (cap b : Nat) (h : holds S m v xs) (hdist : dist ≤ xs.length)
    (hcap : xs.length < cap) (hbud : m.budget = some b) (hb : b ≤ xs.length) :
    insert_dynamic m v dist x cap =
      .throw ({ m.spend b with heap := m.heap ++ [none] }, v) := by
  obtain ⟨c, _, hraw, _⟩ :=
    raw_data_holds S _ v xs (holds_push S m v xs ⟨cap, 1, List.replicate cap none⟩ h)
  have hlen := length_take_le xs dist hdist
  unfold insert_dynamic new_buffer
  simp only [hraw, of_some, ok_bind, deref_push_length]
  by_cases hA : b < dist
  · rw [uninitialized_copy_fresh_throw _ xs c cap dist b hdist (by omega)
      (by simpa using hbud) hA]
    simp only [rethrow_throw, spend_push]
    rw [push_store_length _ _ _ _ (by simp), ← live_nil]
    have := delete_buffer_fresh (m.spend b) ([] : List T) cap 1 m.heap.length (by simp)
      (by simp)
    simp only [List.length_nil] at this
    rw [this]
    simp
  · rw [uninitialized_copy_fresh _ xs c cap dist hdist (by omega)
      (by simpa [Mem.affords] using affords_of_budget m b dist hbud (by omega))]
    simp only [rethrow_ok, ok_bind]
    by_cases hB : b = dist
    · have hc2 := construct_at_live_throw
        ((m.push ⟨cap, 1, List.replicate cap none⟩).spend dist)
        (xs.take dist) cap x (by omega) (by simp [hbud, hB])
      rw [hlen] at hc2
      rw [hc2]
      simp only [rethrow_throw, spend_push]
      rw [push_store_length _ _ _ _ (by simp)]
      have := delete_buffer_fresh (m.spend dist) (xs.take dist) cap 1 m.heap.length (by simp)
        (by omega)
      rw [hlen] at this
      rw [this, hB]
      simp
    · have hc2 := construct_at_live ((m.push ⟨cap, 1, List.replicate cap none⟩).spend dist)
        (xs.take dist) cap x (by omega) (by
          rw [spend_push]
          have := affords_spend m dist 1 (affords_of_budget m b _ hbud (by omega))
          simpa [Mem.affords] using this)
      rw [hlen] at hc2
      rw [hc2]
      simp only [rethrow_ok, ok_bind, spend_spend, holds_size S m v xs h]
      have hc3 := uninitialized_copy_live_throw
        ((m.push ⟨cap, 1, List.replicate cap none⟩).spend (dist + 1))
        xs (xs.take dist ++ [x]) c cap dist xs.length (b - (dist + 1)) hdist (le_refl _)
        (by simp [hlen]; omega) (by simp [hbud]) (by omega)
      simp only [List.length_append, hlen, List.length_singleton] at hc3
      rw [hc3]
      simp only [rethrow_throw, spend_push, spend_spend]
      rw [push_store_length _ _ _ _ (by simp)]
      have := delete_buffer_fresh (m.spend (dist + 1 + (b - (dist + 1))))
        (xs.take dist ++ [x]) cap 1 m.heap.length (by simp) (by simp [hlen]; omega)
      simp only [List.length_append, hlen, List.length_singleton] at this
      rw [this]
      have e : dist + 1 + (b - (dist + 1)) = b := by omega
      simp [e]

theorem std_swap_adjacent (A B : Slots T) (p q : T) :
    std_swap (A ++ some p :: some q :: B) (A.length + 1) A.length =
      some (A ++ some q :: some p :: B) := by
  unfold std_swap
  have h1 : (A ++ some p :: some q :: B)[A.length + 1]? = some (some q) := by
    rw [List.getElem?_append_right (by omega)]
    simp
  have h2 : (A ++ some p :: some q :: B)[A.length]? = some (some p) := by
    rw [List.getElem?_append_right (by omega)]
    simp
  rw [h1, h2]
  simp only [Option.some.injEq]
  rw [List.set_append, if_neg (by omega), List.set_append, if_neg (by omega)]
  simp

theorem in_place_insert_loop_live (x : T) (cap dist : Nat) :
    ∀ (it : Nat) (pre post : List T), pre.length = it → dist ≤ it →
      in_place_insert_loop dist it (live (pre ++ x :: post) cap) =
        some (live (pre.take dist ++ x :: (pre.drop dist ++ post)) cap) := by
  intro it
  induction it with
  | zero =>
    intro pre post hpre hd
    have : pre = [] := List.length_eq_zero.1 hpre
    subst this
    have : dist = 0 := by omega
    subst this
    simp [in_place_insert_loop]
  | succ it ih =>
    intro pre post hpre hd
    unfold in_place_insert_loop
    by_cases he : it + 1 = dist
    · rw [if_pos he]
      rw [List.take_of_length_le (by omega), List.drop_eq_nil_of_le (by omega)]
      simp
    · rw [if_neg he]
      have hne : pre ≠ [] := by
        intro hnil; rw [hnil] at hpre; simp at hpre
      obtain ⟨pre', p, rfl⟩ : ∃ pre' p, pre = pre' ++ [p] :=
        ⟨pre.dropLast, pre.getLast hne, (List.dropLast_append_getLast hne).symm⟩
      have hl : pre'.length = it := by simpa using hpre
      have e1 : live (pre' ++ [p] ++ x :: post) cap =
          pre'.map some ++ some p :: some x ::
            (post.map some ++ List.replicate (cap - (pre' ++ [p] ++ x :: post).length) none) := by
        simp [live]
      have := std_swap_adjacent (pre'.map some)
        (post.map some ++ List.replicate (cap - (pre' ++ [p] ++ x :: post).length) none) p x
      rw [List.length_map, hl] at this
      rw [e1, this]
      simp only [Option.some_bind]
      have e2 : pre'.map some ++ some x :: some p ::
            (post.map some ++ List.replicate (cap - (pre' ++ [p] ++ x :: post).length) none) =
          live (pre' ++ x :: (p :: post)) cap := by
        simp [live]
      rw [e2, ih pre' (p :: post) hl (by omega)]
      rw [List.take_append_of_le_length (by omega), List.drop_append_of_le_length (by omega)]
      simp

theorem insert_cases (S : Nat) (m : Mem T) (v : socow_vector T) (xs : List T) (k : Nat)
    (x : T) (h : holds S m v xs) (hk : k ≤ xs.length) :
    (m.affords (grow_copies S m v) ∧ ∃ m' v', insert S m v k x = .ok (m', v', k) ∧
      holds S m' v' (xs.take k ++ x :: xs.drop k) ∧ frame m m' v) ∨
    (∃ b, m.budget = some b ∧ b < grow_copies S m v ∧
      ∃ m', insert S m v k x = .throw (m', v) ∧ m.unwound m') := by
  obtain ⟨c, hcap, hraw, hc⟩ := raw_data_holds S m v xs h
  obtain ⟨sh, hsh, hsh1, hsh2⟩ := shared_holds S m v xs h
  have hsz := holds_size S m v xs h
  have hlen : (xs.take k ++ x :: xs.drop k).length = xs.length + 1 := by
    simp; omega
  have realloc : ∀ cap, xs.length < cap → grow_copies S m v = xs.length + 1 →
      (m.affords (grow_copies S m v) ∧ ∃ m' v', (do
          let r ← insert_dynamic m v k x cap
          pure (r.1, ({ r.2 with _is_dynamic := true, _size := r.2._size + 1 } : socow_vector T), k))
            = .ok (m', v', k) ∧ holds S m' v' (xs.take k ++ x :: xs.drop k) ∧ frame m m' v) ∨
      (∃ b, m.budget = some b ∧ b < grow_copies S m v ∧ ∃ m', (do
          let r ← insert_dynamic m v k x cap
          pure (r.1, ({ r.2 with _is_dynamic := true, _size := r.2._size + 1 } : socow_vector T), k))
            = .throw (m', v) ∧ m.unwound m') := by
    intro cap hlt hcost
    rw [hcost]
    rcases budget_cases m (xs.length + 1) with haff | ⟨b, hb, hbl⟩
    · left
      rw [insert_dynamic_ok S m v xs k x cap h hk hlt haff]
      refine ⟨haff, _, _, rfl, ?_, frame_realloc m v _ _⟩
      exact holds_realloc S m v _ xs _ _ cap h (by rw [hlen]; omega)
        (by simp [h.1]; omega) rfl rfl rfl
    · right
      rw [insert_dynamic_throw S m v xs k x cap b h hk hlt hb (by omega)]
      exact ⟨b, hb, hbl, _, rfl, unwound_freed m b⟩
  unfold insert
  simp only [hcap, of_some, ok_bind, hsz, hsh]
  by_cases hfull : c = xs.length
  · rw [if_pos hfull]
    exact realloc _ (by split_ifs <;> omega) (by simp [grow_copies, hcap, hsz, hfull])
  · rw [if_neg hfull]
    cases sh with
    | true =>
      simp only [if_true]
      have hdyn := (hsh1 rfl).1
      have hcost : grow_copies S m v = xs.length + 1 := by simp [grow_copies, hsh, hsz]
      rw [hcost]
      rcases budget_cases m (xs.length + 1) with haff | ⟨b, hb, hbl⟩
      · left
        rw [insert_dynamic_ok S m v xs k x c h hk (by omega) haff]
        refine ⟨haff, _, _, rfl, ?_, frame_realloc m v _ _⟩
        exact holds_realloc S m v _ xs _ _ c h (by rw [hlen]; omega)
          (by simp [h.1]; omega) (by simpa using hdyn) rfl rfl
      · right
        rw [insert_dynamic_throw S m v xs k x c b h hk (by omega) hb (by omega)]
        exact ⟨b, hb, hbl, _, rfl, unwound_freed m b⟩
    | false =>
      simp only [Bool.false_eq_true, if_false]
      unfold in_place_insert
      simp only [hraw, of_some, ok_bind, hsz]
      have hcost : grow_copies S m v = 1 := by simp [grow_copies, hsh, hsz, hcap, hfull]
      rw [hcost]
      rcases budget_cases m 1 with haff | ⟨b, hb, hbl⟩
      · left
        refine ⟨haff, ?_⟩
        rw [construct_at_live m xs c x (by omega) haff]
        simp only [rethrow_ok, ok_bind]
        rw [in_place_insert_loop_live x c k xs.length xs [] rfl hk]
        simp only [of_some, ok_bind, List.append_nil]
        obtain ⟨m', v', hset, hholds, hdyn, hbuf, hsize, _, _, _, _, hframe, _⟩ :=
          set_raw_data_holds S (m.spend 1) v xs (xs.take k ++ x :: xs.drop k) c
            (holds_spend S m v xs 1 h)
            (by rw [← hcap]; exact (holds_of_keeps S m _ v xs h (fun _ => keeps_spend m 1 _)).2)
            (by rw [hlen]; omega)
        rw [hset]
        simp only [of_some, ok_bind, pure_eq_ok]
        refine ⟨_, _, rfl, (hholds _).2 (by rw [hlen, hsize, h.1]), ?_⟩
        intro q hq b hb
        refine ⟨b, ?_, rfl, rfl, id⟩
        rw [hframe q ?_]
        · simpa using hb
        · intro hd hqb
          have h2 := hq hd hqb b hb
          have h1 := hsh2 rfl hd b (by rw [← hqb]; exact hb)
          omega
      · right
        have hb0 : m.budget = some 0 := by rw [hb]; congr 1; omega
        rw [construct_at_live_throw m xs c x (by omega) hb0]
        simp only [rethrow_throw, throw_bind]
        exact ⟨b, hb, hbl, _, rfl, unwound_refl m⟩

theorem insert_spec (S : Nat) (m : Mem T) (v : socow_vector T) (xs : List T) (k : Nat)
    (x : T) (h : holds S m v xs) (hk : k ≤ xs.length) :
    (∃ m' v', insert S m v k x = .ok (m', v', k) ∧
      holds S m' v' (xs.take k ++ x :: xs.drop k) ∧ frame m m' v) ∨
    (∃ m', insert S m v k x = .throw (m', v) ∧ m.unwound m' ∧ m.budget ≠ none) := by
  rcases insert_cases S m v xs k x h hk with ⟨_, hok⟩ | ⟨b, hb, _, m', ht, hu⟩
  · exact Or.inl hok
  · exact Or.inr ⟨m', ht, hu, by simp [hb]⟩


/-! ## `erase` -/

theorem std_swap_gap (A M B : Slots T) (w r : T) :
    std_swap (A ++ some w :: (M ++ some r :: B)) A.length (A.length + (M.length + 1)) =
      some (A ++ some r :: (M ++ some w :: B)) := by
  unfold std_swap
  have h1 : (A ++ some w :: (M ++ some r :: B))[A.length]? = some (some w) := by
    rw [List.getElem?_append_right (by omega)]
    simp
  have h2 : (A ++ some w :: (M ++ some r :: B))[A.length + (M.length + 1)]? =
      some (some r) := by
    rw [List.getElem?_append_right (by omega)]
    have : A.length + (M.length + 1) - A.length = M.length + 1 := by omega
    rw [this, List.getElem?_cons_succ, List.getElem?_append_right (by omega)]
    simp
  rw [h1, h2]
  simp only [Option.some.injEq]
  rw [List.set_append, if_neg (by omega), Nat.sub_self, List.set_cons_zero,
    List.set_append, if_neg (by omega)]
  have : A.length + (M.length + 1) - A.length = M.length + 1 := by omega
  rw [this, List.set_cons_succ, List.set_append, if_neg (by omega)]
  simp

theorem in_place_erase_loop_live (len cap : Nat) (hlen : 0 < len) :
    ∀ (n : Nat) (done mid rest : List T), mid.length = len → n ≤ rest.length →
      ∃ mid', mid'.length = len ∧
        in_place_erase_loop len n done.length (live (done ++ mid ++ rest) cap) =
          some (live (done ++ rest.take n ++ mid' ++ rest.drop n) cap) := by
  intro n
  induction n with
  | zero =>
    intro done mid rest hmid _
    exact ⟨mid, hmid, by simp [in_place_erase_loop]⟩
  | succ n ih =>
    intro done mid rest hmid hn
    cases rest with
    | nil => simp at hn
    | cons r rest' =>
      cases mid with
      | nil => simp at hmid; omega
      | cons w M =>
        have hM : M.length + 1 = len := by simpa using hmid
        obtain ⟨mid', hmid', hrec⟩ := ih (done ++ [r]) (M ++ [w]) rest' (by simp [hM])
          (by simpa using hn)
        refine ⟨mid', hmid', ?_⟩
        unfold in_place_erase_loop
        have e1 : live (done ++ w :: M ++ r :: rest') cap =
            done.map some ++ some w :: (M.map some ++ some r ::
              (rest'.map some ++
                List.replicate (cap - (done ++ w :: M ++ r :: rest').length) none)) := by
          simp [live]
        have hsw := std_swap_gap (done.map some) (M.map some)
          (rest'.map some ++
            List.replicate (cap - (done ++ w :: M ++ r :: rest').length) none) w r
        simp only [List.length_map, hM] at hsw
        rw [e1, hsw]
        simp only [Option.some_bind]
        have e2 : done.map some ++ some r :: (M.map some ++ some w ::
              (rest'.map some ++
                List.replicate (cap - (done ++ w :: M ++ r :: rest').length) none)) =
            live (done ++ [r] ++ (M ++ [w]) ++ rest') cap := by
          simp [live]
        have e3 : (done ++ [r]).length = done.length + 1 := by simp
        rw [e2, ← e3, hrec]
        simp

theorem remove_ref_shared (m : Mem T) (p : Nat) (b : buffer T) (hb : m.deref p = some b)
    (hr : 2 ≤ b.ref_count) : remove_ref m p = some (m.release p) := by
  unfold remove_ref Mem.release
  rw [hb]
  simp only [Option.some_bind]
  rw [if_pos (by omega), if_neg (by omega)]

theorem std_destroy_nothing (s : Slots T) : std_destroy s 0 0 = some s := by
  simp [std_destroy, clear_range]

theorem in_place_erase_holds (S : Nat) (m : Mem T) (v : socow_vector T) (xs : List T)
    (f l : Nat) (h : holds S m v xs) (hfl : f < l) (hl : l ≤ xs.length) :
    ∃ m' v', in_place_erase m v f l = some (m', v') ∧
      holds S m' v' (xs.take f ++ xs.drop l) ∧
      (∀ q, (v._is_dynamic = true → q ≠ v._buffer) → m'.deref q = m.deref q) := by
  obtain ⟨c, hcap, hraw, hc⟩ := raw_data_holds S m v xs h
  have hsz := holds_size S m v xs h
  unfold in_place_erase
  simp only [hsz]
  rw [if_neg (by omega), if_neg (by omega), hraw]
  simp only [Option.some_bind]
  have hx : xs = xs.take f ++ (xs.drop f).take (l - f) ++ xs.drop l := by
    have h1 : (xs.drop f).take (l - f) ++ xs.drop l = xs.drop f := by
      have := List.take_append_drop (l - f) (xs.drop f)
      rw [List.drop_drop] at this
      rw [show f + (l - f) = l by omega] at this
      exact this
    rw [List.append_assoc, h1, List.take_append_drop]
  obtain ⟨mid', hmid', hloop⟩ := in_place_erase_loop_live (l - f) c (by omega)
    (xs.length - (l - f) - f) (xs.take f) ((xs.drop f).take (l - f)) (xs.drop l)
    (by simp; omega) (by simp; omega)
  rw [← hx, length_take_le xs f (by omega)] at hloop
  rw [hloop]
  simp only [Option.some_bind]
  have ht1 : List.take (xs.length - (l - f) - f) (List.drop l xs) = List.drop l xs :=
    List.take_of_length_le (by simp; omega)
  have ht2 : List.drop (xs.length - (l - f) - f) (List.drop l xs) = [] :=
    List.drop_eq_nil_of_le (by simp; omega)
  rw [ht1, ht2, List.append_nil]
  have hlen2 : (xs.take f ++ xs.drop l ++ mid').length = xs.length := by
    simp [hmid']; omega
  have hd := std_destroy_live (xs.take f ++ xs.drop l ++ mid') c (xs.length - (l - f))
    (by rw [hlen2]; omega) (by rw [hlen2]; exact hc)
  rw [hlen2] at hd
  rw [hd]
  simp only [Option.some_bind]
  have ht : (xs.take f ++ xs.drop l ++ mid').take (xs.length - (l - f)) =
      xs.take f ++ xs.drop l := by
    rw [List.take_append_of_le_length (by simp; omega), List.take_of_length_le (by simp; omega)]
  rw [ht]
  obtain ⟨m', v', hset, hholds, _, _, hsize, _, _, _, _, hframe, _⟩ :=
    set_raw_data_holds S m v xs (xs.take f ++ xs.drop l) c h hcap (by simp; omega)
  rw [hset]
  simp only [Option.map_some']
  exact ⟨_, _, rfl, (hholds _).2 (by rw [hsize, h.1]; simp; omega), hframe⟩

theorem take_drop_all (xs : List T) (l : Nat) :
    List.take (xs.length - l) (List.drop l xs) = List.drop l xs :=
  List.take_of_length_le (by simp)

theorem erase_shared_small (S : Nat) (m : Mem T) (v : socow_vector T) (xs : List T)
    (f l : Nat) (b : buffer T) (h : holds S m v xs) (hd : v._is_dynamic = true)
    (hb : m.deref v._buffer = some b) (hr : 2 ≤ b.ref_count) (hfl : f < l)
    (hl : l ≤ xs.length) (hS : xs.length - (l - f) ≤ S)
    (haff : m.affords (xs.length - (l - f))) :
    erase S m v f l =
      .ok ((m.spend (xs.length - (l - f))).release v._buffer,
        { v with _small := live (xs.take f ++ xs.drop l) S, _is_dynamic := false,
                 _size := xs.length - (l - f) }, f) := by
  obtain ⟨h1, h2, b', hb', _, hcb, hdat⟩ := holds_dynamic S m v xs h hd
  rw [hb] at hb'; cases hb'
  have hlen := length_take_le xs f (by omega)
  unfold erase
  simp only [show ¬ l < f by omega, if_false, show ¬ l - f = 0 by omega,
    dynamic_and_shared, dynamic_storage, hd, if_true, shared_buffer, unique_buffer, hb,
    Option.map_some', of_some, ok_bind, show (b.ref_count == 1) = false by simpa using (by omega : b.ref_count ≠ 1),
    Bool.not_false, size, h1, hS, hdat, h2]
  rw [uninitialized_copy_fresh m xs _ S f (by omega) (by omega)
    (affords_mono m _ _ (by omega) haff)]
  simp only [rethrow_ok, ok_bind]
  have hc2 := uninitialized_copy_live (m.spend f) xs (xs.take f) b.capacity S l xs.length hl
    (le_refl _) (by rw [hlen]; omega)
    (affords_spend m f _ (affords_mono m _ _ (by omega) haff))
  rw [hlen] at hc2
  rw [hc2]
  simp only [rethrow_ok, ok_bind, spend_spend, take_drop_all]
  rw [remove_ref_shared _ _ b (by simpa using hb) hr]
  simp only [of_some, ok_bind, pure_eq_ok]
  rw [show f + (xs.length - l) = xs.length - (l - f) by omega]

theorem erase_shared_small_throw (S : Nat) (m : Mem T) (v : socow_vector T) (xs : List T)
    (f l bb : Nat) (b : buffer T) (h : holds S m v xs) (hd : v._is_dynamic = true)
    (hb : m.deref v._buffer = some b) (hr : 2 ≤ b.ref_count) (hfl : f < l)
    (hl : l ≤ xs.length) (hS : xs.length - (l - f) ≤ S)
    (hbud : m.budget = some bb) (hbb : bb < xs.length - (l - f)) :
    erase S m v f l = .throw (m.spend bb, v) := by
  obtain ⟨h1, h2, b', hb', _, hcb, hdat⟩ := holds_dynamic S m v xs h hd
  rw [hb] at hb'; cases hb'
  have hlen := length_take_le xs f (by omega)
  unfold erase
  simp only [show ¬ l < f by omega, if_false, show ¬ l - f = 0 by omega,
    dynamic_and_shared, dynamic_storage, hd, if_true, shared_buffer, unique_buffer, hb,
    Option.map_some', of_some, ok_bind, show (b.ref_count == 1) = false by simpa using (by omega : b.ref_count ≠ 1),
    Bool.not_false, size, h1, hS, hdat, h2]
  by_cases hA : bb < f
  · rw [uninitialized_copy_fresh_throw m xs _ S f bb (by omega) (by omega) hbud hA]
    simp only [rethrow_throw, std_destroy_nothing, Option.map_some', throw_bind, ← h2]
    cases v; simp_all
  · rw [uninitialized_copy_fresh m xs _ S f (by omega) (by omega)
      (affords_of_budget m bb f hbud (by omega))]
    simp only [rethrow_ok, ok_bind]
    have hc2 := uninitialized_copy_live_throw (m.spend f) xs (xs.take f) b.capacity S l
      xs.length (bb - f) hl (le_refl _) (by rw [hlen]; omega) (by simp [hbud]) (by omega)
    rw [hlen] at hc2
    rw [hc2]
    simp only [rethrow_throw, spend_spend]
    have hd2 := std_destroy_live (xs.take f) S 0 (Nat.zero_le _) (by rw [hlen]; omega)
    rw [hlen] at hd2
    rw [hd2]
    simp only [Option.map_some', throw_bind, List.take_zero, live_nil, ← h2]
    rw [show f + (bb - f) = bb by omega]
    cases v; simp_all

theorem erase_shared_large (S : Nat) (m : Mem T) (v : socow_vector T) (xs : List T)
    (f l : Nat) (b : buffer T) (h : holds S m v xs) (hd : v._is_dynamic = true)
    (hb : m.deref v._buffer = some b) (hr : 2 ≤ b.ref_count) (hfl : f < l)
    (hl : l ≤ xs.length) (hS : S < xs.length - (l - f))
    (haff : m.affords (xs.length - (l - f))) :
    erase S m v f l =
      .ok (((m.spend (xs.length - (l - f))).push
          ⟨xs.length - (l - f), 1, live (xs.take f ++ xs.drop l) (xs.length - (l - f))⟩).release
            v._buffer,
        { v with _buffer := m.heap.length, _size := xs.length - (l - f) }, f) := by
  obtain ⟨h1, h2, b', hb', _, hcb, hdat⟩ := holds_dynamic S m v xs h hd
  rw [hb] at hb'; cases hb'
  have hlen := length_take_le xs f (by omega)
  obtain ⟨b2, hb2, hdd, _⟩ := dynamic_data_holds S _ v xs
    (holds_push S m v xs ⟨xs.length - (l - f), 1, List.replicate (xs.length - (l - f)) none⟩ h) hd
  unfold erase
  simp only [show ¬ l < f by omega, if_false, show ¬ l - f = 0 by omega,
    dynamic_and_shared, dynamic_storage, hd, if_true, shared_buffer, unique_buffer, hb,
    Option.map_some', of_some, ok_bind, show (b.ref_count == 1) = false by simpa using (by omega : b.ref_count ≠ 1),
    Bool.not_false, size, h1, show ¬ xs.length - (l - f) ≤ S by omega, new_buffer]
  simp only [hdd, of_some, ok_bind, deref_push_length]
  rw [uninitialized_copy_fresh _ xs _ _ f (by omega) (by omega)
    (by simpa [Mem.affords] using affords_mono m f _ (by omega) haff)]
  simp only [rethrow_ok, ok_bind]
  have hc2 := uninitialized_copy_live
    ((m.push ⟨xs.length - (l - f), 1, List.replicate (xs.length - (l - f)) none⟩).spend f)
    xs (xs.take f) b2.capacity (xs.length - (l - f)) l xs.length hl
    (le_refl _) (by rw [hlen]; omega)
    (by
      rw [spend_push]
      have := affords_spend m f (xs.length - l) (affords_mono m _ _ (by omega) haff)
      simpa [Mem.affords] using this)
  rw [hlen] at hc2
  rw [hc2]
  simp only [rethrow_ok, ok_bind, spend_spend, take_drop_all, spend_push]
  rw [push_store_length _ _ _ _ (by simp),
    remove_ref_shared _ _ b (deref_push_of_some _ _ b _ (by simpa using hb)) hr]
  simp only [of_some, ok_bind, pure_eq_ok]
  rw [show f + (xs.length - l) = xs.length - (l - f) by omega]

theorem erase_shared_large_throw (S : Nat) (m : Mem T) (v : socow_vector T) (xs : List T)
    (f l bb : Nat) (b : buffer T) (h : holds S m v xs) (hd : v._is_dynamic = true)
    (hb : m.deref v._buffer = some b) (hr : 2 ≤ b.ref_count) (hfl : f < l)
    (hl : l ≤ xs.length) (hS : S < xs.length - (l - f))
    (hbud : m.budget = some bb) (hbb : bb < xs.length - (l - f)) :
    erase S m v f l = .throw ({ m.spend bb with heap := m.heap ++ [none] }, v) := by
  obtain ⟨h1, h2, b', hb', _, hcb, hdat⟩ := holds_dynamic S m v xs h hd
  rw [hb] at hb'; cases hb'
  have hlen := length_take_le xs f (by omega)
  obtain ⟨b2, hb2, hdd, _⟩ := dynamic_data_holds S _ v xs
    (holds_push S m v xs ⟨xs.length - (l - f), 1, List.replicate (xs.length - (l - f)) none⟩ h) hd
  unfold erase
  simp only [show ¬ l < f by omega, if_false, show ¬ l - f = 0 by omega,
    dynamic_and_shared, dynamic_storage, hd, if_true, shared_buffer, unique_buffer, hb,
    Option.map_some', of_some, ok_bind, show (b.ref_count == 1) = false by simpa using (by omega : b.ref_count ≠ 1),
    Bool.not_false, size, h1, show ¬ xs.length - (l - f) ≤ S by omega, new_buffer]
  simp only [hdd, of_some, ok_bind, deref_push_length]
  by_cases hA : bb < f
  · rw [uninitialized_copy_fresh_throw _ xs _ _ f bb (by omega) (by omega)
      (by simpa using hbud) hA]
    simp only [rethrow_throw, spend_push]
    rw [push_store_length _ _ _ _ (by simp), ← live_nil]
    have := delete_buffer_fresh (m.spend bb) ([] : List T) (xs.length - (l - f)) 1
      m.heap.length (by simp) (by simp)
    simp only [List.length_nil] at this
    rw [this]
    simp
  · rw [uninitialized_copy_fresh _ xs _ _ f (by omega) (by omega)
      (by simpa [Mem.affords] using affords_of_budget m bb f hbud (by omega))]
    simp only [rethrow_ok, ok_bind]
    have hc2 := uninitialized_copy_live_throw
      ((m.push ⟨xs.length - (l - f), 1, List.replicate (xs.length - (l - f)) none⟩).spend f)
      xs (xs.take f) b2.capacity (xs.length - (l - f)) l xs.length (bb - f) hl
      (le_refl _) (by rw [hlen]; omega) (by simp [hbud]) (by omega)
    rw [hlen] at hc2
    rw [hc2]
    simp only [rethrow_throw, spend_spend, spend_push]
    rw [push_store_length _ _ _ _ (by simp)]
    have := delete_buffer_fresh (m.spend (f + (bb - f))) (xs.take f) (xs.length - (l - f)) 1
      m.heap.length (by simp) (by rw [hlen]; omega)
    rw [hlen] at this
    rw [this]
    simp [show f + (bb - f) = bb by omega]

theorem erase_cases (S : Nat) (m : Mem T) (v : socow_vector T) (xs : List T) (f l : Nat)
    (h : holds S m v xs) (hfl : f ≤ l) (hl : l ≤ xs.length) :
    (m.affords (erase_copies m v f l) ∧ ∃ m' v', erase S m v f l = .ok (m', v', f) ∧
      holds S m' v' (xs.take f ++ xs.drop l) ∧ frame m m' v ∧ (f = l → m' = m ∧ v' = v)) ∨
    (∃ b, m.budget = some b ∧ b < erase_copies m v f l ∧
      ∃ m', erase S m v f l = .throw (m', v) ∧ m.unwound m') := by
  have hsz := holds_size S m v xs h
  by_cases he : f = l
  · left
    subst he
    refine ⟨by simp [erase_copies, Mem.affords], m, v, ?_,
      by rw [List.take_append_drop]; exact h, frame_refl m v, fun _ => ⟨rfl, rfl⟩⟩
    simp [erase]
  · have hlt : f < l := by omega
    obtain ⟨sh, hsh, hsh1, hsh2⟩ := shared_holds S m v xs h
    cases sh with
    | true =>
      obtain ⟨hd, hrc⟩ := hsh1 rfl
      obtain ⟨h1, h2, b, hb, _, hcb, hdat⟩ := holds_dynamic S m v xs h hd
      have hr := hrc b hb
      have hcost : erase_copies m v f l = xs.length - (l - f) := by
        simp [erase_copies, hsh, hsz, he]
      rw [hcost]
      rcases budget_cases m (xs.length - (l - f)) with haff | ⟨bb, hbb, hbl⟩
      · left
        refine ⟨haff, ?_⟩
        by_cases hS : xs.length - (l - f) ≤ S
        · rw [erase_shared_small S m v xs f l b h hd hb hr hlt hl hS haff]
          refine ⟨_, _, rfl, ?_, frame_release m v _ hd, fun hx => absurd hx he⟩
          simp [holds]; omega
        · rw [erase_shared_large S m v xs f l b h hd hb hr hlt hl (by omega) haff]
          have hf := frame_realloc m v (xs.length - (l - f))
            ⟨xs.length - (l - f), 1, live (xs.take f ++ xs.drop l) (xs.length - (l - f))⟩
          have hh := holds_realloc S m v
            { v with _buffer := m.heap.length, _size := xs.length - (l - f) }
            xs (xs.take f ++ xs.drop l) (xs.length - (l - f)) (xs.length - (l - f)) h
            (by simp; omega) (by simp; omega) hd rfl h2
          unfold Mem.drop_ref at hf hh
          rw [if_pos hd] at hf hh
          exact ⟨_, _, rfl, hh, hf, fun hx => absurd hx he⟩
      · right
        refine ⟨bb, hbb, hbl, ?_⟩
        by_cases hS : xs.length - (l - f) ≤ S
        · rw [erase_shared_small_throw S m v xs f l bb b h hd hb hr hlt hl hS hbb hbl]
          exact ⟨_, rfl, unwound_spend m bb⟩
        · rw [erase_shared_large_throw S m v xs f l bb b h hd hb hr hlt hl (by omega) hbb hbl]
          exact ⟨_, rfl, unwound_freed m bb⟩
    | false =>
      left
      refine ⟨by simp [erase_copies, hsh, Mem.affords], ?_⟩
      obtain ⟨m', v', hip, hh, hframe⟩ := in_place_erase_holds S m v xs f l h hlt hl
      refine ⟨m', v', ?_, hh, ?_, fun hx => absurd hx he⟩
      · unfold erase
        simp only [show ¬ l < f by omega, if_false, show ¬ l - f = 0 by omega, hsh, of_some,
          ok_bind, Bool.false_eq_true, hip, pure_eq_ok]
      · intro q hq b hb
        refine ⟨b, ?_, rfl, rfl, id⟩
        rw [hframe q ?_]
        · exact hb
        · intro hd hqb
          have h2 := hq hd hqb b hb
          have h1 := hsh2 rfl hd b (by rw [← hqb]; exact hb)
          omega

theorem erase_spec (S : Nat) (m : Mem T) (v : socow_vector T) (xs : List T) (f l : Nat)
    (h : holds S m v xs) (hfl : f ≤ l) (hl : l ≤ xs.length) :
    (∃ m' v', erase S m v f l = .ok (m', v', f) ∧
      holds S m' v' (xs.take f ++ xs.drop l) ∧ frame m m' v ∧ (f = l → m' = m ∧ v' = v)) ∨
    (∃ m', erase S m v f l = .throw (m', v) ∧ m.unwound m' ∧ m.budget ≠ none) := by
  rcases erase_cases S m v xs f l h hfl hl with ⟨_, hok⟩ | ⟨b, hb, _, m', ht, hu⟩
  · exact Or.inl hok
  · exact Or.inr ⟨m', ht, hu, by simp [hb]⟩

/-! ## `std::swap_ranges` -/

theorem swap_ranges_from_live :
    ∀ (n : Nat) (A1 A2 : Slots T) (us vs : List T) (B1 B2 : Slots T),
      us.length = n → vs.length = n →
      swap_ranges_from n (A1 ++ (us.map some ++ B1)) A1.length
          (A2 ++ (vs.map some ++ B2)) A2.length =
        some (A1 ++ (vs.map some ++ B1), A2 ++ (us.map some ++ B2)) := by
  intro n
  induction n with
  | zero =>
    intro A1 A2 us vs B1 B2 hu hv
    have : us = [] := List.length_eq_zero.1 hu
    subst this
    have : vs = [] := List.length_eq_zero.1 hv
    subst this
    simp [swap_ranges_from]
  | succ n ih =>
    intro A1 A2 us vs B1 B2 hu hv
    cases us with
    | nil => simp at hu
    | cons u us' =>
      cases vs with
      | nil => simp at hv
      | cons w vs' =>
        unfold swap_ranges_from
        have h1 : (A1 ++ ((u :: us').map some ++ B1))[A1.length]? = some (some u) := by
          rw [List.getElem?_append_right (by omega)]
          simp
        have h2 : (A2 ++ ((w :: vs').map some ++ B2))[A2.length]? = some (some w) := by
          rw [List.getElem?_append_right (by omega)]
          simp
        rw [h1, h2]
        simp only
        have e1 : (A1 ++ ((u :: us').map some ++ B1)).set A1.length (some w) =
            (A1 ++ [some w]) ++ (us'.map some ++ B1) := by
          rw [List.set_append, if_neg (by omega)]
          simp
        have e2 : (A2 ++ ((w :: vs').map some ++ B2)).set A2.length (some u) =
            (A2 ++ [some u]) ++ (vs'.map some ++ B2) := by
          rw [List.set_append, if_neg (by omega)]
          simp
        have l1 : A1.length + 1 = (A1 ++ [some w]).length := by simp
        have l2 : A2.length + 1 = (A2 ++ [some u]).length := by simp
        rw [e1, e2, l1, l2, ih (A1 ++ [some w]) (A2 ++ [some u]) us' vs' B1 B2
          (by simpa using hu) (by simpa using hv)]
        simp

theorem live_split (xs : List T) (c n : Nat) :
    live xs c = [] ++ ((xs.take n).map some ++
      ((xs.drop n).map some ++ List.replicate (c - xs.length) none)) := by
  unfold live
  rw [List.nil_append, ← List.append_assoc, ← List.map_append, List.take_append_drop]

theorem swap_ranges_live (xs ys : List T) (c1 c2 n : Nat) (hx : n ≤ xs.length)
    (hy : n ≤ ys.length) :
    swap_ranges (live xs c1) 0 n (live ys c2) 0 =
      some (live (ys.take n ++ xs.drop n) c1, live (xs.take n ++ ys.drop n) c2) := by
  unfold swap_ranges
  rw [if_pos (Nat.zero_le _), Nat.sub_zero, live_split xs c1 n, live_split ys c2 n]
  have := swap_ranges_from_live n ([] : Slots T) [] (xs.take n) (ys.take n)
    ((xs.drop n).map some ++ List.replicate (c1 - xs.length) none)
    ((ys.drop n).map some ++ List.replicate (c2 - ys.length) none)
    (length_take_le xs n hx) (length_take_le ys n hy)
  simp only [List.length_nil] at this
  rw [this]
  simp only [live, List.nil_append, List.map_append, List.append_assoc, List.length_append,
    List.length_take, List.length_drop, Option.some.injEq, Prod.mk.injEq]
  constructor
  · congr 3; omega
  · congr 3; omega

/-! ## Copy assignment -/

theorem copy_ctor_sized_static (S : Nat) (m : Mem T) (o : socow_vector T) (ys : List T)
    (k : Nat) (ho : holds S m o ys) (hs : o._is_dynamic = false) (hk : k ≤ ys.length)
    (haff : m.affords k) :
    copy_ctor_sized S m o k =
      .ok (m.spend k, { _size := k, _is_dynamic := false, _buffer := 0,
                        _small := live (ys.take k) S }) := by
  obtain ⟨h1, h2, h3⟩ := holds_static S m o ys ho hs
  unfold copy_ctor_sized
  simp only [static_storage, dynamic_storage, hs, Bool.not_false, if_true, h3]
  rw [uninitialized_copy_fresh m ys S S k hk (by omega) haff]
  simp

theorem copy_ctor_sized_static_throw (S : Nat) (m : Mem T) (o : socow_vector T)
    (ys : List T) (k b : Nat) (ho : holds S m o ys) (hs : o._is_dynamic = false)
    (hk : k ≤ ys.length) (hbud : m.budget = some b) (hb : b < k) :
    copy_ctor_sized S m o k = .throw (m.spend b) := by
  obtain ⟨h1, h2, h3⟩ := holds_static S m o ys ho hs
  unfold copy_ctor_sized
  simp only [static_storage, dynamic_storage, hs, Bool.not_false, if_true, h3]
  rw [uninitialized_copy_fresh_throw m ys S S k b hk (by omega) hbud hb]
  simp

theorem assign_body_to_dynamic (S : Nat) (m : Mem T) (v o : socow_vector T)
    (xs ys : List T) (hv : holds S m v xs) (ho : holds S m o ys)
    (hd : v._is_dynamic = true) (hs : o._is_dynamic = false) (haff : m.affords ys.length) :
    assign_body S m v o =
      .ok ((m.spend ys.length).release v._buffer,
        { v with _small := live ys S, _is_dynamic := false, _size := ys.length }) := by
  obtain ⟨h1, h2, h3⟩ := holds_static S m o ys ho hs
  unfold assign_body
  simp only [static_storage, dynamic_storage, hs, hd, Bool.not_false, if_true, size, h1, h3]
  rw [become_static_ok S m v xs ys S _ hv hd (le_refl _) h2 haff]
  simp

theorem assign_body_to_dynamic_throw (S : Nat) (m : Mem T) (v o : socow_vector T)
    (xs ys : List T) (b : Nat) (hv : holds S m v xs) (ho : holds S m o ys)
    (hd : v._is_dynamic = true) (hs : o._is_dynamic = false)
    (hbud : m.budget = some b) (hb : b < ys.length) :
    assign_body S m v o = .throw (m.spend b, v) := by
  obtain ⟨h1, h2, h3⟩ := holds_static S m o ys ho hs
  unfold assign_body
  simp only [static_storage, dynamic_storage, hs, hd, Bool.not_false, if_true, size, h1, h3]
  rw [become_static_throw S m v xs ys S _ b hv hd (le_refl _) h2 hbud hb]
  simp

theorem destructor_static (S : Nat) (m : Mem T) (t : socow_vector T) (zs : List T)
    (h : holds S m t zs) (hs : t._is_dynamic = false) : destructor m t = some m := by
  unfold destructor
  rw [destroy_holds S m t zs h]
  simp [Mem.drop_ref, hs]

theorem assign_body_grow (S : Nat) (m : Mem T) (v o : socow_vector T)
    (xs ys : List T) (hv : holds S m v xs) (ho : holds S m o ys)
    (hvs : v._is_dynamic = false) (hs : o._is_dynamic = false)
    (hle : xs.length ≤ ys.length) (haff : m.affords ys.length) :
    assign_body S m v o =
      .ok (m.spend ys.length, { v with _small := live ys S, _size := ys.length }) := by
  obtain ⟨h1, h2, h3⟩ := holds_static S m o ys ho hs
  obtain ⟨g1, g2, g3⟩ := holds_static S m v xs hv hvs
  unfold assign_body
  simp only [static_storage, dynamic_storage, hs, hvs, Bool.not_false, if_true, size, h1, g1,
    hle, Bool.false_eq_true, if_false, h3, g3]
  rw [uninitialized_copy_live m ys xs S S xs.length ys.length hle (le_refl _) (by omega)
    (affords_mono m _ _ (by omega) haff)]
  simp only [rethrow_ok, ok_bind, take_drop_all]
  rw [copy_ctor_sized_static S _ o ys xs.length (holds_spend S m o ys _ ho) hs hle
    (affords_spend m _ _ (by
      rw [show ys.length - xs.length + xs.length = ys.length by omega]; exact haff))]
  simp only [rethrow_ok, ok_bind, size]
  have hsw := swap_ranges_live (ys.take xs.length) (xs ++ ys.drop xs.length) S S xs.length
    (by simp [hle]) (by simp)
  rw [hsw]
  simp only [of_some, ok_bind]
  have e1 : List.take xs.length (xs ++ List.drop xs.length ys) ++
      List.drop xs.length (List.take xs.length ys) = xs := by
    simp
  have e2 : List.take xs.length (List.take xs.length ys) ++
      List.drop xs.length (xs ++ List.drop xs.length ys) = ys := by
    simp [List.take_take]
  rw [e1, e2]
  rw [destructor_static S _ _ xs (by simp [holds, g2]) rfl]
  simp only [of_some, ok_bind, pure_eq_ok, spend_spend]
  rw [show ys.length - xs.length + xs.length = ys.length by omega]

theorem assign_body_grow_throw (S : Nat) (m : Mem T) (v o : socow_vector T)
    (xs ys : List T) (b : Nat) (hv : holds S m v xs) (ho : holds S m o ys)
    (hvs : v._is_dynamic = false) (hs : o._is_dynamic = false)
    (hle : xs.length ≤ ys.length) (hbud : m.budget = some b) (hb : b < ys.length) :
    assign_body S m v o = .throw (m.spend b, v) := by
  obtain ⟨h1, h2, h3⟩ := holds_static S m o ys ho hs
  obtain ⟨g1, g2, g3⟩ := holds_static S m v xs hv hvs
  unfold assign_body
  simp only [static_storage, dynamic_storage, hs, hvs, Bool.not_false, if_true, size, h1, g1,
    hle, Bool.false_eq_true, if_false, h3, g3]
  by_cases hA : b < ys.length - xs.length
  · rw [uninitialized_copy_live_throw m ys xs S S xs.length ys.length b hle (le_refl _)
      (by omega) hbud hA]
    simp only [rethrow_throw, throw_bind]
    cases v; simp_all
  · rw [uninitialized_copy_live m ys xs S S xs.length ys.length hle (le_refl _) (by omega)
      (affords_of_budget m b _ hbud (by omega))]
    simp only [rethrow_ok, ok_bind, take_drop_all]
    rw [copy_ctor_sized_static_throw S _ o ys xs.length (b - (ys.length - xs.length))
      (holds_spend S m o ys _ ho) hs hle (by simp [hbud]) (by omega)]
    simp only [rethrow_throw, spend_spend]
    have hd := std_destroy_live (xs ++ ys.drop xs.length) S xs.length (by simp) (by simp; omega)
    simp only [List.length_append, List.length_drop] at hd
    rw [show xs.length + (ys.length - xs.length) = ys.length by omega] at hd
    rw [hd]
    simp only [Option.map_some', throw_bind, List.take_left']
    rw [show ys.length - xs.length + (b - (ys.length - xs.length)) = b by omega]
    cases v; simp_all

theorem assign_body_cut (S : Nat) (m : Mem T) (v o : socow_vector T)
    (xs ys : List T) (hv : holds S m v xs) (ho : holds S m o ys)
    (hvs : v._is_dynamic = false) (hs : o._is_dynamic = false)
    (hlt : ys.length < xs.length) (haff : m.affords ys.length) :
    assign_body S m v o =
      .ok (m.spend ys.length, { v with _small := live ys S, _size := ys.length }) := by
  obtain ⟨h1, h2, h3⟩ := holds_static S m o ys ho hs
  obtain ⟨g1, g2, g3⟩ := holds_static S m v xs hv hvs
  unfold assign_body copy_ctor
  simp only [static_storage, dynamic_storage, hs, hvs, Bool.not_false, if_true, size, h1, g1,
    show ¬ xs.length ≤ ys.length by omega, Bool.false_eq_true, if_false, g3]
  rw [copy_ctor_sized_static S m o ys ys.length ho hs (le_refl _) haff]
  simp only [rethrow_ok, ok_bind, size, List.take_length]
  rw [swap_ranges_live ys xs S S ys.length (le_refl _) (by omega)]
  simp only [of_some, ok_bind, List.take_length, List.drop_length, List.nil_append,
    List.append_nil]
  have hd := std_destroy_live (ys ++ xs.drop ys.length) S ys.length (by simp) (by simp; omega)
  simp only [List.length_append, List.length_drop] at hd
  rw [show ys.length + (xs.length - ys.length) = xs.length by omega] at hd
  rw [hd]
  simp only [of_some, ok_bind, List.take_left']
  rw [destructor_static S _ _ (xs.take ys.length) (by simp [holds]; omega) rfl]
  simp

theorem assign_body_cut_throw (S : Nat) (m : Mem T) (v o : socow_vector T)
    (xs ys : List T) (b : Nat) (hv : holds S m v xs) (ho : holds S m o ys)
    (hvs : v._is_dynamic = false) (hs : o._is_dynamic = false)
    (hlt : ys.length < xs.length) (hbud : m.budget = some b) (hb : b < ys.length) :
    assign_body S m v o = .throw (m.spend b, v) := by
  obtain ⟨h1, h2, h3⟩ := holds_static S m o ys ho hs
  obtain ⟨g1, g2, g3⟩ := holds_static S m v xs hv hvs
  unfold assign_body copy_ctor
  simp only [static_storage, dynamic_storage, hs, hvs, Bool.not_false, if_true, size, h1, g1,
    show ¬ xs.length ≤ ys.length by omega, Bool.false_eq_true, if_false, g3]
  rw [copy_ctor_sized_static_throw S m o ys ys.length b ho hs (le_refl _) hbud hb]
  simp

theorem assign_body_share (S : Nat) (m : Mem T) (v o : socow_vector T)
    (xs ys : List T) (hv : holds S m v xs) (ho : holds S m o ys)
    (hod : o._is_dynamic = true)
    (hsh : v._is_dynamic = true → v._buffer = o._buffer →
      ∀ b, m.deref v._buffer = some b → 2 ≤ b.ref_count) :
    ∃ b b1, m.deref o._buffer = some b ∧ (m.drop_ref v).deref o._buffer = some b1 ∧
      b1.capacity = b.capacity ∧ b1.data = b.data ∧ 0 < b1.ref_count ∧
      assign_body S m v o =
        .ok ((m.drop_ref v).store o._buffer { b1 with ref_count := b1.ref_count + 1 },
          { v with _small := List.replicate S none, _buffer := o._buffer,
                   _is_dynamic := true, _size := o._size }) := by
  obtain ⟨h1, h2, b, hb, hr, hcb, hdat⟩ := holds_dynamic S m o ys ho hod
  have hk : m.keeps (m.drop_ref v) o._buffer :=
    keeps_drop_ref m m v (fun _ _ hx => hx) o._buffer
      (fun hd hq b' hb' => hsh hd hq.symm b' (by rw [← hq]; exact hb'))
  obtain ⟨b1, hb1, hc1, hd1, hr1⟩ := hk b hb
  refine ⟨b, b1, hb, hb1, hc1, hd1, hr1 hr, ?_⟩
  unfold assign_body
  simp only [static_storage, dynamic_storage, hod, Bool.not_true, Bool.false_eq_true, if_false]
  rw [destroy_holds S m v xs hv]
  simp only [of_some, ok_bind, share_buffer_with, add_ref, dynamic_storage, hod, if_true, hb1,
    Option.map_some', pure_eq_ok]

theorem keeps_store (m : Mem T) (p q : Nat) (b b' : buffer T) (hb : m.deref p = some b)
    (hc : b'.capacity = b.capacity) (hd : b'.data = b.data)
    (hr : 0 < b.ref_count → 0 < b'.ref_count) : m.keeps (m.store p b') q := by
  intro x hx
  by_cases hq : q = p
  · subst hq
    rw [hb] at hx
    cases hx
    exact ⟨b', deref_store_same m b' _ (deref_lt m _ b hb), hc, hd, hr⟩
  · exact ⟨x, by rw [deref_store_ne m b' p q hq]; exact hx, rfl, rfl, id⟩

/-- What `operator=` does for two different objects. -/
theorem assign_body_spec (S : Nat) (m : Mem T) (v o : socow_vector T)
    (xs ys : List T) (hv : holds S m v xs) (ho : holds S m o ys)
    (hsh : v._is_dynamic = true → o._is_dynamic = true → v._buffer = o._buffer →
      ∀ b, m.deref v._buffer = some b → 2 ≤ b.ref_count) :
    (∃ m' v', assign_body S m v o = .ok (m', v') ∧ holds S m' v' ys ∧ holds S m' o ys ∧
      frame m m' v ∧
      (o._is_dynamic = true →
        v'._is_dynamic = true ∧ v'._buffer = o._buffer ∧ m'.copies = m.copies)) ∨
    (∃ m', assign_body S m v o = .throw (m', v) ∧ m.unwound m' ∧ m.budget ≠ none ∧
      o._is_dynamic = false) := by
  cases hod : o._is_dynamic with
  | true =>
    left
    obtain ⟨b, b1, hb, hb1, hc1, hd1, hr1, heq⟩ :=
      assign_body_share S m v o xs ys hv ho hod (fun hd => hsh hd hod)
    obtain ⟨h1, h2, b', hb', hr, hcb, hdat⟩ := holds_dynamic S m o ys ho hod
    rw [hb] at hb'; cases hb'
    have hlt : o._buffer < (m.drop_ref v).heap.length := deref_lt _ _ b1 hb1
    have hho : holds S ((m.drop_ref v).store o._buffer { b1 with ref_count := b1.ref_count + 1 })
        o ys := by
      unfold holds
      rw [hod]
      simp only [if_true]
      exact ⟨h1, h2, _, deref_store_same _ _ _ hlt, by simp, by simpa [hc1] using hcb,
        by simp [hd1, hc1, hdat]⟩
    refine ⟨_, _, heq, ?_, hho, ?_, fun _ => ⟨?_, ?_, ?_⟩⟩
    rotate_left 2
    · rfl
    · rfl
    rotate_left 1
    · unfold holds
      simp only [if_true]
      exact ⟨h1, trivial, _, deref_store_same _ _ _ hlt, by simp, by simpa [hc1] using hcb,
        by simp [hd1, hc1, hdat]⟩
    · intro q hq
      refine keeps_trans m _ _ q (keeps_drop_ref m m v (fun _ _ hx => hx) q hq) ?_
      exact keeps_store _ _ q b1 _ hb1 rfl rfl (fun _ => by simp)
    · simp [Mem.drop_ref]
      split_ifs <;> simp
  | false =>
    cases hvd : v._is_dynamic with
    | true =>
      rcases budget_cases m ys.length with haff | ⟨bb, hbb, hbl⟩
      · left
        rw [assign_body_to_dynamic S m v o xs ys hv ho hvd hod haff]
        obtain ⟨h1, h2, h3⟩ := holds_static S m o ys ho hod
        refine ⟨_, _, rfl, by simp [holds, h2], ?_, frame_release m v _ hvd, fun hx => by simp at hx⟩
        unfold holds
        rw [hod]
        simpa using ⟨h1, h2, h3⟩
      · right
        rw [assign_body_to_dynamic_throw S m v o xs ys bb hv ho hvd hod hbb hbl]
        exact ⟨_, rfl, unwound_spend m bb, by simp [hbb], rfl⟩
    | false =>
      obtain ⟨h1, h2, h3⟩ := holds_static S m o ys ho hod
      have hho : ∀ k, holds S (m.spend k) o ys := fun k => holds_spend S m o ys k ho
      have hfr : ∀ k, frame m (m.spend k) v := fun k q _ => keeps_spend m k q
      rcases budget_cases m ys.length with haff | ⟨bb, hbb, hbl⟩
      · left
        by_cases hle : xs.length ≤ ys.length
        · rw [assign_body_grow S m v o xs ys hv ho hvd hod hle haff]
          exact ⟨_, _, rfl, by simp [holds, hvd, h2], hho _, hfr _, fun hx => by simp at hx⟩
        · rw [assign_body_cut S m v o xs ys hv ho hvd hod (by omega) haff]
          exact ⟨_, _, rfl, by simp [holds, hvd, h2], hho _, hfr _, fun hx => by simp at hx⟩
      · right
        by_cases hle : xs.length ≤ ys.length
        · rw [assign_body_grow_throw S m v o xs ys bb hv ho hvd hod hle hbb hbl]
          exact ⟨_, rfl, unwound_spend m bb, by simp [hbb], rfl⟩
        · rw [assign_body_cut_throw S m v o xs ys bb hv ho hvd hod (by omega) hbb hbl]
          exact ⟨_, rfl, unwound_spend m bb, by simp [hbb], rfl⟩

/-! ## A container that shares its buffer with the caller of a mutating call -/

theorem kept_of_frame (S : Nat) (m m' : Mem T) (A B : socow_vector T) (xs : List T)
    (hB : holds S m B xs) (hf : frame m m' A)
    (hrc : B._is_dynamic = true → A._is_dynamic = true → B._buffer = A._buffer →
      ∀ b, m.deref B._buffer = some b → 2 ≤ b.ref_count) :
    holds S m' B xs ∧ capacity S m' B = capacity S m B :=
  holds_of_keeps S m m' B xs hB (fun hd => hf B._buffer (fun hA hq => hrc hd hA hq))

theorem keeps_of_unwound (m m' : Mem T) (q : Nat) (h : m.unwound m') : m.keeps m' q := by
  intro b hb
  exact ⟨b, by rw [h.1 q (deref_lt m q b hb)]; exact hb, rfl, rfl, id⟩

theorem kept_of_unwound (S : Nat) (m m' : Mem T) (B : socow_vector T) (xs : List T)
    (hB : holds S m B xs) (hu : m.unwound m') :
    holds S m' B xs ∧ capacity S m' B = capacity S m B :=
  holds_of_keeps S m m' B xs hB (fun _ => keeps_of_unwound m m' _ hu)

theorem run_kept (S : Nat) (w : World T) (a b : Nat) (A B : socow_vector T) (xs : List T)
    (F : Mem T → socow_vector T → Res (Mem T × socow_vector T) (Mem T × socow_vector T))
    (P : socow_vector T → Prop)
    (hab : a ≠ b) (hA : w.objs[a]? = some A) (hB : w.objs[b]? = some B)
    (hholds : holds S w.mem B xs)
    (hrc : B._is_dynamic = true → A._is_dynamic = true → B._buffer = A._buffer →
      ∀ buf, w.mem.deref B._buffer = some buf → 2 ≤ buf.ref_count)
    (hspec : (∃ m' v', F w.mem A = .ok (m', v') ∧ frame w.mem m' A ∧ P v') ∨
      (∃ m', F w.mem A = .throw (m', A) ∧ w.mem.unwound m')) :
    ∃ w', (w.run a F = .ok w' ∨ w.run a F = .throw w') ∧ w'.objs[b]? = some B ∧
      holds S w'.mem B xs ∧ capacity S w'.mem B = capacity S w.mem B ∧
      (w.run a F = .ok w' → ∃ A', w'.objs[a]? = some A' ∧ P A') := by
  have hlt : a < w.objs.length := by
    by_contra hc
    rw [List.getElem?_eq_none (by omega)] at hA
    cases hA
  unfold World.run
  simp only [hA, of_some, ok_bind]
  rcases hspec with ⟨m', v', hok, hf, hP⟩ | ⟨m', ht, hu⟩
  · rw [hok]
    simp only [rethrow_ok, ok_bind, pure_eq_ok]
    obtain ⟨h1, h2⟩ := kept_of_frame S w.mem m' A B xs hholds hf hrc
    refine ⟨_, Or.inl rfl, ?_, h1, h2, fun _ => ⟨v', ?_, hP⟩⟩
    · simp only
      rw [List.getElem?_set_ne hab]
      exact hB
    · simp [hlt]
  · rw [ht]
    simp only [rethrow_throw, throw_bind]
    obtain ⟨h1, h2⟩ := kept_of_unwound S w.mem m' B xs hholds hu
    refine ⟨_, Or.inr rfl, ?_, h1, h2, fun hx => by cases hx⟩
    simp only
    rw [List.getElem?_set_ne hab]
    exact hB

/-! ## Copy construction and the first ownership resolution after it -/

theorem store_self (m : Mem T) (p : Nat) (b : buffer T) (h : m.deref p = some b) :
    m.store p b = m := by
  have hlt := deref_lt m p b h
  apply Mem.ext' <;> simp
  apply List.ext_getElem?
  intro i
  by_cases hi : p = i
  · subst hi
    rw [List.getElem?_set_self hlt]
    unfold Mem.deref at h
    rw [List.getElem?_eq_getElem hlt] at h ⊢
    simpa using h.symm
  · rw [List.getElem?_set_ne hi]

theorem clear_range_zero (s : Slots T) (a : Nat) : clear_range s a 0 = s := by
  simp [clear_range]

theorem std_destroy_empty (s : Slots T) (n : Nat) (h : n ≤ s.length) :
    std_destroy s n n = some s := by
  simp [std_destroy, h, clear_range_zero]

/-- On a container that owns its storage the non-const `data()` changes nothing. -/
theorem data_owned (S : Nat) (m : Mem T) (v : socow_vector T) (xs : List T)
    (h : holds S m v xs) (ho : owns m v) : data S m v = .ok (m, v) := by
  obtain ⟨c, hcap, hraw, hc⟩ := raw_data_holds S m v xs h
  have hsz := holds_size S m v xs h
  unfold data ensure_ownership
  rw [if_neg (by omega)]
  cases hd : v._is_dynamic with
  | false =>
    simp only [static_storage, dynamic_storage, hd, Bool.not_false, if_true, pure_eq_ok, ok_bind,
      hraw, of_some, hsz]
    rw [std_destroy_empty _ _ (by rw [live_length xs c hc]; exact hc)]
    obtain ⟨h1, h2, h3⟩ := holds_static S m v xs h hd
    have hS : c = S := by
      simp [capacity, static_storage, dynamic_storage, hd] at hcap
      omega
    subst hS
    simp only [of_some, ok_bind, set_raw_data, dynamic_storage, hd, Bool.false_eq_true, if_false]
    cases v
    simp_all [size]
  | true =>
    obtain ⟨b, hb, hu⟩ := ho hd
    obtain ⟨_, _, b', hb', _, _, hdat⟩ := holds_dynamic S m v xs h hd
    rw [hb] at hb'; cases hb'
    have hcb : c = b.capacity := by
      simp [capacity, static_storage, dynamic_storage, hd, hb] at hcap
      omega
    subst hcb
    simp only [static_storage, dynamic_storage, hd, Bool.not_true, Bool.false_eq_true, if_false,
      unique_buffer, if_true, hb, Option.map_some', of_some, ok_bind, hu, beq_self_eq_true,
      hraw, hsz]
    rw [std_destroy_empty _ _ (by rw [live_length xs _ hc]; exact hc)]
    simp only [of_some, ok_bind, set_raw_data, dynamic_storage, hd, if_true, hb,
      Option.map_some', ← hdat]
    rw [store_self m _ b hb]
    cases v
    simp_all [size]

theorem copy_ctor_dynamic (S : Nat) (m : Mem T) (A : socow_vector T)
    (b : buffer T) (hd : A._is_dynamic = true)
    (hb : m.deref A._buffer = some b) :
    copy_ctor S m A =
      .ok (m.store A._buffer { b with ref_count := b.ref_count + 1 },
        { _size := A._size, _is_dynamic := true, _buffer := A._buffer,
          _small := List.replicate S none }) := by
  unfold copy_ctor copy_ctor_sized
  simp [static_storage, dynamic_storage, hd, share_buffer_with, add_ref, hb, size]

/-- The first `data()` on a container whose buffer has another owner: `size()` copies
into private storage, and the buffer loses one reference. -/
theorem data_shared (S : Nat) (m : Mem T) (v : socow_vector T) (xs : List T)
    (b : buffer T) (h : holds S m v xs) (hd : v._is_dynamic = true)
    (hb : m.deref v._buffer = some b) (hr : 2 ≤ b.ref_count) (haff : m.affords xs.length) :
    ∃ m' v', data S m v = .ok (m', v') ∧ m'.copies = m.copies + xs.length ∧
      holds S m' v' xs ∧ owns m' v' ∧
      (v'._is_dynamic = false ∨ v'._buffer = m.heap.length) ∧
      m'.deref v._buffer = some { b with ref_count := b.ref_count - 1 } := by
  have hsz := holds_size S m v xs h
  obtain ⟨_, h2, _⟩ := holds_dynamic S m v xs h hd
  have hne : (b.ref_count == 1) = false := by simpa using (by omega : b.ref_count ≠ 1)
  have hlt := deref_lt m _ b hb
  unfold data ensure_ownership
  rw [if_neg (by omega)]
  simp only [static_storage, dynamic_storage, hd, Bool.not_true, Bool.false_eq_true, if_false,
    unique_buffer, if_true, hb, Option.map_some', of_some, ok_bind, hne, hsz]
  by_cases hS : xs.length ≤ S
  · rw [force_ensure_ownership_small S m v xs _ h hd (le_refl _) hS haff]
    refine ⟨_, _, rfl, by simp, ?_, ?_, Or.inl rfl, ?_⟩
    · simp [holds, hS]
    · intro hx; simp at hx
    · exact deref_release_shared _ _ b (by simpa using hb) hr
  · rw [force_ensure_ownership_large S m v xs _ h hd (le_refl _) (by omega) haff]
    have hh := holds_realloc S m v
      { v with _buffer := m.heap.length, _is_dynamic := true, _size := xs.length }
      xs (xs.take xs.length) xs.length xs.length h (by simp) (by simp) rfl rfl h2
    unfold Mem.drop_ref at hh
    rw [if_pos hd, List.take_length] at hh
    rw [List.take_length]
    refine ⟨_, _, rfl, by simp, hh, ?_, Or.inr rfl, ?_⟩
    · intro _
      refine ⟨⟨xs.length, 1, live xs xs.length⟩, ?_, rfl⟩
      simp only
      rw [deref_release_ne _ _ _ (by omega)]
      exact deref_push_length' _ _ _ (by simp)
    · exact deref_release_shared _ _ b (deref_push_of_some _ _ b _ (by simpa using hb)) hr

/-! ## `swap` of two inline containers of equal size -/

theorem swap_inline_equal_none :
    ∀ (fuel : Nat) (w : World T) (a b : Nat) (A B : socow_vector T),
      a ≠ b → w.objs[a]? = some A → w.objs[b]? = some B →
      A._is_dynamic = false → B._is_dynamic = false → A._size = B._size →
      swap fuel w a b = none := by
  intro fuel
  induction fuel with
  | zero => intro w a b A B _ _ _ _ _ _; rfl
  | succ fuel ih =>
    intro w a b A B hab hA hB hAs hBs hsz
    unfold swap
    rw [if_neg hab]
    simp only [hA, hB, dynamic_storage, static_storage, hAs, hBs, Bool.false_and,
      Bool.false_eq_true, if_false, Bool.not_false, Bool.and_self, if_true, size, hsz,
      Nat.lt_irrefl]
    exact ih w b a B A (Ne.symm hab) hB hA hBs hAs hsz.symm

theorem const_index_holds (S : Nat) (m : Mem T) (v : socow_vector T) (xs : List T)
    (h : holds S m v xs) (i : Nat) : const_index m v i = xs[i]? := by
  obtain ⟨c, _, hraw, hc⟩ := raw_data_holds S m v xs h
  unfold const_index
  rw [hraw]
  simp only [Option.some_bind]
  by_cases hi : i < xs.length
  · rw [live_getElem? xs c i hi]; rfl
  · rw [List.getElem?_eq_none (by omega : xs.length ≤ i)]
    by_cases hi2 : i < c
    · rw [live_getElem?_ge xs c i (by omega) hi2]; rfl
    · rw [List.getElem?_eq_none (by rw [live_length xs c hc]; omega)]; rfl



theorem private_ne_shared (m : Mem T) (A A' B : socow_vector T)
    (hp : private_storage m A A') (hsame : A._buffer = B._buffer)
    (hB : ∃ buf, m.deref B._buffer = some buf)
    (hrc : ∀ buf, m.deref A._buffer = some buf → 2 ≤ buf.ref_count) :
    A'._is_dynamic = false ∨ A'._buffer ≠ B._buffer := by
  cases hd : A'._is_dynamic with
  | false => exact Or.inl rfl
  | true =>
    right
    obtain ⟨buf, hbuf⟩ := hB
    rcases hp hd with hge | ⟨_, hvb, hvu⟩
    · have := deref_lt m _ buf hbuf
      omega
    · have h1 := hvu buf (by rw [hsame]; exact hbuf)
      have h2 := hrc buf (by rw [hsame]; exact hbuf)
      omega


theorem set_same (l : List α) (i : Nat) (x : α) (h : l[i]? = some x) : l.set i x = l := by
  apply List.ext_getElem?
  intro j
  by_cases hj : i = j
  · subst hj
    have hlt : i < l.length := by
      by_contra hc
      rw [List.getElem?_eq_none (by omega)] at h
      cases h
    rw [List.getElem?_set_self hlt, h]
  · rw [List.getElem?_set_ne hj]


/-! ## The branches of `swap` that exchange the contents -/

theorem getElem?_lt_length (l : List α) (i : Nat) (x : α) (h : l[i]? = some x) :
    i < l.length := by
  by_contra hc
  rw [List.getElem?_eq_none (by omega)] at h
  cases h

theorem put2_get (w : World T) (a b : Nat) (r : Mem T × socow_vector T × socow_vector T)
    (A B : socow_vector T) (hab : a ≠ b) (hA : w.objs[a]? = some A)
    (hB : w.objs[b]? = some B) :
    (w.put2 a b r).objs[a]? = some r.2.1 ∧ (w.put2 a b r).objs[b]? = some r.2.2 ∧
      (w.put2 a b r).mem = r.1 := by
  have ha := getElem?_lt_length _ _ _ hA
  have hb := getElem?_lt_length _ _ _ hB
  unfold World.put2
  refine ⟨?_, ?_, rfl⟩
  · simp only
    rw [List.getElem?_set_ne (Ne.symm hab), List.getElem?_set_self ha]
  · simp only
    rw [List.getElem?_set_self (by simpa using hb)]

/-- Both containers on the heap: the buffer handles and the sizes are exchanged. -/
theorem swap_dynamic_dynamic (S : Nat) (fuel : Nat) (w : World T) (a b : Nat)
    (A B : socow_vector T) (xs ys : List T) (hab : a ≠ b) (hA : w.objs[a]? = some A)
    (hB : w.objs[b]? = some B) (hholdsA : holds S w.mem A xs) (hholdsB : holds S w.mem B ys)
    (hAd : A._is_dynamic = true) (hBd : B._is_dynamic = true) :
    ∃ w' A' B', swap (fuel + 1) w a b = some (.ok w') ∧ w'.mem = w.mem ∧
      w'.objs[a]? = some A' ∧ w'.objs[b]? = some B' ∧
      holds S w'.mem A' ys ∧ holds S w'.mem B' xs := by
  obtain ⟨a1, a2, ba, hba, hra, hca, hda⟩ := holds_dynamic S w.mem A xs hholdsA hAd
  obtain ⟨b1, b2, bb, hbb, hrb, hcb, hdb⟩ := holds_dynamic S w.mem B ys hholdsB hBd
  unfold swap
  rw [if_neg hab]
  simp only [hA, hB]
  rw [if_pos (by simp [dynamic_storage, hAd, hBd])]
  obtain ⟨g1, g2, g3⟩ := put2_get w a b
    (w.mem, { A with _buffer := B._buffer, _size := B._size },
      { B with _buffer := A._buffer, _size := A._size }) A B hab hA hB
  refine ⟨_, _, _, rfl, g3, g1, g2, ?_, ?_⟩
  · rw [g3]
    unfold holds
    simp only [hAd, if_true]
    exact ⟨b1, a2, bb, hbb, hrb, hcb, hdb⟩
  · rw [g3]
    unfold holds
    simp only [hBd, if_true]
    exact ⟨a1, b2, ba, hba, hra, hca, hda⟩

theorem swap_static_dynamic_ok (S : Nat) (m : Mem T) (A B : socow_vector T)
    (xs ys : List T) (hholdsA : holds S m A xs) (hholdsB : holds S m B ys)
    (hAs : A._is_dynamic = false) (hBd : B._is_dynamic = true) (haff : m.affords xs.length) :
    ∃ A' B', swap_static_dynamic m A B = .ok (m.spend xs.length, A', B') ∧
      holds S (m.spend xs.length) A' ys ∧ holds S (m.spend xs.length) B' xs := by
  obtain ⟨a1, a2, a3⟩ := holds_static S m A xs hholdsA hAs
  obtain ⟨b1, b2, bb, hbb, hrb, hcb, hdb⟩ := holds_dynamic S m B ys hholdsB hBd
  unfold swap_static_dynamic copy_to_small
  simp only [size, a1, a3, b2]
  rw [uninitialized_copy_fresh m xs S S xs.length (le_refl _) a2 haff]
  simp only [rethrow_ok, ok_bind, pure_eq_ok, List.take_length]
  unfold destroy_small
  simp only [size, a1, a3]
  rw [std_destroy_live xs S 0 (Nat.zero_le _) a2]
  simp only [Option.map_some', of_some, ok_bind, List.take_zero, live_nil]
  refine ⟨_, _, rfl, ?_, ?_⟩
  · unfold holds
    simp only [if_true]
    exact ⟨b1, trivial, bb, by simpa using hbb, hrb, hcb, hdb⟩
  · unfold holds
    simp only [Bool.false_eq_true, if_false]
    exact ⟨trivial, a2, trivial⟩

/-- One container inline and one on the heap, called either way round: when no element
copy fails the contents are exchanged. -/
theorem swap_static_dynamic_exchanges (S : Nat) (fuel : Nat) (w : World T) (a b : Nat)
    (A B : socow_vector T) (xs ys : List T) (hab : a ≠ b) (hA : w.objs[a]? = some A)
    (hB : w.objs[b]? = some B) (hholdsA : holds S w.mem A xs) (hholdsB : holds S w.mem B ys)
    (hAs : A._is_dynamic = false) (hBd : B._is_dynamic = true)
    (haff : w.mem.affords xs.length) :
    ∃ w' A' B', swap (fuel + 1) w a b = some (.ok w') ∧
      swap (fuel + 2) w b a = some (.ok w') ∧
      w'.objs[a]? = some A' ∧ w'.objs[b]? = some B' ∧
      holds S w'.mem A' ys ∧ holds S w'.mem B' xs := by
  obtain ⟨A', B', hsw, hhA, hhB⟩ :=
    swap_static_dynamic_ok S w.mem A B xs ys hholdsA hholdsB hAs hBd haff
  obtain ⟨g1, g2, g3⟩ := put2_get w a b (w.mem.spend xs.length, A', B') A B hab hA hB
  have h1 : swap (fuel + 1) w a b =
      some (.ok (w.put2 a b (w.mem.spend xs.length, A', B'))) := by
    unfold swap
    rw [if_neg hab]
    simp only [hA, hB, dynamic_storage, static_storage, hAs, hBd, Bool.false_and,
      Bool.false_eq_true, if_false, Bool.not_false, Bool.not_true, Bool.and_false,
      Bool.and_self, if_true, hsw, rethrow_ok, res_bind_ok]
  have h2 : swap (fuel + 2) w b a = swap (fuel + 1) w a b := by
    conv_lhs => unfold swap
    rw [if_neg (Ne.symm hab)]
    simp only [hA, hB, dynamic_storage, static_storage, hAs, hBd, Bool.and_false,
      Bool.false_eq_true, if_false, Bool.not_false, Bool.not_true, Bool.false_and]
  refine ⟨_, A', B', h1, by rw [h2, h1], g1, g2, ?_, ?_⟩
  · rw [g3]; exact hhA
  · rw [g3]; exact hhB

/-! ## `swap` of two inline containers of different sizes -/

theorem swap_ranges_from_dead :
    ∀ (n r : Nat) (A1 A2 : Slots T) (us vs : List T) (x : Option T) (B1 B2 : Slots T),
      us.length = n → vs.length = n →
      swap_ranges_from (n + (r + 1)) (A1 ++ (us.map some ++ x :: B1)) A1.length
          (A2 ++ (vs.map some ++ none :: B2)) A2.length = none := by
  intro n
  induction n with
  | zero =>
    intro r A1 A2 us vs x B1 B2 hu hv
    have : us = [] := List.length_eq_zero.1 hu
    subst this
    have : vs = [] := List.length_eq_zero.1 hv
    subst this
    have h2 : (A2 ++ (([] : List T).map some ++ none :: B2))[A2.length]? = some none := by
      rw [List.getElem?_append_right (by omega)]
      simp
    rw [Nat.zero_add]
    unfold swap_ranges_from
    rw [h2]
    split <;> simp_all
  | succ n ih =>
    intro r A1 A2 us vs x B1 B2 hu hv
    cases us with
    | nil => simp at hu
    | cons u us' =>
      cases vs with
      | nil => simp at hv
      | cons w vs' =>
        rw [show n + 1 + (r + 1) = (n + (r + 1)) + 1 by omega]
        unfold swap_ranges_from
        have h1 : (A1 ++ ((u :: us').map some ++ x :: B1))[A1.length]? = some (some u) := by
          rw [List.getElem?_append_right (by omega)]
          simp
        have h2 : (A2 ++ ((w :: vs').map some ++ none :: B2))[A2.length]? = some (some w) := by
          rw [List.getElem?_append_right (by omega)]
          simp
        rw [h1, h2]
        simp only
        have e1 : (A1 ++ ((u :: us').map some ++ x :: B1)).set A1.length (some w) =
            (A1 ++ [some w]) ++ (us'.map some ++ x :: B1) := by
          rw [List.set_append, if_neg (by omega)]
          simp
        have e2 : (A2 ++ ((w :: vs').map some ++ none :: B2)).set A2.length (some u) =
            (A2 ++ [some u]) ++ (vs'.map some ++ none :: B2) := by
          rw [List.set_append, if_neg (by omega)]
          simp
        have l1 : A1.length + 1 = (A1 ++ [some w]).length := by simp
        have l2 : A2.length + 1 = (A2 ++ [some u]).length := by simp
        rw [e1, e2, l1, l2]
        exact ih r (A1 ++ [some w]) (A2 ++ [some u]) us' vs' x B1 B2
          (by simpa using hu) (by simpa using hv)

/-- Both containers inline, the second one shorter: after the tail of the longer one was
copied and destroyed and the sizes were exchanged, `std::swap_ranges` runs over the longer
length and reaches a destroyed object. -/
theorem swap_static_longer_ub (S : Nat) (m : Mem T) (A B : socow_vector T)
    (xs ys : List T) (hholdsA : holds S m A xs) (hholdsB : holds S m B ys)
    (hAs : A._is_dynamic = false) (hBs : B._is_dynamic = false)
    (hlt : ys.length < xs.length) (haff : m.affords (xs.length - ys.length)) :
    swap_static_longer m A B = .ub := by
  obtain ⟨a1, a2, a3⟩ := holds_static S m A xs hholdsA hAs
  obtain ⟨b1, b2, b3⟩ := holds_static S m B ys hholdsB hBs
  unfold swap_static_longer
  simp only [size, a1, a3, b1, b3]
  rw [uninitialized_copy_live m xs ys S S ys.length xs.length (by omega) (le_refl _)
    (by omega) haff]
  simp only [rethrow_ok, ok_bind, take_drop_all]
  rw [std_destroy_live xs S ys.length (by omega) a2]
  simp only [of_some, ok_bind]
  have hs : swap_ranges (live (ys ++ List.drop ys.length xs) S) 0 xs.length
      (live (List.take ys.length xs) S) 0 = none := by
    unfold swap_ranges
    rw [if_pos (Nat.zero_le _), Nat.sub_zero]
    obtain ⟨z, zs, hz⟩ : ∃ z zs, List.drop ys.length xs = z :: zs := by
      cases hdrop : List.drop ys.length xs with
      | nil =>
        have := congrArg List.length hdrop
        simp at this
        omega
      | cons z zs => exact ⟨z, zs, rfl⟩
    have e1 : live (ys ++ List.drop ys.length xs) S =
        [] ++ (ys.map some ++ some z ::
          (zs.map some ++ List.replicate (S - (ys ++ z :: zs).length) none)) := by
      rw [hz]
      simp [live]
    obtain ⟨k, hk⟩ : ∃ k, S - (List.take ys.length xs).length = k + 1 :=
      ⟨S - (List.take ys.length xs).length - 1, by simp; omega⟩
    have e2 : live (List.take ys.length xs) S =
        [] ++ ((List.take ys.length xs).map some ++ none :: List.replicate k none) := by
      unfold live
      rw [hk, List.replicate_succ]
      simp
    rw [e1, e2, show xs.length = ys.length + ((xs.length - ys.length - 1) + 1) by omega]
    have := swap_ranges_from_dead ys.length (xs.length - ys.length - 1) ([] : Slots T) []
      ys (List.take ys.length xs) (some z)
      (zs.map some ++ List.replicate (S - (ys ++ z :: zs).length) none)
      (List.replicate k none) rfl (by simp; omega)
    simpa using this
  rw [hs]
  simp

/-- Both containers inline with different sizes, called either way round: when no
element copy fails, `swap` ends in undefined behaviour. -/
theorem swap_inline_unequal_ub (S : Nat) (fuel : Nat) (w : World T) (a b : Nat)
    (A B : socow_vector T) (xs ys : List T) (hab : a ≠ b) (hA : w.objs[a]? = some A)
    (hB : w.objs[b]? = some B) (hholdsA : holds S w.mem A xs) (hholdsB : holds S w.mem B ys)
    (hAs : A._is_dynamic = false) (hBs : B._is_dynamic = false)
    (hlt : ys.length < xs.length) (haff : w.mem.affords (xs.length - ys.length)) :
    swap (fuel + 1) w a b = some .ub ∧ swap (fuel + 2) w b a = some .ub := by
  have hub := swap_static_longer_ub S w.mem A B xs ys hholdsA hholdsB hAs hBs hlt haff
  have h1 : swap (fuel + 1) w a b = some .ub := by
    unfold swap
    rw [if_neg hab]
    simp only [hA, hB, dynamic_storage, static_storage, hAs, hBs, Bool.false_and,
      Bool.false_eq_true, if_false, Bool.not_false, Bool.and_self, if_true, size,
      hholdsA.1, hholdsB.1, hlt, hub, rethrow_ub, res_bind_ub]
  have h2 : swap (fuel + 2) w b a = swap (fuel + 1) w a b := by
    conv_lhs => unfold swap
    rw [if_neg (Ne.symm hab)]
    simp only [hA, hB, dynamic_storage, static_storage, hAs, hBs, Bool.false_and,
      Bool.false_eq_true, if_false, Bool.not_false, Bool.and_self, if_true, size,
      hholdsA.1, hholdsB.1, show ¬ xs.length < ys.length by omega]
  exact ⟨h1, by rw [h2, h1]⟩
theorem deref_realloc (S : Nat) (m : Mem T) (v : socow_vector T) (xs : List T)
    (k : Nat) (nb : buffer T) (h : holds S m v xs) :
    (((m.spend k).push nb).drop_ref v).deref m.heap.length = some nb := by
  rw [deref_drop_ref_ne _ v _ ?_, deref_push_length' _ _ _ (by simp)]
  intro hd
  obtain ⟨_, _, b, hb, _⟩ := holds_dynamic S m v xs h hd
  have := deref_lt m _ b hb
  omega

/-- The branch of `reserve` that allocates: the new buffer, then `destroy()`. -/
theorem reserve_realloc (S : Nat) (m : Mem T) (v : socow_vector T) (xs : List T) (n c : Nat)
    (sh : Bool) (h : holds S m v xs) (hcap : capacity S m v = some c)
    (hsh : dynamic_and_shared m v = some sh) (hn : xs.length ≤ n)
    (hwhy : (sh = true ∧ S < n) ∨ (sh = false ∧ c < n)) :
    reserve S m v n = (do
      let r ← (copy_buffer m v xs.length n).rethrow fun e => some (e, v)
      let d ← Res.of (destroy r.1 v)
      pure (d.1, ({ d.2 with _is_dynamic := true, _buffer := r.2 } : socow_vector T))) := by
  have hsz := holds_size S m v xs h
  unfold reserve
  rw [hsz, if_neg (by omega)]
  simp only [hsh, of_some, ok_bind]
  rcases hwhy with ⟨h1, h2⟩ | ⟨h1, h2⟩
  · subst h1
    have : decide (n ≤ S) = false := by simpa using h2
    simp [this]
  · subst h1
    simp [hcap, h2]

/-- The outcomes of `reserve(n)` on a container that holds `xs`. -/
theorem reserve_cases (S : Nat) (m : Mem T) (v : socow_vector T) (xs : List T) (n c : Nat)
    (sh : Bool) (h : holds S m v xs) (hcap : capacity S m v = some c)
    (hsh : dynamic_and_shared m v = some sh) :
    ((n < xs.length ∨ (sh = false ∧ n ≤ c)) ∧ reserve S m v n = .ok (m, v)) ∨
    (xs.length ≤ n ∧ sh = true ∧ n ≤ S ∧ m.affords xs.length ∧
      reserve S m v n = .ok ((m.spend xs.length).release v._buffer,
        { v with _small := live xs S, _is_dynamic := false })) ∨
    (xs.length ≤ n ∧ ((sh = true ∧ S < n) ∨ (sh = false ∧ c < n)) ∧ m.affords xs.length ∧
      reserve S m v n = .ok (((m.spend xs.length).push ⟨n, 1, live xs n⟩).drop_ref v,
        { v with _small := List.replicate S none, _buffer := m.heap.length,
                 _is_dynamic := true })) ∨
    (xs.length ≤ n ∧ (sh = true ∨ c < n) ∧ ∃ b m', m.budget = some b ∧ b < xs.length ∧
      reserve S m v n = .throw (m', v) ∧ m.unwound m') := by
  obtain ⟨c0, hcap0, hraw, hc⟩ := raw_data_holds S m v xs h
  rw [hcap] at hcap0
  cases hcap0
  obtain ⟨sh0, hsh0, hsh1, hsh2⟩ := shared_holds S m v xs h
  rw [hsh] at hsh0
  cases hsh0
  have hsz := holds_size S m v xs h
  by_cases hn : n < xs.length
  · left
    refine ⟨Or.inl hn, ?_⟩
    unfold reserve
    rw [hsz, if_pos hn]
    rfl
  · have hn' : xs.length ≤ n := by omega
    by_cases hst : sh = true ∧ n ≤ S
    · have hd := (hsh1 hst.1).1
      obtain ⟨b, _, hdd, _⟩ := dynamic_data_holds S m v xs h hd
      have e : reserve S m v n = become_static m v (live xs b.capacity) 0 xs.length := by
        unfold reserve
        rw [hsz, if_neg hn]
        simp [hsh, hst.1, hst.2, hdd]
      rcases budget_cases m xs.length with haff | ⟨bb, hbb, hbl⟩
      · right; left
        refine ⟨hn', hst.1, hst.2, haff, ?_⟩
        rw [e, become_static_ok S m v xs xs _ _ h hd (le_refl _) (by omega) haff]
        simp
      · right; right; right
        refine ⟨hn', Or.inl hst.1, bb, _, hbb, hbl, ?_, unwound_spend m bb⟩
        rw [e, become_static_throw S m v xs xs _ _ bb h hd (le_refl _) (by omega) hbb hbl]
    · by_cases hwhy : (sh = true ∧ S < n) ∨ (sh = false ∧ c < n)
      · have e := reserve_realloc S m v xs n c sh h hcap hsh hn' hwhy
        rcases budget_cases m xs.length with haff | ⟨bb, hbb, hbl⟩
        · right; right; left
          refine ⟨hn', hwhy, haff, ?_⟩
          rw [e, copy_buffer_ok S m v xs _ n h (le_refl _) (by omega) haff]
          simp only [rethrow_ok, ok_bind, List.take_length]
          rw [destroy_holds S _ v xs (holds_push S _ v xs _ (holds_spend S m v xs _ h))]
          simp only [of_some, ok_bind, pure_eq_ok]
        · right; right; right
          refine ⟨hn', ?_, bb, _, hbb, hbl, ?_, unwound_freed m bb⟩
          · rcases hwhy with ⟨h1, _⟩ | ⟨_, h2⟩
            · exact Or.inl h1
            · exact Or.inr h2
          · rw [e, copy_buffer_throw S m v xs _ n bb h (le_refl _) (by omega) hbb hbl]
            simp only [rethrow_throw, throw_bind]
      · left
        have hshf : sh = false := by
          cases sh with
          | false => rfl
          | true =>
            exfalso
            rcases Nat.lt_or_ge S n with h1 | h1
            · exact hwhy (Or.inl ⟨rfl, h1⟩)
            · exact hst ⟨rfl, h1⟩
        have hcn : n ≤ c := by
          rcases Nat.lt_or_ge c n with h1 | h1
          · exact absurd (Or.inr ⟨hshf, h1⟩) hwhy
          · exact h1
        refine ⟨Or.inr ⟨hshf, hcn⟩, ?_⟩
        subst hshf
        unfold reserve
        rw [hsz, if_neg hn]
        simp [hsh, hcap, Nat.not_lt.2 hcn]

theorem capacity_static (S : Nat) (m : Mem T) (v : socow_vector T)
    (h : v._is_dynamic = false) : capacity S m v = some S := by
  simp [capacity, static_storage, dynamic_storage, h]

theorem capacity_dynamic (S : Nat) (m : Mem T) (v : socow_vector T) (b : buffer T)
    (h : v._is_dynamic = true) (hb : m.deref v._buffer = some b) :
    capacity S m v = some b.capacity := by
  simp [capacity, static_storage, dynamic_storage, h, hb]
theorem rc_of_some (m : Mem T) (q : Nat) (b : buffer T) (h : m.deref q = some b) :
    m.rc q = b.ref_count := by
  simp [Mem.rc, h]

theorem rc_of_none (m : Mem T) (q : Nat) (h : m.deref q = none) : m.rc q = 0 := by
  simp [Mem.rc, h]

theorem rc_congr (m m' : Mem T) (q : Nat) (h : m'.deref q = m.deref q) : m'.rc q = m.rc q := by
  simp [Mem.rc, h]

theorem handles_congr (v v' : socow_vector T) (q : Nat)
    (h1 : v'._is_dynamic = v._is_dynamic) (h2 : v'._buffer = v._buffer) :
    handles v' q = handles v q := by
  simp [handles, refers, h1, h2]

theorem handles_static (v : socow_vector T) (q : Nat) (h : v._is_dynamic = false) :
    handles v q = 0 := by
  simp [handles, refers, h]

theorem handles_self (v : socow_vector T) (h : v._is_dynamic = true) :
    handles v v._buffer = 1 := by
  simp [handles, refers, h]

theorem handles_ne (v : socow_vector T) (q : Nat) (h : q ≠ v._buffer) : handles v q = 0 := by
  have : ¬ v._buffer = q := fun e => h e.symm
  simp [handles, refers, this]

theorem refers_iff (v : socow_vector T) (q : Nat) :
    refers v q = true ↔ v._is_dynamic = true ∧ v._buffer = q := by
  simp [refers]

/-- A call that changed nothing is a step. -/
theorem stepped_refl (S : Nat) (m : Mem T) (v : socow_vector T) (xs : List T)
    (h : holds S m v xs) : stepped S m v m v :=
  ⟨⟨xs, h⟩, frame_refl m v, rfl, fun _ => rfl,
    fun _ b' hb' => Or.inl ⟨b', hb', rfl, id⟩⟩

/-- A call that was unwound is a step. -/
theorem stepped_of_unwound (S : Nat) (m m' : Mem T) (v : socow_vector T) (xs : List T)
    (h : holds S m v xs) (hu : m.unwound m') : stepped S m v m' v := by
  refine ⟨⟨xs, (kept_of_unwound S m m' v xs h hu).1⟩,
    fun q _ => keeps_of_unwound m m' q hu, hu.2.2, fun q => ?_, fun q b' hb' => ?_⟩
  · rcases Nat.lt_or_ge q m.heap.length with hq | hq
    · rw [rc_congr m m' q (hu.1 q hq)]
    · rw [rc_of_none m' q (hu.2.1 q hq), rc_of_none m q (deref_ge m q hq)]
  · rcases Nat.lt_or_ge q m.heap.length with hq | hq
    · rw [hu.1 q hq] at hb'
      exact Or.inl ⟨b', hb', rfl, id⟩
    · rw [hu.2.1 q hq] at hb'
      cases hb'

/-- A call that worked in place is a step. -/
theorem stepped_of_in_place (S : Nat) (m m' : Mem T) (v v' : socow_vector T) (xs ys : List T)
    (h : holds S m v xs) (hp : in_place S m v m' v' ys) : stepped S m v m' v' := by
  obtain ⟨hh, hdyn, hbuf, hleak, _, hother, hown⟩ := hp
  refine ⟨⟨ys, hh⟩, fun q hq b hb => ?_, hleak, fun q => ?_, fun q b' hb' => ?_⟩
  · have hne : v._is_dynamic = true → q ≠ v._buffer := by
      intro hd hqb
      have h2 := hq hd hqb b hb
      have h1 := (hown hd b (by rw [← hqb]; exact hb)).1
      omega
    exact ⟨b, by rw [hother q hne]; exact hb, rfl, rfl, id⟩
  · rw [handles_congr v v' q hdyn hbuf]
    by_cases hq : v._is_dynamic = true ∧ q = v._buffer
    · obtain ⟨hd, rfl⟩ := hq
      obtain ⟨_, _, b, hb, _⟩ := holds_dynamic S m v xs h hd
      obtain ⟨_, b1, hb1, _, hr⟩ := hown hd b hb
      rw [rc_of_some m' _ b1 hb1, rc_of_some m _ b hb, hr]
    · rw [rc_congr m m' q (hother q (fun hd hqb => hq ⟨hd, hqb⟩))]
  · by_cases hq : v._is_dynamic = true ∧ q = v._buffer
    · obtain ⟨hd, rfl⟩ := hq
      obtain ⟨_, _, b, hb, _⟩ := holds_dynamic S m v xs h hd
      obtain ⟨h1, b1, hb1, hc, hr⟩ := hown hd b hb
      rw [hb1] at hb'
      cases hb'
      exact Or.inl ⟨b, hb, hc, fun _ => by omega⟩
    · rw [hother q (fun hd hqb => hq ⟨hd, hqb⟩)] at hb'
      exact Or.inl ⟨b', hb', rfl, id⟩

theorem rc_release_self (m : Mem T) (p : Nat) (b : buffer T) (hb : m.deref p = some b)
    (hr : 0 < b.ref_count) : (m.release p).rc p + 1 = m.rc p := by
  rw [rc_of_some m p b hb]
  by_cases h2 : 2 ≤ b.ref_count
  · rw [rc_of_some _ p _ (deref_release_shared m p b hb h2)]
    show b.ref_count - 1 + 1 = b.ref_count
    omega
  · rw [rc_of_none _ p (deref_release_last m p b hb (by omega))]
    omega

theorem release_live (m : Mem T) (p q : Nat) (b' : buffer T)
    (hb' : (m.release p).deref q = some b') :
    ∃ b, m.deref q = some b ∧ b'.capacity = b.capacity ∧ b'.data = b.data ∧
      (0 < b.ref_count → 0 < b'.ref_count) ∧ (q ≠ p → b' = b) := by
  by_cases hq : q = p
  · subst hq
    cases hb : m.deref q with
    | none =>
      have : m.release q = m := by simp [Mem.release, hb]
      rw [this, hb] at hb'
      cases hb'
    | some b =>
      by_cases h2 : 2 ≤ b.ref_count
      · rw [deref_release_shared m q b hb h2] at hb'
        cases hb'
        exact ⟨b, rfl, rfl, rfl, fun _ => by simp; omega, fun h => absurd rfl h⟩
      · rw [deref_release_last m q b hb (by omega)] at hb'
        cases hb'
  · rw [deref_release_ne m p q hq] at hb'
    exact ⟨b', hb', rfl, rfl, id, fun _ => rfl⟩

/-- Giving up the buffer for inline storage is a step. -/
theorem stepped_release (S : Nat) (m : Mem T) (v v' : socow_vector T) (xs ys : List T)
    (k : Nat) (h : holds S m v xs) (hd : v._is_dynamic = true)
    (hs : v'._is_dynamic = false) (hh : holds S ((m.spend k).release v._buffer) v' ys) :
    stepped S m v ((m.spend k).release v._buffer) v' := by
  obtain ⟨_, _, b, hb, hr, _⟩ := holds_dynamic S m v xs h hd
  refine ⟨⟨ys, hh⟩, frame_release m v k hd, by simp, fun q => ?_, fun q b' hb' => ?_⟩
  · rw [handles_static v' q hs]
    by_cases hq : q = v._buffer
    · subst hq
      rw [handles_self v hd]
      have := rc_release_self (m.spend k) v._buffer b (by simpa using hb) hr
      rw [this]
      rfl
    · rw [handles_ne v q hq, rc_congr _ _ q (deref_release_ne (m.spend k) _ q hq)]
      rfl
  · obtain ⟨b0, h0, hc, _, hp, _⟩ := release_live (m.spend k) _ q b' hb'
    exact Or.inl ⟨b0, by simpa using h0, hc, hp⟩
@[simp] theorem leaked_drop_ref (m : Mem T) (v : socow_vector T) :
    (m.drop_ref v).leaked = m.leaked := by
  unfold Mem.drop_ref
  split <;> simp

theorem deref_push_cases (m : Mem T) (nb b : buffer T) (q : Nat)
    (h : (m.push nb).deref q = some b) :
    (q = m.heap.length ∧ b = nb) ∨ (q < m.heap.length ∧ m.deref q = some b) := by
  rcases Nat.lt_trichotomy q m.heap.length with hq | hq | hq
  · right
    rw [deref_push_of_lt m nb q hq] at h
    exact ⟨hq, h⟩
  · left
    rw [deref_push_length' m nb q hq] at h
    cases h
    exact ⟨hq, rfl⟩
  · rw [deref_ge (m.push nb) q (by simp; omega)] at h
    cases h

theorem drop_ref_live (m : Mem T) (v : socow_vector T) (q : Nat) (b' : buffer T)
    (hb' : (m.drop_ref v).deref q = some b') :
    ∃ b, m.deref q = some b ∧ b'.capacity = b.capacity ∧ b'.data = b.data ∧
      (0 < b.ref_count → 0 < b'.ref_count) := by
  unfold Mem.drop_ref at hb'
  split at hb'
  · obtain ⟨b, h1, h2, h3, h4, _⟩ := release_live m _ q b' hb'
    exact ⟨b, h1, h2, h3, h4⟩
  · exact ⟨b', hb', rfl, rfl, id⟩

theorem rc_drop_ref (S : Nat) (m m1 : Mem T) (v : socow_vector T) (xs : List T)
    (h : holds S m v xs) (h1 : ∀ q b, m.deref q = some b → m1.deref q = some b) (q : Nat) :
    (m1.drop_ref v).rc q + handles v q = m1.rc q := by
  by_cases hq : v._is_dynamic = true ∧ q = v._buffer
  · obtain ⟨hd, rfl⟩ := hq
    obtain ⟨_, _, b, hb, hr, _⟩ := holds_dynamic S m v xs h hd
    rw [handles_self v hd]
    unfold Mem.drop_ref
    rw [if_pos hd]
    exact rc_release_self m1 _ b (h1 _ b hb) hr
  · have hz : handles v q = 0 := by
      by_cases hd : v._is_dynamic = true
      · exact handles_ne v q (fun e => hq ⟨hd, e⟩)
      · exact handles_static v q (by simpa using hd)
    rw [hz, rc_congr _ _ q (deref_drop_ref_ne m1 v q (fun hd e => hq ⟨hd, e⟩))]
    rfl

/-- Moving to a newly allocated buffer is a step. -/
theorem stepped_realloc (S : Nat) (m : Mem T) (v v' : socow_vector T) (xs ys : List T)
    (k cap : Nat) (h : holds S m v xs) (hc : ys.length ≤ cap) (h1 : v'._size = ys.length)
    (h2 : v'._is_dynamic = true) (h3 : v'._buffer = m.heap.length)
    (h4 : v'._small = List.replicate S none)
    (hcap : (v._is_dynamic = true → ∀ b, m.deref v._buffer = some b → S < b.capacity) →
      S < cap) :
    stepped S m v (((m.spend k).push ⟨cap, 1, live ys cap⟩).drop_ref v) v' := by
  have hlt : v._is_dynamic = true → v._buffer < m.heap.length := by
    intro hd
    obtain ⟨_, _, b, hb, _⟩ := holds_dynamic S m v xs h hd
    exact deref_lt m _ b hb
  have hkeep : ∀ q b, m.deref q = some b →
      ((m.spend k).push ⟨cap, 1, live ys cap⟩).deref q = some b :=
    fun q b hb => deref_push_of_some _ _ b q (by simpa using hb)
  refine ⟨⟨ys, holds_realloc S m v v' xs ys k cap h hc h1 h2 h3 h4⟩, frame_realloc m v k _,
    by simp, fun q => ?_, fun q b' hb' => ?_⟩
  · rw [rc_drop_ref S m _ v xs h hkeep q]
    rcases Nat.lt_trichotomy q m.heap.length with hq | hq | hq
    · rw [rc_congr m _ q (by rw [deref_push_of_lt _ _ q (by simpa using hq)]; rfl),
        handles_ne v' q (by omega)]
      rfl
    · subst hq
      rw [rc_of_some _ _ _ (deref_push_length' _ _ _ (by simp)), rc_of_none m _ (deref_ge m _ (le_refl _)),
        ← h3, handles_self v' h2]
    · rw [rc_of_none _ q (deref_ge _ q (by simp; omega)), rc_of_none m q (deref_ge m q (by omega)),
        handles_ne v' q (by omega)]
  · by_cases hq : q = m.heap.length
    · subst hq
      rw [deref_realloc S m v xs k _ h] at hb'
      cases hb'
      exact Or.inr ⟨by simp [refers, h2, h3], by simp, hcap⟩
    · obtain ⟨b, hb, hcb, _, hp⟩ := drop_ref_live _ v q b' hb'
      rcases deref_push_cases _ _ b q hb with ⟨e, _⟩ | ⟨_, hb0⟩
      · exact absurd (by simpa using e) hq
      · exact Or.inl ⟨b, by simpa using hb0, hcb, hp⟩
theorem drop_ref_dynamic (m : Mem T) (v : socow_vector T) (hd : v._is_dynamic = true) :
    m.drop_ref v = m.release v._buffer := by
  simp [Mem.drop_ref, hd]

/-- Writing the slots of the own storage back is a call that worked in place. -/
theorem set_raw_data_in_place (S : Nat) (m : Mem T) (v : socow_vector T) (xs ys : List T)
    (c k : Nat) (h : holds S m v xs) (hcap : capacity S m v = some c) (hys : ys.length ≤ c)
    (hu : v._is_dynamic = true → ∀ b, m.deref v._buffer = some b → b.ref_count = 1) :
    ∃ m' v', set_raw_data (m.spend k) v (live ys c) = some (m', v') ∧
      (∀ n, n = ys.length → in_place S m v m' { v' with _size := n } ys) ∧
      v'._size = v._size ∧ m'.copies = m.copies + k ∧
      capacity S m' v' = some c := by
  obtain ⟨m', v', hset, hholds, hdyn, hbuf, hsize, hcop, _, hleak, hlen, hother, hown⟩ :=
    set_raw_data_holds S (m.spend k) v xs ys c (holds_spend S m v xs k h)
      (by rw [← hcap]; exact (holds_of_keeps S m _ v xs h (fun _ => keeps_spend m k _)).2) hys
  refine ⟨m', v', hset, fun n hn => ⟨(hholds n).2 hn, hdyn, hbuf, by simpa using hleak,
    by simpa using hlen, fun q hq => by simpa using hother q hq, fun hd b hb => ?_⟩,
    hsize, by simpa using hcop, ?_⟩
  · exact ⟨hu hd b hb, _, hown hd b (by simpa using hb), rfl, rfl⟩
  · cases hd : v._is_dynamic with
    | false =>
      rw [capacity_static S m v hd] at hcap
      rw [capacity_static S m' v' (by rw [hdyn, hd])]
      exact hcap
    | true =>
      obtain ⟨_, _, b, hb, _⟩ := holds_dynamic S m v xs h hd
      rw [capacity_dynamic S m v b hd hb] at hcap
      rw [capacity_dynamic S m' v' _ (by rw [hdyn, hd])
        (by rw [hbuf]; exact hown hd b (by simpa using hb))]
      exact hcap

/-- The outcomes of `push_back(x)` on a container that holds `xs`. -/
theorem push_back_outcomes (S : Nat) (m : Mem T) (v : socow_vector T) (xs : List T) (x : T)
    (c : Nat) (sh : Bool) (h : holds S m v xs) (hcap : capacity S m v = some c)
    (hsh : dynamic_and_shared m v = some sh) :
    (c = xs.length ∧ m.affords (xs.length + 1) ∧
      push_back S m v x =
        .ok (((m.spend (xs.length + 1)).push
            ⟨if c = 0 then 1 else c * 2, 1,
              live (xs ++ [x]) (if c = 0 then 1 else c * 2)⟩).drop_ref v,
          { v with _small := List.replicate S none, _buffer := m.heap.length,
                   _is_dynamic := true, _size := v._size + 1 })) ∨
    (c ≠ xs.length ∧ sh = true ∧ m.affords (xs.length + 1) ∧
      push_back S m v x =
        .ok (((m.spend (xs.length + 1)).push ⟨c, 1, live (xs ++ [x]) c⟩).drop_ref v,
          { v with _small := List.replicate S none, _buffer := m.heap.length,
                   _size := v._size + 1 })) ∨
    (c ≠ xs.length ∧ sh = false ∧ m.affords 1 ∧
      ∃ m' v', push_back S m v x = .ok (m', v') ∧ in_place S m v m' v' (xs ++ [x]) ∧
        capacity S m' v' = some c) ∨
    (∃ b m', m.budget = some b ∧ b < grow_copies S m v ∧
      push_back S m v x = .throw (m', v) ∧ m.unwound m') := by
  obtain ⟨c0, hcap0, hraw, hc⟩ := raw_data_holds S m v xs h
  rw [hcap] at hcap0
  cases hcap0
  obtain ⟨sh0, hsh0, hsh1, hsh2⟩ := shared_holds S m v xs h
  rw [hsh] at hsh0
  cases hsh0
  have hsz := holds_size S m v xs h
  by_cases hfull : c = xs.length
  · have e : push_back S m v x = (do
        let r ← push_back_dynamic m v x (if c = 0 then 1 else c * 2)
        pure (r.1, ({ r.2 with _is_dynamic := true, _size := r.2._size + 1 } :
          socow_vector T))) := by
      unfold push_back
      simp only [hcap, of_some, ok_bind, hsz]
      rw [if_pos hfull]
    have hlt : xs.length < (if c = 0 then 1 else c * 2) := by split_ifs <;> omega
    rcases budget_cases m (xs.length + 1) with haff | ⟨b, hb, hbl⟩
    · left
      refine ⟨hfull, haff, ?_⟩
      rw [e, push_back_dynamic_ok S m v xs x _ h hlt haff]
      rfl
    · right; right; right
      refine ⟨b, _, hb, by simp [grow_copies, hcap, hsz, hfull]; omega, ?_, unwound_freed m b⟩
      rw [e, push_back_dynamic_throw S m v xs x _ b h hlt hb (by omega)]
      rfl
  · cases sh with
    | true =>
      have e : push_back S m v x = (do
          let r ← push_back_dynamic m v x c
          pure (r.1, ({ r.2 with _size := r.2._size + 1 } : socow_vector T))) := by
        unfold push_back
        simp only [hcap, of_some, ok_bind, hsz, hsh]
        rw [if_neg hfull]
        simp
      rcases budget_cases m (xs.length + 1) with haff | ⟨b, hb, hbl⟩
      · right; left
        refine ⟨hfull, rfl, haff, ?_⟩
        rw [e, push_back_dynamic_ok S m v xs x c h (by omega) haff]
        rfl
      · right; right; right
        refine ⟨b, _, hb, by simp [grow_copies, hsh, hsz]; omega, ?_, unwound_freed m b⟩
        rw [e, push_back_dynamic_throw S m v xs x c b h (by omega) hb (by omega)]
        rfl
    | false =>
      have e : push_back S m v x = (do
          let cc ← (construct_at m (live xs c) xs.length x).rethrow (fun e => some (e, v))
          let r ← Res.of (set_raw_data cc.1 v cc.2)
          pure (r.1, ({ r.2 with _size := r.2._size + 1 } : socow_vector T))) := by
        unfold push_back
        simp only [hcap, of_some, ok_bind, hsz, hsh]
        rw [if_neg hfull]
        simp [hraw]
      rcases budget_cases m 1 with haff | ⟨b, hb, hbl⟩
      · right; right; left
        refine ⟨hfull, rfl, haff, ?_⟩
        obtain ⟨m', v', hset, hin, hsize, _, hcap'⟩ :=
          set_raw_data_in_place S m v xs (xs ++ [x]) c 1 h hcap (by simp; omega) (hsh2 rfl)
        refine ⟨m', { v' with _size := v'._size + 1 }, ?_,
          hin _ (by simp [hsize, h.1]), ?_⟩
        · rw [e, construct_at_live m xs c x (by omega) haff]
          simp only [rethrow_ok, ok_bind]
          rw [hset]
          rfl
        · simpa [capacity, static_storage, dynamic_storage] using hcap'
      · right; right; right
        have hb0 : m.budget = some 0 := by rw [hb]; congr 1; omega
        refine ⟨b, _, hb, by simp [grow_copies, hsh, hsz, hcap, hfull]; omega, ?_,
          unwound_refl m⟩
        rw [e, construct_at_live_throw m xs c x (by omega) hb0]
        rfl
/-- The outcomes of `insert(begin + k, x)` on a container that holds `xs`. -/
theorem insert_outcomes (S : Nat) (m : Mem T) (v : socow_vector T) (xs : List T) (k : Nat)
    (x : T) (c : Nat) (sh : Bool) (h : holds S m v xs) (hk : k ≤ xs.length)
    (hcap : capacity S m v = some c) (hsh : dynamic_and_shared m v = some sh) :
    (c = xs.length ∧ m.affords (xs.length + 1) ∧
      insert S m v k x =
        .ok (((m.spend (xs.length + 1)).push
            ⟨if c = 0 then 1 else c * 2, 1,
              live (xs.take k ++ x :: xs.drop k) (if c = 0 then 1 else c * 2)⟩).drop_ref v,
          { v with _small := List.replicate S none, _buffer := m.heap.length,
                   _is_dynamic := true, _size := v._size + 1 }, k)) ∨
    (c ≠ xs.length ∧ sh = true ∧ m.affords (xs.length + 1) ∧
      insert S m v k x =
        .ok (((m.spend (xs.length + 1)).push
            ⟨c, 1, live (xs.take k ++ x :: xs.drop k) c⟩).drop_ref v,
          { v with _small := List.replicate S none, _buffer := m.heap.length,
                   _size := v._size + 1 }, k)) ∨
    (c ≠ xs.length ∧ sh = false ∧ m.affords 1 ∧
      ∃ m' v', insert S m v k x = .ok (m', v', k) ∧
        in_place S m v m' v' (xs.take k ++ x :: xs.drop k) ∧ capacity S m' v' = some c) ∨
    (∃ b m', m.budget = some b ∧ b < grow_copies S m v ∧
      insert S m v k x = .throw (m', v) ∧ m.unwound m') := by
  obtain ⟨c0, hcap0, hraw, hc⟩ := raw_data_holds S m v xs h
  rw [hcap] at hcap0
  cases hcap0
  obtain ⟨sh0, hsh0, hsh1, hsh2⟩ := shared_holds S m v xs h
  rw [hsh] at hsh0
  cases hsh0
  have hsz := holds_size S m v xs h
  have hlen : (xs.take k ++ x :: xs.drop k).length = xs.length + 1 := by
    simp; omega
  by_cases hfull : c = xs.length
  · have e : insert S m v k x = (do
        let r ← insert_dynamic m v k x (if c = 0 then 1 else c * 2)
        pure (r.1, ({ r.2 with _is_dynamic := true, _size := r.2._size + 1 } :
          socow_vector T), k)) := by
      unfold insert
      simp only [hcap, of_some, ok_bind, hsz]
      rw [if_pos hfull]
    have hlt : xs.length < (if c = 0 then 1 else c * 2) := by split_ifs <;> omega
    rcases budget_cases m (xs.length + 1) with haff | ⟨b, hb, hbl⟩
    · left
      refine ⟨hfull, haff, ?_⟩
      rw [e, insert_dynamic_ok S m v xs k x _ h hk hlt haff]
      rfl
    · right; right; right
      refine ⟨b, _, hb, by simp [grow_copies, hcap, hsz, hfull]; omega, ?_, unwound_freed m b⟩
      rw [e, insert_dynamic_throw S m v xs k x _ b h hk hlt hb (by omega)]
      rfl
  · cases sh with
    | true =>
      have e : insert S m v k x = (do
          let r ← insert_dynamic m v k x c
          pure (r.1, ({ r.2 with _size := r.2._size + 1 } : socow_vector T), k)) := by
        unfold insert
        simp only [hcap, of_some, ok_bind, hsz, hsh]
        rw [if_neg hfull]
        simp
      rcases budget_cases m (xs.length + 1) with haff | ⟨b, hb, hbl⟩
      · right; left
        refine ⟨hfull, rfl, haff, ?_⟩
        rw [e, insert_dynamic_ok S m v xs k x c h hk (by omega) haff]
        rfl
      · right; right; right
        refine ⟨b, _, hb, by simp [grow_copies, hsh, hsz]; omega, ?_, unwound_freed m b⟩
        rw [e, insert_dynamic_throw S m v xs k x c b h hk (by omega) hb (by omega)]
        rfl
    | false =>
      have e : insert S m v k x = (do
          let cc ← (construct_at m (live xs c) xs.length x).rethrow (fun e => some (e, v))
          let s' ← Res.of (in_place_insert_loop k xs.length cc.2)
          let r ← Res.of (set_raw_data cc.1 v s')
          pure (r.1, ({ r.2 with _size := r.2._size + 1 } : socow_vector T), k)) := by
        unfold insert
        simp only [hcap, of_some, ok_bind, hsz, hsh]
        rw [if_neg hfull]
        unfold in_place_insert
        simp [hraw, hsz]
      rcases budget_cases m 1 with haff | ⟨b, hb, hbl⟩
      · right; right; left
        refine ⟨hfull, rfl, haff, ?_⟩
        obtain ⟨m', v', hset, hin, hsize, _, hcap'⟩ :=
          set_raw_data_in_place S m v xs (xs.take k ++ x :: xs.drop k) c 1 h hcap
            (by rw [hlen]; omega) (hsh2 rfl)
        refine ⟨m', { v' with _size := v'._size + 1 }, ?_,
          hin _ (by rw [hlen, hsize, h.1]), ?_⟩
        · rw [e, construct_at_live m xs c x (by omega) haff]
          simp only [rethrow_ok, ok_bind]
          rw [in_place_insert_loop_live x c k xs.length xs [] rfl hk]
          simp only [of_some, ok_bind, List.append_nil]
          rw [hset]
          rfl
        · simpa [capacity, static_storage, dynamic_storage] using hcap'
      · right; right; right
        have hb0 : m.budget = some 0 := by rw [hb]; congr 1; omega
        refine ⟨b, _, hb, by simp [grow_copies, hsh, hsz, hcap, hfull]; omega, ?_,
          unwound_refl m⟩
        rw [e, construct_at_live_throw m xs c x (by omega) hb0]
        rfl

theorem grow_capacity (c : Nat) : (if c = 0 then 1 else c * 2) = max 1 (2 * c) := by
  split_ifs with h
  · subst h; rfl
  · rw [Nat.max_def]
    split_ifs <;> omega
/-- The outcomes of `ensure_ownership(k)` on a container that holds `xs`. -/
theorem ensure_ownership_outcomes (S : Nat) (m : Mem T) (v : socow_vector T) (xs : List T)
    (k c : Nat) (sh : Bool) (h : holds S m v xs) (hk : k ≤ xs.length)
    (hcap : capacity S m v = some c) (hsh : dynamic_and_shared m v = some sh) :
    (sh = false ∧ ∃ m' v', ensure_ownership S m v k = .ok (m', v') ∧
      in_place S m v m' v' (xs.take k) ∧ m'.copies = m.copies ∧
      capacity S m' v' = some c) ∨
    (sh = true ∧ k ≤ S ∧ m.affords k ∧
      ensure_ownership S m v k =
        .ok ((m.spend k).release v._buffer,
          { v with _small := live (xs.take k) S, _is_dynamic := false, _size := k })) ∨
    (sh = true ∧ S < k ∧ m.affords k ∧
      ensure_ownership S m v k =
        .ok (((m.spend k).push ⟨k, 1, live (xs.take k) k⟩).release v._buffer,
          { v with _buffer := m.heap.length, _is_dynamic := true, _size := k })) ∨
    (sh = true ∧ ∃ b m', m.budget = some b ∧ b < k ∧
      ensure_ownership S m v k = .throw (m', v) ∧ m.unwound m') := by
  obtain ⟨c0, hcap0, hraw, hc⟩ := raw_data_holds S m v xs h
  rw [hcap] at hcap0
  cases hcap0
  obtain ⟨sh0, hsh0, hsh1, hsh2⟩ := shared_holds S m v xs h
  rw [hsh] at hsh0
  cases hsh0
  have hsz := holds_size S m v xs h
  cases sh with
  | false =>
    left
    refine ⟨rfl, ?_⟩
    have e : ensure_ownership S m v k = (do
        let s' ← Res.of (std_destroy (live xs c) k xs.length)
        let r ← Res.of (set_raw_data m v s')
        pure (r.1, ({ r.2 with _size := k } : socow_vector T))) := by
      unfold ensure_ownership
      rw [hsz, if_neg (by omega)]
      cases hd : v._is_dynamic with
      | false =>
        simp [static_storage, dynamic_storage, hd, hraw]
      | true =>
        obtain ⟨_, _, b, hb, _⟩ := holds_dynamic S m v xs h hd
        have hu := hsh2 rfl hd b hb
        simp [static_storage, dynamic_storage, hd, unique_buffer, hb, hu, hraw]
    obtain ⟨m', v', hset, hin, hsize, hcop, hcap'⟩ :=
      set_raw_data_in_place S m v xs (xs.take k) c 0 h hcap (by simp; omega) (hsh2 rfl)
    rw [spend_zero] at hset
    refine ⟨m', { v' with _size := k }, ?_, hin k (by simp [hk]), by simpa using hcop, ?_⟩
    · rw [e, std_destroy_live xs c k hk hc]
      simp only [of_some, ok_bind]
      rw [hset]
      rfl
    · simpa [capacity, static_storage, dynamic_storage] using hcap'
  | true =>
    right
    have hd := (hsh1 rfl).1
    obtain ⟨_, _, b, hb, _⟩ := holds_dynamic S m v xs h hd
    have h2 := (hsh1 rfl).2 b hb
    have e : ensure_ownership S m v k = force_ensure_ownership S m v k := by
      unfold ensure_ownership
      rw [hsz, if_neg (by omega)]
      have hne : (b.ref_count == 1) = false := by
        simp
        omega
      simp [static_storage, dynamic_storage, hd, unique_buffer, hb, hne]
    rcases budget_cases m k with haff | ⟨bb, hbb, hbl⟩
    · by_cases hS : k ≤ S
      · left
        exact ⟨rfl, hS, haff, by rw [e, force_ensure_ownership_small S m v xs k h hd hk hS haff]⟩
      · right; left
        exact ⟨rfl, by omega, haff,
          by rw [e, force_ensure_ownership_large S m v xs k h hd hk (by omega) haff]⟩
    · right; right
      refine ⟨rfl, bb, _, hbb, hbl,
        by rw [e, force_ensure_ownership_throw S m v xs k bb h hd hk hbb hbl], ?_⟩
      split_ifs
      · exact unwound_spend m bb
      · exact unwound_freed m bb

/-- The contract of `ensure_ownership(k)`, shared by `pop_back`, `clear` and `data`. -/
theorem ensure_ownership_contract (S : Nat) (m : Mem T) (v : socow_vector T) (xs : List T)
    (k : Nat) (h : holds S m v xs) (hk : k ≤ xs.length)
    (hno : (ensure_ownership S m v k).throws = false) :
    ∃ m' v', ensure_ownership S m v k = .ok (m', v') ∧ size v' = k ∧
      holds S m' v' (xs.take k) ∧ owns m' v' ∧
      (dynamic_and_shared m v = some false →
        v'._is_dynamic = v._is_dynamic ∧ v'._buffer = v._buffer ∧
          capacity S m' v' = capacity S m v ∧ m'.copies = m.copies) := by
  obtain ⟨c, hcap, _, hc⟩ := raw_data_holds S m v xs h
  obtain ⟨sh, hsh, hsh1, hsh2⟩ := shared_holds S m v xs h
  have hlen : (xs.take k).length = k := by simp [hk]
  rcases ensure_ownership_outcomes S m v xs k c sh h hk hcap hsh with
    ⟨hs, m', v', e, hin, hcop, hc'⟩ | ⟨hs, hS, _, e⟩ | ⟨hs, hS, _, e⟩ | ⟨_, _, _, _, _, e, _⟩
  · obtain ⟨hh, hdyn, hbuf, _, _, _, hown⟩ := hin
    refine ⟨m', v', e, ?_, hh, fun hd => ?_, fun _ => ⟨hdyn, hbuf, by rw [hc', hcap], hcop⟩⟩
    · rw [holds_size S m' v' _ hh, hlen]
    · rw [hdyn] at hd
      obtain ⟨_, _, b, hb, _⟩ := holds_dynamic S m v xs h hd
      obtain ⟨h1, b1, hb1, _, hr⟩ := hown hd b hb
      exact ⟨b1, by rw [hbuf]; exact hb1, by rw [hr, h1]⟩
  · refine ⟨_, _, e, rfl, ?_, fun hd => (by cases hd), fun hf => ?_⟩
    · simp [holds, hlen, hk, hS]
    · rw [hsh, hs] at hf
      cases hf
  · have hd := (hsh1 hs).1
    obtain ⟨_, hsm, _⟩ := holds_dynamic S m v xs h hd
    rw [← drop_ref_dynamic _ v hd] at e
    refine ⟨_, _, e, rfl, ?_, fun _ => ⟨_, deref_realloc S m v xs _ _ h, rfl⟩, fun hf => ?_⟩
    · exact holds_realloc S m v _ xs (xs.take k) k k h (by rw [hlen]) (by rw [hlen]) rfl rfl
        hsm
    · rw [hsh, hs] at hf
      cases hf
  · rw [e] at hno
    cases hno

theorem holds_of_same_buffer (S : Nat) (m m' : Mem T) (B : socow_vector T) (ys : List T)
    (b b' : buffer T) (hB : holds S m B ys) (hb : m.deref B._buffer = some b)
    (hb' : m'.deref B._buffer = some b') (hc : b'.capacity = b.capacity)
    (hd : b'.data = b.data) (hr : 0 < b.ref_count → 0 < b'.ref_count) :
    holds S m' B ys ∧ capacity S m' B = capacity S m B := by
  refine holds_of_keeps S m m' B ys hB (fun _ b0 hb0 => ?_)
  rw [hb] at hb0
  cases hb0
  exact ⟨b', hb', hc, hd, hr⟩
theorem capacity_law (S : Nat) (m : Mem T) (v : socow_vector T) (xs : List T) (c : Nat)
    (h : holds S m v xs) (hcap : capacity S m v = some c)
    (hbig : v._is_dynamic = true → ∀ b, m.deref v._buffer = some b → S < b.capacity) :
    S ≤ c ∧ (v._is_dynamic = true → S < c) := by
  cases hd : v._is_dynamic with
  | false =>
    rw [capacity_static S m v hd] at hcap
    cases hcap
    exact ⟨le_refl _, fun hx => by cases hx⟩
  | true =>
    obtain ⟨_, _, b, hb, _⟩ := holds_dynamic S m v xs h hd
    rw [capacity_dynamic S m v b hd hb] at hcap
    cases hcap
    have := hbig hd b hb
    exact ⟨by omega, fun _ => this⟩

/-- `push_back` is a step, whether it returns or throws. -/
theorem push_back_stepped (S : Nat) (m : Mem T) (v : socow_vector T) (xs : List T) (x : T)
    (h : holds S m v xs) :
    ∃ m' v', (push_back S m v x = .ok (m', v') ∨ push_back S m v x = .throw (m', v')) ∧
      stepped S m v m' v' := by
  obtain ⟨c, hcap, _, hc⟩ := raw_data_holds S m v xs h
  obtain ⟨sh, hsh, hsh1, _⟩ := shared_holds S m v xs h
  rcases push_back_outcomes S m v xs x c sh h hcap hsh with
    ⟨hfull, _, e⟩ | ⟨hfull, hs, _, e⟩ | ⟨_, _, _, m', v', e, hin, _⟩ | ⟨_, m', _, _, e, hu⟩
  · refine ⟨_, _, Or.inl e, stepped_realloc S m v _ xs (xs ++ [x]) _ _ h
      (by simp; split_ifs <;> omega) (by simp [h.1]) rfl rfl rfl (fun hbig => ?_)⟩
    have := (capacity_law S m v xs c h hcap hbig).1
    split_ifs <;> omega
  · have hdyn := (hsh1 hs).1
    refine ⟨_, _, Or.inl e, stepped_realloc S m v _ xs (xs ++ [x]) _ c h
      (by simp; omega) (by simp [h.1]) (by simpa using hdyn) rfl rfl (fun hbig => ?_)⟩
    exact (capacity_law S m v xs c h hcap hbig).2 hdyn
  · exact ⟨m', v', Or.inl e, stepped_of_in_place S m m' v v' xs _ h hin⟩
  · exact ⟨m', v, Or.inr e, stepped_of_unwound S m m' v xs h hu⟩

/-- `insert` is a step, whether it returns or throws. -/
theorem insert_stepped (S : Nat) (m : Mem T) (v : socow_vector T) (xs : List T) (k : Nat)
    (x : T) (h : holds S m v xs) (hk : k ≤ xs.length) :
    ∃ m' v', (insert S m v k x = .ok (m', v', k) ∨ insert S m v k x = .throw (m', v')) ∧
      stepped S m v m' v' := by
  obtain ⟨c, hcap, _, hc⟩ := raw_data_holds S m v xs h
  obtain ⟨sh, hsh, hsh1, _⟩ := shared_holds S m v xs h
  have hlen : (xs.take k ++ x :: xs.drop k).length = xs.length + 1 := by
    simp; omega
  rcases insert_outcomes S m v xs k x c sh h hk hcap hsh with
    ⟨hfull, _, e⟩ | ⟨hfull, hs, _, e⟩ | ⟨_, _, _, m', v', e, hin, _⟩ | ⟨_, m', _, _, e, hu⟩
  · refine ⟨_, _, Or.inl e, stepped_realloc S m v _ xs (xs.take k ++ x :: xs.drop k) _ _ h
      (by rw [hlen]; split_ifs <;> omega) (by simp [h.1]; omega) rfl rfl rfl (fun hbig => ?_)⟩
    have := (capacity_law S m v xs c h hcap hbig).1
    split_ifs <;> omega
  · have hdyn := (hsh1 hs).1
    refine ⟨_, _, Or.inl e, stepped_realloc S m v _ xs (xs.take k ++ x :: xs.drop k) _ c h
      (by rw [hlen]; omega) (by simp [h.1]; omega) (by simpa using hdyn) rfl rfl
      (fun hbig => ?_)⟩
    exact (capacity_law S m v xs c h hcap hbig).2 hdyn
  · exact ⟨m', v', Or.inl e, stepped_of_in_place S m m' v v' xs _ h hin⟩
  · exact ⟨m', v, Or.inr e, stepped_of_unwound S m m' v xs h hu⟩

/-- `reserve` is a step, whether it returns or throws. -/
theorem reserve_stepped (S : Nat) (m : Mem T) (v : socow_vector T) (xs : List T) (n : Nat)
    (h : holds S m v xs) :
    ∃ m' v', (reserve S m v n = .ok (m', v') ∨ reserve S m v n = .throw (m', v')) ∧
      stepped S m v m' v' := by
  obtain ⟨c, hcap, _, hc⟩ := raw_data_holds S m v xs h
  obtain ⟨sh, hsh, hsh1, _⟩ := shared_holds S m v xs h
  rcases reserve_cases S m v xs n c sh h hcap hsh with
    ⟨_, e⟩ | ⟨hn, hs, hS, _, e⟩ | ⟨hn, hwhy, _, e⟩ | ⟨_, _, _, m', _, _, e, hu⟩
  · exact ⟨m, v, Or.inl e, stepped_refl S m v xs h⟩
  · refine ⟨_, _, Or.inl e, stepped_release S m v _ xs xs _ h (hsh1 hs).1 rfl ?_⟩
    simp [holds, h.1]
    omega
  · refine ⟨_, _, Or.inl e, stepped_realloc S m v _ xs xs _ n h hn h.1 rfl rfl rfl
      (fun hbig => ?_)⟩
    have := capacity_law S m v xs c h hcap hbig
    rcases hwhy with ⟨_, h2⟩ | ⟨_, h2⟩ <;> omega
  · exact ⟨m', v, Or.inr e, stepped_of_unwound S m m' v xs h hu⟩

/-- `ensure_ownership` is a step, whether it returns or throws. -/
theorem ensure_ownership_stepped (S : Nat) (m : Mem T) (v : socow_vector T) (xs : List T)
    (k : Nat) (h : holds S m v xs) (hk : k ≤ xs.length) :
    ∃ m' v', (ensure_ownership S m v k = .ok (m', v') ∨
        ensure_ownership S m v k = .throw (m', v')) ∧
      stepped S m v m' v' ∧
      (ensure_ownership S m v k = .ok (m', v') →
        holds S m' v' (xs.take k) ∧ owns m' v' ∧ private_storage m v v') := by
  obtain ⟨c, hcap, _, hc⟩ := raw_data_holds S m v xs h
  obtain ⟨sh, hsh, hsh1, hsh2⟩ := shared_holds S m v xs h
  have hlen : (xs.take k).length = k := by simp [hk]
  rcases ensure_ownership_outcomes S m v xs k c sh h hk hcap hsh with
    ⟨hs, m', v', e, hin, _, _⟩ | ⟨hs, hS, _, e⟩ | ⟨hs, hS, _, e⟩ | ⟨_, _, m', _, _, e, hu⟩
  · refine ⟨m', v', Or.inl e, stepped_of_in_place S m m' v v' xs _ h hin,
      fun _ => ⟨hin.1, ?_, ?_⟩⟩
    · obtain ⟨_, hdyn, hbuf, _, _, _, hown⟩ := hin
      intro hd
      rw [hdyn] at hd
      obtain ⟨_, _, b, hb, _⟩ := holds_dynamic S m v xs h hd
      obtain ⟨h1, b1, hb1, _, hr⟩ := hown hd b hb
      exact ⟨b1, by rw [hbuf]; exact hb1, by rw [hr, h1]⟩
    · obtain ⟨_, hdyn, hbuf, _, _, _, hown⟩ := hin
      intro hd
      rw [hdyn] at hd
      exact Or.inr ⟨hd, hbuf, fun b hb => (hown hd b hb).1⟩
  · have hh : holds S ((m.spend k).release v._buffer)
        { v with _small := live (xs.take k) S, _is_dynamic := false, _size := k }
        (xs.take k) := by
      simp [holds, hlen, hk, hS]
    exact ⟨_, _, Or.inl e, stepped_release S m v _ xs (xs.take k) _ h (hsh1 hs).1 rfl hh,
      fun _ => ⟨hh, fun hd => (by cases hd), fun hd => (by cases hd)⟩⟩
  · have hd := (hsh1 hs).1
    obtain ⟨_, hsm, _⟩ := holds_dynamic S m v xs h hd
    rw [← drop_ref_dynamic _ v hd] at e
    refine ⟨_, _, Or.inl e, stepped_realloc S m v _ xs (xs.take k) _ k h (by rw [hlen])
      (by rw [hlen]) rfl rfl hsm (fun _ => hS),
      fun _ => ⟨?_, fun _ => ?_, fun _ => Or.inl (le_refl _)⟩⟩
    · exact holds_realloc S m v _ xs (xs.take k) k k h (by rw [hlen]) (by rw [hlen]) rfl rfl
        hsm
    · exact ⟨_, deref_realloc S m v xs _ _ h, rfl⟩
  · refine ⟨m', v, Or.inr e, stepped_of_unwound S m m' v xs h hu, fun hok => ?_⟩
    rw [e] at hok
    cases hok

theorem rc_in_place (S : Nat) (m m' : Mem T) (v v' : socow_vector T) (xs ys : List T)
    (h : holds S m v xs) (hp : in_place S m v m' v' ys) (q : Nat) : m'.rc q = m.rc q := by
  obtain ⟨_, _, _, _, _, hother, hown⟩ := hp
  by_cases hq : v._is_dynamic = true ∧ q = v._buffer
  · obtain ⟨hd, rfl⟩ := hq
    obtain ⟨_, _, b, hb, _⟩ := holds_dynamic S m v xs h hd
    obtain ⟨_, b1, hb1, _, hr⟩ := hown hd b hb
    rw [rc_of_some m' _ b1 hb1, rc_of_some m _ b hb, hr]
  · exact rc_congr m m' q (hother q (fun hd hqb => hq ⟨hd, hqb⟩))

/-- A step into storage that is not shared, followed by work in place, is a step. -/
theorem stepped_then_in_place (S : Nat) (m m1 m2 : Mem T) (v v1 v2 : socow_vector T)
    (ys zs : List T) (hs : stepped S m v m1 v1) (hh1 : holds S m1 v1 ys)
    (hpriv : private_storage m v v1) (hp : in_place S m1 v1 m2 v2 zs) :
    stepped S m v m2 v2 := by
  obtain ⟨_, hframe, hleak, hrc, hlive⟩ := hs
  have hrc2 := rc_in_place S m1 m2 v1 v2 ys zs hh1 hp
  obtain ⟨hh2, hdyn, hbuf, hleak2, _, hother, hown⟩ := hp
  refine ⟨⟨zs, hh2⟩, fun q hq b hb => ?_, by rw [hleak2, hleak], fun q => ?_,
    fun q b2 hb2 => ?_⟩
  · obtain ⟨b1, hb1, hc, hd, hr⟩ := hframe q hq b hb
    refine ⟨b1, ?_, hc, hd, hr⟩
    rw [hother q ?_]
    · exact hb1
    · intro hd1 hqb
      rcases hpriv hd1 with hfresh | ⟨hvd, hsame, huniq⟩
      · have := deref_lt m q b hb
        omega
      · have h2 := hq hvd (by rw [hqb, hsame]) b hb
        have h1 := huniq b (by rw [← hsame, ← hqb]; exact hb)
        omega
  · rw [hrc2 q, handles_congr v1 v2 q hdyn hbuf]
    exact hrc q
  · by_cases hq : v1._is_dynamic = true ∧ q = v1._buffer
    · obtain ⟨hd1, rfl⟩ := hq
      obtain ⟨_, _, b1, hb1, _⟩ := holds_dynamic S m1 v1 ys hh1 hd1
      obtain ⟨_, b2', hb2', hc, hr⟩ := hown hd1 b1 hb1
      rw [hb2'] at hb2
      cases hb2
      rcases hlive _ b1 hb1 with ⟨b, hb, hcb, hpos⟩ | ⟨href, hpos, hcap⟩
      · exact Or.inl ⟨b, hb, by rw [hc, hcb], fun h0 => by rw [hr]; exact hpos h0⟩
      · refine Or.inr ⟨?_, by rw [hr]; exact hpos, fun hbig => by rw [hc]; exact hcap hbig⟩
        simp [refers, hdyn, hbuf, hd1]
    · rw [hother q (fun hd hqb => hq ⟨hd, hqb⟩)] at hb2
      rcases hlive q b2 hb2 with hl | ⟨href, hpos, hcap⟩
      · exact Or.inl hl
      · refine Or.inr ⟨?_, hpos, hcap⟩
        rw [refers_iff] at href ⊢
        rw [hdyn, hbuf]
        exact href

/-- The assignment `p[i] = x` through a pointer from `data()` works in place. -/
theorem assign_elem_in_place (S : Nat) (m : Mem T) (v : socow_vector T) (xs : List T)
    (i : Nat) (x : T) (h : holds S m v xs) (ho : owns m v) (hi : i < xs.length) :
    ∃ m' v', assign_elem m v i x = some (m', v') ∧ in_place S m v m' v' (xs.set i x) := by
  obtain ⟨c, hcap, hraw, hc⟩ := raw_data_holds S m v xs h
  have hu : v._is_dynamic = true → ∀ b, m.deref v._buffer = some b → b.ref_count = 1 := by
    intro hd b hb
    obtain ⟨b0, hb0, hr⟩ := ho hd
    rw [hb] at hb0
    cases hb0
    exact hr
  obtain ⟨m', v', hset, hin, hsize, _, _⟩ :=
    set_raw_data_in_place S m v xs (xs.set i x) c 0 h hcap (by simp; omega) hu
  rw [spend_zero] at hset
  refine ⟨m', v', ?_, ?_⟩
  · unfold assign_elem
    obtain ⟨y, hy⟩ := live_alive xs c i hi
    simp only [hraw, Option.some_bind, Option.bind_eq_bind, hy]
    rw [live_set xs c i x hi]
    exact hset
  · have := hin v'._size (by rw [hsize, h.1]; simp)
    rw [vec_size_eta] at this
    exact this

/-- `index_write` is a step, whether it returns or throws. -/
theorem index_write_stepped (S : Nat) (m : Mem T) (v : socow_vector T) (xs : List T)
    (i : Nat) (x : T) (h : holds S m v xs) (hi : i < xs.length) :
    ∃ m' v', (index_write S m v i x = .ok (m', v') ∨
        index_write S m v i x = .throw (m', v')) ∧
      stepped S m v m' v' := by
  have hsz := holds_size S m v xs h
  obtain ⟨m1, v1, hor, hs, hok⟩ := ensure_ownership_stepped S m v xs xs.length h (le_refl _)
  rcases hor with e | e
  · obtain ⟨hh1, ho1, hp1⟩ := hok e
    rw [List.take_length] at hh1
    obtain ⟨m2, v2, ea, hin⟩ := assign_elem_in_place S m1 v1 xs i x hh1 ho1 hi
    refine ⟨m2, v2, Or.inl ?_, stepped_then_in_place S m m1 m2 v v1 v2 xs _ hs hh1 hp1 hin⟩
    unfold index_write data
    rw [hsz, e]
    simp only [ok_bind]
    rw [ea]
    rfl
  · refine ⟨m1, v1, Or.inr ?_, hs⟩
    unfold index_write data
    rw [hsz, e]
    rfl
/-- `in_place_erase` works in place. -/
theorem in_place_erase_in_place (S : Nat) (m : Mem T) (v : socow_vector T) (xs : List T)
    (f l : Nat) (h : holds S m v xs) (hfl : f < l) (hl : l ≤ xs.length)
    (hu : v._is_dynamic = true → ∀ b, m.deref v._buffer = some b → b.ref_count = 1) :
    ∃ m' v', in_place_erase m v f l = some (m', v') ∧
      in_place S m v m' v' (xs.take f ++ xs.drop l) := by
  obtain ⟨c, hcap, hraw, hc⟩ := raw_data_holds S m v xs h
  have hsz := holds_size S m v xs h
  unfold in_place_erase
  simp only [hsz]
  rw [if_neg (by omega), if_neg (by omega), hraw]
  simp only [Option.some_bind]
  have hx : xs = xs.take f ++ (xs.drop f).take (l - f) ++ xs.drop l := by
    have h1 : (xs.drop f).take (l - f) ++ xs.drop l = xs.drop f := by
      have := List.take_append_drop (l - f) (xs.drop f)
      rw [List.drop_drop] at this
      rw [show f + (l - f) = l by omega] at this
      exact this
    rw [List.append_assoc, h1, List.take_append_drop]
  obtain ⟨mid', hmid', hloop⟩ := in_place_erase_loop_live (l - f) c (by omega)
    (xs.length - (l - f) - f) (xs.take f) ((xs.drop f).take (l - f)) (xs.drop l)
    (by simp; omega) (by simp; omega)
  rw [← hx, length_take_le xs f (by omega)] at hloop
  rw [hloop]
  simp only [Option.some_bind]
  have ht1 : List.take (xs.length - (l - f) - f) (List.drop l xs) = List.drop l xs :=
    List.take_of_length_le (by simp; omega)
  have ht2 : List.drop (xs.length - (l - f) - f) (List.drop l xs) = [] :=
    List.drop_eq_nil_of_le (by simp; omega)
  rw [ht1, ht2, List.append_nil]
  have hlen2 : (xs.take f ++ xs.drop l ++ mid').length = xs.length := by
    simp [hmid']; omega
  have hd := std_destroy_live (xs.take f ++ xs.drop l ++ mid') c (xs.length - (l - f))
    (by rw [hlen2]; omega) (by rw [hlen2]; exact hc)
  rw [hlen2] at hd
  rw [hd]
  simp only [Option.some_bind]
  have ht : (xs.take f ++ xs.drop l ++ mid').take (xs.length - (l - f)) =
      xs.take f ++ xs.drop l := by
    rw [List.take_append_of_le_length (by simp; omega), List.take_of_length_le (by simp; omega)]
  rw [ht]
  obtain ⟨m', v', hset, hin, hsize, _, _⟩ :=
    set_raw_data_in_place S m v xs (xs.take f ++ xs.drop l) c 0 h hcap (by simp; omega) hu
  rw [spend_zero] at hset
  rw [hset]
  simp only [Option.map_some']
  exact ⟨_, _, rfl, hin _ (by rw [hsize, h.1]; simp; omega)⟩

/-- `erase` is a step, whether it returns or throws. -/
theorem erase_stepped (S : Nat) (m : Mem T) (v : socow_vector T) (xs : List T) (f l : Nat)
    (h : holds S m v xs) (hfl : f ≤ l) (hl : l ≤ xs.length) :
    ∃ m' v' r, (erase S m v f l = .ok (m', v', r) ∨ erase S m v f l = .throw (m', v')) ∧
      stepped S m v m' v' := by
  have hsz := holds_size S m v xs h
  obtain ⟨_, hsm⟩ : True ∧ (v._is_dynamic = true → v._small = List.replicate S none) :=
    ⟨trivial, fun hd => (holds_dynamic S m v xs h hd).2.1⟩
  have hlen : (xs.take f ++ xs.drop l).length = xs.length - (l - f) := by
    simp; omega
  by_cases he : f = l
  · subst he
    exact ⟨m, v, f, Or.inl (by simp [erase]), stepped_refl S m v xs h⟩
  · have hlt : f < l := by omega
    obtain ⟨sh, hsh, hsh1, hsh2⟩ := shared_holds S m v xs h
    cases sh with
    | true =>
      obtain ⟨hd, hrc⟩ := hsh1 rfl
      obtain ⟨_, _, b, hb, _⟩ := holds_dynamic S m v xs h hd
      have hr := hrc b hb
      rcases budget_cases m (xs.length - (l - f)) with haff | ⟨bb, hbb, hbl⟩
      · by_cases hS : xs.length - (l - f) ≤ S
        · refine ⟨_, _, f, Or.inl (erase_shared_small S m v xs f l b h hd hb hr hlt hl hS haff),
            stepped_release S m v _ xs (xs.take f ++ xs.drop l) _ h hd rfl ?_⟩
          simp [holds, hS]
          omega
        · have e := erase_shared_large S m v xs f l b h hd hb hr hlt hl (by omega) haff
          rw [← drop_ref_dynamic _ v hd] at e
          exact ⟨_, _, f, Or.inl e,
            stepped_realloc S m v _ xs (xs.take f ++ xs.drop l) _ _ h (by rw [hlen])
              (by rw [hlen]) hd rfl (hsm hd) (fun _ => by omega)⟩
      · by_cases hS : xs.length - (l - f) ≤ S
        · exact ⟨_, v, f,
            Or.inr (erase_shared_small_throw S m v xs f l bb b h hd hb hr hlt hl hS hbb hbl),
            stepped_of_unwound S m _ v xs h (unwound_spend m bb)⟩
        · exact ⟨_, v, f,
            Or.inr (erase_shared_large_throw S m v xs f l bb b h hd hb hr hlt hl (by omega)
              hbb hbl),
            stepped_of_unwound S m _ v xs h (unwound_freed m bb)⟩
    | false =>
      obtain ⟨m', v', hip, hin⟩ := in_place_erase_in_place S m v xs f l h hlt hl (hsh2 rfl)
      refine ⟨m', v', f, Or.inl ?_, stepped_of_in_place S m m' v v' xs _ h hin⟩
      unfold erase
      simp only [show ¬ l < f by omega, if_false, show ¬ l - f = 0 by omega, hsh, of_some,
        ok_bind, Bool.false_eq_true, hip, pure_eq_ok]

/-- `shrink_to_fit` is a step, whether it returns or throws. -/
theorem shrink_to_fit_stepped (S : Nat) (m : Mem T) (v : socow_vector T) (xs : List T)
    (h : holds S m v xs) :
    ∃ m' v', (shrink_to_fit S m v = .ok (m', v') ∨ shrink_to_fit S m v = .throw (m', v')) ∧
      stepped S m v m' v' := by
  have hsz := holds_size S m v xs h
  cases hd : v._is_dynamic with
  | false =>
    exact ⟨m, v, Or.inl (by simp [shrink_to_fit, static_storage, dynamic_storage, hd]),
      stepped_refl S m v xs h⟩
  | true =>
    obtain ⟨_, hsm, b, hb, _, hc, _⟩ := holds_dynamic S m v xs h hd
    have hcap := capacity_dynamic S m v b hd hb
    by_cases hfit : xs.length = b.capacity
    · refine ⟨m, v, Or.inl ?_, stepped_refl S m v xs h⟩
      simp [shrink_to_fit, static_storage, dynamic_storage, hd, hcap, hsz, hfit]
    · have e : shrink_to_fit S m v = force_ensure_ownership S m v xs.length := by
        simp [shrink_to_fit, static_storage, dynamic_storage, hd, hcap, hsz, hfit]
      rcases budget_cases m xs.length with haff | ⟨bb, hbb, hbl⟩
      · by_cases hS : xs.length ≤ S
        · refine ⟨_, _,
            Or.inl (by rw [e, force_ensure_ownership_small S m v xs _ h hd (le_refl _) hS haff]),
            stepped_release S m v _ xs xs _ h hd rfl ?_⟩
          simp [holds, hS]
        · refine ⟨_, _,
            Or.inl (by rw [e, force_ensure_ownership_large S m v xs _ h hd (le_refl _)
              (by omega) haff, ← drop_ref_dynamic _ v hd]), ?_⟩
          rw [List.take_length]
          exact stepped_realloc S m v _ xs xs _ _ h (le_refl _) rfl rfl rfl hsm
            (fun _ => by omega)
      · refine ⟨_, v,
          Or.inr (by rw [e, force_ensure_ownership_throw S m v xs _ bb h hd (le_refl _) hbb hbl]),
          stepped_of_unwound S m _ v xs h ?_⟩
        split_ifs
        · exact unwound_spend m bb
        · exact unwound_freed m bb
/-- A call that only copied elements into the inline storage of an inline container is a
step. -/
theorem stepped_spend_static (S : Nat) (m : Mem T) (v v' : socow_vector T) (ys : List T)
    (k : Nat) (hs : v._is_dynamic = false)
    (hs' : v'._is_dynamic = false) (hh : holds S (m.spend k) v' ys) :
    stepped S m v (m.spend k) v' :=
  ⟨⟨ys, hh⟩, fun q _ => keeps_spend m k q, rfl,
    fun q => by rw [handles_static v q hs, handles_static v' q hs']; rfl,
    fun _ b' hb' => Or.inl ⟨b', hb', rfl, id⟩⟩

/-- Copy assignment is a step of the target, whether it returns or throws. -/
theorem assign_body_stepped (S : Nat) (m : Mem T) (v o : socow_vector T) (xs ys : List T)
    (hv : holds S m v xs) (ho : holds S m o ys)
    (hsh : v._is_dynamic = true → o._is_dynamic = true → v._buffer = o._buffer →
      ∀ b, m.deref v._buffer = some b → 2 ≤ b.ref_count) :
    ∃ m' v', (assign_body S m v o = .ok (m', v') ∨ assign_body S m v o = .throw (m', v')) ∧
      stepped S m v m' v' := by
  cases hod : o._is_dynamic with
  | false =>
    obtain ⟨_, hoS, _⟩ := holds_static S m o ys ho hod
    have hh : ∀ (m0 : Mem T) (v0 : socow_vector T),
        holds S m0 { v0 with _small := live ys S, _is_dynamic := false, _size := ys.length }
          ys := by
      intro m0 v0
      simp [holds, hoS]
    rcases budget_cases m ys.length with haff | ⟨bb, hbb, hbl⟩
    · cases hvd : v._is_dynamic with
      | true =>
        exact ⟨_, _, Or.inl (assign_body_to_dynamic S m v o xs ys hv ho hvd hod haff),
          stepped_release S m v _ xs ys _ hv hvd rfl (hh _ v)⟩
      | false =>
        have hh' : holds S (m.spend ys.length)
            { v with _small := live ys S, _size := ys.length } ys := by
          simp [holds, hoS, hvd]
        by_cases hle : xs.length ≤ ys.length
        · exact ⟨_, _, Or.inl (assign_body_grow S m v o xs ys hv ho hvd hod hle haff),
            stepped_spend_static S m v _ ys _ hvd hvd hh'⟩
        · exact ⟨_, _, Or.inl (assign_body_cut S m v o xs ys hv ho hvd hod (by omega) haff),
            stepped_spend_static S m v _ ys _ hvd hvd hh'⟩
    · have hst := stepped_of_unwound S m _ v xs hv (unwound_spend m bb)
      cases hvd : v._is_dynamic with
      | true =>
        exact ⟨_, v, Or.inr (assign_body_to_dynamic_throw S m v o xs ys bb hv ho hvd hod hbb hbl),
          hst⟩
      | false =>
        by_cases hle : xs.length ≤ ys.length
        · exact ⟨_, v, Or.inr (assign_body_grow_throw S m v o xs ys bb hv ho hvd hod hle hbb hbl),
            hst⟩
        · exact ⟨_, v,
            Or.inr (assign_body_cut_throw S m v o xs ys bb hv ho hvd hod (by omega) hbb hbl),
            hst⟩
  | true =>
    obtain ⟨b, b1, hb, hb1, hcb, hdb, hpos, e⟩ :=
      assign_body_share S m v o xs ys hv ho hod (fun h1 h2 => hsh h1 hod h2)
    rcases assign_body_spec S m v o xs ys hv ho hsh with
      ⟨m', v', e', hh, _, hframe, _⟩ | ⟨m', e', _, _, hx⟩
    · rw [e] at e'
      cases e'
      have hlt : o._buffer < (m.drop_ref v).heap.length := deref_lt _ _ b1 hb1
      refine ⟨_, _, Or.inl e, ⟨ys, hh⟩, hframe, by simp, fun q => ?_, fun q b' hb' => ?_⟩
      · have hdrop := rc_drop_ref S m m v xs hv (fun _ _ hx => hx) q
        by_cases hq : q = o._buffer
        · subst hq
          have h1 : handles
              ({ v with _small := List.replicate S none, _buffer := o._buffer,
                        _is_dynamic := true, _size := o._size } : socow_vector T)
              o._buffer = 1 := by
            simp [handles, refers]
          rw [h1, rc_of_some _ _ _ (deref_store_same _ _ _ hlt)]
          rw [rc_of_some _ _ b1 hb1] at hdrop
          show b1.ref_count + 1 + handles v o._buffer = _
          omega
        · have h1 : handles
              ({ v with _small := List.replicate S none, _buffer := o._buffer,
                        _is_dynamic := true, _size := o._size } : socow_vector T)
              q = 0 := by
            have : ¬ o._buffer = q := fun hx => hq hx.symm
            simp [handles, refers, this]
          rw [h1, rc_congr _ _ q (deref_store_ne _ _ _ q hq)]
          exact hdrop
      · by_cases hq : q = o._buffer
        · subst hq
          rw [deref_store_same _ _ _ hlt] at hb'
          cases hb'
          exact Or.inl ⟨b, hb, hcb, fun _ => by simp⟩
        · rw [deref_store_ne _ _ _ q hq] at hb'
          obtain ⟨b0, hb0, hc0, _, hp0⟩ := drop_ref_live m v q b' hb'
          exact Or.inl ⟨b0, hb0, hc0, hp0⟩
    · rw [hod] at hx
      cases hx
theorem getElem_of_getElem? (l : List α) (i : Nat) (x : α) (h : l[i]? = some x) :
    ∃ hi : i < l.length, l[i] = x := by
  have hi := getElem?_lt_length l i x h
  rw [List.getElem?_eq_getElem hi] at h
  exact ⟨hi, Option.some.inj h⟩

theorem countP_set_add (p : α → Bool) (l : List α) (i : Nat) (x y : α)
    (h : l[i]? = some x) :
    (l.set i y).countP p + (if p x then 1 else 0) = l.countP p + (if p y then 1 else 0) := by
  obtain ⟨hi, hx⟩ := getElem_of_getElem? l i x h
  have h1 := List.countP_set p l i y hi
  have h2 := List.boole_getElem_le_countP p l i hi
  rw [hx] at h1 h2
  omega

theorem countP_eraseIdx_add (p : α → Bool) :
    ∀ (l : List α) (i : Nat) (x : α), l[i]? = some x →
      (l.eraseIdx i).countP p + (if p x then 1 else 0) = l.countP p
  | [], _, _, h => by simp at h
  | a :: l, 0, x, h => by
    simp at h
    subst h
    simp [List.countP_cons]
  | a :: l, i + 1, x, h => by
    simp at h
    have := countP_eraseIdx_add p l i x h
    simp only [List.eraseIdx_cons_succ, List.countP_cons]
    omega

theorem countP_two (p : α → Bool) (l : List α) (i j : Nat) (x y : α) (hij : i ≠ j)
    (hx : l[i]? = some x) (hy : l[j]? = some y) (px : p x = true) (py : p y = true) :
    2 ≤ l.countP p := by
  have h1 := countP_eraseIdx_add p l i x hx
  rw [px] at h1
  have hy' : ∃ k : Nat, (l.eraseIdx i)[k]? = some y := by
    rcases Nat.lt_or_ge j i with hlt | hge
    · exact ⟨j, by rw [List.getElem?_eraseIdx_of_lt l i j hlt]; exact hy⟩
    · refine ⟨j - 1, ?_⟩
      rw [List.getElem?_eraseIdx_of_ge l i (j - 1) (by omega)]
      rw [show j - 1 + 1 = j by omega]
      exact hy
  obtain ⟨k, hk⟩ := hy'
  have h2 : 0 < (l.eraseIdx i).countP p :=
    List.countP_pos_iff.2 ⟨y, List.getElem?_mem hk, py⟩
  simp only [if_true] at h1
  omega

theorem refs_set (w : World T) (m' : Mem T) (a : Nat) (v v' : socow_vector T) (q : Nat)
    (h : w.objs[a]? = some v) :
    (⟨m', w.objs.set a v'⟩ : World T).refs q + handles v q = w.refs q + handles v' q :=
  countP_set_add (fun u => refers u q) w.objs a v v' h

theorem refs_append (w : World T) (m' : Mem T) (v : socow_vector T) (q : Nat) :
    (⟨m', w.objs ++ [v]⟩ : World T).refs q = w.refs q + handles v q := by
  simp [World.refs, handles, List.countP_cons]

theorem refs_eraseIdx (w : World T) (m' : Mem T) (i : Nat) (v : socow_vector T) (q : Nat)
    (h : w.objs[i]? = some v) :
    (⟨m', w.objs.eraseIdx i⟩ : World T).refs q + handles v q = w.refs q :=
  countP_eraseIdx_add (fun u => refers u q) w.objs i v h

/-- Two different containers that refer to one buffer: its reference count is at least 2. -/
theorem consistent_shared (S : Nat) (w : World T) (hc : consistent S w) (i j : Nat)
    (u v : socow_vector T) (hij : i ≠ j) (hu : w.objs[i]? = some u)
    (hv : w.objs[j]? = some v) (hud : u._is_dynamic = true) (hvd : v._is_dynamic = true)
    (hsame : u._buffer = v._buffer) :
    ∀ b, w.mem.deref u._buffer = some b → 2 ≤ b.ref_count := by
  intro b hb
  have h1 := hc.2.1 u._buffer
  rw [rc_of_some _ _ b hb] at h1
  rw [h1]
  exact countP_two (fun x => refers x u._buffer) w.objs i j u v hij hu hv
    (by simp [refers, hud]) (by simp [refers, hvd, hsame])
/-- A step of one container keeps the world consistent. -/
theorem consistent_step (S : Nat) (w : World T) (hc : consistent S w) (a : Nat)
    (v : socow_vector T) (m' : Mem T) (v' : socow_vector T) (ha : w.objs[a]? = some v)
    (hs : stepped S w.mem v m' v') : consistent S ⟨m', w.objs.set a v'⟩ := by
  obtain ⟨hobj, hrc, hlive, hleak⟩ := hc
  obtain ⟨hh', hframe, hleak', hcons, hlive'⟩ := hs
  have halt := getElem?_lt_length w.objs a v ha
  refine ⟨fun i u hu => ?_, fun q => ?_, fun q b' hb' => ?_, ?_⟩
  · by_cases hia : i = a
    · subst hia
      simp only [List.getElem?_set_self halt] at hu
      cases hu
      exact hh'
    · simp only [List.getElem?_set_ne (Ne.symm hia)] at hu
      obtain ⟨xs, hxs⟩ := hobj i u hu
      refine ⟨xs, (kept_of_frame S w.mem m' v u xs hxs hframe ?_).1⟩
      intro hud hvd hsame
      exact consistent_shared S w ⟨hobj, hrc, hlive, hleak⟩ i a u v hia hu ha hud hvd hsame
  · have h1 := hcons q
    have h2 := refs_set w m' a v v' q ha
    have h3 := hrc q
    show m'.rc q = (⟨m', w.objs.set a v'⟩ : World T).refs q
    omega
  · show 0 < b'.ref_count ∧ S < b'.capacity
    rcases hlive' q b' hb' with ⟨b, hb, hcb, hpos⟩ | ⟨_, hpos, hcap⟩
    · obtain ⟨h1, h2⟩ := hlive q b hb
      exact ⟨hpos h1, by omega⟩
    · exact ⟨hpos, hcap (fun _ b hb => (hlive _ b hb).2)⟩
  · show m'.leaked = 0
    rw [hleak', hleak]

/-- A member function that is a step keeps the world consistent, whether it returns or
throws. -/
theorem consistent_run (S : Nat) (w : World T) (hc : consistent S w) (a : Nat)
    (v : socow_vector T)
    (F : Mem T → socow_vector T → Res (Mem T × socow_vector T) (Mem T × socow_vector T))
    (ha : w.objs[a]? = some v)
    (hF : ∃ m' v', (F w.mem v = .ok (m', v') ∨ F w.mem v = .throw (m', v')) ∧
      stepped S w.mem v m' v')
    (w' : World T) (hw : w.run a F = .ok w' ∨ w.run a F = .throw w') : consistent S w' := by
  obtain ⟨m', v', hor, hs⟩ := hF
  have key := consistent_step S w hc a v m' v' ha hs
  unfold World.run at hw
  rw [ha] at hw
  simp only [of_some, ok_bind] at hw
  rcases hor with e | e
  · rw [e] at hw
    simp only [rethrow_ok, ok_bind, pure_eq_ok] at hw
    rcases hw with hw | hw
    · cases hw
      exact key
    · cases hw
  · rw [e] at hw
    simp only [rethrow_throw, throw_bind] at hw
    rcases hw with hw | hw
    · cases hw
    · cases hw
      exact key
/-- Every mutating call of the public interface, made within its precondition, keeps the
world consistent, whether it returns or throws. -/
theorem consistent_called (S : Nat) (w : World T) (hc : consistent S w) (a : Nat)
    (v : socow_vector T) (μ : Mutation T) (w' : World T) (ha : w.objs[a]? = some v)
    (hadm : μ.admissible S w (size v))
    (hw : μ.exec S w a = .ok w' ∨ μ.exec S w a = .throw w') : consistent S w' := by
  obtain ⟨xs, h⟩ := hc.1 a v ha
  have hsz := holds_size S w.mem v xs h
  rw [hsz] at hadm
  have hens : ∀ k, k ≤ xs.length →
      ∃ m' v', (ensure_ownership S w.mem v k = .ok (m', v') ∨
        ensure_ownership S w.mem v k = .throw (m', v')) ∧ stepped S w.mem v m' v' := by
    intro k hk
    obtain ⟨m', v', hor, hs, _⟩ := ensure_ownership_stepped S w.mem v xs k h hk
    exact ⟨m', v', hor, hs⟩
  cases μ with
  | index_write i x =>
    exact consistent_run S w hc a v (fun m v => index_write S m v i x) ha
      (index_write_stepped S w.mem v xs i x h hadm) w' hw
  | data =>
    refine consistent_run S w hc a v (fun m v => data S m v) ha ?_ w' hw
    show ∃ m' v', (data S w.mem v = _ ∨ data S w.mem v = _) ∧ _
    unfold data
    rw [hsz]
    exact hens _ (le_refl _)
  | front_write x =>
    exact consistent_run S w hc a v (fun m v => front_write S m v x) ha
      (index_write_stepped S w.mem v xs 0 x h hadm) w' hw
  | back_write x =>
    have hpos : 0 < xs.length := hadm
    refine consistent_run S w hc a v (fun m v => back_write S m v x) ha ?_ w' hw
    show ∃ m' v', (back_write S w.mem v x = _ ∨ back_write S w.mem v x = _) ∧ _
    unfold back_write
    rw [hsz, if_neg (by omega)]
    exact index_write_stepped S w.mem v xs _ x h (by omega)
  | begin_write i x =>
    exact consistent_run S w hc a v (fun m v => begin_write S m v i x) ha
      (index_write_stepped S w.mem v xs i x h hadm) w' hw
  | push_back x =>
    exact consistent_run S w hc a v (fun m v => push_back S m v x) ha
      (push_back_stepped S w.mem v xs x h) w' hw
  | pop_back =>
    have hpos : 0 < xs.length := hadm
    refine consistent_run S w hc a v (fun m v => pop_back S m v) ha ?_ w' hw
    show ∃ m' v', (pop_back S w.mem v = _ ∨ pop_back S w.mem v = _) ∧ _
    unfold pop_back
    rw [hsz, if_neg (by omega)]
    exact hens _ (by omega)
  | insert k x =>
    refine consistent_run S w hc a v
      (fun m v => (insert S m v k x).bind (fun r => .ok (r.1, r.2.1))) ha ?_ w' hw
    obtain ⟨m', v', hor, hs⟩ := insert_stepped S w.mem v xs k x h hadm
    refine ⟨m', v', ?_, hs⟩
    rcases hor with e | e
    · left
      show (insert S w.mem v k x).bind _ = _
      rw [e]
      rfl
    · right
      show (insert S w.mem v k x).bind _ = _
      rw [e]
      rfl
  | erase f l =>
    refine consistent_run S w hc a v
      (fun m v => (erase S m v f l).bind (fun r => .ok (r.1, r.2.1))) ha ?_ w' hw
    obtain ⟨m', v', r, hor, hs⟩ := erase_stepped S w.mem v xs f l h hadm.1 hadm.2
    refine ⟨m', v', ?_, hs⟩
    rcases hor with e | e
    · left
      show (erase S w.mem v f l).bind _ = _
      rw [e]
      rfl
    · right
      show (erase S w.mem v f l).bind _ = _
      rw [e]
      rfl
  | clear =>
    exact consistent_run S w hc a v (fun m v => clear S m v) ha (hens 0 (by omega)) w' hw
  | reserve n =>
    exact consistent_run S w hc a v (fun m v => reserve S m v n) ha
      (reserve_stepped S w.mem v xs n h) w' hw
  | shrink_to_fit =>
    exact consistent_run S w hc a v (fun m v => shrink_to_fit S m v) ha
      (shrink_to_fit_stepped S w.mem v xs h) w' hw
  | assign other =>
    obtain ⟨o, zs, ho, hzs⟩ := hadm
    have hw2 : assign S w a other = .ok w' ∨ assign S w a other = .throw w' := hw
    unfold assign at hw2
    by_cases hao : a = other
    · rw [if_pos hao] at hw2
      rcases hw2 with e | e
      · cases e
        exact hc
      · cases e
    · rw [if_neg hao, ho] at hw2
      simp only [of_some, ok_bind] at hw2
      refine consistent_run S w hc a v (fun m v => assign_body S m v o) ha ?_ w' hw2
      exact assign_body_stepped S w.mem v o xs zs h hzs
        (fun hvd hod hsame => consistent_shared S w hc a other v o hao ha ho hvd hod hsame)
theorem deref_of_heap_eq (m m' : Mem T) (h : m'.heap = m.heap) (q : Nat) :
    m'.deref q = m.deref q := by
  unfold Mem.deref
  rw [h]

theorem holds_of_heap_eq (S : Nat) (m m' : Mem T) (v : socow_vector T) (xs : List T)
    (h : m'.heap = m.heap) (hv : holds S m v xs) : holds S m' v xs := by
  refine (holds_of_keeps S m m' v xs hv (fun _ b hb => ?_)).1
  exact ⟨b, by rw [deref_of_heap_eq m m' h]; exact hb, rfl, rfl, id⟩

/-- One container inline and one on the heap: the result of the branch of `swap`. -/
theorem swap_static_dynamic_exact (S : Nat) (m : Mem T) (A B : socow_vector T)
    (xs ys : List T) (hholdsA : holds S m A xs) (hholdsB : holds S m B ys)
    (hAs : A._is_dynamic = false) (hBd : B._is_dynamic = true) (haff : m.affords xs.length) :
    swap_static_dynamic m A B =
      .ok (m.spend xs.length,
        { A with _small := List.replicate S none, _buffer := B._buffer, _is_dynamic := true,
                 _size := B._size },
        { B with _small := live xs S, _is_dynamic := false, _size := A._size }) := by
  obtain ⟨a1, a2, a3⟩ := holds_static S m A xs hholdsA hAs
  obtain ⟨b1, b2, bb, hbb, hrb, hcb, hdb⟩ := holds_dynamic S m B ys hholdsB hBd
  unfold swap_static_dynamic copy_to_small
  simp only [size, a1, a3, b2]
  rw [uninitialized_copy_fresh m xs S S xs.length (le_refl _) a2 haff]
  simp only [rethrow_ok, ok_bind, pure_eq_ok, List.take_length]
  unfold destroy_small
  simp only [size, a1, a3]
  rw [std_destroy_live xs S 0 (Nat.zero_le _) a2]
  simp only [Option.map_some', of_some, ok_bind, List.take_zero, live_nil]

/-- One container inline and one on the heap: a failed element copy leaves both as they
were. -/
theorem swap_static_dynamic_throw (S : Nat) (m : Mem T) (A B : socow_vector T)
    (xs ys : List T) (b : Nat) (hholdsA : holds S m A xs) (hholdsB : holds S m B ys)
    (hAs : A._is_dynamic = false) (hBd : B._is_dynamic = true)
    (hbud : m.budget = some b) (hb : b < xs.length) :
    swap_static_dynamic m A B = .throw (m.spend b, A, B) := by
  obtain ⟨a1, a2, a3⟩ := holds_static S m A xs hholdsA hAs
  obtain ⟨b1, b2, bb, hbb, hrb, hcb, hdb⟩ := holds_dynamic S m B ys hholdsB hBd
  unfold swap_static_dynamic copy_to_small
  simp only [size, a1, a3, b2]
  rw [uninitialized_copy_fresh_throw m xs S S xs.length b (le_refl _) a2 hbud hb]
  simp only [rethrow_throw, throw_bind]
  rw [← b2, vec_eta]

/-- Both containers inline, the second one shorter: a failed element copy leaves both as
they were. -/
theorem swap_static_longer_throw (S : Nat) (m : Mem T) (A B : socow_vector T)
    (xs ys : List T) (b : Nat) (hholdsA : holds S m A xs) (hholdsB : holds S m B ys)
    (hAs : A._is_dynamic = false) (hBs : B._is_dynamic = false)
    (hlt : ys.length < xs.length) (hbud : m.budget = some b)
    (hb : b < xs.length - ys.length) :
    swap_static_longer m A B = .throw (m.spend b, A, B) := by
  obtain ⟨a1, a2, a3⟩ := holds_static S m A xs hholdsA hAs
  obtain ⟨b1, b2, b3⟩ := holds_static S m B ys hholdsB hBs
  unfold swap_static_longer
  simp only [size, a1, a3, b1, b3]
  rw [uninitialized_copy_live_throw m xs ys S S ys.length xs.length b (by omega) (le_refl _)
    (by omega) hbud hb]
  simp only [rethrow_throw, throw_bind]
  rw [← b3, ← b1]
theorem rc_of_heap_eq (m m' : Mem T) (h : m'.heap = m.heap) (q : Nat) : m'.rc q = m.rc q :=
  rc_congr m m' q (deref_of_heap_eq m m' h q)

/-- A change of the memory that leaves the heap alone keeps the world consistent. -/
theorem consistent_of_heap_eq (S : Nat) (w : World T) (m' : Mem T) (hc : consistent S w)
    (hheap : m'.heap = w.mem.heap) (hleak : m'.leaked = w.mem.leaked) :
    consistent S ⟨m', w.objs⟩ := by
  obtain ⟨hobj, hrc, hlive, hl⟩ := hc
  refine ⟨fun i u hu => ?_, fun q => ?_, fun q b hb => ?_, by rw [← hl]; exact hleak⟩
  · obtain ⟨xs, hxs⟩ := hobj i u hu
    exact ⟨xs, holds_of_heap_eq S w.mem m' u xs hheap hxs⟩
  · show m'.rc q = w.refs q
    rw [rc_of_heap_eq w.mem m' hheap q]
    exact hrc q
  · exact hlive q b (by rw [← deref_of_heap_eq w.mem m' hheap q]; exact hb)

/-- Two containers exchanged their handles, or one handle moved from one to the other,
while the heap stayed as it was: the world stays consistent. -/
theorem consistent_put2 (S : Nat) (w : World T) (hc : consistent S w) (a b : Nat)
    (A B A' B' : socow_vector T) (m' : Mem T) (xs ys : List T) (hab : a ≠ b)
    (hA : w.objs[a]? = some A) (hB : w.objs[b]? = some B)
    (hheap : m'.heap = w.mem.heap) (hleak : m'.leaked = w.mem.leaked)
    (hA' : holds S m' A' ys) (hB' : holds S m' B' xs)
    (hh : ∀ q, handles A' q + handles B' q = handles A q + handles B q) :
    consistent S (w.put2 a b (m', A', B')) := by
  obtain ⟨hobj, hrc, hlive, hl⟩ := hc
  have ha := getElem?_lt_length _ _ _ hA
  have hb := getElem?_lt_length _ _ _ hB
  have hB1 : (w.objs.set a A')[b]? = some B := by
    rw [List.getElem?_set_ne hab]
    exact hB
  refine ⟨fun i u hu => ?_, fun q => ?_, fun q b0 hb0 => ?_, by rw [← hl]; exact hleak⟩
  · have hu' : ((w.objs.set a A').set b B')[i]? = some u := hu
    by_cases hib : i = b
    · subst hib
      rw [List.getElem?_set_self (by simpa using hb)] at hu'
      cases hu'
      exact ⟨xs, hB'⟩
    · rw [List.getElem?_set_ne (Ne.symm hib)] at hu'
      by_cases hia : i = a
      · subst hia
        rw [List.getElem?_set_self ha] at hu'
        cases hu'
        exact ⟨ys, hA'⟩
      · rw [List.getElem?_set_ne (Ne.symm hia)] at hu'
        obtain ⟨zs, hzs⟩ := hobj i u hu'
        exact ⟨zs, holds_of_heap_eq S w.mem m' u zs hheap hzs⟩
  · show m'.rc q = (⟨m', (w.objs.set a A').set b B'⟩ : World T).refs q
    have h1 := refs_set w m' a A A' q hA
    have h2 := refs_set ⟨m', w.objs.set a A'⟩ m' b B B' q hB1
    have h3 := hrc q
    have h4 := hh q
    rw [rc_of_heap_eq w.mem m' hheap q]
    have h5 : (⟨m', (⟨m', w.objs.set a A'⟩ : World T).objs.set b B'⟩ : World T).refs q =
        (⟨m', (w.objs.set a A').set b B'⟩ : World T).refs q := rfl
    omega
  · exact hlive q b0 (by rw [← deref_of_heap_eq w.mem m' hheap q]; exact hb0)

theorem put2_same (w : World T) (a b : Nat) (A B : socow_vector T) (m' : Mem T)
    (hA : w.objs[a]? = some A) (hB : w.objs[b]? = some B) :
    w.put2 a b (m', A, B) = ⟨m', w.objs⟩ := by
  unfold World.put2
  simp only
  rw [set_same w.objs a A hA, set_same w.objs b B hB]

/-- `swap` keeps the world consistent, whether it returns or throws. -/
theorem consistent_swapped (S : Nat) :
    ∀ (fuel : Nat) (w : World T) (a b : Nat) (w' : World T), consistent S w →
      (swap fuel w a b = some (.ok w') ∨ swap fuel w a b = some (.throw w')) →
      consistent S w' := by
  intro fuel
  induction fuel with
  | zero =>
    intro w a b w' _ hw
    rcases hw with hw | hw <;> simp [swap] at hw
  | succ fuel ih =>
    intro w a b w' hc hw
    unfold swap at hw
    by_cases hab : a = b
    · rw [if_pos hab] at hw
      rcases hw with hw | hw
      · cases hw
        exact hc
      · cases hw
    · rw [if_neg hab] at hw
      cases hA : w.objs[a]? with
      | none =>
        rw [hA] at hw
        rcases hw with hw | hw <;> cases hw
      | some A =>
        cases hB : w.objs[b]? with
        | none =>
          rw [hA, hB] at hw
          rcases hw with hw | hw <;> cases hw
        | some B =>
          rw [hA, hB] at hw
          simp only at hw
          obtain ⟨xs, hxs⟩ := hc.1 a A hA
          obtain ⟨ys, hys⟩ := hc.1 b B hB
          cases hAd : A._is_dynamic with
          | true =>
            cases hBd : B._is_dynamic with
            | true =>
              simp only [dynamic_storage, hAd, hBd, Bool.and_self, if_true] at hw
              obtain ⟨a1, a2, ba, hba, hra, hca, hda⟩ := holds_dynamic S w.mem A xs hxs hAd
              obtain ⟨b1, b2, bb, hbb, hrb, hcb, hdb⟩ := holds_dynamic S w.mem B ys hys hBd
              have key := consistent_put2 S w hc a b A B
                { A with _buffer := B._buffer, _size := B._size }
                { B with _buffer := A._buffer, _size := A._size } w.mem xs ys hab hA hB rfl rfl
                (by
                  unfold holds
                  simp only [hAd, if_true]
                  exact ⟨b1, a2, bb, hbb, hrb, hcb, hdb⟩)
                (by
                  unfold holds
                  simp only [hBd, if_true]
                  exact ⟨a1, b2, ba, hba, hra, hca, hda⟩)
                (fun q => by simp [handles, refers, hAd, hBd]; omega)
              rw [hAd, hBd] at key
              rcases hw with hw | hw
              · cases hw
                exact key
              · cases hw
            | false =>
              simp only [dynamic_storage, static_storage, hAd, hBd, Bool.and_false,
                Bool.false_eq_true, if_false, Bool.not_true, Bool.false_and] at hw
              exact ih w b a w' hc hw
          | false =>
            cases hBd : B._is_dynamic with
            | true =>
              simp only [dynamic_storage, static_storage, hAd, hBd, Bool.false_and,
                Bool.false_eq_true, if_false, Bool.not_false, Bool.not_true, Bool.and_false,
                Bool.and_self, if_true] at hw
              rcases budget_cases w.mem xs.length with haff | ⟨bb, hbb, hbl⟩
              · rw [swap_static_dynamic_exact S w.mem A B xs ys hxs hys hAd hBd haff] at hw
                simp only [rethrow_ok, res_bind_ok] at hw
                obtain ⟨a1, a2, a3⟩ := holds_static S w.mem A xs hxs hAd
                obtain ⟨b1, b2, b0, hb0, hrb, hcb, hdb⟩ := holds_dynamic S w.mem B ys hys hBd
                have key := consistent_put2 S w hc a b A B
                  { A with _small := List.replicate S none, _buffer := B._buffer,
                           _is_dynamic := true, _size := B._size }
                  { B with _small := live xs S, _is_dynamic := false, _size := A._size }
                  (w.mem.spend xs.length) xs ys hab hA hB rfl rfl
                  (by
                    unfold holds
                    simp only [if_true]
                    exact ⟨b1, trivial, b0, by simpa using hb0, hrb, hcb, hdb⟩)
                  (by
                    unfold holds
                    simp only [Bool.false_eq_true, if_false]
                    exact ⟨a1, a2, trivial⟩)
                  (fun q => by simp [handles, refers, hAd, hBd])
                rcases hw with hw | hw
                · cases hw
                  exact key
                · cases hw
              · rw [swap_static_dynamic_throw S w.mem A B xs ys bb hxs hys hAd hBd hbb hbl] at hw
                simp only [rethrow_throw, res_bind_throw] at hw
                rw [put2_same w a b A B _ hA hB] at hw
                rcases hw with hw | hw
                · cases hw
                · cases hw
                  exact consistent_of_heap_eq S w _ hc rfl rfl
            | false =>
              simp only [dynamic_storage, static_storage, hAd, hBd, Bool.false_and,
                Bool.false_eq_true, if_false, Bool.not_false, Bool.and_self, if_true] at hw
              have hsA := holds_size S w.mem A xs hxs
              have hsB := holds_size S w.mem B ys hys
              rw [hsA, hsB] at hw
              by_cases hlt : ys.length < xs.length
              · rw [if_pos hlt] at hw
                rcases budget_cases w.mem (xs.length - ys.length) with haff | ⟨bb, hbb, hbl⟩
                · rw [swap_static_longer_ub S w.mem A B xs ys hxs hys hAd hBd hlt haff] at hw
                  rcases hw with hw | hw <;> cases hw
                · rw [swap_static_longer_throw S w.mem A B xs ys bb hxs hys hAd hBd hlt hbb hbl]
                    at hw
                  simp only [rethrow_throw, res_bind_throw] at hw
                  rw [put2_same w a b A B _ hA hB] at hw
                  rcases hw with hw | hw
                  · cases hw
                  · cases hw
                    exact consistent_of_heap_eq S w _ hc rfl rfl
              · rw [if_neg hlt] at hw
                exact ih w b a w' hc hw
theorem getElem?_append_one (l : List α) (x u : α) (i : Nat)
    (h : (l ++ [x])[i]? = some u) : l[i]? = some u ∨ u = x := by
  rcases Nat.lt_or_ge i l.length with hi | hi
  · left
    rw [List.getElem?_append_left hi] at h
    exact h
  · right
    rw [List.getElem?_append_right hi] at h
    cases hk : i - l.length with
    | zero =>
      rw [hk] at h
      simp at h
      exact h.symm
    | succ k =>
      rw [hk] at h
      simp at h

/-- A new inline container keeps the world consistent. -/
theorem consistent_append_static (S : Nat) (w : World T) (m' : Mem T) (v' : socow_vector T)
    (ys : List T) (hc : consistent S w) (hheap : m'.heap = w.mem.heap)
    (hleak : m'.leaked = w.mem.leaked) (hs : v'._is_dynamic = false)
    (hv : holds S m' v' ys) : consistent S ⟨m', w.objs ++ [v']⟩ := by
  obtain ⟨hobj, hrc, hlive, hl⟩ := consistent_of_heap_eq S w m' hc hheap hleak
  refine ⟨fun i u hu => ?_, fun q => ?_, hlive, hl⟩
  · rcases getElem?_append_one w.objs v' u i hu with h1 | h1
    · exact hobj i u h1
    · subst h1
      exact ⟨ys, hv⟩
  · show m'.rc q = (⟨m', w.objs ++ [v']⟩ : World T).refs q
    rw [refs_append w m' v' q, handles_static v' q hs]
    exact hrc q

/-- The copy constructor keeps the world consistent, whether it returns or throws. -/
theorem consistent_copied (S : Nat) (w : World T) (hc : consistent S w) (i : Nat)
    (o : socow_vector T) (ho : w.objs[i]? = some o) :
    (∀ m' v', copy_ctor S w.mem o = .ok (m', v') → consistent S ⟨m', w.objs ++ [v']⟩) ∧
    (∀ m', copy_ctor S w.mem o = .throw m' → consistent S ⟨m', w.objs⟩) := by
  obtain ⟨ys, hys⟩ := hc.1 i o ho
  have hsz := holds_size S w.mem o ys hys
  have hcc : copy_ctor S w.mem o = copy_ctor_sized S w.mem o ys.length := by
    unfold copy_ctor
    rw [hsz]
  cases hod : o._is_dynamic with
  | false =>
    obtain ⟨_, hoS, _⟩ := holds_static S w.mem o ys hys hod
    rcases budget_cases w.mem ys.length with haff | ⟨bb, hbb, hbl⟩
    · have e := copy_ctor_sized_static S w.mem o ys ys.length hys hod (le_refl _) haff
      rw [← hcc] at e
      refine ⟨fun m' v' hok => ?_, fun m' ht => ?_⟩
      · rw [e] at hok
        cases hok
        refine consistent_append_static S w _ _ ys hc rfl rfl rfl ?_
        simp [holds, hoS]
      · rw [e] at ht
        cases ht
    · have e := copy_ctor_sized_static_throw S w.mem o ys ys.length bb hys hod (le_refl _)
        hbb hbl
      rw [← hcc] at e
      refine ⟨fun m' v' hok => ?_, fun m' ht => ?_⟩
      · rw [e] at hok
        cases hok
      · rw [e] at ht
        cases ht
        exact consistent_of_heap_eq S w _ hc rfl rfl
  | true =>
    obtain ⟨h1, h2, b, hb, hr, hcb, hdb⟩ := holds_dynamic S w.mem o ys hys hod
    have e := copy_ctor_dynamic S w.mem o b hod hb
    have hlt := deref_lt w.mem _ b hb
    refine ⟨fun m' v' hok => ?_, fun m' ht => ?_⟩
    · rw [e] at hok
      cases hok
      obtain ⟨hobj, hrc, hlive, hl⟩ := hc
      have hkeep : ∀ q, w.mem.keeps
          (w.mem.store o._buffer { b with ref_count := b.ref_count + 1 }) q :=
        fun q => keeps_store w.mem o._buffer q b _ hb rfl rfl (fun _ => by simp)
      have hnew : (w.mem.store o._buffer { b with ref_count := b.ref_count + 1 }).deref
          o._buffer = some { b with ref_count := b.ref_count + 1 } :=
        deref_store_same _ _ _ hlt
      refine ⟨fun j u hu => ?_, fun q => ?_, fun q b' hb' => ?_, hl⟩
      · rcases getElem?_append_one w.objs _ u j hu with h3 | h3
        · obtain ⟨zs, hzs⟩ := hobj j u h3
          exact ⟨zs, (holds_of_keeps S w.mem _ u zs hzs (fun _ => hkeep _)).1⟩
        · subst h3
          refine ⟨ys, ?_⟩
          unfold holds
          simp only [if_true]
          exact ⟨h1, trivial, _, hnew, by simp, hcb, hdb⟩
      · show Mem.rc _ q = (⟨_, w.objs ++ [_]⟩ : World T).refs q
        rw [refs_append]
        by_cases hq : q = o._buffer
        · subst hq
          rw [rc_of_some _ _ _ hnew]
          have := hrc o._buffer
          rw [rc_of_some _ _ b hb] at this
          simp [handles, refers]
          omega
        · rw [rc_congr _ _ q (deref_store_ne w.mem _ o._buffer q hq)]
          have hne : ¬ o._buffer = q := fun hx => hq hx.symm
          simp [handles, refers, hne]
          exact hrc q
      · by_cases hq : q = o._buffer
        · subst hq
          have hb2 : (w.mem.store o._buffer { b with ref_count := b.ref_count + 1 }).deref
              o._buffer = some b' := hb'
          rw [hnew] at hb2
          cases hb2
          exact ⟨by simp, (hlive _ b hb).2⟩
        · have hb2 : (w.mem.store o._buffer { b with ref_count := b.ref_count + 1 }).deref
              q = some b' := hb'
          rw [deref_store_ne w.mem _ o._buffer q hq] at hb2
          exact hlive q b' hb2
    · rw [e] at ht
      cases ht

/-- The destructor keeps the world consistent. -/
theorem consistent_destroyed (S : Nat) (w : World T) (hc : consistent S w) (i : Nat)
    (v : socow_vector T) (m' : Mem T) (hv : w.objs[i]? = some v)
    (hd : destructor w.mem v = some m') : consistent S ⟨m', w.objs.eraseIdx i⟩ := by
  obtain ⟨xs, hxs⟩ := hc.1 i v hv
  unfold destructor at hd
  rw [destroy_holds S w.mem v xs hxs] at hd
  simp only [Option.map_some', Option.some.injEq] at hd
  subst hd
  have hframe : frame w.mem (w.mem.drop_ref v) v := keeps_drop_ref w.mem w.mem v (fun _ _ h => h)
  obtain ⟨hobj, hrc, hlive, hl⟩ := hc
  refine ⟨fun j u hu => ?_, fun q => ?_, fun q b' hb' => ?_, by simpa using hl⟩
  · have hu' : (w.objs.eraseIdx i)[j]? = some u := hu
    have hold : ∃ k, k ≠ i ∧ w.objs[k]? = some u := by
      rcases Nat.lt_or_ge j i with hlt | hge
      · rw [List.getElem?_eraseIdx_of_lt w.objs i j hlt] at hu'
        exact ⟨j, by omega, hu'⟩
      · rw [List.getElem?_eraseIdx_of_ge w.objs i j hge] at hu'
        exact ⟨j + 1, by omega, hu'⟩
    obtain ⟨k, hki, hk⟩ := hold
    obtain ⟨zs, hzs⟩ := hobj k u hk
    refine ⟨zs, (kept_of_frame S w.mem _ v u zs hzs hframe ?_).1⟩
    intro hud hvd hsame
    exact consistent_shared S w ⟨hobj, hrc, hlive, hl⟩ k i u v hki hk hv hud hvd hsame
  · show (w.mem.drop_ref v).rc q = (⟨w.mem.drop_ref v, w.objs.eraseIdx i⟩ : World T).refs q
    have h1 := rc_drop_ref S w.mem w.mem v xs hxs (fun _ _ h => h) q
    have h2 := refs_eraseIdx w (w.mem.drop_ref v) i v q hv
    have h3 := hrc q
    omega
  · obtain ⟨b, hb, hcb, _, hp⟩ := drop_ref_live w.mem v q b' hb'
    obtain ⟨h1, h2⟩ := hlive q b hb
    exact ⟨hp h1, by omega⟩

/-- The invariant: every reachable world is consistent. -/
theorem reachable_consistent (S : Nat) (w : World T) (h : Reachable S w) :
    consistent S w := by
  induction h with
  | start =>
    refine ⟨fun i u hu => ?_, fun q => ?_, fun q b hb => ?_, rfl⟩
    · simp at hu
    · simp [Mem.rc, Mem.deref, World.refs]
    · simp [Mem.deref] at hb
  | schedule w budget _ ih => exact consistent_of_heap_eq S w _ ih rfl rfl
  | created w _ ih =>
    refine consistent_append_static S w w.mem _ [] ih rfl rfl rfl ?_
    simp [holds, socow_vector_new, live]
  | copied w i o m' v' _ ho hok ih => exact (consistent_copied S w ih i o ho).1 m' v' hok
  | copy_failed w i o m' _ ho ht ih => exact (consistent_copied S w ih i o ho).2 m' ht
  | destroyed w i v m' _ hv hd ih => exact consistent_destroyed S w ih i v m' hv hd
  | called w a v μ w' _ ha hadm hw ih => exact consistent_called S w ih a v μ w' ha hadm hw
  | swapped w fuel a b w' _ hw ih => exact consistent_swapped S fuel w a b w' ih hw
theorem trace_shared_reachable : Reachable 2 trace_shared := by
  have h0 : Reachable 2 (⟨⟨[], 0, none, 0⟩, []⟩ : World Nat) := Reachable.start
  have h1 := Reachable.created _ h0
  have h2 : Reachable 2 (⟨⟨[], 1, none, 0⟩, [⟨1, false, 0, [some 1, none]⟩]⟩ : World Nat) :=
    Reachable.called _ 0 _ (Mutation.push_back 1) _ h1 rfl trivial (Or.inl rfl)
  have h3 : Reachable 2 (⟨⟨[], 2, none, 0⟩, [⟨2, false, 0, [some 1, some 2]⟩]⟩ : World Nat) :=
    Reachable.called _ 0 _ (Mutation.push_back 2) _ h2 rfl trivial (Or.inl rfl)
  have h4 : Reachable 2 (⟨⟨[some ⟨4, 1, [some 1, some 2, some 3, none]⟩], 5, none, 0⟩,
      [⟨3, true, 0, [none, none]⟩]⟩ : World Nat) :=
    Reachable.called _ 0 _ (Mutation.push_back 3) _ h3 rfl trivial (Or.inl rfl)
  exact Reachable.copied _ 0 _ _ _ h4 rfl rfl

theorem trace_shrunk_reachable : Reachable 2 trace_shrunk := by
  have h5 : Reachable 2 (⟨⟨[some ⟨4, 1, [some 1, some 2, some 3, none]⟩], 7, none, 0⟩,
      [⟨3, true, 0, [none, none]⟩, ⟨2, false, 0, [some 1, some 2]⟩]⟩ : World Nat) :=
    Reachable.called _ 1 _ Mutation.pop_back _ trace_shared_reachable rfl
      (Nat.succ_pos 2) (Or.inl rfl)
  have h6 : Reachable 2 (⟨⟨[some ⟨4, 1, [some 1, some 2, none, none]⟩], 7, none, 0⟩,
      [⟨2, true, 0, [none, none]⟩, ⟨2, false, 0, [some 1, some 2]⟩]⟩ : World Nat) :=
    Reachable.called _ 0 _ Mutation.pop_back _ h5 rfl (Nat.succ_pos 2) (Or.inl rfl)
  exact Reachable.called _ 0 _ Mutation.pop_back _ h6 rfl (Nat.succ_pos 1) (Or.inl rfl)

theorem constructed_live (xs : List T) (cap : Nat) : constructed (live xs cap) = xs.length := by
  unfold constructed live
  rw [List.filter_append]
  have h1 : List.filter Option.isSome (List.map some xs) = List.map some xs := by
    rw [List.filter_eq_self]
    intro a ha
    obtain ⟨x, _, rfl⟩ := List.mem_map.1 ha
    rfl
  have h2 : List.filter Option.isSome (List.replicate (cap - xs.length) (none : Option T)) =
      [] := by
    rw [List.filter_eq_nil_iff]
    intro a ha
    rw [List.eq_of_mem_replicate ha]
    simp
  rw [h1, h2]
  simp

/-- A `reserve(n)` with `n ≥ size()` that does not throw returns with room for `n`
elements and the same element sequence. -/
theorem reserve_at_least (S : Nat) (m : Mem T) (v : socow_vector T) (xs : List T)
    (n : Nat) (h : holds S m v xs) (hn : size v ≤ n)
    (hno : (reserve S m v n).throws = false) :
    ∃ m' v' c', reserve S m v n = .ok (m', v') ∧ capacity S m' v' = some c' ∧ n ≤ c' ∧
      size v' = size v ∧ holds S m' v' xs := by
  obtain ⟨c, hcap, _, hc⟩ := raw_data_holds S m v xs h
  obtain ⟨sh, hsh, _, _⟩ := shared_holds S m v xs h
  have hsz := holds_size S m v xs h
  rcases reserve_cases S m v xs n c sh h hcap hsh with
    ⟨hwhy, e⟩ | ⟨_, _, hS, _, e⟩ | ⟨hle, _, _, e⟩ | ⟨_, _, b, m', _, _, e, _⟩
  · rcases hwhy with h1 | ⟨_, h2⟩
    · omega
    · exact ⟨m, v, c, e, hcap, h2, rfl, h⟩
  · refine ⟨_, _, S, e, capacity_static S _ _ rfl, hS, rfl, ?_⟩
    simp [holds, h.1]
    omega
  · refine ⟨_, _, n, e, ?_, le_refl _, rfl, ?_⟩
    · rw [capacity_dynamic S _ _ ⟨n, 1, live xs n⟩ rfl (deref_realloc S m v xs _ _ h)]
    · exact holds_realloc S m v _ xs xs _ n h hle h.1 rfl rfl rfl
  · rw [e] at hno
    cases hno

/-! ## The sized allocation -/

/-- A byte count that does not wrap around is the mathematical value. -/
theorem new_buffer_bytes_exact (bits sizeof_buffer sizeof_T capacity : Nat)
    (h : allocatable bits sizeof_buffer sizeof_T capacity) :
    new_buffer_bytes bits sizeof_buffer sizeof_T capacity =
      sizeof_buffer + sizeof_T * capacity := by
  obtain ⟨_, hlt⟩ := h
  unfold new_buffer_bytes
  rw [Nat.mod_eq_of_lt (by omega : sizeof_T * capacity < 2 ^ bits), Nat.mod_eq_of_lt hlt]

/-- A block whose byte count does not wrap around has room for `capacity` elements. -/
theorem block_slots_exact (bits sizeof_buffer sizeof_T capacity : Nat)
    (h : allocatable bits sizeof_buffer sizeof_T capacity) :
    block_slots bits sizeof_buffer sizeof_T capacity = capacity := by
  unfold block_slots
  rw [new_buffer_bytes_exact bits sizeof_buffer sizeof_T capacity h, Nat.add_sub_cancel_left,
    Nat.mul_div_cancel_left capacity h.1, Nat.min_self]

/-- When the byte count does not wrap around, the block is the one of `new_buffer`. -/
theorem new_buffer_sized_eq (bits sizeof_buffer sizeof_T : Nat) (m : Mem T) (capacity : Nat)
    (h : allocatable bits sizeof_buffer sizeof_T capacity) :
    new_buffer_sized bits sizeof_buffer sizeof_T m capacity = some (new_buffer m capacity) := by
  unfold new_buffer_sized new_buffer
  rw [new_buffer_bytes_exact bits sizeof_buffer sizeof_T capacity h,
    block_slots_exact bits sizeof_buffer sizeof_T capacity h, if_neg (by omega)]

theorem copy_buffer_sized_eq (bits sizeof_buffer sizeof_T : Nat) (m : Mem T)
    (v : socow_vector T) (sz capacity : Nat)
    (h : allocatable bits sizeof_buffer sizeof_T capacity) :
    copy_buffer_sized bits sizeof_buffer sizeof_T m v sz capacity =
      copy_buffer m v sz capacity := by
  unfold copy_buffer_sized copy_buffer
  rw [new_buffer_sized_eq bits sizeof_buffer sizeof_T m capacity h]
  rfl

/-- When the byte count of the requested capacity does not wrap around, `reserve` over the
sized allocation is `reserve`. -/
theorem reserve_sized_eq (bits sizeof_buffer sizeof_T : Nat) (S : Nat) (m : Mem T)
    (v : socow_vector T) (n : Nat) (h : allocatable bits sizeof_buffer sizeof_T n) :
    reserve_sized bits sizeof_buffer sizeof_T S m v n = reserve S m v n := by
  unfold reserve_sized reserve
  rw [copy_buffer_sized_eq bits sizeof_buffer sizeof_T m v (size v) n h]

/-- A `reserve(n)` with `n < size()` returns at once, whatever `n` is. -/
theorem reserve_sized_below (bits sizeof_buffer sizeof_T : Nat) (S : Nat) (m : Mem T)
    (v : socow_vector T) (n : Nat) (h : n < size v) :
    reserve_sized bits sizeof_buffer sizeof_T S m v n = .ok (m, v) := by
  unfold reserve_sized
  rw [if_pos h]
  rfl

theorem exec_sized_eq (bits sizeof_buffer sizeof_T : Nat) (S : Nat) (w : World T) (a : Nat)
    (μ : Mutation T) (h : μ.allocatable bits sizeof_buffer sizeof_T) :
    μ.exec_sized bits sizeof_buffer sizeof_T S w a = μ.exec S w a := by
  cases μ with
  | reserve n =>
    have e : (fun (m : Mem T) (v : socow_vector T) =>
        reserve_sized bits sizeof_buffer sizeof_T S m v n) = (fun m v => reserve S m v n) := by
      funext m v
      exact reserve_sized_eq bits sizeof_buffer sizeof_T S m v n h
    show w.run a (fun m v => reserve_sized bits sizeof_buffer sizeof_T S m v n) =
      w.run a (fun m v => reserve S m v n)
    rw [e]
  | _ => rfl

/-! ## The claims -/

/-- C1, counterexample: `A` and `B` share the buffer with the ten elements 0 to 9, elements
of 4 bytes, a 64-bit `std::size_t` and `sizeof(buffer) = 16`.  `A.reserve(2^62)` is within
the precondition of `reserve`; the byte count `16 + 4 * 2^62` of the private copy wraps
around to 16, the block has room for no element, and copying the ten elements into it is
undefined behaviour: the call neither returns nor throws, and there is no state after it
in which `B` is what it was. -/
theorem reserve_wraps_under_sharing :
    ten_world.objs[0]? = some ten_vec ∧ ten_world.objs[1]? = some ten_vec ∧
      holds 4 ten_world.mem ten_vec [0, 1, 2, 3, 4, 5, 6, 7, 8, 9] ∧
      (Mutation.reserve (2 ^ 62) : Mutation Nat).admissible 4 ten_world 10 ∧
      new_buffer_bytes 64 16 4 (2 ^ 62) = 16 ∧
      (Mutation.reserve (2 ^ 62)).exec_sized 64 16 4 4 ten_world 0 = .ub ∧
      ¬ ∃ w', ((Mutation.reserve (2 ^ 62)).exec_sized 64 16 4 4 ten_world 0 = .ok w' ∨
          (Mutation.reserve (2 ^ 62)).exec_sized 64 16 4 4 ten_world 0 = .throw w') ∧
        w'.objs[1]? = some ten_vec := by
  have e : (Mutation.reserve (2 ^ 62)).exec_sized 64 16 4 4 ten_world 0 = .ub := rfl
  refine ⟨rfl, rfl, by simp [holds, ten_world, ten_vec, Mem.deref, live], trivial, rfl, e, ?_⟩
  rintro ⟨w', h | h, _⟩ <;> rw [e] at h <;> cases h

/-- C1, amended: value semantics under copy-on-write.  Let `A` and `B` be two different
objects that refer to the same heap buffer (whose reference count therefore is at least 2).
After any single mutating call on `A` within its precondition, where a `reserve(n)` asks
for a capacity whose allocation size `sizeof(buffer) + sizeof(T) * n` does not wrap around
in `std::size_t`, whether the call returns or throws, the object `B` is untouched and still
holds the same element sequence with the same `size()` and `capacity()`; and after a
successful write through the non-const `operator[]`, `data`, `front`, `back` or `begin` of
`A`, `A` is inline or refers to a buffer other than the one of `B`. -/
theorem cow_value_semantics (bits sizeof_buffer sizeof_T : Nat) (S : Nat) (w : World T)
    (a b : Nat) (A B : socow_vector T) (xs : List T) (μ : Mutation T)
    (hab : a ≠ b) (hA : w.objs[a]? = some A) (hB : w.objs[b]? = some B)
    (hholdsA : holds S w.mem A xs) (hholdsB : holds S w.mem B xs)
    (hshare : A._is_dynamic = true ∧ B._is_dynamic = true ∧ A._buffer = B._buffer)
    (hrc : ∀ buf, w.mem.deref A._buffer = some buf → 2 ≤ buf.ref_count)
    (hadm : μ.admissible S w xs.length)
    (hfit : μ.allocatable bits sizeof_buffer sizeof_T) :
    ∃ w', (μ.exec_sized bits sizeof_buffer sizeof_T S w a = .ok w' ∨
        μ.exec_sized bits sizeof_buffer sizeof_T S w a = .throw w') ∧
      w'.objs[b]? = some B ∧ holds S w'.mem B xs ∧ size B = xs.length ∧
      capacity S w'.mem B = capacity S w.mem B ∧
      (μ.is_write = true → μ.exec_sized bits sizeof_buffer sizeof_T S w a = .ok w' →
        ∃ A', w'.objs[a]? = some A' ∧ (A'._is_dynamic = false ∨ A'._buffer ≠ B._buffer)) := by
  rw [exec_sized_eq bits sizeof_buffer sizeof_T S w a μ hfit]
  clear hfit
  obtain ⟨_, hdynB, hsame⟩ := hshare
  have hrcB : B._is_dynamic = true → A._is_dynamic = true → B._buffer = A._buffer →
      ∀ buf, w.mem.deref B._buffer = some buf → 2 ≤ buf.ref_count :=
    fun _ _ _ buf hbuf => hrc buf (by rw [hsame]; exact hbuf)
  have hBbuf : ∃ buf, w.mem.deref B._buffer = some buf := by
    obtain ⟨_, _, buf, hbuf, _⟩ := holds_dynamic S w.mem B xs hholdsB hdynB
    exact ⟨buf, hbuf⟩
  have hszA := holds_size S w.mem A xs hholdsA
  -- every call reduces to one member function `F` run on `A`
  have key : ∀ (F : Mem T → socow_vector T →
        Res (Mem T × socow_vector T) (Mem T × socow_vector T)) (P : socow_vector T → Prop),
      ((∃ m' v', F w.mem A = .ok (m', v') ∧ frame w.mem m' A ∧ P v') ∨
        (∃ m', F w.mem A = .throw (m', A) ∧ w.mem.unwound m')) →
      ∃ w', (w.run a F = .ok w' ∨ w.run a F = .throw w') ∧
        w'.objs[b]? = some B ∧ holds S w'.mem B xs ∧ size B = xs.length ∧
        capacity S w'.mem B = capacity S w.mem B ∧
        (w.run a F = .ok w' → ∃ A', w'.objs[a]? = some A' ∧ P A') := by
    intro F P hspec
    obtain ⟨w', h1, h2, h3, h4, h5⟩ :=
      run_kept S w a b A B xs F P hab hA hB hholdsB hrcB hspec
    exact ⟨w', h1, h2, h3, holds_size S w.mem B xs hholdsB, h4, h5⟩
  have write_case : ∀ i x, i < xs.length →
      ∃ w', (w.run a (fun m v => index_write S m v i x) = .ok w' ∨
          w.run a (fun m v => index_write S m v i x) = .throw w') ∧
        w'.objs[b]? = some B ∧ holds S w'.mem B xs ∧ size B = xs.length ∧
        capacity S w'.mem B = capacity S w.mem B ∧
        (w.run a (fun m v => index_write S m v i x) = .ok w' →
          ∃ A', w'.objs[a]? = some A' ∧ (A'._is_dynamic = false ∨ A'._buffer ≠ B._buffer)) := by
    intro i x hi
    apply key
    rcases index_write_spec S w.mem A xs i x hholdsA hi with
      ⟨m', v', hok, _, hf, _, hp⟩ | ⟨m', ht, hu, _⟩
    · exact Or.inl ⟨m', v', hok, hf, private_ne_shared w.mem A v' B hp hsame hBbuf hrc⟩
    · exact Or.inr ⟨m', ht, hu⟩
  have ensure_case : ∀ k, k ≤ xs.length →
      ∃ w', (w.run a (fun m v => ensure_ownership S m v k) = .ok w' ∨
          w.run a (fun m v => ensure_ownership S m v k) = .throw w') ∧
        w'.objs[b]? = some B ∧ holds S w'.mem B xs ∧ size B = xs.length ∧
        capacity S w'.mem B = capacity S w.mem B ∧
        (w.run a (fun m v => ensure_ownership S m v k) = .ok w' →
          ∃ A', w'.objs[a]? = some A' ∧ (A'._is_dynamic = false ∨ A'._buffer ≠ B._buffer)) := by
    intro k hk
    apply key
    rcases ensure_ownership_spec S w.mem A xs k hholdsA hk with
      ⟨m', v', hok, _, hf, _, hp⟩ | ⟨m', ht, hu, _⟩
    · exact Or.inl ⟨m', v', hok, hf, private_ne_shared w.mem A v' B hp hsame hBbuf hrc⟩
    · exact Or.inr ⟨m', ht, hu⟩
  have drop_write : ∀ (r : Res (World T) (World T)),
      (∃ w', (r = .ok w' ∨ r = .throw w') ∧
        w'.objs[b]? = some B ∧ holds S w'.mem B xs ∧ size B = xs.length ∧
        capacity S w'.mem B = capacity S w.mem B ∧
        (r = .ok w' → ∃ A', w'.objs[a]? = some A' ∧ True)) →
      ∃ w', (r = .ok w' ∨ r = .throw w') ∧
        w'.objs[b]? = some B ∧ holds S w'.mem B xs ∧ size B = xs.length ∧
        capacity S w'.mem B = capacity S w.mem B ∧
        (false = true → r = .ok w' →
          ∃ A', w'.objs[a]? = some A' ∧ (A'._is_dynamic = false ∨ A'._buffer ≠ B._buffer)) := by
    rintro r ⟨w', h1, h2, h3, h4, h5, _⟩
    exact ⟨w', h1, h2, h3, h4, h5, fun hx => by cases hx⟩
  cases μ with
  | index_write i x =>
    obtain ⟨w', h1, h2, h3, h4, h5, h6⟩ := write_case i x hadm
    exact ⟨w', h1, h2, h3, h4, h5, fun _ => h6⟩
  | data =>
    obtain ⟨w', h1, h2, h3, h4, h5, h6⟩ := ensure_case xs.length (le_refl _)
    have e : w.run a (fun m v => data S m v) =
        w.run a (fun m v => ensure_ownership S m v xs.length) := by
      unfold World.run
      simp only [hA, of_some, ok_bind, data, hszA]
    refine ⟨w', ?_, h2, h3, h4, h5, fun _ => ?_⟩
    · simpa [Mutation.exec, e] using h1
    · simpa [Mutation.exec, e] using h6
  | front_write x =>
    obtain ⟨w', h1, h2, h3, h4, h5, h6⟩ := write_case 0 x hadm
    exact ⟨w', h1, h2, h3, h4, h5, fun _ => h6⟩
  | back_write x =>
    have hn : 0 < xs.length := hadm
    obtain ⟨w', h1, h2, h3, h4, h5, h6⟩ := write_case (xs.length - 1) x (by omega)
    have e : w.run a (fun m v => back_write S m v x) =
        w.run a (fun m v => index_write S m v (xs.length - 1) x) := by
      unfold World.run
      simp only [hA, of_some, ok_bind, back_write, hszA, show ¬ xs.length = 0 by omega,
        if_false]
    refine ⟨w', ?_, h2, h3, h4, h5, fun _ => ?_⟩
    · simpa [Mutation.exec, e] using h1
    · simpa [Mutation.exec, e] using h6
  | begin_write i x =>
    obtain ⟨w', h1, h2, h3, h4, h5, h6⟩ := write_case i x hadm
    exact ⟨w', h1, h2, h3, h4, h5, fun _ => h6⟩
  | push_back x =>
    refine drop_write _ (key (fun m v => push_back S m v x) (fun _ => True) ?_)
    rcases push_back_spec S w.mem A xs x hholdsA with ⟨m', v', hok, _, hf⟩ | ⟨m', ht, hu, _⟩
    · exact Or.inl ⟨m', v', hok, hf, trivial⟩
    · exact Or.inr ⟨m', ht, hu⟩
  | pop_back =>
    have hn : 0 < xs.length := hadm
    obtain ⟨w', h1, h2, h3, h4, h5, _⟩ := ensure_case (xs.length - 1) (by omega)
    have e : w.run a (fun m v => pop_back S m v) =
        w.run a (fun m v => ensure_ownership S m v (xs.length - 1)) := by
      unfold World.run
      simp only [hA, of_some, ok_bind, pop_back, hszA, show ¬ xs.length = 0 by omega,
        if_false]
    refine ⟨w', ?_, h2, h3, h4, h5, fun hx => by cases hx⟩
    simpa [Mutation.exec, e] using h1
  | insert k x =>
    refine drop_write _ (key (fun m v => (insert S m v k x).bind (fun r => .ok (r.1, r.2.1)))
      (fun _ => True) ?_)
    rcases insert_spec S w.mem A xs k x hholdsA hadm with ⟨m', v', hok, _, hf⟩ | ⟨m', ht, hu, _⟩
    · exact Or.inl ⟨m', v', by
        show (insert S w.mem A k x).bind _ = _
        rw [hok]; rfl, hf, trivial⟩
    · exact Or.inr ⟨m', by
        show (insert S w.mem A k x).bind _ = _
        rw [ht]; rfl, hu⟩
  | erase f l =>
    refine drop_write _ (key (fun m v => (erase S m v f l).bind (fun r => .ok (r.1, r.2.1)))
      (fun _ => True) ?_)
    rcases erase_spec S w.mem A xs f l hholdsA hadm.1 hadm.2 with
      ⟨m', v', hok, _, hf, _⟩ | ⟨m', ht, hu, _⟩
    · exact Or.inl ⟨m', v', by
        show (erase S w.mem A f l).bind _ = _
        rw [hok]; rfl, hf, trivial⟩
    · exact Or.inr ⟨m', by
        show (erase S w.mem A f l).bind _ = _
        rw [ht]; rfl, hu⟩
  | clear =>
    obtain ⟨w', h1, h2, h3, h4, h5, _⟩ := ensure_case 0 (Nat.zero_le _)
    exact ⟨w', h1, h2, h3, h4, h5, fun hx => by cases hx⟩
  | reserve n =>
    refine drop_write _ (key (fun m v => reserve S m v n) (fun _ => True) ?_)
    rcases reserve_spec S w.mem A xs n hholdsA with ⟨m', v', hok, _, hf⟩ | ⟨m', ht, hu, _⟩
    · exact Or.inl ⟨m', v', hok, hf, trivial⟩
    · exact Or.inr ⟨m', ht, hu⟩
  | shrink_to_fit =>
    refine drop_write _ (key (fun m v => shrink_to_fit S m v) (fun _ => True) ?_)
    rcases shrink_to_fit_spec S w.mem A xs hholdsA with ⟨m', v', hok, _, hf⟩ | ⟨m', ht, hu, _⟩
    · exact Or.inl ⟨m', v', hok, hf, trivial⟩
    · exact Or.inr ⟨m', ht, hu⟩
  | assign other =>
    obtain ⟨o, zs, ho, hho⟩ := hadm
    refine drop_write (assign S w a other) ?_
    unfold assign
    by_cases hself : a = other
    · rw [if_pos hself]
      exact ⟨w, Or.inl rfl, hB, hholdsB, holds_size S w.mem B xs hholdsB, rfl,
        fun _ => ⟨A, hA, trivial⟩⟩
    · rw [if_neg hself]
      simp only [ho, of_some, ok_bind]
      refine key (fun m v => assign_body S m v o) (fun _ => True) ?_
      rcases assign_body_spec S w.mem A o xs zs hholdsA hho (fun _ _ _ => hrc) with
        ⟨m', v', hok, _, _, hf, _⟩ | ⟨m', ht, hu, _⟩
      · exact Or.inl ⟨m', v', hok, hf, trivial⟩
      · exact Or.inr ⟨m', ht, hu⟩

theorem cow_value_semantics_witness :
    (∃ w', (Mutation.exec_sized 64 16 4 4 ten_world 0 (.index_write 0 99) = .ok w' ∨
        Mutation.exec_sized 64 16 4 4 ten_world 0 (.index_write 0 99) = .throw w') ∧
      w'.objs[1]? = some ten_vec ∧
      holds 4 w'.mem ten_vec [0, 1, 2, 3, 4, 5, 6, 7, 8, 9] ∧
      size ten_vec = [0, 1, 2, 3, 4, 5, 6, 7, 8, 9].length ∧
      capacity 4 w'.mem ten_vec = capacity 4 ten_world.mem ten_vec ∧
      ((Mutation.index_write 0 99 : Mutation Nat).is_write = true →
        Mutation.exec_sized 64 16 4 4 ten_world 0 (.index_write 0 99) = .ok w' →
        ∃ A', w'.objs[0]? = some A' ∧
          (A'._is_dynamic = false ∨ A'._buffer ≠ ten_vec._buffer))) ∧
    (Mutation.reserve 20 : Mutation Nat).allocatable 64 16 4 ∧
    ∃ w', (Mutation.exec_sized 64 16 4 4 ten_world 0 (.reserve 20) = .ok w' ∨
        Mutation.exec_sized 64 16 4 4 ten_world 0 (.reserve 20) = .throw w') ∧
      w'.objs[1]? = some ten_vec ∧
      holds 4 w'.mem ten_vec [0, 1, 2, 3, 4, 5, 6, 7, 8, 9] ∧
      size ten_vec = [0, 1, 2, 3, 4, 5, 6, 7, 8, 9].length ∧
      capacity 4 w'.mem ten_vec = capacity 4 ten_world.mem ten_vec ∧
      ((Mutation.reserve 20 : Mutation Nat).is_write = true →
        Mutation.exec_sized 64 16 4 4 ten_world 0 (.reserve 20) = .ok w' →
        ∃ A', w'.objs[0]? = some A' ∧
          (A'._is_dynamic = false ∨ A'._buffer ≠ ten_vec._buffer)) :=
  ⟨cow_value_semantics 64 16 4 4 ten_world 0 1 ten_vec ten_vec [0, 1, 2, 3, 4, 5, 6, 7, 8, 9]
      (.index_write 0 99) (by decide) rfl rfl
      (by simp [holds, ten_world, ten_vec, Mem.deref, live])
      (by simp [holds, ten_world, ten_vec, Mem.deref, live])
      ⟨rfl, rfl, rfl⟩
      (by
        intro buf h
        simp [ten_world, ten_vec, Mem.deref] at h
        rw [← h])
      (by simp [Mutation.admissible]) trivial,
    ⟨by decide, by decide⟩,
    cow_value_semantics 64 16 4 4 ten_world 0 1 ten_vec ten_vec [0, 1, 2, 3, 4, 5, 6, 7, 8, 9]
      (.reserve 20) (by decide) rfl rfl
      (by simp [holds, ten_world, ten_vec, Mem.deref, live])
      (by simp [holds, ten_world, ten_vec, Mem.deref, live])
      ⟨rfl, rfl, rfl⟩
      (by
        intro buf h
        simp [ten_world, ten_vec, Mem.deref] at h
        rw [← h])
      trivial ⟨by decide, by decide⟩⟩

/-- C2: `push_back` appends.  For a container that holds `xs` (inline, owning its buffer
or sharing it) and a value `x`, when no element copy fails the call returns, the
container then holds `xs` followed by `x`, `size()` is the old size plus 1, and the
element at every index below the old size is the one that was there. -/
theorem push_back_appends (S : Nat) (m : Mem T) (v : socow_vector T) (xs : List T) (x : T)
    (h : holds S m v xs) (hno : (push_back S m v x).throws = false) :
    ∃ m' v', push_back S m v x = .ok (m', v') ∧ holds S m' v' (xs ++ [x]) ∧
      size v' = size v + 1 ∧ (∀ i, const_index m' v' i = (xs ++ [x])[i]?) ∧
      ∀ i, i < size v → const_index m' v' i = const_index m v i := by
  rcases push_back_spec S m v xs x h with ⟨m', v', hok, hh, _⟩ | ⟨m', ht, _⟩
  · refine ⟨m', v', hok, hh, ?_, const_index_holds S m' v' _ hh, ?_⟩
    · rw [holds_size S m' v' _ hh, holds_size S m v xs h]; simp
    · intro i hi
      rw [holds_size S m v xs h] at hi
      rw [const_index_holds S m' v' _ hh, const_index_holds S m v xs h,
        List.getElem?_append_left hi]
  · rw [ht] at hno; cases hno

theorem push_back_appends_witness :
    ∃ m' v', push_back 2 ex_mem ex_vec 9 = .ok (m', v') ∧ holds 2 m' v' ([1, 2, 3] ++ [9]) ∧
      size v' = size ex_vec + 1 ∧ (∀ i, const_index m' v' i = ([1, 2, 3] ++ [9])[i]?) ∧
      ∀ i, i < size ex_vec → const_index m' v' i = const_index ex_mem ex_vec i :=
  push_back_appends 2 ex_mem ex_vec [1, 2, 3] 9
    (by simp [holds, ex_mem, ex_vec, Mem.deref, live])
    (by decide)

/-- C3, failing inputs: `swap` of two inline containers of equal size, `[1]` and `[2]`,
never returns, whatever the depth allowed for the delegation to `other.swap(*this)`; and
`swap` of the inline containers `[1, 2]` and `[9]`, called either way round, runs
`std::swap_ranges` over slots whose objects it has destroyed just before, which is
undefined behaviour. -/
theorem swap_inline_fails :
    (∀ fuel, swap fuel equal_world 0 1 = none) ∧
      swap 2 inline_world 0 1 = some .ub ∧ swap 2 inline_world 1 0 = some .ub :=
  ⟨fun fuel => swap_inline_equal_none fuel equal_world 0 1 _ _ (by decide) rfl rfl rfl rfl rfl,
    rfl, rfl⟩

/-- C4, failing input: `a.swap(b)` on two empty containers never returns.  Each call
finds both containers inline, finds `other.size() < size()` false and delegates to
`other.swap(*this)`, at every depth. -/
theorem swap_of_empty_never_returns : ∀ fuel, swap fuel empty_world 0 1 = none :=
  fun fuel => swap_inline_equal_none fuel empty_world 0 1 _ _ (by decide) rfl rfl rfl rfl rfl

/-- C5: `insert` places the value at the requested offset.  For a container that holds
`xs`, an offset `k ≤ size()` and a value `x`, when no element copy fails the call
returns, the container then holds `xs[0..k)` followed by `x` followed by `xs[k..size)`,
`size()` has grown by exactly 1, and the returned iterator is at offset `k`, where `x`
now is.  The container may be inline, own its buffer or share it, with or without spare
capacity, so all three paths of `insert` are covered. -/
theorem insert_places_value (S : Nat) (m : Mem T) (v : socow_vector T) (xs : List T)
    (k : Nat) (x : T) (h : holds S m v xs) (hk : k ≤ xs.length)
    (hno : (insert S m v k x).throws = false) :
    ∃ m' v', insert S m v k x = .ok (m', v', k) ∧
      holds S m' v' (xs.take k ++ x :: xs.drop k) ∧ size v' = size v + 1 ∧
      const_index m' v' k = some x := by
  rcases insert_spec S m v xs k x h hk with ⟨m', v', hok, hh, _⟩ | ⟨m', ht, _⟩
  · refine ⟨m', v', hok, hh, ?_, ?_⟩
    · rw [holds_size S m' v' _ hh, holds_size S m v xs h]
      simp; omega
    · rw [const_index_holds S m' v' _ hh,
        List.getElem?_append_right (by simp [hk])]
      simp [hk]
  · rw [ht] at hno; cases hno

theorem insert_places_value_witness :
    ∃ m' v', insert 2 ex_mem ex_vec 1 9 = .ok (m', v', 1) ∧
      holds 2 m' v' (([1, 2, 3] : List Nat).take 1 ++ 9 :: ([1, 2, 3] : List Nat).drop 1) ∧
      size v' = size ex_vec + 1 ∧ const_index m' v' 1 = some 9 :=
  insert_places_value 2 ex_mem ex_vec [1, 2, 3] 1 9
    (by simp [holds, ex_mem, ex_vec, Mem.deref, live]) (by decide) (by decide)

/-- C6: `erase` removes exactly the given range and keeps the order.  For a container
that holds `xs` and offsets `f ≤ l ≤ size()`, when no element copy fails the call
returns, the container then holds `xs[0..f)` followed by `xs[l..size)`, `size()` has
dropped by `l - f`, and the returned iterator is at offset `f`; for `f = l` memory and
container are exactly as before and the returned offset `f` is `l`.  The container may
be inline, own its buffer or share it, so the in-place path and both shared-buffer paths
are covered; `erase(pos)` is `erase(pos, pos + 1)`. -/
theorem erase_removes_range (S : Nat) (m : Mem T) (v : socow_vector T) (xs : List T)
    (f l : Nat) (h : holds S m v xs) (hfl : f ≤ l) (hl : l ≤ xs.length)
    (hno : (erase S m v f l).throws = false) :
    (∃ m' v', erase S m v f l = .ok (m', v', f) ∧
      holds S m' v' (xs.take f ++ xs.drop l) ∧ size v' = size v - (l - f) ∧
      (f = l → m' = m ∧ v' = v)) ∧
    erase_one S m v f = erase S m v f (f + 1) := by
  refine ⟨?_, rfl⟩
  rcases erase_spec S m v xs f l h hfl hl with ⟨m', v', hok, hh, _, hsame⟩ | ⟨m', ht, _⟩
  · refine ⟨m', v', hok, hh, ?_, hsame⟩
    rw [holds_size S m' v' _ hh, holds_size S m v xs h]
    simp; omega
  · rw [ht] at hno; cases hno

theorem erase_removes_range_witness :
    (∃ m' v', erase 2 ex_mem ex_vec 1 2 = .ok (m', v', 1) ∧
      holds 2 m' v' (([1, 2, 3] : List Nat).take 1 ++ ([1, 2, 3] : List Nat).drop 2) ∧
      size v' = size ex_vec - (2 - 1) ∧ (1 = 2 → m' = ex_mem ∧ v' = ex_vec)) ∧
    erase_one 2 ex_mem ex_vec 1 = erase 2 ex_mem ex_vec 1 (1 + 1) :=
  erase_removes_range 2 ex_mem ex_vec [1, 2, 3] 1 2
    (by simp [holds, ex_mem, ex_vec, Mem.deref, live]) (by decide) (by decide) (by decide)

/-- C7: copy assignment makes the target equal to the source.  Let `A` and `B` be two
different objects that hold `xs` and `ys` (a buffer they both refer to has reference count
at least 2).  When no element copy fails, `A = B` returns; afterwards `A` holds `ys` with
the size of `B`, and `B` is untouched and still holds `ys`; when `B` is Dynamic, `A`
refers to the buffer of `B` and no element was copied.  `A = A` changes nothing. -/
theorem copy_assignment_equal (S : Nat) (w : World T) (a b : Nat) (A B : socow_vector T)
    (xs ys : List T) (hab : a ≠ b) (hA : w.objs[a]? = some A) (hB : w.objs[b]? = some B)
    (hholdsA : holds S w.mem A xs) (hholdsB : holds S w.mem B ys)
    (hshare : A._is_dynamic = true → B._is_dynamic = true → A._buffer = B._buffer →
      ∀ buf, w.mem.deref A._buffer = some buf → 2 ≤ buf.ref_count)
    (hno : (assign S w a b).throws = false) :
    (∃ w' A', assign S w a b = .ok w' ∧ w'.objs[a]? = some A' ∧ w'.objs[b]? = some B ∧
      holds S w'.mem A' ys ∧ holds S w'.mem B ys ∧ size A' = size B ∧
      (B._is_dynamic = true →
        A'._is_dynamic = true ∧ A'._buffer = B._buffer ∧ w'.mem.copies = w.mem.copies)) ∧
    assign S w a a = .ok w := by
  have hlt : a < w.objs.length := by
    by_contra hc
    rw [List.getElem?_eq_none (by omega)] at hA
    cases hA
  refine ⟨?_, by simp [assign]⟩
  have hrun : assign S w a b =
      ((assign_body S w.mem A B).rethrow
        (fun e => some (⟨e.1, w.objs.set a e.2⟩ : World T))).bind
        (fun r => .ok ⟨r.1, w.objs.set a r.2⟩) := by
    unfold assign World.run
    rw [if_neg hab]
    simp only [hB, hA, of_some, ok_bind]
    rfl
  rw [hrun] at hno ⊢
  rcases assign_body_spec S w.mem A B xs ys hholdsA hholdsB hshare with
    ⟨m', A', hok, hhA, hhB, _, hdyn⟩ | ⟨m', ht, _⟩
  · rw [hok]
    refine ⟨⟨m', w.objs.set a A'⟩, A', rfl, by simp [hlt], ?_, hhA, hhB, ?_, hdyn⟩
    · simp only
      rw [List.getElem?_set_ne hab]
      exact hB
    · rw [holds_size S m' A' ys hhA, holds_size S w.mem B ys hholdsB]
  · rw [ht] at hno
    cases hno

theorem copy_assignment_equal_witness :
    (∃ w' A', assign 2 ex_world 2 0 = .ok w' ∧ w'.objs[2]? = some A' ∧
      w'.objs[0]? = some ex_vec ∧ holds 2 w'.mem A' [1, 2, 3] ∧
      holds 2 w'.mem ex_vec [1, 2, 3] ∧ size A' = size ex_vec ∧
      (ex_vec._is_dynamic = true →
        A'._is_dynamic = true ∧ A'._buffer = ex_vec._buffer ∧
          w'.mem.copies = ex_world.mem.copies)) ∧
    assign 2 ex_world 2 2 = .ok ex_world :=
  copy_assignment_equal 2 ex_world 2 0 ex_small ex_vec [7] [1, 2, 3] (by decide) rfl rfl
    (by simp [holds, ex_world, ex_small, live])
    (by simp [holds, ex_world, ex_mem, ex_vec, Mem.deref, live])
    (by intro h; cases h) (by decide)

/-- C8, counterexample: the buffer of `ex_vec` already has two owners.  After a third
container is copy-constructed from it and resolves ownership with `data()`, the buffer
still has reference count 2, not 1, and a later `data()` on `ex_vec` copies its three
elements again. -/
theorem copy_of_shared_not_sole_owner :
    ∃ m1 B m2 B' m3 A', copy_ctor 2 ex_mem ex_vec = .ok (m1, B) ∧
      data 2 m1 B = .ok (m2, B') ∧
      (m2.deref ex_vec._buffer).map (fun b => b.ref_count) = some 2 ∧
      data 2 m2 ex_vec = .ok (m3, A') ∧ m3.copies = m2.copies + 3 :=
  ⟨_, _, _, _, _, _, rfl, rfl, rfl, rfl, rfl⟩

/-- C8, amended: copying a heap-backed container costs no element copies and, when the
source was the only owner of its buffer, copy-on-write fires once.  Copy-constructing `B`
from a Dynamic `A` performs no element copy, gives `B` the buffer handle and size of `A`
and raises the reference count by exactly 1.  If the count was 1 before the copy, the
first `data()` on either of the two afterwards performs exactly `size()` element copies
into private storage and leaves the other one as sole owner (count 1) of the original
buffer, both still holding `xs`; from then on `data()` on either of them changes nothing,
so it copies no element. -/
theorem copy_on_write_fires_once (S : Nat) (m : Mem T) (A : socow_vector T) (xs : List T)
    (buf : buffer T) (h : holds S m A xs) (hd : A._is_dynamic = true)
    (hbuf : m.deref A._buffer = some buf) (haff : m.affords xs.length) :
    ∃ m1 B, copy_ctor S m A = .ok (m1, B) ∧ m1.copies = m.copies ∧
      B._is_dynamic = true ∧ B._buffer = A._buffer ∧ size B = size A ∧
      m1.deref A._buffer = some { buf with ref_count := buf.ref_count + 1 } ∧
      (buf.ref_count = 1 →
        ∀ X Y, (X = A ∧ Y = B) ∨ (X = B ∧ Y = A) →
          ∃ m2 X', data S m1 X = .ok (m2, X') ∧ m2.copies = m1.copies + size X ∧
            holds S m2 X' xs ∧ (X'._is_dynamic = false ∨ X'._buffer ≠ A._buffer) ∧
            holds S m2 Y xs ∧ m2.deref A._buffer = some buf ∧
            data S m2 X' = .ok (m2, X') ∧ data S m2 Y = .ok (m2, Y)) := by
  obtain ⟨h1, h2, b', hb', hr, hcb, hdat⟩ := holds_dynamic S m A xs h hd
  rw [hbuf] at hb'; cases hb'
  have hlt := deref_lt m _ buf hbuf
  have hm1 : (m.store A._buffer { buf with ref_count := buf.ref_count + 1 }).deref A._buffer =
      some { buf with ref_count := buf.ref_count + 1 } := deref_store_same m _ _ hlt
  refine ⟨_, _, copy_ctor_dynamic S m A buf hd hbuf, rfl, rfl, rfl, rfl, hm1, ?_⟩
  intro hone X Y hXY
  have hhA : holds S (m.store A._buffer { buf with ref_count := buf.ref_count + 1 }) A xs := by
    unfold holds
    rw [hd]
    exact ⟨h1, h2, _, hm1, by simp, hcb, hdat⟩
  have hhB : holds S (m.store A._buffer { buf with ref_count := buf.ref_count + 1 })
      { _size := A._size, _is_dynamic := true, _buffer := A._buffer,
        _small := List.replicate S none } xs := by
    unfold holds
    exact ⟨h1, rfl, _, hm1, by simp, hcb, hdat⟩
  have main : ∀ X Y : socow_vector T,
      holds S (m.store A._buffer { buf with ref_count := buf.ref_count + 1 }) X xs →
      holds S (m.store A._buffer { buf with ref_count := buf.ref_count + 1 }) Y xs →
      X._is_dynamic = true → X._buffer = A._buffer →
      Y._is_dynamic = true → Y._buffer = A._buffer →
      ∃ m2 X', data S (m.store A._buffer { buf with ref_count := buf.ref_count + 1 }) X =
          .ok (m2, X') ∧
        m2.copies = (m.store A._buffer { buf with ref_count := buf.ref_count + 1 }).copies +
          size X ∧
        holds S m2 X' xs ∧ (X'._is_dynamic = false ∨ X'._buffer ≠ A._buffer) ∧
        holds S m2 Y xs ∧ m2.deref A._buffer = some buf ∧
        data S m2 X' = .ok (m2, X') ∧ data S m2 Y = .ok (m2, Y) := by
    intro X Y hX hY hXd hXb hYd hYb
    obtain ⟨m2, X', hdata, hcopies, hhX', hown, hpriv, hderef⟩ :=
      data_shared S _ X xs _ hX hXd (by rw [hXb]; exact hm1) (by simp; omega)
        (by simpa [Mem.affords] using haff)
    have hderef' : m2.deref A._buffer = some buf := by
      rw [← hXb, hderef]
      cases buf
      simp at hone ⊢
    have hhY : holds S m2 Y xs := by
      have hY' := holds_dynamic S _ Y xs hY hYd
      unfold holds
      rw [hYd]
      exact ⟨hY'.1, hY'.2.1, buf, by rw [hYb]; exact hderef', by omega, hcb, hdat⟩
    refine ⟨m2, X', hdata, ?_, hhX', ?_, hhY, hderef', data_owned S m2 X' xs hhX' hown,
      data_owned S m2 Y xs hhY (fun _ => ⟨buf, by rw [hYb]; exact hderef', hone⟩)⟩
    · rw [hcopies, holds_size S _ X xs hX]
    · rcases hpriv with hs | hf
      · exact Or.inl hs
      · right
        rw [hf]
        simp
        omega
  rcases hXY with ⟨rfl, rfl⟩ | ⟨rfl, rfl⟩
  · exact main _ _ hhA hhB hd rfl rfl rfl
  · exact main _ _ hhB hhA rfl rfl hd rfl

theorem copy_on_write_fires_once_witness :
    ∃ m1 B, copy_ctor 2 ex_sole ex_vec = .ok (m1, B) ∧ m1.copies = ex_sole.copies ∧
      B._is_dynamic = true ∧ B._buffer = ex_vec._buffer ∧ size B = size ex_vec ∧
      m1.deref ex_vec._buffer =
        some { (⟨4, 1, [some 1, some 2, some 3, none]⟩ : buffer Nat) with
          ref_count := (⟨4, 1, [some 1, some 2, some 3, none]⟩ : buffer Nat).ref_count + 1 } ∧
      ((⟨4, 1, [some 1, some 2, some 3, none]⟩ : buffer Nat).ref_count = 1 →
        ∀ X Y, (X = ex_vec ∧ Y = B) ∨ (X = B ∧ Y = ex_vec) →
          ∃ m2 X', data 2 m1 X = .ok (m2, X') ∧ m2.copies = m1.copies + size X ∧
            holds 2 m2 X' [1, 2, 3] ∧ (X'._is_dynamic = false ∨ X'._buffer ≠ ex_vec._buffer) ∧
            holds 2 m2 Y [1, 2, 3] ∧
            m2.deref ex_vec._buffer = some ⟨4, 1, [some 1, some 2, some 3, none]⟩ ∧
            data 2 m2 X' = .ok (m2, X') ∧ data 2 m2 Y = .ok (m2, Y)) :=
  copy_on_write_fires_once 2 ex_sole ex_vec [1, 2, 3] ⟨4, 1, [some 1, some 2, some 3, none]⟩
    (by simp [holds, ex_sole, ex_vec, Mem.deref, live]) rfl rfl
    (by intro b hb; cases hb)

/-- C9: strong guarantee for `push_back`, `insert` and `erase`.  Let the container hold
`xs` (inline, owning or sharing its buffer).  Each of the three calls throws exactly when
the copy constructor fails at one of the copies the call makes, that is when fewer than
`grow_copies` (for `erase`: `erase_copies`) further copy constructions succeed; so the
failure of any copy is reported.  Whenever the call throws, the container object is the
one from before the call (same size, storage mode, buffer handle), every heap cell that
existed before the call is unchanged (same reference count, same elements), every buffer
allocated during the call has been released with no object left alive in it, and the
container still holds `xs` with the same `capacity()`. -/
theorem strong_guarantee (S : Nat) (m : Mem T) (v : socow_vector T) (xs : List T) (x : T)
    (k f l : Nat) (h : holds S m v xs) (hk : k ≤ xs.length) (hfl : f ≤ l)
    (hl : l ≤ xs.length) :
    (((push_back S m v x).throws = true ↔ ∃ b, m.budget = some b ∧ b < grow_copies S m v) ∧
      ∀ e, push_back S m v x = .throw e →
        e.2 = v ∧ m.unwound e.1 ∧ holds S e.1 v xs ∧ capacity S e.1 v = capacity S m v) ∧
    (((insert S m v k x).throws = true ↔ ∃ b, m.budget = some b ∧ b < grow_copies S m v) ∧
      ∀ e, insert S m v k x = .throw e →
        e.2 = v ∧ m.unwound e.1 ∧ holds S e.1 v xs ∧ capacity S e.1 v = capacity S m v) ∧
    (((erase S m v f l).throws = true ↔ ∃ b, m.budget = some b ∧ b < erase_copies m v f l) ∧
      ∀ e, erase S m v f l = .throw e →
        e.2 = v ∧ m.unwound e.1 ∧ holds S e.1 v xs ∧ capacity S e.1 v = capacity S m v) := by
  have gen : ∀ {ρ : Type} (r : Res (Mem T × socow_vector T) ρ) (cost : Nat),
      ((m.affords cost ∧ ∃ a, r = .ok a) ∨
        (∃ b, m.budget = some b ∧ b < cost ∧ ∃ m', r = .throw (m', v) ∧ m.unwound m')) →
      ((r.throws = true ↔ ∃ b, m.budget = some b ∧ b < cost) ∧
        ∀ e, r = .throw e →
          e.2 = v ∧ m.unwound e.1 ∧ holds S e.1 v xs ∧ capacity S e.1 v = capacity S m v) := by
    intro ρ r cost hc
    rcases hc with ⟨haff, a, hok⟩ | ⟨b, hb, hlt, m', ht, hu⟩
    · subst hok
      constructor
      · constructor
        · intro hx
          cases hx
        · rintro ⟨b, hb, hlt⟩
          have := haff b hb
          omega
      · intro e he
        cases he
    · subst ht
      constructor
      · exact ⟨fun _ => ⟨b, hb, hlt⟩, fun _ => rfl⟩
      · intro e he
        cases he
        obtain ⟨h1, h2⟩ := kept_of_unwound S m m' v xs h hu
        exact ⟨rfl, hu, h1, h2⟩
  refine ⟨gen _ _ ?_, gen _ _ ?_, gen _ _ ?_⟩
  · rcases push_back_cases S m v xs x h with ⟨haff, m', v', hok, _⟩ | hthrow
    · exact Or.inl ⟨haff, _, hok⟩
    · exact Or.inr hthrow
  · rcases insert_cases S m v xs k x h hk with ⟨haff, m', v', hok, _⟩ | hthrow
    · exact Or.inl ⟨haff, _, hok⟩
    · exact Or.inr hthrow
  · rcases erase_cases S m v xs f l h hfl hl with ⟨haff, m', v', hok, _⟩ | hthrow
    · exact Or.inl ⟨haff, _, hok⟩
    · exact Or.inr hthrow

theorem strong_guarantee_witness :
    (((push_back 2 ex_tight ex_vec 9).throws = true ↔
        ∃ b, ex_tight.budget = some b ∧ b < grow_copies 2 ex_tight ex_vec) ∧
      ∀ e, push_back 2 ex_tight ex_vec 9 = .throw e →
        e.2 = ex_vec ∧ ex_tight.unwound e.1 ∧ holds 2 e.1 ex_vec [1, 2, 3] ∧
          capacity 2 e.1 ex_vec = capacity 2 ex_tight ex_vec) ∧
    (((insert 2 ex_tight ex_vec 1 9).throws = true ↔
        ∃ b, ex_tight.budget = some b ∧ b < grow_copies 2 ex_tight ex_vec) ∧
      ∀ e, insert 2 ex_tight ex_vec 1 9 = .throw e →
        e.2 = ex_vec ∧ ex_tight.unwound e.1 ∧ holds 2 e.1 ex_vec [1, 2, 3] ∧
          capacity 2 e.1 ex_vec = capacity 2 ex_tight ex_vec) ∧
    (((erase 2 ex_tight ex_vec 0 1).throws = true ↔
        ∃ b, ex_tight.budget = some b ∧ b < erase_copies ex_tight ex_vec 0 1) ∧
      ∀ e, erase 2 ex_tight ex_vec 0 1 = .throw e →
        e.2 = ex_vec ∧ ex_tight.unwound e.1 ∧ holds 2 e.1 ex_vec [1, 2, 3] ∧
          capacity 2 e.1 ex_vec = capacity 2 ex_tight ex_vec) :=
  strong_guarantee 2 ex_tight ex_vec [1, 2, 3] 9 1 0 1
    (by simp [holds, ex_tight, ex_mem, ex_vec, Mem.deref, live]) (by decide) (by decide)
    (by decide)

/-- C10: a failed copy assignment restores the target.  Let `A` and `B` be two different
objects that hold `xs` and `ys`, with `B` Static.  `A = B` makes `size(B)` element copies;
if the copy constructor fails at any of them (only `bb < size(B)` further copy
constructions succeed), the assignment throws, every object of the world, `A` included,
is the object from before the call (same size, storage mode, buffer handle, inline
slots), memory is unwound, and `A` still holds `xs` with the same `capacity()`.  This
covers `A` Dynamic and `A` Static with either order of the sizes. -/
theorem failed_assignment_restores (S : Nat) (w : World T) (a b : Nat)
    (A B : socow_vector T) (xs ys : List T) (bb : Nat) (hab : a ≠ b)
    (hA : w.objs[a]? = some A) (hB : w.objs[b]? = some B)
    (hholdsA : holds S w.mem A xs) (hholdsB : holds S w.mem B ys)
    (hBs : B._is_dynamic = false) (hbud : w.mem.budget = some bb) (hlt : bb < ys.length) :
    ∃ w', assign S w a b = .throw w' ∧ w'.objs = w.objs ∧ w.mem.unwound w'.mem ∧
      holds S w'.mem A xs ∧ capacity S w'.mem A = capacity S w.mem A := by
  have hrun : assign S w a b =
      ((assign_body S w.mem A B).rethrow
        (fun e => some (⟨e.1, w.objs.set a e.2⟩ : World T))).bind
        (fun r => .ok ⟨r.1, w.objs.set a r.2⟩) := by
    unfold assign World.run
    rw [if_neg hab]
    simp only [hB, hA, of_some, ok_bind]
    rfl
  have hthrow : assign_body S w.mem A B = .throw (w.mem.spend bb, A) := by
    cases hAd : A._is_dynamic with
    | true => exact assign_body_to_dynamic_throw S w.mem A B xs ys bb hholdsA hholdsB hAd hBs hbud hlt
    | false =>
      by_cases hle : xs.length ≤ ys.length
      · exact assign_body_grow_throw S w.mem A B xs ys bb hholdsA hholdsB hAd hBs hle hbud hlt
      · exact assign_body_cut_throw S w.mem A B xs ys bb hholdsA hholdsB hAd hBs (by omega)
          hbud hlt
  rw [hrun, hthrow]
  obtain ⟨h1, h2⟩ := kept_of_unwound S w.mem (w.mem.spend bb) A xs hholdsA
    (unwound_spend w.mem bb)
  exact ⟨⟨w.mem.spend bb, w.objs.set a A⟩, rfl, set_same w.objs a A hA,
    unwound_spend w.mem bb, h1, h2⟩

theorem failed_assignment_restores_witness :
    ∃ w', assign 2 ex_world_tight 0 2 = .throw w' ∧ w'.objs = ex_world_tight.objs ∧
      ex_world_tight.mem.unwound w'.mem ∧ holds 2 w'.mem ex_vec [1, 2, 3] ∧
      capacity 2 w'.mem ex_vec = capacity 2 ex_world_tight.mem ex_vec :=
  failed_assignment_restores 2 ex_world_tight 0 2 ex_vec ex_small [1, 2, 3] [7] 0
    (by decide) rfl rfl
    (by simp [holds, ex_world_tight, ex_mem, ex_vec, Mem.deref, live])
    (by simp [holds, ex_world_tight, ex_small, live])
    rfl rfl (by decide)

/-- C11, counterexample: the container `ex_vec` shares a buffer of capacity 4 that holds 3
elements.  `reserve(3)` asks for less than the capacity, and the container comes back with
capacity 3; the byte count of that allocation, 16 + 4 * 3 for 4-byte elements and a
64-bit `std::size_t`, does not wrap around. -/
theorem reserve_shrinks_shared :
    capacity 2 ex_mem ex_vec = some 4 ∧
      (∃ m' v', reserve 2 ex_mem ex_vec 3 = .ok (m', v') ∧ capacity 2 m' v' = some 3) ∧
      allocatable 64 16 4 3 ∧
      ∃ m' v', reserve_sized 64 16 4 2 ex_mem ex_vec 3 = .ok (m', v') ∧
        capacity 2 m' v' = some 3 :=
  ⟨rfl, ⟨_, _, rfl, rfl⟩, ⟨by decide, by decide⟩, _, _, rfl, rfl⟩

/-- C11, amended: let `n` be a capacity whose allocation size
`sizeof(buffer) + sizeof(T) * n` does not wrap around in `std::size_t`.  Then `reserve(n)`
on a container that holds `xs` returns or throws; either way `capacity()` is at least
`size()` afterwards.  When `n` is smaller than the capacity before the call and the
container is not dynamic-and-shared, or `n` is smaller than `size()`, the capacity is what
it was.  A dynamic-and-shared container with `size() ≤ n` that `reserve` returns from has
capacity `max(n, SMALL_SIZE)`, whatever its capacity was before. -/
theorem reserve_never_shrinks (bits sizeof_buffer sizeof_T : Nat) (S : Nat) (m : Mem T)
    (v : socow_vector T) (xs : List T) (n : Nat) (h : holds S m v xs)
    (hfit : allocatable bits sizeof_buffer sizeof_T n) :
    ∃ m' v' c c',
      (reserve_sized bits sizeof_buffer sizeof_T S m v n = .ok (m', v') ∨
        reserve_sized bits sizeof_buffer sizeof_T S m v n = .throw (m', v')) ∧
      capacity S m v = some c ∧ capacity S m' v' = some c' ∧ size v' ≤ c' ∧
      (n < c → (dynamic_and_shared m v = some false ∨ n < size v) → c' = c) ∧
      (dynamic_and_shared m v = some true → size v ≤ n →
        reserve_sized bits sizeof_buffer sizeof_T S m v n = .ok (m', v') → c' = max n S) := by
  rw [reserve_sized_eq bits sizeof_buffer sizeof_T S m v n hfit]
  obtain ⟨c, hcap, _, hc⟩ := raw_data_holds S m v xs h
  obtain ⟨sh, hsh, hsh1, _⟩ := shared_holds S m v xs h
  have hsz := holds_size S m v xs h
  rcases reserve_cases S m v xs n c sh h hcap hsh with
    ⟨hwhy, e⟩ | ⟨hn, hs, hS, _, e⟩ | ⟨hn, hwhy, _, e⟩ | ⟨hn, _, b, m', _, _, e, hu⟩
  · refine ⟨m, v, c, c, Or.inl e, hcap, hcap, by omega, fun _ _ => rfl, ?_⟩
    intro hs hle _
    rw [hsh] at hs
    rcases hwhy with h1 | ⟨h1, _⟩
    · omega
    · rw [h1] at hs; cases hs
  · refine ⟨_, _, c, S, Or.inl e, hcap, capacity_static S _ _ rfl, ?_, ?_, ?_⟩
    · show v._size ≤ S
      rw [h.1]; omega
    · intro _ hor
      rw [hsh, hs] at hor
      rcases hor with h1 | h1
      · cases h1
      · omega
    · intro _ _ _
      omega
  · refine ⟨_, _, c, n, Or.inl e, hcap, ?_, ?_, ?_, ?_⟩
    · rw [capacity_dynamic S _ _ ⟨n, 1, live xs n⟩ rfl (deref_realloc S m v xs _ _ h)]
    · show v._size ≤ n
      rw [h.1]; exact hn
    · intro hnc hor
      rw [hsh] at hor
      rcases hwhy with ⟨h1, _⟩ | ⟨_, h2⟩
      · rw [h1] at hor
        rcases hor with h3 | h3
        · cases h3
        · omega
      · omega
    · intro hs _ _
      rw [hsh] at hs
      rcases hwhy with ⟨_, h2⟩ | ⟨h1, _⟩
      · omega
      · rw [h1] at hs; cases hs
  · have hk := kept_of_unwound S m m' v xs h hu
    refine ⟨m', v, c, c, Or.inr e, hcap, by rw [hk.2, hcap], by omega, fun _ _ => rfl, ?_⟩
    intro _ _ hok
    rw [e] at hok
    cases hok

theorem reserve_never_shrinks_witness :
    holds 2 ex_sole ex_vec [1, 2, 3] ∧ allocatable 64 16 4 3 ∧
      ∃ m' v' c c', (reserve_sized 64 16 4 2 ex_sole ex_vec 3 = .ok (m', v') ∨
          reserve_sized 64 16 4 2 ex_sole ex_vec 3 = .throw (m', v')) ∧
        capacity 2 ex_sole ex_vec = some c ∧ capacity 2 m' v' = some c' ∧ size v' ≤ c' ∧
        (3 < c → (dynamic_and_shared ex_sole ex_vec = some false ∨ 3 < size ex_vec) → c' = c) ∧
        (dynamic_and_shared ex_sole ex_vec = some true → size ex_vec ≤ 3 →
          reserve_sized 64 16 4 2 ex_sole ex_vec 3 = .ok (m', v') → c' = max 3 2) :=
  ⟨by simp [holds, ex_sole, ex_vec, Mem.deref, live], ⟨by decide, by decide⟩,
    reserve_never_shrinks 64 16 4 2 ex_sole ex_vec [1, 2, 3] 3
      (by simp [holds, ex_sole, ex_vec, Mem.deref, live]) ⟨by decide, by decide⟩⟩

/-- C12, counterexample: `reserve(2^62)` on the inline container `[1, 2, 3, 4]` of 4-byte
elements, with a 64-bit `std::size_t` and `sizeof(buffer) = 16`.  The capacity is at least
`size()` and no element copy fails, so `reserve` calls `copy_buffer(4, 2^62)`.  The byte
count `16 + 4 * 2^62` wraps around to 16: the block holds the record and has room for no
element, and copying the four elements into it is undefined behaviour. -/
theorem reserve_wraps_around :
    holds 4 four_mem four_vec [1, 2, 3, 4] ∧ size four_vec ≤ 2 ^ 62 ∧
      four_mem.budget = none ∧ new_buffer_bytes 64 16 4 (2 ^ 62) = 16 ∧
      block_slots 64 16 4 (2 ^ 62) = 0 ∧
      reserve_sized 64 16 4 4 four_mem four_vec (2 ^ 62) = .ub :=
  ⟨by simp [holds, four_vec, live], by decide, rfl, rfl, rfl, rfl⟩

/-- C12, amended: the postcondition of `reserve`.  Let the container hold `xs`.  For
`n ≥ size()` whose allocation size `sizeof(buffer) + sizeof(T) * n` does not wrap around in
`std::size_t`, when the call does not end with an exception, it returns,
`capacity() ≥ n`, `size()` and the element sequence are unchanged, and the container is the
only owner of its storage (inline, or a buffer with `ref_count` 1).  For `n < size()` the
call returns and leaves the memory and the container exactly as they were. -/
theorem reserve_postcondition (bits sizeof_buffer sizeof_T : Nat) (S : Nat) (m : Mem T)
    (v : socow_vector T) (xs : List T) (n : Nat) (h : holds S m v xs) :
    (size v ≤ n → allocatable bits sizeof_buffer sizeof_T n →
      (reserve_sized bits sizeof_buffer sizeof_T S m v n).throws = false →
      ∃ m' v' c', reserve_sized bits sizeof_buffer sizeof_T S m v n = .ok (m', v') ∧
        capacity S m' v' = some c' ∧ n ≤ c' ∧ size v' = size v ∧ holds S m' v' xs ∧
        owns m' v') ∧
    (n < size v → reserve_sized bits sizeof_buffer sizeof_T S m v n = .ok (m, v)) := by
  refine ⟨fun hle hfit hno => ?_,
    fun hlt => reserve_sized_below bits sizeof_buffer sizeof_T S m v n hlt⟩
  rw [reserve_sized_eq bits sizeof_buffer sizeof_T S m v n hfit] at hno ⊢
  obtain ⟨c, hcap, _, hc⟩ := raw_data_holds S m v xs h
  obtain ⟨sh, hsh, _, hsh2⟩ := shared_holds S m v xs h
  have hsz := holds_size S m v xs h
  rcases reserve_cases S m v xs n c sh h hcap hsh with
    ⟨hwhy, e⟩ | ⟨hn, hs, hS, _, e⟩ | ⟨hn, hwhy, _, e⟩ | ⟨hn, _, b, m', _, _, e, hu⟩
  · rcases hwhy with h1 | ⟨h1, h2⟩
    · omega
    · refine ⟨m, v, c, e, hcap, h2, rfl, h, fun hd => ?_⟩
      obtain ⟨_, _, b, hb, _⟩ := holds_dynamic S m v xs h hd
      exact ⟨b, hb, hsh2 h1 hd b hb⟩
  · refine ⟨_, _, S, e, capacity_static S _ _ rfl, hS, rfl, ?_, fun hd => (by cases hd)⟩
    simp [holds, h.1]
    omega
  · refine ⟨_, _, n, e, ?_, le_refl _, rfl, ?_, fun _ => ?_⟩
    · rw [capacity_dynamic S _ _ ⟨n, 1, live xs n⟩ rfl (deref_realloc S m v xs _ _ h)]
    · exact holds_realloc S m v _ xs xs _ n h hn h.1 rfl rfl rfl
    · exact ⟨_, deref_realloc S m v xs _ _ h, rfl⟩
  · rw [e] at hno
    cases hno

theorem reserve_postcondition_witness :
    holds 2 ex_mem ex_vec [1, 2, 3] ∧ size ex_vec ≤ 5 ∧ allocatable 64 16 4 5 ∧
      (reserve_sized 64 16 4 2 ex_mem ex_vec 5).throws = false ∧
      ∃ m' v' c', reserve_sized 64 16 4 2 ex_mem ex_vec 5 = .ok (m', v') ∧
        capacity 2 m' v' = some c' ∧ 5 ≤ c' ∧ size v' = size ex_vec ∧
        holds 2 m' v' [1, 2, 3] ∧ owns m' v' :=
  ⟨by simp [holds, ex_mem, ex_vec, Mem.deref, live], by decide, ⟨by decide, by decide⟩, rfl,
    (reserve_postcondition 64 16 4 2 ex_mem ex_vec [1, 2, 3] 5
      (by simp [holds, ex_mem, ex_vec, Mem.deref, live])).1 (by decide)
      ⟨by decide, by decide⟩ rfl⟩

/-- C13: the growth rule of `push_back` and `insert`.  Let the container hold `xs` and
have capacity `c`.  A `push_back(x)`, or an `insert(begin + k, x)` with `k ≤ size()`, that
does not end with an exception returns, and the container then holds the new sequence.
If `size()` was `c`, the capacity is `max(1, 2 * c)` and the container is Dynamic with a
buffer whose reference count is 1; otherwise the capacity is still `c`. -/
theorem growth_rule (S : Nat) (m : Mem T) (v : socow_vector T) (xs : List T) (x : T)
    (k c : Nat) (h : holds S m v xs) (hk : k ≤ xs.length) (hcap : capacity S m v = some c) :
    ((push_back S m v x).throws = false →
      ∃ m' v', push_back S m v x = .ok (m', v') ∧ holds S m' v' (xs ++ [x]) ∧
        (size v = c → capacity S m' v' = some (max 1 (2 * c)) ∧ v'._is_dynamic = true ∧
          ∃ b, m'.deref v'._buffer = some b ∧ b.ref_count = 1) ∧
        (size v ≠ c → capacity S m' v' = some c)) ∧
    ((insert S m v k x).throws = false →
      ∃ m' v', insert S m v k x = .ok (m', v', k) ∧
        holds S m' v' (xs.take k ++ x :: xs.drop k) ∧
        (size v = c → capacity S m' v' = some (max 1 (2 * c)) ∧ v'._is_dynamic = true ∧
          ∃ b, m'.deref v'._buffer = some b ∧ b.ref_count = 1) ∧
        (size v ≠ c → capacity S m' v' = some c)) := by
  obtain ⟨sh, hsh, hsh1, _⟩ := shared_holds S m v xs h
  have hsz := holds_size S m v xs h
  obtain ⟨_, hcap0, _, hc⟩ := raw_data_holds S m v xs h
  rw [hcap] at hcap0
  cases hcap0
  have hlen : (xs.take k ++ x :: xs.drop k).length = xs.length + 1 := by
    simp; omega
  constructor
  · intro hno
    rcases push_back_outcomes S m v xs x c sh h hcap hsh with
      ⟨hfull, _, e⟩ | ⟨hfull, hs, _, e⟩ | ⟨hfull, _, _, m', v', e, hin, hc'⟩ |
      ⟨_, _, _, _, e, _⟩
    · have hd := deref_realloc S m v xs (xs.length + 1)
        ⟨if c = 0 then 1 else c * 2, 1, live (xs ++ [x]) (if c = 0 then 1 else c * 2)⟩ h
      refine ⟨_, _, e, ?_, fun _ => ⟨?_, rfl, _, hd, rfl⟩, fun hne => ?_⟩
      · exact holds_realloc S m v _ xs (xs ++ [x]) _ _ h
          (by simp; split_ifs <;> omega) (by simp [h.1]) rfl rfl rfl
      · rw [capacity_dynamic S _ _ _ rfl hd, grow_capacity]
      · exact absurd (hsz.trans hfull.symm) hne
    · have hd := deref_realloc S m v xs (xs.length + 1) ⟨c, 1, live (xs ++ [x]) c⟩ h
      have hdyn := (hsh1 hs).1
      refine ⟨_, _, e, ?_, fun heq => ?_, fun _ => ?_⟩
      · exact holds_realloc S m v _ xs (xs ++ [x]) _ c h (by simp; omega) (by simp [h.1])
          (by simpa using hdyn) rfl rfl
      · exact absurd (hsz.symm.trans heq).symm hfull
      · rw [capacity_dynamic S _ _ _ (by simpa using hdyn) hd]
    · exact ⟨m', v', e, hin.1, fun heq => absurd (hsz.symm.trans heq).symm hfull,
        fun _ => hc'⟩
    · rw [e] at hno
      cases hno
  · intro hno
    rcases insert_outcomes S m v xs k x c sh h hk hcap hsh with
      ⟨hfull, _, e⟩ | ⟨hfull, hs, _, e⟩ | ⟨hfull, _, _, m', v', e, hin, hc'⟩ |
      ⟨_, _, _, _, e, _⟩
    · have hd := deref_realloc S m v xs (xs.length + 1)
        ⟨if c = 0 then 1 else c * 2, 1,
          live (xs.take k ++ x :: xs.drop k) (if c = 0 then 1 else c * 2)⟩ h
      refine ⟨_, _, e, ?_, fun _ => ⟨?_, rfl, _, hd, rfl⟩, fun hne => ?_⟩
      · exact holds_realloc S m v _ xs _ _ _ h
          (by rw [hlen]; split_ifs <;> omega) (by simp [h.1]; omega) rfl rfl rfl
      · rw [capacity_dynamic S _ _ _ rfl hd, grow_capacity]
      · exact absurd (hsz.trans hfull.symm) hne
    · have hd := deref_realloc S m v xs (xs.length + 1)
        ⟨c, 1, live (xs.take k ++ x :: xs.drop k) c⟩ h
      have hdyn := (hsh1 hs).1
      refine ⟨_, _, e, ?_, fun heq => ?_, fun _ => ?_⟩
      · exact holds_realloc S m v _ xs _ _ c h (by rw [hlen]; omega) (by simp [h.1]; omega)
          (by simpa using hdyn) rfl rfl
      · exact absurd (hsz.symm.trans heq).symm hfull
      · rw [capacity_dynamic S _ _ _ (by simpa using hdyn) hd]
    · exact ⟨m', v', e, hin.1, fun heq => absurd (hsz.symm.trans heq).symm hfull,
        fun _ => hc'⟩
    · rw [e] at hno
      cases hno

theorem growth_rule_witness :
    push_back_all 4 fresh_mem (socow_vector_new 4) [1, 2, 3, 4] = .ok (four_mem, four_vec) ∧
      four_vec._is_dynamic = false ∧ capacity 4 four_mem four_vec = some 4 ∧
      holds 4 four_mem four_vec [1, 2, 3, 4] ∧
      (push_back 4 four_mem four_vec 5).throws = false ∧
      (∃ m' v', push_back 4 four_mem four_vec 5 = .ok (m', v') ∧
        holds 4 m' v' ([1, 2, 3, 4] ++ [5]) ∧
        (size four_vec = 4 → capacity 4 m' v' = some (max 1 (2 * 4)) ∧
          v'._is_dynamic = true ∧ ∃ b, m'.deref v'._buffer = some b ∧ b.ref_count = 1) ∧
        (size four_vec ≠ 4 → capacity 4 m' v' = some 4)) ∧
      (insert 4 four_mem four_vec 2 5).throws = false ∧
      (∃ m' v', insert 4 four_mem four_vec 2 5 = .ok (m', v', 2) ∧
        holds 4 m' v' ([1, 2, 3, 4].take 2 ++ 5 :: [1, 2, 3, 4].drop 2) ∧
        (size four_vec = 4 → capacity 4 m' v' = some (max 1 (2 * 4)) ∧
          v'._is_dynamic = true ∧ ∃ b, m'.deref v'._buffer = some b ∧ b.ref_count = 1) ∧
        (size four_vec ≠ 4 → capacity 4 m' v' = some 4)) :=
  ⟨rfl, rfl, rfl, by simp [holds, four_vec, live], rfl,
    (growth_rule 4 four_mem four_vec [1, 2, 3, 4] 5 2 4 (by simp [holds, four_vec, live])
      (by decide) rfl).1 rfl, rfl,
    (growth_rule 4 four_mem four_vec [1, 2, 3, 4] 5 2 4 (by simp [holds, four_vec, live])
      (by decide) rfl).2 rfl⟩

/-- C14: the contract of ownership resolution behind `pop_back`, `clear` and the non-const
`data()`.  Let the container hold `xs` and let `k ≤ size()`.  An `ensure_ownership(k)` that
does not end with an exception returns; then `size() == k`, the container holds
`xs[0..k)` and is the only owner of its storage (inline, or a buffer with `ref_count` 1);
and if the container was Static or dynamic-and-unique, its storage mode, its buffer handle
and its capacity are what they were and no element was copied.  Hence `pop_back()` on a
non-empty container leaves `xs` without its last element, and `clear()` leaves
`size() == 0`. -/
theorem ownership_contract (S : Nat) (m : Mem T) (v : socow_vector T) (xs : List T)
    (k : Nat) (h : holds S m v xs) (hk : k ≤ xs.length) :
    ((ensure_ownership S m v k).throws = false →
      ∃ m' v', ensure_ownership S m v k = .ok (m', v') ∧ size v' = k ∧
        holds S m' v' (xs.take k) ∧ owns m' v' ∧
        (dynamic_and_shared m v = some false →
          v'._is_dynamic = v._is_dynamic ∧ v'._buffer = v._buffer ∧
            capacity S m' v' = capacity S m v ∧ m'.copies = m.copies)) ∧
    (0 < size v → (pop_back S m v).throws = false →
      ∃ m' v', pop_back S m v = .ok (m', v') ∧ size v' = size v - 1 ∧
        holds S m' v' xs.dropLast ∧ owns m' v') ∧
    ((clear S m v).throws = false →
      ∃ m' v', clear S m v = .ok (m', v') ∧ size v' = 0 ∧ holds S m' v' [] ∧ owns m' v') := by
  have hsz := holds_size S m v xs h
  refine ⟨fun hno => ensure_ownership_contract S m v xs k h hk hno, fun hpos hno => ?_,
    fun hno => ?_⟩
  · have e : pop_back S m v = ensure_ownership S m v (xs.length - 1) := by
      unfold pop_back
      rw [if_neg (by omega), hsz]
    rw [e] at hno
    obtain ⟨m', v', e', h1, h2, h3, _⟩ :=
      ensure_ownership_contract S m v xs (xs.length - 1) h (by omega) hno
    refine ⟨m', v', by rw [e, e'], by rw [h1, hsz], ?_, h3⟩
    rw [List.dropLast_eq_take]
    exact h2
  · obtain ⟨m', v', e', h1, h2, h3, _⟩ :=
      ensure_ownership_contract S m v xs 0 h (by omega) hno
    exact ⟨m', v', e', h1, by simpa using h2, h3⟩

theorem ownership_contract_witness :
    holds 2 ex_mem ex_vec [1, 2, 3] ∧ 1 ≤ [1, 2, 3].length ∧
      (ensure_ownership 2 ex_mem ex_vec 1).throws = false ∧
      (∃ m' v', ensure_ownership 2 ex_mem ex_vec 1 = .ok (m', v') ∧ size v' = 1 ∧
        holds 2 m' v' ([1, 2, 3].take 1) ∧ owns m' v' ∧
        (dynamic_and_shared ex_mem ex_vec = some false →
          v'._is_dynamic = ex_vec._is_dynamic ∧ v'._buffer = ex_vec._buffer ∧
            capacity 2 m' v' = capacity 2 ex_mem ex_vec ∧ m'.copies = ex_mem.copies)) ∧
      0 < size ex_vec ∧ (pop_back 2 ex_mem ex_vec).throws = false ∧
      (∃ m' v', pop_back 2 ex_mem ex_vec = .ok (m', v') ∧ size v' = size ex_vec - 1 ∧
        holds 2 m' v' [1, 2, 3].dropLast ∧ owns m' v') ∧
      (clear 2 ex_mem ex_vec).throws = false ∧
      (∃ m' v', clear 2 ex_mem ex_vec = .ok (m', v') ∧ size v' = 0 ∧ holds 2 m' v' [] ∧
        owns m' v') :=
  ⟨by simp [holds, ex_mem, ex_vec, Mem.deref, live], by decide, rfl,
    (ownership_contract 2 ex_mem ex_vec [1, 2, 3] 1
      (by simp [holds, ex_mem, ex_vec, Mem.deref, live]) (by decide)).1 rfl,
    by decide, rfl,
    (ownership_contract 2 ex_mem ex_vec [1, 2, 3] 1
      (by simp [holds, ex_mem, ex_vec, Mem.deref, live]) (by decide)).2.1 (by decide) rfl,
    rfl,
    (ownership_contract 2 ex_mem ex_vec [1, 2, 3] 1
      (by simp [holds, ex_mem, ex_vec, Mem.deref, live]) (by decide)).2.2 rfl⟩

/-- C15: `shrink_to_fit` followed by `reserve` of the old capacity.  Let the container
hold `xs` and have capacity `c0`.  When `c.shrink_to_fit(); c.reserve(c0);` does not end
with an exception, both calls return, `capacity()` is at least `c0` again, and `size()` and
the element sequence are those of `xs`. -/
theorem shrink_reserve_round_trip (S : Nat) (m : Mem T) (v : socow_vector T) (xs : List T)
    (c0 : Nat) (h : holds S m v xs) (hcap : capacity S m v = some c0)
    (hno : ((shrink_to_fit S m v).bind (fun r => reserve S r.1 r.2 c0)).throws = false) :
    ∃ m1 v1 m2 v2 c2, shrink_to_fit S m v = .ok (m1, v1) ∧
      reserve S m1 v1 c0 = .ok (m2, v2) ∧ capacity S m2 v2 = some c2 ∧ c0 ≤ c2 ∧
      size v2 = size v ∧ holds S m2 v2 xs := by
  obtain ⟨c, hcap0, _, hc⟩ := raw_data_holds S m v xs h
  rw [hcap] at hcap0
  cases hcap0
  rcases shrink_to_fit_spec S m v xs h with ⟨m1, v1, e1, h1, _⟩ | ⟨m1, e1, _, _⟩
  · rw [e1, res_bind_ok] at hno
    have hs1 := holds_size S m1 v1 xs h1
    obtain ⟨m2, v2, c2, e2, hc2, hle, hsz, h2⟩ :=
      reserve_at_least S m1 v1 xs c0 h1 (by rw [hs1]; exact hc) hno
    exact ⟨m1, v1, m2, v2, c2, e1, e2, hc2, hle,
      by rw [hsz, hs1, holds_size S m v xs h], h2⟩
  · rw [e1] at hno
    cases hno

theorem shrink_reserve_round_trip_witness :
    holds 2 ex_sole ex_vec [1, 2, 3] ∧ capacity 2 ex_sole ex_vec = some 4 ∧
      ((shrink_to_fit 2 ex_sole ex_vec).bind (fun r => reserve 2 r.1 r.2 4)).throws = false ∧
      ∃ m1 v1 m2 v2 c2, shrink_to_fit 2 ex_sole ex_vec = .ok (m1, v1) ∧
        reserve 2 m1 v1 4 = .ok (m2, v2) ∧ capacity 2 m2 v2 = some c2 ∧ 4 ≤ c2 ∧
        size v2 = size ex_vec ∧ holds 2 m2 v2 [1, 2, 3] :=
  ⟨by simp [holds, ex_sole, ex_vec, Mem.deref, live], rfl, rfl,
    shrink_reserve_round_trip 2 ex_sole ex_vec [1, 2, 3] 4
      (by simp [holds, ex_sole, ex_vec, Mem.deref, live]) rfl rfl⟩

/-- C16: the storage that `erase` produces out of a shared buffer.  Let the container hold
`xs` in a buffer with reference count at least 2 and let `[f, l)` be a non-empty range
within it, `n = size() - (l - f)`.  An `erase` that does not end with an exception returns;
the container then holds the survivors in order and has size `n`.  It is inline when
`n ≤ SMALL_SIZE`; otherwise it is Dynamic with a buffer at an address that was not
allocated before the call, of capacity exactly `n` and reference count 1.  The old buffer
has the same capacity and the same elements and its reference count is lower by exactly
1, so that every other container that refers to it holds what it held, with the same
capacity. -/
theorem erase_shared_storage (S : Nat) (m : Mem T) (v : socow_vector T) (xs : List T)
    (f l : Nat) (b : buffer T) (h : holds S m v xs) (hd : v._is_dynamic = true)
    (hb : m.deref v._buffer = some b) (hr : 2 ≤ b.ref_count) (hfl : f < l)
    (hl : l ≤ xs.length) (hno : (erase S m v f l).throws = false) :
    ∃ m' v', erase S m v f l = .ok (m', v', f) ∧ holds S m' v' (xs.take f ++ xs.drop l) ∧
      size v' = xs.length - (l - f) ∧
      (xs.length - (l - f) ≤ S → v'._is_dynamic = false) ∧
      (S < xs.length - (l - f) →
        v'._is_dynamic = true ∧ m.deref v'._buffer = none ∧
          ∃ nb, m'.deref v'._buffer = some nb ∧ nb.capacity = xs.length - (l - f) ∧
            nb.ref_count = 1) ∧
      m'.deref v._buffer = some { b with ref_count := b.ref_count - 1 } ∧
      (∀ B ys, B._is_dynamic = true → B._buffer = v._buffer → holds S m B ys →
        holds S m' B ys ∧ capacity S m' B = capacity S m B) := by
  obtain ⟨_, hsm, _⟩ := holds_dynamic S m v xs h hd
  have hlen : (xs.take f ++ xs.drop l).length = xs.length - (l - f) := by
    simp; omega
  have donor : ∀ m', m'.deref v._buffer = some { b with ref_count := b.ref_count - 1 } →
      ∀ B ys, B._is_dynamic = true → B._buffer = v._buffer → holds S m B ys →
        holds S m' B ys ∧ capacity S m' B = capacity S m B := by
    intro m' hm' B ys _ hBb hB
    exact holds_of_same_buffer S m m' B ys b { b with ref_count := b.ref_count - 1 } hB
      (by rw [hBb]; exact hb) (by rw [hBb]; exact hm') rfl rfl
      (fun _ => by show 0 < b.ref_count - 1; omega)
  rcases budget_cases m (xs.length - (l - f)) with haff | ⟨bb, hbb, hbl⟩
  · by_cases hS : xs.length - (l - f) ≤ S
    · have hold : ((m.spend (xs.length - (l - f))).release v._buffer).deref v._buffer =
          some { b with ref_count := b.ref_count - 1 } :=
        deref_release_shared _ _ b (by simpa using hb) hr
      refine ⟨_, _, erase_shared_small S m v xs f l b h hd hb hr hfl hl hS haff, ?_, rfl,
        fun _ => rfl, fun hlt => absurd hS (by omega), hold, donor _ hold⟩
      simp [holds, hS]
      omega
    · have hS' : S < xs.length - (l - f) := by omega
      have e := erase_shared_large S m v xs f l b h hd hb hr hfl hl hS' haff
      have hold : (((m.spend (xs.length - (l - f))).push
          ⟨xs.length - (l - f), 1,
            live (xs.take f ++ xs.drop l) (xs.length - (l - f))⟩).release v._buffer).deref
            v._buffer = some { b with ref_count := b.ref_count - 1 } :=
        deref_release_shared _ _ b (deref_push_of_some _ _ b _ (by simpa using hb)) hr
      rw [← drop_ref_dynamic _ v hd] at e hold
      refine ⟨_, _, e, ?_, rfl, fun hle => absurd hle (by omega),
        fun _ => ⟨hd, deref_ge m _ (le_refl _), _, deref_realloc S m v xs _ _ h, rfl, rfl⟩,
        hold, donor _ hold⟩
      exact holds_realloc S m v _ xs _ _ _ h (by rw [hlen]) (by rw [hlen]) hd rfl hsm
  · by_cases hS : xs.length - (l - f) ≤ S
    · rw [erase_shared_small_throw S m v xs f l bb b h hd hb hr hfl hl hS hbb hbl] at hno
      cases hno
    · rw [erase_shared_large_throw S m v xs f l bb b h hd hb hr hfl hl (by omega) hbb hbl]
        at hno
      cases hno

theorem erase_shared_storage_witness :
    holds 4 ten_world.mem ten_vec [0, 1, 2, 3, 4, 5, 6, 7, 8, 9] ∧
      (erase 4 ten_world.mem ten_vec 2 5).throws = false ∧
      ∃ m' v', erase 4 ten_world.mem ten_vec 2 5 = .ok (m', v', 2) ∧
        holds 4 m' v' ([0, 1, 2, 3, 4, 5, 6, 7, 8, 9].take 2 ++
          [0, 1, 2, 3, 4, 5, 6, 7, 8, 9].drop 5) ∧
        size v' = [0, 1, 2, 3, 4, 5, 6, 7, 8, 9].length - (5 - 2) ∧
        ([0, 1, 2, 3, 4, 5, 6, 7, 8, 9].length - (5 - 2) ≤ 4 → v'._is_dynamic = false) ∧
        (4 < [0, 1, 2, 3, 4, 5, 6, 7, 8, 9].length - (5 - 2) →
          v'._is_dynamic = true ∧ ten_world.mem.deref v'._buffer = none ∧
            ∃ nb, m'.deref v'._buffer = some nb ∧
              nb.capacity = [0, 1, 2, 3, 4, 5, 6, 7, 8, 9].length - (5 - 2) ∧
              nb.ref_count = 1) ∧
        m'.deref ten_vec._buffer =
          some { (⟨16, 2, live [0, 1, 2, 3, 4, 5, 6, 7, 8, 9] 16⟩ : buffer Nat) with
            ref_count := 2 - 1 } ∧
        (∀ B ys, B._is_dynamic = true → B._buffer = ten_vec._buffer →
          holds 4 ten_world.mem B ys →
          holds 4 m' B ys ∧ capacity 4 m' B = capacity 4 ten_world.mem B) :=
  ⟨by simp [holds, ten_world, ten_vec, Mem.deref, live], rfl,
    erase_shared_storage 4 ten_world.mem ten_vec [0, 1, 2, 3, 4, 5, 6, 7, 8, 9] 2 5
      ⟨16, 2, live [0, 1, 2, 3, 4, 5, 6, 7, 8, 9] 16⟩
      (by simp [holds, ten_world, ten_vec, Mem.deref, live]) rfl rfl (by decide) (by decide)
      (by decide) rfl⟩

/-- C17, failing input: `a.swap(b)` for the inline containers `a = [1, 2, 3]` and
`b = [4]`.  The call copies the tail `2, 3` of `a` behind the element of `b`, destroys
that tail in `a`, exchanges the two sizes, and then runs `std::swap_ranges` over the three
slots that `b` now reports: the first element-wise swap exchanges `4` and `1`, the second
one reaches slot 1 of `a`, whose object was destroyed just before.  The call, made
either way round, is undefined behaviour. -/
theorem swap_inline_reaches_destroyed_slot :
    uninitialized_copy fresh_mem [some 1, some 2, some 3, none] 1 3
        [some 4, none, none, none] 1 =
      .ok (fresh_mem.spend 2, [some 4, some 2, some 3, none]) ∧
    std_destroy [some 1, some 2, some 3, none] 1 3 = some [some 1, none, none, none] ∧
    swap_ranges [some 4, some 2, some 3, none] 0 1 [some 1, none, none, none] 0 =
      some ([some 1, some 2, some 3, none], [some 4, none, none, none]) ∧
    swap_ranges [some 4, some 2, some 3, none] 0 3 [some 1, none, none, none] 0 = none ∧
    swap 1 uneven_world 0 1 = some .ub ∧ swap 2 uneven_world 1 0 = some .ub :=
  ⟨rfl, rfl, rfl, rfl, rfl, rfl⟩

/-- C18: the shared-buffer consistency invariant.  In every world that is reachable from
no containers by the default and the copy constructor, the destructor, the mutating calls
of the public interface (copy assignment, `push_back`, `pop_back`, `insert`, `erase`,
`clear`, `reserve`, `shrink_to_fit`, the non-const accesses) and `swap`, returning or
throwing: the reference count of every live buffer is the number of containers whose
handle refers to it, and at least 1; a container with a handle refers to a live buffer,
and its `size()` is the number of constructed elements in that buffer, so that two
containers with the same buffer have the same `size()`; the release of that handle
(`release_ref`) frees the buffer exactly when the count was 1, destroying the constructed
elements and no others, and otherwise only lowers the count by 1; and no buffer was ever
freed with an element left in it. -/
theorem shared_buffer_consistency (S : Nat) (w : World T) (hr : Reachable S w) :
    (∀ p b, w.mem.deref p = some b → b.ref_count = w.refs p ∧ 1 ≤ b.ref_count) ∧
    (∀ (i : Nat) (v : socow_vector T), w.objs[i]? = some v → v._is_dynamic = true →
      ∃ b, w.mem.deref v._buffer = some b ∧ size v = constructed b.data ∧
        ∃ m', release_ref w.mem v v._buffer = some m' ∧ m'.leaked = 0 ∧
          (b.ref_count = 1 → m'.deref v._buffer = none) ∧
          (b.ref_count ≠ 1 →
            m'.deref v._buffer = some { b with ref_count := b.ref_count - 1 })) ∧
    (∀ (i j : Nat) (u v : socow_vector T), w.objs[i]? = some u → w.objs[j]? = some v →
      u._is_dynamic = true → v._is_dynamic = true → u._buffer = v._buffer →
      size u = size v) ∧
    w.mem.leaked = 0 := by
  obtain ⟨hobj, hrc, hlive, hleak⟩ := reachable_consistent S w hr
  have hsize : ∀ (i : Nat) (v : socow_vector T), w.objs[i]? = some v →
      v._is_dynamic = true →
      ∃ b xs, w.mem.deref v._buffer = some b ∧ holds S w.mem v xs ∧
        size v = constructed b.data ∧ 0 < b.ref_count ∧ xs.length ≤ b.capacity ∧
        b.data = live xs b.capacity := by
    intro i v hv hd
    obtain ⟨xs, hxs⟩ := hobj i v hv
    obtain ⟨h1, _, b, hb, hr, hcb, hdb⟩ := holds_dynamic S w.mem v xs hxs hd
    exact ⟨b, xs, hb, hxs, by rw [hdb, constructed_live]; exact h1, hr, hcb, hdb⟩
  refine ⟨fun p b hb => ?_, fun i v hv hd => ?_, fun i j u v hu hv hud hvd hsame => ?_, hleak⟩
  · have := hrc p
    rw [rc_of_some _ _ b hb] at this
    exact ⟨this, (hlive p b hb).1⟩
  · obtain ⟨b, xs, hb, hxs, hsz, hr, hcb, hdb⟩ := hsize i v hv hd
    refine ⟨b, hb, hsz, w.mem.release v._buffer,
      release_ref_holds w.mem v xs v._buffer b hb hr hxs.1 hcb hdb, by simpa using hleak,
      fun h1 => deref_release_last w.mem _ b hb (by omega),
      fun h1 => deref_release_shared w.mem _ b hb (by omega)⟩
  · obtain ⟨b, _, hb, _, hsz, _⟩ := hsize i u hu hud
    obtain ⟨b', _, hb', _, hsz', _⟩ := hsize j v hv hvd
    rw [hsame, hb'] at hb
    cases hb
    rw [hsz, hsz']

theorem shared_buffer_consistency_witness :
    Reachable 2 trace_shared ∧
    (∀ p b, trace_shared.mem.deref p = some b →
      b.ref_count = trace_shared.refs p ∧ 1 ≤ b.ref_count) ∧
    (∀ (i : Nat) (v : socow_vector Nat), trace_shared.objs[i]? = some v →
      v._is_dynamic = true →
      ∃ b, trace_shared.mem.deref v._buffer = some b ∧ size v = constructed b.data ∧
        ∃ m', release_ref trace_shared.mem v v._buffer = some m' ∧ m'.leaked = 0 ∧
          (b.ref_count = 1 → m'.deref v._buffer = none) ∧
          (b.ref_count ≠ 1 →
            m'.deref v._buffer = some { b with ref_count := b.ref_count - 1 })) ∧
    (∀ (i j : Nat) (u v : socow_vector Nat), trace_shared.objs[i]? = some u →
      trace_shared.objs[j]? = some v → u._is_dynamic = true → v._is_dynamic = true →
      u._buffer = v._buffer → size u = size v) ∧
    trace_shared.mem.leaked = 0 :=
  ⟨trace_shared_reachable, shared_buffer_consistency 2 trace_shared trace_shared_reachable⟩

/-- C19: the capacity invariant.  In every reachable world every container has
`size() ≤ capacity()`, where `capacity()` is `SMALL_SIZE` for a Static container and the
capacity of its buffer for a Dynamic one. -/
theorem capacity_invariant (S : Nat) (w : World T) (i : Nat) (v : socow_vector T)
    (hr : Reachable S w) (hv : w.objs[i]? = some v) :
    ∃ c, capacity S w.mem v = some c ∧ size v ≤ c ∧
      (v._is_dynamic = false → c = S) ∧
      (v._is_dynamic = true → ∃ b, w.mem.deref v._buffer = some b ∧ c = b.capacity) := by
  obtain ⟨xs, hxs⟩ := (reachable_consistent S w hr).1 i v hv
  obtain ⟨c, hcap, _, hc⟩ := raw_data_holds S w.mem v xs hxs
  refine ⟨c, hcap, by rw [holds_size S w.mem v xs hxs]; exact hc, fun hs => ?_, fun hd => ?_⟩
  · rw [capacity_static S w.mem v hs] at hcap
    cases hcap
    rfl
  · obtain ⟨_, _, b, hb, _⟩ := holds_dynamic S w.mem v xs hxs hd
    rw [capacity_dynamic S w.mem v b hd hb] at hcap
    cases hcap
    exact ⟨b, hb, rfl⟩

theorem capacity_invariant_witness :
    Reachable 2 trace_shrunk ∧ trace_shrunk.objs[0]? = some shrunk_vec ∧
      ∃ c, capacity 2 trace_shrunk.mem shrunk_vec = some c ∧ size shrunk_vec ≤ c ∧
        (shrunk_vec._is_dynamic = false → c = 2) ∧
        (shrunk_vec._is_dynamic = true →
          ∃ b, trace_shrunk.mem.deref shrunk_vec._buffer = some b ∧ c = b.capacity) :=
  ⟨trace_shrunk_reachable, rfl,
    capacity_invariant 2 trace_shrunk 0 shrunk_vec trace_shrunk_reachable rfl⟩

/-- C20: heap buffers are larger than the inline capacity.  In every reachable world the
buffer of a Dynamic container has a capacity strictly greater than `SMALL_SIZE`, whatever
its `size()`; so `capacity() ≥ SMALL_SIZE` for every container, and
`capacity() == SMALL_SIZE` exactly when the container is Static. -/
theorem heap_capacity_exceeds_inline (S : Nat) (w : World T) (i : Nat) (v : socow_vector T)
    (hr : Reachable S w) (hv : w.objs[i]? = some v) :
    ∃ c, capacity S w.mem v = some c ∧ S ≤ c ∧ (c = S ↔ v._is_dynamic = false) ∧
      (v._is_dynamic = true → ∃ b, w.mem.deref v._buffer = some b ∧ S < b.capacity) := by
  obtain ⟨hobj, _, hlive, _⟩ := reachable_consistent S w hr
  obtain ⟨xs, hxs⟩ := hobj i v hv
  cases hd : v._is_dynamic with
  | false =>
    exact ⟨S, capacity_static S w.mem v hd, le_refl _, ⟨fun _ => rfl, fun _ => rfl⟩,
      fun hx => (by cases hx)⟩
  | true =>
    obtain ⟨_, _, b, hb, _⟩ := holds_dynamic S w.mem v xs hxs hd
    have hbig := (hlive _ b hb).2
    refine ⟨b.capacity, capacity_dynamic S w.mem v b hd hb, by omega,
      ⟨fun h => by omega, fun h => by cases h⟩, fun _ => ⟨b, hb, hbig⟩⟩

theorem heap_capacity_exceeds_inline_witness :
    Reachable 2 trace_shrunk ∧ trace_shrunk.objs[0]? = some shrunk_vec ∧
      size shrunk_vec ≤ 2 ∧
      ∃ c, capacity 2 trace_shrunk.mem shrunk_vec = some c ∧ 2 ≤ c ∧
        (c = 2 ↔ shrunk_vec._is_dynamic = false) ∧
        (shrunk_vec._is_dynamic = true →
          ∃ b, trace_shrunk.mem.deref shrunk_vec._buffer = some b ∧ 2 < b.capacity) :=
  ⟨trace_shrunk_reachable, rfl, by decide,
    heap_capacity_exceeds_inline 2 trace_shrunk 0 shrunk_vec trace_shrunk_reachable rfl⟩

end SocowVector
